import Mathlib

/-!
# libinfinity: the adOPTed algorithm core and the text insert operation

A shallow embedding of `libinfinity/adopted/inf-adopted-algorithm.c` and
`libinftext/inf-text-insert-operation.c`.

* `guint` values are natural numbers below `2 ^ 32`; arithmetic that the C code
  performs on `guint` is written with an explicit `% GUINT_MOD`.
* A failed `g_assert`, a reached `g_assert_not_reached` and the use of a `NULL`
  result abort the program; functions that can abort return `Except Failure _`.
* Loops and recursions whose termination is not structural take a `fuel`
  argument and return `Failure.out_of_fuel` when it is used up.
* `g_return_if_fail` / `g_return_val_if_fail` return early without touching the
  state; the public entry points report this in their result.
* The state vector, request, request log, user and operation classes live in
  files that are not part of `src/`; they are modelled from the specification
  and marked as such.
-/

namespace Infinity

/-! ## Machine integers and failures -/

/-- Number of values of a `guint` (32 bit). -/
def GUINT_MOD : Nat := 4294967296

/-- Largest `guint`. -/
def G_MAXUINT : Nat := 4294967295

/-- The `guint` sum `a + b`. -/
def guint_add (a b : Nat) : Nat := (a + b) % GUINT_MOD

/-- The `guint` difference `a - b` (wraps around when `a < b`). -/
def guint_sub (a b : Nat) : Nat := (a % GUINT_MOD + (GUINT_MOD - b % GUINT_MOD)) % GUINT_MOD

/-- Ways in which the C program stops instead of returning. -/
inductive Failure where
  | assertion
  | not_reached
  | null_pointer
  | out_of_fuel
deriving DecidableEq, Repr

/-- The `g_assert(cond)` statement. -/
def g_assert (cond : Bool) : Except Failure Unit :=
  if cond then .ok () else .error Failure.assertion

/-- Use of a pointer that must not be `NULL`. -/
def non_null {α : Type} (p : Option α) : Except Failure α :=
  match p with
  | some a => .ok a
  | none => .error Failure.null_pointer

/-! ## State vectors -/

/-- Modelled from the spec: `InfAdoptedStateVector` (inf-adopted-state-vector.c is
not under src/). A mapping participant id → tick, default 0 for absent ids,
represented sparsely as an association list; the first entry of an id counts. -/
abbrev InfAdoptedStateVector := List (Nat × Nat)

/-- Modelled from the spec: the empty vector (every component 0). -/
def inf_adopted_state_vector_new : InfAdoptedStateVector := []

/-- Modelled from the spec: `get(V, p)`; reading an absent id yields 0. -/
def inf_adopted_state_vector_get : InfAdoptedStateVector → Nat → Nat
  | [], _ => 0
  | (k, n) :: rest, id => if k = id then n else inf_adopted_state_vector_get rest id

/-- Modelled from the spec: `set(V, p, n)`. -/
def inf_adopted_state_vector_set : InfAdoptedStateVector → Nat → Nat → InfAdoptedStateVector
  | [], id, n => [(id, n)]
  | (k, m) :: rest, id, n =>
    if k = id then (k, n) :: rest else (k, m) :: inf_adopted_state_vector_set rest id n

/-- Modelled from the spec: `add(V, p, k)`; the components are `guint`. -/
def inf_adopted_state_vector_add (v : InfAdoptedStateVector) (id k : Nat) : InfAdoptedStateVector :=
  inf_adopted_state_vector_set v id (guint_add (inf_adopted_state_vector_get v id) k)

/-- Modelled from the spec: `copy(V)`. -/
def inf_adopted_state_vector_copy (v : InfAdoptedStateVector) : InfAdoptedStateVector := v

/-- Modelled from the spec: `causally_before(V, W)` ⇔ ∀p: V[p] ≤ W[p]. -/
def inf_adopted_state_vector_causally_before (v w : InfAdoptedStateVector) : Bool :=
  v.all (fun e => decide (inf_adopted_state_vector_get v e.1 ≤ inf_adopted_state_vector_get w e.1))

/-- Modelled from the spec: `equal(V, W)`, as the comparison function the
algorithm calls: the result is 0 exactly when all components agree. -/
def inf_adopted_state_vector_compare (v w : InfAdoptedStateVector) : Int :=
  if inf_adopted_state_vector_causally_before v w then
    (if inf_adopted_state_vector_causally_before w v then 0 else -1)
  else 1

/-! ## Text insert operation (`inf-text-insert-operation.c`) -/

/-- Modelled from the spec: `InfAdoptedConcurrencyId` (declared outside src/):
the SELF / OTHER tags and the value used when no tag is given. -/
inductive InfAdoptedConcurrencyId where
  | SELF
  | NONE
  | OTHER
deriving DecidableEq, Repr

/-- Modelled from the spec: an implementation of the `InfTextInsertOperation`
interface (the implementing class is not under src/): the position and the
inserted text. -/
structure InfTextInsertOperation where
  position : Nat
  text : List Char
deriving DecidableEq, Repr

/-- Modelled from the spec: the position and length of a
`InfTextDeleteOperation` (inf-text-delete-operation.c is not under src/). -/
structure InfTextDeleteOperation where
  position : Nat
  length : Nat
deriving DecidableEq, Repr

/-- The `get_position` slot of the interface. -/
def inf_text_insert_operation_get_position (operation : InfTextInsertOperation) : Nat :=
  operation.position

/-- The `get_length` slot of the interface: length of the inserted text. -/
def inf_text_insert_operation_get_length (operation : InfTextInsertOperation) : Nat :=
  operation.text.length

/-- Modelled from the spec: the `transform_position` slot of the interface: the
same insertion at another position. -/
def transform_position (operation : InfTextInsertOperation) (position : Nat) :
    InfTextInsertOperation :=
  { operation with position := position }

/-- The `inf_adopted_operation_copy` of an insert operation. -/
def inf_adopted_operation_copy (operation : InfTextInsertOperation) : InfTextInsertOperation :=
  operation

/-- Modelled from the spec: any other operation an insert can be transformed
against (`INF_TEXT_IS_INSERT_OPERATION` decides which one it is). -/
inductive InfTextOperation where
  | insert (op : InfTextInsertOperation)
  | delete (op : InfTextDeleteOperation)
deriving DecidableEq, Repr

/-- `inf_text_insert_operation_need_concurrency_id`. -/
def inf_text_insert_operation_need_concurrency_id (op : InfTextInsertOperation)
    (against : InfTextOperation) : Bool :=
  match against with
  | .insert insert_against =>
    if inf_text_insert_operation_get_position op =
        inf_text_insert_operation_get_position insert_against then true else false
  | .delete _ => false

/-- `inf_text_insert_operation_transform_insert`; `op_lcs` and `ag_lcs` may be
`NULL` (`none`). -/
def inf_text_insert_operation_transform_insert (operation against : InfTextInsertOperation)
    (op_lcs ag_lcs : Option InfTextInsertOperation) (cid : InfAdoptedConcurrencyId) :
    Except Failure InfTextInsertOperation :=
  let op_pos := inf_text_insert_operation_get_position operation
  let against_pos := inf_text_insert_operation_get_position against
  if op_pos < against_pos then
    .ok (inf_adopted_operation_copy operation)
  else if op_pos > against_pos then
    let against_length := inf_text_insert_operation_get_length against
    .ok (transform_position operation (guint_add op_pos against_length))
  else
    match op_lcs, ag_lcs with
    | none, _ => .error Failure.assertion
    | some _, none => .error Failure.assertion
    | some op_lcs, some ag_lcs =>
      let op_lcs_pos := inf_text_insert_operation_get_position op_lcs
      let against_lcs_pos := inf_text_insert_operation_get_position ag_lcs
      if op_lcs_pos < against_lcs_pos ||
          (op_lcs_pos == against_lcs_pos && cid == InfAdoptedConcurrencyId.OTHER) then
        .ok (inf_adopted_operation_copy operation)
      else if op_lcs_pos > against_lcs_pos ||
          (op_lcs_pos == against_lcs_pos && cid == InfAdoptedConcurrencyId.SELF) then
        let against_length := inf_text_insert_operation_get_length against
        .ok (transform_position operation (guint_add op_pos against_length))
      else
        .error Failure.not_reached

/-- `inf_text_insert_operation_transform_delete`. -/
def inf_text_insert_operation_transform_delete (operation : InfTextInsertOperation)
    (against : InfTextDeleteOperation) : InfTextInsertOperation :=
  let own_pos := inf_text_insert_operation_get_position operation
  let other_pos := against.position
  let other_len := against.length
  if own_pos ≥ guint_add other_pos other_len then
    transform_position operation (guint_sub own_pos other_len)
  else if own_pos < other_pos then
    inf_adopted_operation_copy operation
  else
    transform_position operation other_pos

/-- Modelled from the spec: the text buffer, a sequence of characters. -/
abbrev InfTextBuffer := List Char

/-- Modelled from the spec: `apply` of an insert operation: the text is
inserted before the character at `position`. -/
def inf_text_insert_operation_apply (operation : InfTextInsertOperation) (buffer : InfTextBuffer) :
    InfTextBuffer :=
  buffer.take operation.position ++ operation.text ++ buffer.drop operation.position

/-- The other of the two concurrency ids SELF and OTHER. -/
def InfAdoptedConcurrencyId.opposite : InfAdoptedConcurrencyId → InfAdoptedConcurrencyId
  | .SELF => .OTHER
  | .OTHER => .SELF
  | .NONE => .NONE

/-! ## Operations and requests -/

/-- Modelled from the spec: the capability set of `InfAdoptedOperation`
(inf-adopted-operation.c and the concrete operation classes are not under src/),
taken as a parameter of the algorithm: `transform(self, against)`, `mirror`,
`fold(user, distance)`, the AFFECTS_BUFFER flag, `is_reversible`,
`make_reversible(translated, buffer)` and `apply(user, buffer)`. -/
structure InfAdoptedOperationClass (Op Buf : Type) where
  transform : Op → Op → Op
  mirror : Op → Op
  fold : Op → Nat → Nat → Op
  affects_buffer : Op → Bool
  is_reversible : Op → Bool
  make_reversible : Op → Op → Buf → Option Op
  apply : Op → Nat → Buf → Buf

/-- The three kinds of request. -/
inductive InfAdoptedRequestType where
  | DO
  | UNDO
  | REDO
deriving DecidableEq, Repr

/-- Modelled from the spec: `InfAdoptedRequest` (inf-adopted-request.c is not
under src/): kind, issuer, vector of issuance, and the operation of a Do. -/
structure InfAdoptedRequest (Op : Type) where
  type : InfAdoptedRequestType
  vector : InfAdoptedStateVector
  user_id : Nat
  operation : Option Op
deriving DecidableEq, Repr

section RequestModel

variable {Op Buf : Type}

/-- Modelled from the spec: a Do request carrying `operation`, stamped with a
copy of `vector`. -/
def inf_adopted_request_new_do (vector : InfAdoptedStateVector) (user_id : Nat) (operation : Op) :
    InfAdoptedRequest Op :=
  { type := .DO, vector := inf_adopted_state_vector_copy vector, user_id := user_id,
    operation := some operation }

/-- Modelled from the spec: an Undo request stamped with a copy of `vector`. -/
def inf_adopted_request_new_undo (vector : InfAdoptedStateVector) (user_id : Nat) :
    InfAdoptedRequest Op :=
  { type := .UNDO, vector := inf_adopted_state_vector_copy vector, user_id := user_id,
    operation := none }

/-- Modelled from the spec: a Redo request stamped with a copy of `vector`. -/
def inf_adopted_request_new_redo (vector : InfAdoptedStateVector) (user_id : Nat) :
    InfAdoptedRequest Op :=
  { type := .REDO, vector := inf_adopted_state_vector_copy vector, user_id := user_id,
    operation := none }

/-- Modelled from the spec: a copy of a request. -/
def inf_adopted_request_copy (request : InfAdoptedRequest Op) : InfAdoptedRequest Op := request

/-- Modelled from the spec: the request's vector. -/
def inf_adopted_request_get_vector (request : InfAdoptedRequest Op) : InfAdoptedStateVector :=
  request.vector

/-- Modelled from the spec: the issuer's id. -/
def inf_adopted_request_get_user_id (request : InfAdoptedRequest Op) : Nat := request.user_id

/-- Modelled from the spec: the kind of the request. -/
def inf_adopted_request_get_request_type (request : InfAdoptedRequest Op) :
    InfAdoptedRequestType := request.type

/-- Modelled from the spec: the operation of a Do request (`NULL` otherwise). -/
def inf_adopted_request_get_operation (request : InfAdoptedRequest Op) : Option Op :=
  request.operation

/-- Modelled from the spec: `affects_buffer` (Do ⇒ op.affects_buffer;
Undo/Redo ⇒ true). -/
def inf_adopted_request_affects_buffer (O : InfAdoptedOperationClass Op Buf)
    (request : InfAdoptedRequest Op) : Bool :=
  match request.type, request.operation with
  | .DO, some op => O.affects_buffer op
  | .DO, none => false
  | _, _ => true

/-- Modelled from the spec: transforming a request against another one: the
operation is transformed against the other operation and the vector gets one more
tick at the issuer of `against`. -/
def inf_adopted_request_transform (O : InfAdoptedOperationClass Op Buf)
    (request against : InfAdoptedRequest Op) : InfAdoptedRequest Op :=
  { request with
    operation :=
      match request.operation, against.operation with
      | some op, some ag => some (O.transform op ag)
      | other, _ => other
    vector := inf_adopted_state_vector_add request.vector against.user_id 1 }

/-- Modelled from the spec: `mirror(by)`: the operation is replaced by its
inverse and the request's own component grows by `by`. -/
def inf_adopted_request_mirror (O : InfAdoptedOperationClass Op Buf)
    (request : InfAdoptedRequest Op) (by_ : Nat) : InfAdoptedRequest Op :=
  { request with
    operation := request.operation.map O.mirror
    vector := inf_adopted_state_vector_add request.vector request.user_id by_ }

/-- Modelled from the spec: `fold(into, by)`: the component of `into` grows by
`by`. -/
def inf_adopted_request_fold (O : InfAdoptedOperationClass Op Buf)
    (request : InfAdoptedRequest Op) (into by_ : Nat) : InfAdoptedRequest Op :=
  { request with
    operation := request.operation.map (fun op => O.fold op into by_)
    vector := inf_adopted_state_vector_add request.vector into by_ }

end RequestModel

/-! ## Request logs -/

/-- Modelled from the spec: one slot of a request log: the request and the slot
of its associated earlier request (for an Undo or Redo) and of its original Do. -/
structure InfAdoptedRequestLogEntry (Op : Type) where
  request : InfAdoptedRequest Op
  prev_associated : Option Nat
  original : Nat
deriving DecidableEq, Repr

/-- Modelled from the spec: `InfAdoptedRequestLog` (inf-adopted-request-log.c is
not under src/): the owner, the first slot still kept, the requests of the slots
`begin .. end - 1`, and the slots a new Undo / Redo would target (newest first). -/
structure InfAdoptedRequestLog (Op : Type) where
  user_id : Nat
  log_begin : Nat
  entries : List (InfAdoptedRequestLogEntry Op)
  undo_targets : List Nat
  redo_targets : List Nat
deriving DecidableEq, Repr

section LogModel

variable {Op : Type}

/-- Modelled from the spec: `begin(L)`. -/
def inf_adopted_request_log_get_begin (log : InfAdoptedRequestLog Op) : Nat := log.log_begin

/-- Modelled from the spec: `end(L)`, a `guint`. -/
def inf_adopted_request_log_get_end (log : InfAdoptedRequestLog Op) : Nat :=
  guint_add log.log_begin log.entries.length

/-- Modelled from the spec: the entry of slot `n`, if the slot is kept. -/
def inf_adopted_request_log_get_entry (log : InfAdoptedRequestLog Op) (n : Nat) :
    Option (InfAdoptedRequestLogEntry Op) :=
  if log.log_begin ≤ n then log.entries.get? (n - log.log_begin) else none

/-- Modelled from the spec: the request of slot `n` (`NULL` outside begin .. end). -/
def inf_adopted_request_log_get_request (log : InfAdoptedRequestLog Op) (n : Nat) :
    Option (InfAdoptedRequest Op) :=
  (inf_adopted_request_log_get_entry log n).map (fun e => e.request)

/-- Modelled from the spec: `next_undo()`: the request a new Undo of this user
would target, or none. -/
def inf_adopted_request_log_next_undo (log : InfAdoptedRequestLog Op) :
    Option (InfAdoptedRequest Op) :=
  match log.undo_targets with
  | [] => none
  | n :: _ => inf_adopted_request_log_get_request log n

/-- Modelled from the spec: `next_redo()`: the request a new Redo of this user
would target, or none. -/
def inf_adopted_request_log_next_redo (log : InfAdoptedRequestLog Op) :
    Option (InfAdoptedRequest Op) :=
  match log.redo_targets with
  | [] => none
  | n :: _ => inf_adopted_request_log_get_request log n

/-- The slot a request occupies (or would occupy) in its issuer's log: the
issuer's component of its vector. -/
def request_slot (request : InfAdoptedRequest Op) : Nat :=
  inf_adopted_state_vector_get request.vector request.user_id

/-- Modelled from the spec: the slot of the request associated with `request`:
recorded in the log for a logged request, the target a new Undo / Redo would
have for a request that would be the next one of the log. -/
def prev_associated_slot (log : InfAdoptedRequestLog Op) (request : InfAdoptedRequest Op) :
    Option Nat :=
  match inf_adopted_request_log_get_entry log (request_slot request) with
  | some e => e.prev_associated
  | none =>
    if request_slot request = inf_adopted_request_log_get_end log then
      match request.type with
      | .DO => none
      | .UNDO => log.undo_targets.head?
      | .REDO => log.redo_targets.head?
    else none

/-- Modelled from the spec: `prev_associated(R)`: for an Undo / Redo the earlier
request of the log it toggles. -/
def inf_adopted_request_log_prev_associated (log : InfAdoptedRequestLog Op)
    (request : InfAdoptedRequest Op) : Option (InfAdoptedRequest Op) :=
  match prev_associated_slot log request with
  | some n => inf_adopted_request_log_get_request log n
  | none => none

/-- Modelled from the spec: `original_request(R)`: R itself for a Do, else the
original Do ancestor of the associated request. -/
def inf_adopted_request_log_original_request (log : InfAdoptedRequestLog Op)
    (request : InfAdoptedRequest Op) : Option (InfAdoptedRequest Op) :=
  match request.type with
  | .DO => some request
  | _ =>
    match prev_associated_slot log request with
    | some n =>
      match inf_adopted_request_log_get_entry log n with
      | some e => inf_adopted_request_log_get_request log e.original
      | none => none
    | none => none

/-- Walks the later entries of a log, following the chain of associations that
starts at slot `cur`; `n` is the slot of the first entry of `rest`. -/
def upper_related_walk : List (InfAdoptedRequestLogEntry Op) → Nat → Nat → Nat
  | [], _, cur => cur
  | e :: rest, n, cur =>
    if e.prev_associated = some cur then upper_related_walk rest (n + 1) n
    else upper_related_walk rest (n + 1) cur

/-- Modelled from the spec: `upper_related(R)`: the newest request in R's chain,
the requests transitively linked to R through associations. -/
def inf_adopted_request_log_upper_related (log : InfAdoptedRequestLog Op)
    (request : InfAdoptedRequest Op) : Option (InfAdoptedRequest Op) :=
  let n := request_slot request
  match inf_adopted_request_log_get_entry log n with
  | none => none
  | some _ =>
    inf_adopted_request_log_get_request log
      (upper_related_walk (log.entries.drop (n + 1 - log.log_begin)) (n + 1) n)

/-- Modelled from the spec: `remove_prefix_upto(n)`: discard all slots < n. -/
def inf_adopted_request_log_remove_requests (log : InfAdoptedRequestLog Op) (up_to : Nat) :
    InfAdoptedRequestLog Op :=
  { log with
    log_begin := log.log_begin + min (up_to - log.log_begin) log.entries.length
    entries := log.entries.drop (up_to - log.log_begin)
    undo_targets := log.undo_targets.filter (fun n => decide (up_to ≤ n))
    redo_targets := log.redo_targets.filter (fun n => decide (up_to ≤ n)) }

/-- Modelled from the spec: `add(R)`: requires R.user = owner and
R.vector[owner] = end(L); appends R and updates the associated links: a Do becomes
the target of the next Undo and leaves nothing to redo, an Undo is associated with
the current Undo target and becomes the next Redo target, a Redo is associated with
the current Redo target and becomes the next Undo target. -/
def inf_adopted_request_log_add_request (log : InfAdoptedRequestLog Op)
    (request : InfAdoptedRequest Op) : Except Failure (InfAdoptedRequestLog Op) :=
  if request.user_id ≠ log.user_id then .error Failure.assertion
  else if request_slot request ≠ inf_adopted_request_log_get_end log then
    .error Failure.assertion
  else
    let n := request_slot request
    match request.type with
    | .DO =>
      .ok { log with
            entries := log.entries ++ [{ request := request, prev_associated := none,
                                         original := n }]
            undo_targets := n :: log.undo_targets
            redo_targets := [] }
    | .UNDO =>
      match log.undo_targets with
      | [] => .error Failure.assertion
      | a :: undo_rest =>
        match inf_adopted_request_log_get_entry log a with
        | none => .error Failure.assertion
        | some e =>
          .ok { log with
                entries := log.entries ++ [{ request := request, prev_associated := some a,
                                             original := e.original }]
                undo_targets := undo_rest
                redo_targets := n :: log.redo_targets }
    | .REDO =>
      match log.redo_targets with
      | [] => .error Failure.assertion
      | a :: redo_rest =>
        match inf_adopted_request_log_get_entry log a with
        | none => .error Failure.assertion
        | some e =>
          .ok { log with
                entries := log.entries ++ [{ request := request, prev_associated := some a,
                                             original := e.original }]
                undo_targets := n :: log.undo_targets
                redo_targets := redo_rest }

end LogModel

/-! ## Users and the algorithm object -/

/-- Modelled from the spec: `InfAdoptedUser` (inf-adopted-user.c and inf-user.c
are not under src/): id, the LOCAL flag, the recorded vector and the request log. -/
structure InfAdoptedUser (Op : Type) where
  id : Nat
  flags_local : Bool
  vector : InfAdoptedStateVector
  request_log : InfAdoptedRequestLog Op
deriving DecidableEq, Repr

/-- `InfAdoptedAlgorithmLocalUser`; the user is referred to by id. -/
structure InfAdoptedAlgorithmLocalUser where
  user : Nat
  can_undo : Bool
  can_redo : Bool
deriving DecidableEq, Repr

/-- `InfAdoptedAlgorithmLogRemoval`; the log is referred to by its user's id. -/
structure InfAdoptedAlgorithmLogRemoval (Op : Type) where
  log : Nat
  upper : InfAdoptedRequest Op
  blockers : List (InfAdoptedRequest Op)
deriving DecidableEq, Repr

/-- The signals of the algorithm object, with their arguments. -/
inductive InfAdoptedAlgorithmSignal (Op : Type) where
  | CAN_UNDO_CHANGED (user : Nat) (can_undo : Bool)
  | CAN_REDO_CHANGED (user : Nat) (can_redo : Bool)
  | APPLY_REQUEST (user : Nat) (request : InfAdoptedRequest Op)
deriving DecidableEq, Repr

/-- `InfAdoptedAlgorithmPrivate`. The array `users_begin .. users_end` is the
list `users`, which also stands for the user table it mirrors; `emitted` records
the signals emitted so far, oldest first. -/
structure InfAdoptedAlgorithm (Op Buf : Type) where
  max_total_log_size : Nat
  current : InfAdoptedStateVector
  users : List (InfAdoptedUser Op)
  buffer : Buf
  queue : List (InfAdoptedRequest Op)
  local_users : List InfAdoptedAlgorithmLocalUser
  emitted : List (InfAdoptedAlgorithmSignal Op)
deriving DecidableEq, Repr

section Algorithm

variable {Op Buf : Type}

/-- Modelled from the spec: lookup in the user table by id (`NULL` if absent). -/
def inf_user_table_lookup_user_by_id (users : List (InfAdoptedUser Op)) (id : Nat) :
    Option (InfAdoptedUser Op) :=
  users.find? (fun u => decide (u.id = id))

/-- Writes through the pointer to the user with the given id. -/
def update_user : List (InfAdoptedUser Op) → Nat → (InfAdoptedUser Op → InfAdoptedUser Op) →
    List (InfAdoptedUser Op)
  | [], _, _ => []
  | u :: rest, id, f => if u.id = id then f u :: rest else u :: update_user rest id f

/-- Modelled from the spec: replaces the recorded vector of a user. -/
def inf_adopted_user_set_vector (users : List (InfAdoptedUser Op)) (id : Nat)
    (vector : InfAdoptedStateVector) : List (InfAdoptedUser Op) :=
  update_user users id (fun u => { u with vector := vector })

/-- `inf_adopted_algorithm_state_vector_vdiff`. -/
def inf_adopted_algorithm_state_vector_vdiff (algorithm : InfAdoptedAlgorithm Op Buf)
    (first second : InfAdoptedStateVector) : Except Failure Nat :=
  if inf_adopted_state_vector_causally_before first second then
    .ok (algorithm.users.foldl
      (fun result user =>
        guint_add result (guint_sub (inf_adopted_state_vector_get second user.id)
          (inf_adopted_state_vector_get first user.id))) 0)
  else .error Failure.assertion

/-- `inf_adopted_algorithm_least_common_successor`. -/
def inf_adopted_algorithm_least_common_successor (algorithm : InfAdoptedAlgorithm Op Buf)
    (first second : InfAdoptedStateVector) : InfAdoptedStateVector :=
  algorithm.users.foldl
    (fun result user =>
      inf_adopted_state_vector_set result user.id
        (max (inf_adopted_state_vector_get first user.id)
          (inf_adopted_state_vector_get second user.id)))
    inf_adopted_state_vector_new

/-- `inf_adopted_algorithm_can_undo_redo`. -/
def inf_adopted_algorithm_can_undo_redo (algorithm : InfAdoptedAlgorithm Op Buf)
    (log : InfAdoptedRequestLog Op) (request : Option (InfAdoptedRequest Op)) :
    Except Failure Bool :=
  match request with
  | some request =>
    if algorithm.max_total_log_size > 0 then
      match inf_adopted_request_log_original_request log request with
      | none => .error Failure.null_pointer
      | some request =>
        match inf_adopted_algorithm_state_vector_vdiff algorithm
            (inf_adopted_request_get_vector request) algorithm.current with
        | .error e => .error e
        | .ok diff => if diff ≥ algorithm.max_total_log_size then .ok false else .ok true
    else .ok true
  | none => .ok false

/-- The binary search of `inf_adopted_algorithm_find_blockers`; `count` bounds
the number of iterations. Returns the final `begin`, `end` and `vector`. -/
def find_blockers_search (log : InfAdoptedRequestLog Op) (user_id upper_comp : Nat) :
    Nat → Nat → Nat → Option InfAdoptedStateVector →
    Except Failure (Nat × Nat × Option InfAdoptedStateVector)
  | 0, begin_, end_, vector =>
    if begin_ < end_ then .error Failure.out_of_fuel else .ok (begin_, end_, vector)
  | count + 1, begin_, end_, vector =>
    if begin_ < end_ then
      let query := guint_add begin_ end_ / 2
      match inf_adopted_request_log_get_request log query with
      | none => .error Failure.null_pointer
      | some candidate =>
        let vector := inf_adopted_request_get_vector candidate
        if inf_adopted_state_vector_get vector user_id ≤ upper_comp then
          find_blockers_search log user_id upper_comp count (max query (guint_add begin_ 1)) end_
            (some vector)
        else
          find_blockers_search log user_id upper_comp count begin_ (min query (guint_sub end_ 1))
            (some vector)
    else .ok (begin_, end_, vector)

/-- The loop over the users in `inf_adopted_algorithm_find_blockers`, for one
removal. -/
def find_blockers_users (user_id upper_comp : Nat) :
    List (InfAdoptedUser Op) → List (InfAdoptedRequest Op) →
    Except Failure (List (InfAdoptedRequest Op))
  | [], blockers => .ok blockers
  | user :: rest, blockers =>
    let log := user.request_log
    let begin_ := inf_adopted_request_log_get_begin log
    let end_ := inf_adopted_request_log_get_end log
    match find_blockers_search log user_id upper_comp (end_ - begin_) begin_ end_ none with
    | .error e => .error e
    | .ok (begin_, _, vector) =>
      if vector.isSome && decide (begin_ > inf_adopted_request_log_get_begin log) then
        let begin_ := guint_sub begin_ 1
        match inf_adopted_request_log_get_request log begin_ with
        | none => .error Failure.null_pointer
        | some candidate =>
          let vector := inf_adopted_request_get_vector candidate
          if inf_adopted_state_vector_get vector user_id ≤ upper_comp then
            find_blockers_users user_id upper_comp rest (candidate :: blockers)
          else .error Failure.assertion
      else find_blockers_users user_id upper_comp rest blockers

/-- `inf_adopted_algorithm_find_blockers`. -/
def inf_adopted_algorithm_find_blockers (algorithm : InfAdoptedAlgorithm Op Buf) :
    List (InfAdoptedAlgorithmLogRemoval Op) →
    Except Failure (List (InfAdoptedAlgorithmLogRemoval Op))
  | [] => .ok []
  | removal :: rest =>
    let user_id := inf_adopted_request_get_user_id removal.upper
    let upper_comp :=
      inf_adopted_state_vector_get (inf_adopted_request_get_vector removal.upper) user_id
    match find_blockers_users user_id upper_comp algorithm.users removal.blockers with
    | .error e => .error e
    | .ok blockers =>
      match inf_adopted_algorithm_find_blockers algorithm rest with
      | .error e => .error e
      | .ok rest => .ok ({ removal with blockers := blockers } :: rest)

/-- The inner loop of `inf_adopted_algorithm_create_removals` over `user2`;
returns the final values of the variables `vdiff` and `min_vdiff`. -/
def create_removals_vdiff (algorithm : InfAdoptedAlgorithm Op Buf)
    (request : InfAdoptedRequest Op) :
    List (InfAdoptedUser Op) → Nat → Nat → Except Failure (Nat × Nat)
  | [], vdiff, min_vdiff => .ok (vdiff, min_vdiff)
  | user2 :: rest, _, min_vdiff =>
    let test := inf_adopted_state_vector_causally_before
      (inf_adopted_request_get_vector request) user2.vector
    let vdiff :=
      if test then
        inf_adopted_algorithm_state_vector_vdiff algorithm
          (inf_adopted_request_get_vector request) user2.vector
      else .ok 0
    match vdiff with
    | .error e => .error e
    | .ok vdiff =>
      create_removals_vdiff algorithm request rest vdiff
        (if vdiff < min_vdiff then vdiff else min_vdiff)

/-- The outer loop of `inf_adopted_algorithm_create_removals`; `vdiff` is the
function-wide variable of that name and `result` the list built so far. -/
def create_removals_users (algorithm : InfAdoptedAlgorithm Op Buf) :
    List (InfAdoptedUser Op) → Nat → List (InfAdoptedAlgorithmLogRemoval Op) →
    Except Failure (List (InfAdoptedAlgorithmLogRemoval Op))
  | [], _, result => .ok result
  | user :: rest, vdiff, result =>
    let log := user.request_log
    if inf_adopted_request_log_get_begin log = inf_adopted_request_log_get_end log then
      create_removals_users algorithm rest vdiff result
    else
      match inf_adopted_request_log_get_request log (inf_adopted_request_log_get_begin log) with
      | none => .error Failure.null_pointer
      | some request =>
        match create_removals_vdiff algorithm request algorithm.users vdiff G_MAXUINT with
        | .error e => .error e
        | .ok (vdiff, _) =>
          if vdiff > algorithm.max_total_log_size then
            match inf_adopted_request_log_upper_related log request with
            | none => .error Failure.null_pointer
            | some upper =>
              create_removals_users algorithm rest vdiff
                ({ log := user.id, upper := upper, blockers := [] } :: result)
          else create_removals_users algorithm rest vdiff result

/-- `inf_adopted_algorithm_create_removals`. -/
def inf_adopted_algorithm_create_removals (algorithm : InfAdoptedAlgorithm Op Buf) :
    Except Failure (List (InfAdoptedAlgorithmLogRemoval Op)) :=
  match create_removals_users algorithm algorithm.users 0 [] with
  | .error e => .error e
  | .ok result => inf_adopted_algorithm_find_blockers algorithm result

/-- `inf_adopted_algorithm_perform_removals`. -/
def inf_adopted_algorithm_perform_removals (algorithm : InfAdoptedAlgorithm Op Buf) :
    List (InfAdoptedAlgorithmLogRemoval Op) → InfAdoptedAlgorithm Op Buf
  | [] => algorithm
  | removal :: rest =>
    if removal.blockers.isEmpty then
      inf_adopted_algorithm_perform_removals
        { algorithm with
          users := update_user algorithm.users removal.log (fun u =>
            { u with
              request_log := inf_adopted_request_log_remove_requests u.request_log
                (guint_add
                  (inf_adopted_state_vector_get (inf_adopted_request_get_vector removal.upper)
                    (inf_adopted_request_get_user_id removal.upper)) 1) }) }
        rest
    else inf_adopted_algorithm_perform_removals algorithm rest

/-- `inf_adopted_algorithm_update_request_logs`. -/
def inf_adopted_algorithm_update_request_logs (algorithm : InfAdoptedAlgorithm Op Buf) :
    Except Failure (InfAdoptedAlgorithm Op Buf) :=
  match inf_adopted_algorithm_create_removals algorithm with
  | .error e => .error e
  | .ok removals => .ok (inf_adopted_algorithm_perform_removals algorithm removals)

/-- `inf_adopted_algorithm_can_undo_changed`, the default signal handler. -/
def inf_adopted_algorithm_can_undo_changed (algorithm : InfAdoptedAlgorithm Op Buf)
    (user : Nat) (can_undo : Bool) : InfAdoptedAlgorithm Op Buf :=
  { algorithm with
    local_users := algorithm.local_users.map (fun l =>
      if l.user = user then { l with can_undo := can_undo } else l) }

/-- `inf_adopted_algorithm_can_redo_changed`, the default signal handler. -/
def inf_adopted_algorithm_can_redo_changed (algorithm : InfAdoptedAlgorithm Op Buf)
    (user : Nat) (can_redo : Bool) : InfAdoptedAlgorithm Op Buf :=
  { algorithm with
    local_users := algorithm.local_users.map (fun l =>
      if l.user = user then { l with can_redo := can_redo } else l) }

/-- Emission of a signal: recorded, then handled by the default handler. -/
def emit_can_undo_changed (algorithm : InfAdoptedAlgorithm Op Buf) (user : Nat)
    (can_undo : Bool) : InfAdoptedAlgorithm Op Buf :=
  inf_adopted_algorithm_can_undo_changed
    { algorithm with emitted := algorithm.emitted ++ [.CAN_UNDO_CHANGED user can_undo] }
    user can_undo

/-- Emission of a signal: recorded, then handled by the default handler. -/
def emit_can_redo_changed (algorithm : InfAdoptedAlgorithm Op Buf) (user : Nat)
    (can_redo : Bool) : InfAdoptedAlgorithm Op Buf :=
  inf_adopted_algorithm_can_redo_changed
    { algorithm with emitted := algorithm.emitted ++ [.CAN_REDO_CHANGED user can_redo] }
    user can_redo

/-- The loop of `inf_adopted_algorithm_update_undo_redo`: `count` items of the
list `local_users` remain, the next one is the item number `index`. -/
def update_undo_redo_loop :
    Nat → Nat → InfAdoptedAlgorithm Op Buf → Except Failure (InfAdoptedAlgorithm Op Buf)
  | 0, _, algorithm => .ok algorithm
  | count + 1, index, algorithm =>
    match algorithm.local_users.get? index with
    | none => .ok algorithm
    | some local_ =>
      match inf_user_table_lookup_user_by_id algorithm.users local_.user with
      | none => .error Failure.null_pointer
      | some user =>
        let log := user.request_log
        match inf_adopted_algorithm_can_undo_redo algorithm log
            (inf_adopted_request_log_next_undo log) with
        | .error e => .error e
        | .ok can_undo =>
          match inf_adopted_algorithm_can_undo_redo algorithm log
              (inf_adopted_request_log_next_redo log) with
          | .error e => .error e
          | .ok can_redo =>
            let algorithm :=
              if local_.can_undo ≠ can_undo then
                emit_can_undo_changed algorithm local_.user can_undo
              else algorithm
            let algorithm :=
              if local_.can_redo ≠ can_redo then
                emit_can_redo_changed algorithm local_.user can_redo
              else algorithm
            update_undo_redo_loop count (index + 1) algorithm

/-- `inf_adopted_algorithm_update_undo_redo`. -/
def inf_adopted_algorithm_update_undo_redo (algorithm : InfAdoptedAlgorithm Op Buf) :
    Except Failure (InfAdoptedAlgorithm Op Buf) :=
  update_undo_redo_loop algorithm.local_users.length 0 algorithm

/-- `inf_adopted_algorithm_find_local_user`. -/
def inf_adopted_algorithm_find_local_user (algorithm : InfAdoptedAlgorithm Op Buf)
    (user : Nat) : Option InfAdoptedAlgorithmLocalUser :=
  algorithm.local_users.find? (fun l => decide (l.user = user))

/-- `inf_adopted_algorithm_add_user`. -/
def inf_adopted_algorithm_add_user (algorithm : InfAdoptedAlgorithm Op Buf)
    (user : InfAdoptedUser Op) : InfAdoptedAlgorithm Op Buf :=
  { algorithm with
    current := inf_adopted_state_vector_set algorithm.current user.id
      (inf_adopted_state_vector_get user.vector user.id)
    users := algorithm.users ++ [user] }

/-- `inf_adopted_algorithm_add_local_user`; the user is one of the table. -/
def inf_adopted_algorithm_add_local_user (algorithm : InfAdoptedAlgorithm Op Buf)
    (user : Nat) : Except Failure (InfAdoptedAlgorithm Op Buf) :=
  match inf_user_table_lookup_user_by_id algorithm.users user with
  | none => .error Failure.null_pointer
  | some u =>
    let log := u.request_log
    match inf_adopted_algorithm_can_undo_redo algorithm log
        (inf_adopted_request_log_next_undo log) with
    | .error e => .error e
    | .ok can_undo =>
      match inf_adopted_algorithm_can_undo_redo algorithm log
          (inf_adopted_request_log_next_redo log) with
      | .error e => .error e
      | .ok can_redo =>
        .ok { algorithm with
              local_users :=
                { user := user, can_undo := can_undo, can_redo := can_redo } ::
                  algorithm.local_users }

/-- `inf_adopted_algorithm_update_local_user_times`. -/
def inf_adopted_algorithm_update_local_user_times (algorithm : InfAdoptedAlgorithm Op Buf) :
    InfAdoptedAlgorithm Op Buf :=
  { algorithm with
    users := algorithm.local_users.foldl
      (fun users local_ =>
        inf_adopted_user_set_vector users local_.user
          (inf_adopted_state_vector_copy algorithm.current))
      algorithm.users }

/-- The loop of `inf_adopted_algorithm_is_component_reachable`; `current` is the
local variable of that name. -/
def is_component_reachable_loop (log : InfAdoptedRequestLog Op) (v : InfAdoptedStateVector)
    (component : Nat) : Nat → InfAdoptedStateVector → Except Failure Bool
  | 0, _ => .error Failure.out_of_fuel
  | fuel + 1, current =>
    let n := inf_adopted_state_vector_get current component
    if n = 0 then .ok true
    else
      match inf_adopted_request_log_get_request log (n - 1) with
      | none => .error Failure.null_pointer
      | some request =>
        if inf_adopted_request_get_request_type request = InfAdoptedRequestType.DO then
          let w := inf_adopted_state_vector_copy (inf_adopted_request_get_vector request)
          let w := inf_adopted_state_vector_add w (inf_adopted_request_get_user_id request) 1
          .ok (inf_adopted_state_vector_causally_before w v)
        else
          match inf_adopted_request_log_prev_associated log request with
          | none => .error Failure.null_pointer
          | some associated =>
            is_component_reachable_loop log v component fuel
              (inf_adopted_request_get_vector associated)

/-- `inf_adopted_algorithm_is_component_reachable`. -/
def inf_adopted_algorithm_is_component_reachable (fuel : Nat)
    (v : InfAdoptedStateVector) (component : InfAdoptedUser Op) : Except Failure Bool :=
  is_component_reachable_loop component.request_log v component.id fuel v

/-- The loop over the users of `inf_adopted_algorithm_is_reachable`. -/
def is_reachable_users (fuel : Nat) (v : InfAdoptedStateVector) :
    List (InfAdoptedUser Op) → Except Failure Bool
  | [] => .ok true
  | user :: rest =>
    match inf_adopted_algorithm_is_component_reachable fuel v user with
    | .error e => .error e
    | .ok false => .ok false
    | .ok true => is_reachable_users fuel v rest

/-- `inf_adopted_algorithm_is_reachable`. -/
def inf_adopted_algorithm_is_reachable (fuel : Nat) (algorithm : InfAdoptedAlgorithm Op Buf)
    (v : InfAdoptedStateVector) : Except Failure Bool :=
  if inf_adopted_state_vector_causally_before v algorithm.current then
    is_reachable_users fuel v algorithm.users
  else .error Failure.assertion

/-- `inf_adopted_algorithm_transform_request`, with the translation function it
calls as the argument `translate`. -/
def transform_request_with
    (translate : InfAdoptedRequest Op → InfAdoptedStateVector →
      Except Failure (InfAdoptedRequest Op))
    (O : InfAdoptedOperationClass Op Buf) (algorithm : InfAdoptedAlgorithm Op Buf)
    (request against : InfAdoptedRequest Op) (at_ : InfAdoptedStateVector) :
    Except Failure (InfAdoptedRequest Op) :=
  if !inf_adopted_state_vector_causally_before (inf_adopted_request_get_vector request) at_ then
    .error Failure.assertion
  else if !inf_adopted_state_vector_causally_before
      (inf_adopted_request_get_vector against) at_ then
    .error Failure.assertion
  else
    let lcs := inf_adopted_algorithm_least_common_successor algorithm
      (inf_adopted_request_get_vector request) (inf_adopted_request_get_vector against)
    if !inf_adopted_state_vector_causally_before lcs at_ then .error Failure.assertion
    else
      let against_copy := inf_adopted_request_copy against
      match translate against_copy lcs with
      | .error e => .error e
      | .ok lcs_against =>
        match translate request lcs with
        | .error e => .error e
        | .ok lcs_request =>
          match translate lcs_against at_ with
          | .error e => .error e
          | .ok against_copy =>
            match translate lcs_request at_ with
            | .error e => .error e
            | .ok result => .ok (inf_adopted_request_transform O result against_copy)

/-- The first loop over the users of `inf_adopted_algorithm_translate_request`
(late fold, else transform against a Do). Returns the result if the loop jumps
to `done`, else nothing, together with the final value of `v`. -/
def translate_request_first_loop
    (translate : InfAdoptedRequest Op → InfAdoptedStateVector →
      Except Failure (InfAdoptedRequest Op))
    (fuel : Nat) (O : InfAdoptedOperationClass Op Buf) (algorithm : InfAdoptedAlgorithm Op Buf)
    (request : InfAdoptedRequest Op) (to_ : InfAdoptedStateVector) :
    List (InfAdoptedUser Op) → InfAdoptedStateVector →
    Except Failure (Option (InfAdoptedRequest Op) × InfAdoptedStateVector)
  | [], v => .ok (none, v)
  | user :: rest, v =>
    let user_id := user.id
    if user_id = inf_adopted_request_get_user_id request then
      translate_request_first_loop translate fuel O algorithm request to_ rest v
    else
      let n := inf_adopted_state_vector_get v user_id
      if n = 0 then translate_request_first_loop translate fuel O algorithm request to_ rest v
      else
        let log := user.request_log
        let vector := inf_adopted_request_get_vector request
        match inf_adopted_request_log_get_request log (n - 1) with
        | none => .error Failure.null_pointer
        | some associated =>
          if inf_adopted_request_get_request_type associated ≠ InfAdoptedRequestType.DO then
            match inf_adopted_request_log_prev_associated log associated with
            | none => .error Failure.assertion
            | some associated =>
              let v := inf_adopted_state_vector_set v user_id
                (inf_adopted_state_vector_get (inf_adopted_request_get_vector associated) user_id)
              match inf_adopted_algorithm_is_reachable fuel algorithm v with
              | .error e => .error e
              | .ok reachable =>
                if reachable && inf_adopted_state_vector_causally_before vector v then
                  match translate request v with
                  | .error e => .error e
                  | .ok result =>
                    .ok (some (inf_adopted_request_fold O result user_id
                      (guint_sub (inf_adopted_state_vector_get to_ user_id)
                        (inf_adopted_state_vector_get v user_id))), v)
                else
                  translate_request_first_loop translate fuel O algorithm request to_ rest
                    (inf_adopted_state_vector_set v user_id
                      (inf_adopted_state_vector_get to_ user_id))
          else if inf_adopted_state_vector_get vector user_id <
              inf_adopted_state_vector_get to_ user_id then
            let v := inf_adopted_state_vector_set v user_id (n - 1)
            match inf_adopted_algorithm_is_reachable fuel algorithm v with
            | .error e => .error e
            | .ok true =>
              match transform_request_with translate O algorithm request associated v with
              | .error e => .error e
              | .ok result => .ok (some result, v)
            | .ok false =>
              translate_request_first_loop translate fuel O algorithm request to_ rest
                (inf_adopted_state_vector_set v user_id n)
          else translate_request_first_loop translate fuel O algorithm request to_ rest v

/-- The second loop over the users of `inf_adopted_algorithm_translate_request`
(last resort: transform always). -/
def translate_request_second_loop
    (translate : InfAdoptedRequest Op → InfAdoptedStateVector →
      Except Failure (InfAdoptedRequest Op))
    (fuel : Nat) (O : InfAdoptedOperationClass Op Buf) (algorithm : InfAdoptedAlgorithm Op Buf)
    (request : InfAdoptedRequest Op) (to_ : InfAdoptedStateVector) :
    List (InfAdoptedUser Op) → InfAdoptedStateVector →
    Except Failure (Option (InfAdoptedRequest Op) × InfAdoptedStateVector)
  | [], v => .ok (none, v)
  | user :: rest, v =>
    let user_id := user.id
    if user_id = inf_adopted_request_get_user_id request then
      translate_request_second_loop translate fuel O algorithm request to_ rest v
    else
      let n := inf_adopted_state_vector_get v user_id
      if n = 0 then translate_request_second_loop translate fuel O algorithm request to_ rest v
      else
        let log := user.request_log
        let vector := inf_adopted_request_get_vector request
        if inf_adopted_state_vector_get vector user_id <
            inf_adopted_state_vector_get to_ user_id then
          let v := inf_adopted_state_vector_set v user_id (n - 1)
          match inf_adopted_algorithm_is_reachable fuel algorithm v with
          | .error e => .error e
          | .ok true =>
            match inf_adopted_request_log_get_request log (n - 1) with
            | none => .error Failure.null_pointer
            | some associated =>
              match transform_request_with translate O algorithm request associated v with
              | .error e => .error e
              | .ok result => .ok (some result, v)
          | .ok false =>
            translate_request_second_loop translate fuel O algorithm request to_ rest
              (inf_adopted_state_vector_set v user_id n)
        else translate_request_second_loop translate fuel O algorithm request to_ rest v

/-- The two loops of `inf_adopted_algorithm_translate_request` and the final
`g_assert_not_reached`. -/
def translate_request_loops
    (translate : InfAdoptedRequest Op → InfAdoptedStateVector →
      Except Failure (InfAdoptedRequest Op))
    (fuel : Nat) (O : InfAdoptedOperationClass Op Buf) (algorithm : InfAdoptedAlgorithm Op Buf)
    (request : InfAdoptedRequest Op) (to_ v : InfAdoptedStateVector) :
    Except Failure (InfAdoptedRequest Op) :=
  match translate_request_first_loop translate fuel O algorithm request to_ algorithm.users v with
  | .error e => .error e
  | .ok (some result, _) => .ok result
  | .ok (none, v) =>
    match translate_request_second_loop translate fuel O algorithm request to_
        algorithm.users v with
    | .error e => .error e
    | .ok (some result, _) => .ok result
    | .ok (none, _) => .error Failure.not_reached

/-- The body of `inf_adopted_algorithm_translate_request`, with the function
used for its recursive calls as the argument `translate`. -/
def translate_request_body
    (translate : InfAdoptedRequest Op → InfAdoptedStateVector →
      Except Failure (InfAdoptedRequest Op))
    (fuel : Nat) (O : InfAdoptedOperationClass Op Buf) (algorithm : InfAdoptedAlgorithm Op Buf)
    (request : InfAdoptedRequest Op) (to_ : InfAdoptedStateVector) :
    Except Failure (InfAdoptedRequest Op) :=
  let user_id := inf_adopted_request_get_user_id request
  match inf_user_table_lookup_user_by_id algorithm.users user_id with
  | none => .error Failure.assertion
  | some user =>
    let log := user.request_log
    match inf_adopted_request_log_original_request log request with
    | none => .error Failure.null_pointer
    | some original =>
      let original_vector := inf_adopted_request_get_vector original
      if !inf_adopted_state_vector_causally_before to_ algorithm.current then
        .error Failure.assertion
      else if !inf_adopted_state_vector_causally_before original_vector to_ then
        .error Failure.assertion
      else
        match inf_adopted_algorithm_is_reachable fuel algorithm to_ with
        | .error e => .error e
        | .ok false => .error Failure.assertion
        | .ok true =>
          let vector := inf_adopted_request_get_vector request
          let v := inf_adopted_state_vector_copy to_
          if inf_adopted_request_get_request_type request ≠ InfAdoptedRequestType.DO then
            match inf_adopted_request_log_prev_associated log request with
            | none => .error Failure.assertion
            | some associated =>
              let v := inf_adopted_state_vector_set v user_id
                (inf_adopted_state_vector_get (inf_adopted_request_get_vector associated) user_id)
              match inf_adopted_algorithm_is_reachable fuel algorithm v with
              | .error e => .error e
              | .ok true =>
                let associated := inf_adopted_request_copy associated
                match translate associated v with
                | .error e => .error e
                | .ok result =>
                  .ok (inf_adopted_request_mirror O result
                    (guint_sub (inf_adopted_state_vector_get to_ user_id)
                      (inf_adopted_state_vector_get v user_id)))
              | .ok false =>
                translate_request_loops translate fuel O algorithm request to_
                  (inf_adopted_state_vector_set v user_id
                    (inf_adopted_state_vector_get to_ user_id))
          else if inf_adopted_state_vector_compare vector to_ = 0 then .ok request
          else translate_request_loops translate fuel O algorithm request to_ v

/-- `inf_adopted_algorithm_translate_request`; `fuel` bounds the depth of the
recursion and the loops of the reachability checks. -/
def inf_adopted_algorithm_translate_request :
    Nat → InfAdoptedOperationClass Op Buf → InfAdoptedAlgorithm Op Buf →
    InfAdoptedRequest Op → InfAdoptedStateVector → Except Failure (InfAdoptedRequest Op)
  | 0, _, _, _, _ => .error Failure.out_of_fuel
  | fuel + 1, O, algorithm, request, to_ =>
    translate_request_body
      (fun r t => inf_adopted_algorithm_translate_request fuel O algorithm r t)
      (fuel + 1) O algorithm request to_

/-- `inf_adopted_algorithm_transform_request`. -/
def inf_adopted_algorithm_transform_request (fuel : Nat) (O : InfAdoptedOperationClass Op Buf)
    (algorithm : InfAdoptedAlgorithm Op Buf) (request against : InfAdoptedRequest Op)
    (at_ : InfAdoptedStateVector) : Except Failure (InfAdoptedRequest Op) :=
  transform_request_with
    (fun r t => inf_adopted_algorithm_translate_request fuel O algorithm r t)
    O algorithm request against at_

/-- `inf_adopted_algorithm_apply_request`, the default handler of the
apply-request signal. -/
def inf_adopted_algorithm_apply_request (O : InfAdoptedOperationClass Op Buf)
    (algorithm : InfAdoptedAlgorithm Op Buf) (user : Nat) (request : InfAdoptedRequest Op) :
    InfAdoptedAlgorithm Op Buf :=
  match inf_adopted_request_get_operation request with
  | some operation => { algorithm with buffer := O.apply operation user algorithm.buffer }
  | none => algorithm

/-- Emission of apply-request: recorded, then handled by the default handler. -/
def emit_apply_request (O : InfAdoptedOperationClass Op Buf)
    (algorithm : InfAdoptedAlgorithm Op Buf) (user : Nat) (request : InfAdoptedRequest Op) :
    InfAdoptedAlgorithm Op Buf :=
  inf_adopted_algorithm_apply_request O
    { algorithm with emitted := algorithm.emitted ++ [.APPLY_REQUEST user request] }
    user request

/-- The request `inf_adopted_algorithm_execute_request` translates: the request
itself for a Do, else a new Undo / Redo at the original's vector with the issuer's
component of the request. -/
def execute_request_log_request (log : InfAdoptedRequestLog Op)
    (request : InfAdoptedRequest Op) : Except Failure (InfAdoptedRequest Op) :=
  if inf_adopted_request_get_request_type request ≠ InfAdoptedRequestType.DO then
    match inf_adopted_request_log_original_request log request with
    | none => .error Failure.null_pointer
    | some original =>
      let v := inf_adopted_state_vector_copy (inf_adopted_request_get_vector original)
      let v := inf_adopted_state_vector_set v (inf_adopted_request_get_user_id request)
        (inf_adopted_state_vector_get (inf_adopted_request_get_vector request)
          (inf_adopted_request_get_user_id request))
      match inf_adopted_request_get_request_type request with
      | .UNDO => .ok (inf_adopted_request_new_undo v (inf_adopted_request_get_user_id request))
      | .REDO => .ok (inf_adopted_request_new_redo v (inf_adopted_request_get_user_id request))
      | .DO => .error Failure.not_reached
  else .ok request

/-- The request `inf_adopted_algorithm_execute_request` records in the log
(`NULL` if none is recorded), decided after the translation. -/
def execute_request_recorded (O : InfAdoptedOperationClass Op Buf) (buffer : Buf)
    (request log_request translated : InfAdoptedRequest Op) : Option (InfAdoptedRequest Op) :=
  if inf_adopted_request_get_request_type request = InfAdoptedRequestType.DO then
    match inf_adopted_request_get_operation request with
    | none => none
    | some operation =>
      if O.affects_buffer operation then
        if O.is_reversible operation = false then
          match (inf_adopted_request_get_operation translated).bind
              (fun t => O.make_reversible operation t buffer) with
          | some reversible_operation =>
            some (inf_adopted_request_new_do (inf_adopted_request_get_vector request)
              (inf_adopted_request_get_user_id request) reversible_operation)
          | none => some request
        else some request
      else none
  else some log_request

/-- `inf_adopted_algorithm_execute_request`. -/
def inf_adopted_algorithm_execute_request (fuel : Nat) (O : InfAdoptedOperationClass Op Buf)
    (algorithm : InfAdoptedAlgorithm Op Buf) (request : InfAdoptedRequest Op) (apply : Bool) :
    Except Failure (InfAdoptedAlgorithm Op Buf) :=
  if !inf_adopted_state_vector_causally_before (inf_adopted_request_get_vector request)
      algorithm.current then .error Failure.assertion
  else
    let user_id := inf_adopted_request_get_user_id request
    match inf_user_table_lookup_user_by_id algorithm.users user_id with
    | none => .error Failure.assertion
    | some user =>
      let log := user.request_log
      match execute_request_log_request log request with
      | .error e => .error e
      | .ok log_request =>
        let temp := inf_adopted_request_copy log_request
        match inf_adopted_algorithm_translate_request fuel O algorithm temp algorithm.current with
        | .error e => .error e
        | .ok translated =>
          let recorded : Except Failure (InfAdoptedAlgorithm Op Buf) :=
            match execute_request_recorded O algorithm.buffer request log_request translated with
            | none => .ok algorithm
            | some log_request =>
              match inf_adopted_request_log_add_request log log_request with
              | .error e => .error e
              | .ok log =>
                .ok (inf_adopted_algorithm_update_local_user_times
                  { algorithm with
                    users := update_user algorithm.users user_id
                      (fun u => { u with request_log := log })
                    current := inf_adopted_state_vector_add algorithm.current
                      (inf_adopted_request_get_user_id request) 1 })
          match recorded with
          | .error e => .error e
          | .ok algorithm =>
            if apply then .ok (emit_apply_request O algorithm user.id translated)
            else .ok algorithm

/-- `inf_adopted_algorithm_can_undo`. -/
def inf_adopted_algorithm_can_undo (algorithm : InfAdoptedAlgorithm Op Buf) (user : Nat) :
    Bool :=
  match inf_adopted_algorithm_find_local_user algorithm user with
  | none => false
  | some local_ => local_.can_undo

/-- `inf_adopted_algorithm_can_redo`. -/
def inf_adopted_algorithm_can_redo (algorithm : InfAdoptedAlgorithm Op Buf) (user : Nat) :
    Bool :=
  match inf_adopted_algorithm_find_local_user algorithm user with
  | none => false
  | some local_ => local_.can_redo

/-- The tail shared by the public entry points: `update_request_logs`, then
`update_undo_redo`. -/
def update_logs_and_undo_redo (algorithm : InfAdoptedAlgorithm Op Buf) :
    Except Failure (InfAdoptedAlgorithm Op Buf) :=
  match inf_adopted_algorithm_update_request_logs algorithm with
  | .error e => .error e
  | .ok algorithm => inf_adopted_algorithm_update_undo_redo algorithm

/-- The part of the `inf_adopted_algorithm_generate_*` functions after their
checks: execute the new request, update logs and availability, return it. -/
def generate_execute (fuel : Nat) (O : InfAdoptedOperationClass Op Buf)
    (algorithm : InfAdoptedAlgorithm Op Buf) (request : InfAdoptedRequest Op) (apply : Bool) :
    Except Failure (Option (InfAdoptedRequest Op) × InfAdoptedAlgorithm Op Buf) :=
  match inf_adopted_algorithm_execute_request fuel O algorithm request apply with
  | .error e => .error e
  | .ok algorithm =>
    match update_logs_and_undo_redo algorithm with
    | .error e => .error e
    | .ok algorithm => .ok (some request, algorithm)

/-- `inf_adopted_algorithm_generate_request_noexec`. The result is the returned
request (`none` for the `NULL` of a failed `g_return_val_if_fail`) and the state. -/
def inf_adopted_algorithm_generate_request_noexec (fuel : Nat)
    (O : InfAdoptedOperationClass Op Buf) (algorithm : InfAdoptedAlgorithm Op Buf)
    (user : Nat) (operation : Op) :
    Except Failure (Option (InfAdoptedRequest Op) × InfAdoptedAlgorithm Op Buf) :=
  match inf_user_table_lookup_user_by_id algorithm.users user with
  | none => .ok (none, algorithm)
  | some u =>
    if u.flags_local = false then .ok (none, algorithm)
    else
      let request := inf_adopted_request_new_do algorithm.current u.id operation
      generate_execute fuel O algorithm request false

/-- `inf_adopted_algorithm_generate_request`. -/
def inf_adopted_algorithm_generate_request (fuel : Nat)
    (O : InfAdoptedOperationClass Op Buf) (algorithm : InfAdoptedAlgorithm Op Buf)
    (user : Nat) (operation : Op) :
    Except Failure (Option (InfAdoptedRequest Op) × InfAdoptedAlgorithm Op Buf) :=
  match inf_user_table_lookup_user_by_id algorithm.users user with
  | none => .ok (none, algorithm)
  | some u =>
    if u.flags_local = false then .ok (none, algorithm)
    else
      let request := inf_adopted_request_new_do algorithm.current u.id operation
      generate_execute fuel O algorithm request true

/-- `inf_adopted_algorithm_generate_undo`. -/
def inf_adopted_algorithm_generate_undo (fuel : Nat)
    (O : InfAdoptedOperationClass Op Buf) (algorithm : InfAdoptedAlgorithm Op Buf)
    (user : Nat) :
    Except Failure (Option (InfAdoptedRequest Op) × InfAdoptedAlgorithm Op Buf) :=
  match inf_user_table_lookup_user_by_id algorithm.users user with
  | none => .ok (none, algorithm)
  | some u =>
    if u.flags_local = false then .ok (none, algorithm)
    else if inf_adopted_algorithm_can_undo algorithm user = false then .ok (none, algorithm)
    else
      let request := inf_adopted_request_new_undo algorithm.current u.id
      generate_execute fuel O algorithm request true

/-- `inf_adopted_algorithm_generate_redo`. -/
def inf_adopted_algorithm_generate_redo (fuel : Nat)
    (O : InfAdoptedOperationClass Op Buf) (algorithm : InfAdoptedAlgorithm Op Buf)
    (user : Nat) :
    Except Failure (Option (InfAdoptedRequest Op) × InfAdoptedAlgorithm Op Buf) :=
  match inf_user_table_lookup_user_by_id algorithm.users user with
  | none => .ok (none, algorithm)
  | some u =>
    if u.flags_local = false then .ok (none, algorithm)
    else if inf_adopted_algorithm_can_redo algorithm user = false then .ok (none, algorithm)
    else
      let request := inf_adopted_request_new_redo algorithm.current u.id
      generate_execute fuel O algorithm request true

/-- One pass of the `for` loop over the queue in
`inf_adopted_algorithm_receive_request`: `items` are the items not yet looked at,
the first of them is item number `index` of the queue. Returns the state after
executing and unlinking the first ready item, or nothing if the pass ends with
`item == NULL`. -/
def receive_request_pass (fuel : Nat) (O : InfAdoptedOperationClass Op Buf)
    (algorithm : InfAdoptedAlgorithm Op Buf) :
    List (InfAdoptedRequest Op) → Nat → Except Failure (Option (InfAdoptedAlgorithm Op Buf))
  | [], _ => .ok none
  | queued_request :: items, index =>
    let vector := inf_adopted_request_get_vector queued_request
    if inf_adopted_state_vector_causally_before vector algorithm.current then
      match inf_adopted_algorithm_execute_request fuel O algorithm queued_request true with
      | .error e => .error e
      | .ok algorithm => .ok (some { algorithm with queue := algorithm.queue.eraseIdx index })
    else receive_request_pass fuel O algorithm items (index + 1)

/-- The `do ... while(item != NULL)` loop of
`inf_adopted_algorithm_receive_request`; `count` bounds the number of passes. -/
def receive_request_drain (fuel : Nat) (O : InfAdoptedOperationClass Op Buf) :
    Nat → InfAdoptedAlgorithm Op Buf → Except Failure (InfAdoptedAlgorithm Op Buf)
  | 0, _ => .error Failure.out_of_fuel
  | count + 1, algorithm =>
    match receive_request_pass fuel O algorithm algorithm.queue 0 with
    | .error e => .error e
    | .ok none => .ok algorithm
    | .ok (some algorithm) => receive_request_drain fuel O count algorithm

/-- `inf_adopted_algorithm_receive_request`. The result tells whether the checks
passed (`false` for a failed `g_return_if_fail`) and gives the state. -/
def inf_adopted_algorithm_receive_request (fuel : Nat)
    (O : InfAdoptedOperationClass Op Buf) (algorithm : InfAdoptedAlgorithm Op Buf)
    (request : InfAdoptedRequest Op) :
    Except Failure (Bool × InfAdoptedAlgorithm Op Buf) :=
  let user_id := inf_adopted_request_get_user_id request
  match inf_user_table_lookup_user_by_id algorithm.users user_id with
  | none => .ok (false, algorithm)
  | some user =>
    let vector := inf_adopted_request_get_vector request
    let user_vector := user.vector
    if user.flags_local then .ok (false, algorithm)
    else
      let algorithm :=
        if inf_adopted_state_vector_causally_before user_vector vector then
          let user_vector := inf_adopted_state_vector_copy vector
          let user_vector :=
            if inf_adopted_request_affects_buffer O request then
              inf_adopted_state_vector_add user_vector user.id 1
            else user_vector
          { algorithm with
            users := inf_adopted_user_set_vector algorithm.users user.id user_vector }
        else algorithm
      let processed : Except Failure (InfAdoptedAlgorithm Op Buf) :=
        if inf_adopted_state_vector_causally_before vector algorithm.current = false then
          .ok { algorithm with queue := request :: algorithm.queue }
        else
          match inf_adopted_algorithm_execute_request fuel O algorithm request true with
          | .error e => .error e
          | .ok algorithm =>
            receive_request_drain fuel O (algorithm.queue.length + 1) algorithm
      match processed with
      | .error e => .error e
      | .ok algorithm =>
        match update_logs_and_undo_redo algorithm with
        | .error e => .error e
        | .ok algorithm => .ok (true, algorithm)

end Algorithm

/-! ## Auxiliary definitions used in the statements -/

section Auxiliary

variable {Op Buf : Type}

/-- The state `inf_adopted_algorithm_execute_request` leaves behind, in terms of
the user found, the request translated, the translation and the request recorded. -/
def execute_request_result (O : InfAdoptedOperationClass Op Buf)
    (algorithm : InfAdoptedAlgorithm Op Buf) (request : InfAdoptedRequest Op) (apply : Bool)
    (user : InfAdoptedUser Op) (translated : InfAdoptedRequest Op)
    (recorded : Option (InfAdoptedRequestLog Op)) : InfAdoptedAlgorithm Op Buf :=
  let algorithm :=
    match recorded with
    | none => algorithm
    | some log =>
      inf_adopted_algorithm_update_local_user_times
        { algorithm with
          users := update_user algorithm.users request.user_id
            (fun u => { u with request_log := log })
          current := inf_adopted_state_vector_add algorithm.current request.user_id 1 }
  if apply then emit_apply_request O algorithm user.id translated else algorithm

/-- The apply-request emissions among the emitted signals, oldest first: the
user and the translated request each one carries. -/
def applied_requests : List (InfAdoptedAlgorithmSignal Op) → List (Nat × InfAdoptedRequest Op)
  | [] => []
  | .APPLY_REQUEST user request :: rest => (user, request) :: applied_requests rest
  | _ :: rest => applied_requests rest

/-- What the algorithm reads of a user besides the contents of the log: id,
LOCAL flag, recorded vector and the end of the log. -/
def user_summary (u : InfAdoptedUser Op) : Nat × Bool × InfAdoptedStateVector × Nat :=
  (u.id, u.flags_local, u.vector, inf_adopted_request_log_get_end u.request_log)

/-- The invariant `current[p] = end(L(p))` for every known participant p. -/
def current_matches_logs (algorithm : InfAdoptedAlgorithm Op Buf) : Prop :=
  ∀ u ∈ algorithm.users,
    inf_adopted_state_vector_get algorithm.current u.id =
      inf_adopted_request_log_get_end u.request_log

/-- A log is indexed by its owner's component: the request in slot n has
vector[owner] = n and carries the owner's id, and the slot numbers stay below
2^31 - 1 (so that `begin + end` fits a `guint`, also after one more request). -/
def log_indexed (log : InfAdoptedRequestLog Op) : Prop :=
  log.entries.map (fun e => request_slot e.request) =
      List.range' log.log_begin log.entries.length ∧
    (∀ e ∈ log.entries, e.request.user_id = log.user_id) ∧
    2 * (log.log_begin + log.entries.length) + 2 < GUINT_MOD

/-- Every user's log is its own and is indexed by the owner's component. -/
def logs_indexed (algorithm : InfAdoptedAlgorithm Op Buf) : Prop :=
  ∀ u ∈ algorithm.users, u.request_log.user_id = u.id ∧ log_indexed u.request_log

/-- The target of a next Undo / Redo can be checked for availability: there is
none, or the log size is unbounded, or its original request is found in the log and
has a vector causally before `current`. -/
def target_ready (algorithm : InfAdoptedAlgorithm Op Buf) (log : InfAdoptedRequestLog Op)
    (target : Option (InfAdoptedRequest Op)) : Bool :=
  match target with
  | none => true
  | some request =>
    algorithm.max_total_log_size == 0 ||
      (match inf_adopted_request_log_original_request log request with
        | some original =>
          inf_adopted_state_vector_causally_before original.vector algorithm.current
        | none => false)

/-- Every local-user record belongs to a user of the table whose next Undo and
Redo targets can be checked for availability. -/
def undo_redo_ready (algorithm : InfAdoptedAlgorithm Op Buf) : Bool :=
  algorithm.local_users.all (fun l =>
    match inf_user_table_lookup_user_by_id algorithm.users l.user with
    | none => false
    | some u =>
      target_ready algorithm u.request_log (inf_adopted_request_log_next_undo u.request_log) &&
      target_ready algorithm u.request_log (inf_adopted_request_log_next_redo u.request_log))

/-- A run of the drain loop of receive_request from one state to another, with
the requests it takes from the queue, in the order of their execution: each of them
is a queue item whose vector is causally before `current` at that moment, it is
executed with apply = TRUE and unlinked, and the run ends in a state whose queue
holds no request with a vector causally before `current`. -/
inductive DrainRun (fuel : Nat) (O : InfAdoptedOperationClass Op Buf) :
    InfAdoptedAlgorithm Op Buf → List (InfAdoptedRequest Op) → InfAdoptedAlgorithm Op Buf → Prop
  | done (a : InfAdoptedAlgorithm Op Buf) :
    (∀ q ∈ a.queue,
      inf_adopted_state_vector_causally_before q.vector a.current = false) →
    DrainRun fuel O a [] a
  | step (a executed b : InfAdoptedAlgorithm Op Buf) (k : Nat) (q : InfAdoptedRequest Op)
      (rest : List (InfAdoptedRequest Op)) :
    a.queue.get? k = some q →
    inf_adopted_state_vector_causally_before q.vector a.current = true →
    inf_adopted_algorithm_execute_request fuel O a q true = .ok executed →
    DrainRun fuel O { executed with queue := executed.queue.eraseIdx k } rest b →
    DrainRun fuel O a (q :: rest) b

/-- The queue invariant: no queued request has a vector causally before
`current`. -/
def queue_waiting (algorithm : InfAdoptedAlgorithm Op Buf) : Prop :=
  ∀ q ∈ algorithm.queue,
    inf_adopted_state_vector_causally_before q.vector algorithm.current = false

/-- A sequence of receive_request calls, one per request of the list. -/
def receive_requests (fuel : Nat) (O : InfAdoptedOperationClass Op Buf) :
    List (InfAdoptedRequest Op) → InfAdoptedAlgorithm Op Buf →
    Except Failure (InfAdoptedAlgorithm Op Buf)
  | [], algorithm => .ok algorithm
  | request :: rest, algorithm =>
    match inf_adopted_algorithm_receive_request fuel O algorithm request with
    | .error e => .error e
    | .ok (_, algorithm) => receive_requests fuel O rest algorithm

/-- The newest request of the log is the Do `D`, recorded the way add_request
records a Do, and it is the target of the next Undo; `rest` are the Undo targets
below it. -/
def newest_do (log : InfAdoptedRequestLog Op) (D : InfAdoptedRequest Op) (rest : List Nat) :
    Prop :=
  D.type = InfAdoptedRequestType.DO ∧
    (∃ older, log.entries =
      older ++ [{ request := D, prev_associated := none, original := request_slot D }]) ∧
    log.undo_targets = request_slot D :: rest

/-- Modelled from the spec: `apply` of a delete operation
(inf-text-delete-operation.c is not under src/): the `length` characters from
`position` on are removed. -/
def inf_text_delete_operation_apply (operation : InfTextDeleteOperation)
    (buffer : InfTextBuffer) : InfTextBuffer :=
  buffer.take operation.position ++ buffer.drop (operation.position + operation.length)

/-- The characters of a piece of the buffer that lie outside the range
`[p, p + l)`; the first character of the piece has index `s` in the buffer. -/
def outside_range (piece : List Char) (s p l : Nat) : List Char :=
  ((piece.enumFrom s).filter
    (fun x => !(decide (p ≤ x.1) && decide (x.1 < p + l)))).map Prod.snd

/-- The buffer after inserting `text` before the character at `i` and then
removing the characters the buffer had at the indices `[p, p + l)` before the
insertion. -/
def insert_then_remove_original_range (buffer : InfTextBuffer) (i : Nat) (text : List Char)
    (p l : Nat) : InfTextBuffer :=
  outside_range (buffer.take i) 0 p l ++ text ++ outside_range (buffer.drop i) i p l

/-- The state `a` with the buffer `buffer` and with the signal `extra` put into the
emitted signals after the first `n` of them. -/
def with_applied (a : InfAdoptedAlgorithm Op Buf) (buffer : Buf) (n : Nat)
    (extra : InfAdoptedAlgorithmSignal Op) : InfAdoptedAlgorithm Op Buf :=
  { a with buffer := buffer, emitted := a.emitted.take n ++ extra :: a.emitted.drop n }

/-- The user and the translated request `inf_adopted_algorithm_execute_request`
emits apply-request with, if the translation returns. -/
def execute_request_translated (fuel : Nat) (O : InfAdoptedOperationClass Op Buf)
    (algorithm : InfAdoptedAlgorithm Op Buf) (request : InfAdoptedRequest Op) :
    Option (Nat × InfAdoptedRequest Op) :=
  match inf_user_table_lookup_user_by_id algorithm.users
      (inf_adopted_request_get_user_id request) with
  | none => none
  | some user =>
    match execute_request_log_request user.request_log request with
    | .error _ => none
    | .ok log_request =>
      match inf_adopted_algorithm_translate_request fuel O algorithm
          (inf_adopted_request_copy log_request) algorithm.current with
      | .error _ => none
      | .ok translated => some (user.id, translated)

/-- The cached flags of a local-user record are the values can_undo_redo returns
for the next Undo and the next Redo of the user's log in the state. -/
def cache_valid_record (a : InfAdoptedAlgorithm Op Buf) (l : InfAdoptedAlgorithmLocalUser) :
    Prop :=
  ∃ u, inf_user_table_lookup_user_by_id a.users l.user = some u ∧
    inf_adopted_algorithm_can_undo_redo a u.request_log
      (inf_adopted_request_log_next_undo u.request_log) = .ok l.can_undo ∧
    inf_adopted_algorithm_can_undo_redo a u.request_log
      (inf_adopted_request_log_next_redo u.request_log) = .ok l.can_redo

/-- The availability cache is valid for every local user. -/
def cache_valid (a : InfAdoptedAlgorithm Op Buf) : Prop :=
  ∀ l ∈ a.local_users, cache_valid_record a l

/-- The values update_undo_redo computes for a local-user record (none if a call
it makes on the way aborts). -/
def computed_availability (a : InfAdoptedAlgorithm Op Buf) (l : InfAdoptedAlgorithmLocalUser) :
    Option (Bool × Bool) :=
  match inf_user_table_lookup_user_by_id a.users l.user with
  | none => none
  | some u =>
    match inf_adopted_algorithm_can_undo_redo a u.request_log
        (inf_adopted_request_log_next_undo u.request_log),
      inf_adopted_algorithm_can_undo_redo a u.request_log
        (inf_adopted_request_log_next_redo u.request_log) with
    | .ok v, .ok w => some (v, w)
    | _, _ => none

/-- The signals due for one local-user record: can-undo-changed, then
can-redo-changed, each carrying the new value and each only if that value differs
from the cached one. -/
def availability_signals (a : InfAdoptedAlgorithm Op Buf) (l : InfAdoptedAlgorithmLocalUser) :
    List (InfAdoptedAlgorithmSignal Op) :=
  match computed_availability a l with
  | none => []
  | some (v, w) =>
    (if l.can_undo ≠ v then [InfAdoptedAlgorithmSignal.CAN_UNDO_CHANGED l.user v] else []) ++
      (if l.can_redo ≠ w then [InfAdoptedAlgorithmSignal.CAN_REDO_CHANGED l.user w] else [])

/-- The signals due for a list of local-user records, in the order of the list. -/
def availability_signals_all (a : InfAdoptedAlgorithm Op Buf) :
    List InfAdoptedAlgorithmLocalUser → List (InfAdoptedAlgorithmSignal Op)
  | [] => []
  | l :: rest => availability_signals a l ++ availability_signals_all a rest

/-- A local-user record with the computed values as its flags. -/
def availability_updated (a : InfAdoptedAlgorithm Op Buf) (l : InfAdoptedAlgorithmLocalUser) :
    InfAdoptedAlgorithmLocalUser :=
  match computed_availability a l with
  | none => l
  | some (v, w) => { l with can_undo := v, can_redo := w }

/-- Every Undo or Redo kept in the log finds its associated request and its original
request in the log. -/
def references_present (log : InfAdoptedRequestLog Op) : Bool :=
  log.entries.all (fun e =>
    decide (e.request.type = InfAdoptedRequestType.DO) ||
      ((inf_adopted_request_log_prev_associated log e.request).isSome &&
        (inf_adopted_request_log_original_request log e.request).isSome))

/-- The latest request among the entries of a log whose component `p` is at most
`c`, if there is one. -/
def latest_at_most (p c : Nat) :
    List (InfAdoptedRequestLogEntry Op) → Option (InfAdoptedRequest Op)
  | [] => none
  | e :: rest =>
    match latest_at_most p c rest with
    | some r => some r
    | none =>
      if inf_adopted_state_vector_get e.request.vector p ≤ c then some e.request else none

/-- The blockers of a group whose newest request has the issuer `p` and the
component `c` there: for each user in turn, the latest request of the user's log
whose component `p` is at most `c`, if the log has such a request, is put in front of
the blockers found so far. -/
def expected_blockers (p c : Nat) :
    List (InfAdoptedUser Op) → List (InfAdoptedRequest Op) → List (InfAdoptedRequest Op)
  | [], blockers => blockers
  | u :: rest, blockers =>
    match latest_at_most p c u.request_log.entries with
    | some r => expected_blockers p c rest (r :: blockers)
    | none => expected_blockers p c rest blockers

/-- The components `p` of the requests of a log do not decrease along the log. -/
def log_sorted_by (log : InfAdoptedRequestLog Op) (p : Nat) : Prop :=
  log.entries.Pairwise (fun a b =>
    inf_adopted_state_vector_get a.request.vector p ≤
      inf_adopted_state_vector_get b.request.vector p)

/-- One step of the table of landings: the entry of the next slot is appended. For
a Do the walk of is_component_reachable stops at the slot of the Do; for an Undo or
Redo it goes on from the slot of the associated request. -/
def landings_step (table : List (Option Nat)) (e : InfAdoptedRequestLogEntry Op) :
    List (Option Nat) :=
  table ++
    [if e.request.type = InfAdoptedRequestType.DO then some (table.length - 1)
     else
      match e.prev_associated with
      | some a => table.getD a none
      | none => none]

/-- The table of landings of a list of log entries (slots from 0 on): item n is the
slot of the Do request at which the walk of is_component_reachable that starts with
the component value n stops, or none if the walk ends with the value 0. -/
def landings (entries : List (InfAdoptedRequestLogEntry Op)) : List (Option Nat) :=
  entries.foldl landings_step [none]

/-- The landing of the component value n in a log. -/
def landing (log : InfAdoptedRequestLog Op) (n : Nat) : Option Nat :=
  (landings log.entries).getD n none

/-- The value is_component_reachable computes for the vector `v` and a log, when
the component of `v` is n: the walk ends with 0, or it stops at a Do request whose
vector, with one more tick of its issuer, is causally before `v`. -/
def component_reachable (log : InfAdoptedRequestLog Op) (v : InfAdoptedStateVector) (n : Nat) :
    Bool :=
  match landing log n with
  | none => true
  | some j =>
    match inf_adopted_request_log_get_request log j with
    | some request =>
      inf_adopted_state_vector_causally_before
        (inf_adopted_state_vector_add request.vector request.user_id 1) v
    | none => false

/-- The vector is causally before current and each of its components is reachable
in the log of its participant. -/
def vector_reachable (algorithm : InfAdoptedAlgorithm Op Buf) (v : InfAdoptedStateVector) :
    Bool :=
  inf_adopted_state_vector_causally_before v algorithm.current &&
    algorithm.users.all (fun u =>
      component_reachable u.request_log v (inf_adopted_state_vector_get v u.id))

/-- The links of a log that starts at slot 0: a Do has no associated request and is
its own original; an Undo or Redo has an associated request in an earlier slot and
shares its original; the targets of the next Undo and Redo are slots of the log. -/
def log_linked (log : InfAdoptedRequestLog Op) : Prop :=
  log.log_begin = 0 ∧
  (∀ k e, log.entries.get? k = some e →
    e.original ≤ k ∧
    (e.request.type = InfAdoptedRequestType.DO → e.prev_associated = none ∧ e.original = k) ∧
    (e.request.type ≠ InfAdoptedRequestType.DO →
      ∃ a ea, e.prev_associated = some a ∧ a < k ∧ log.entries.get? a = some ea ∧
        e.original = ea.original)) ∧
  (∀ t ∈ log.undo_targets, t < log.entries.length) ∧
  (∀ t ∈ log.redo_targets, t < log.entries.length)

/-- The slot of the original request of the first target of a list of targets. -/
def head_original (log : InfAdoptedRequestLog Op) (targets : List Nat) : Option Nat :=
  targets.head?.bind (fun t => (log.entries.get? t).map (fun e => e.original))

/-- The targets of the next Undos, newest first: the walk of is_component_reachable
from a target, and from its original, stops at the original of the target below. -/
def undo_chain (log : InfAdoptedRequestLog Op) : List Nat → Prop
  | [] => True
  | t :: rest =>
    (∃ e, log.entries.get? t = some e ∧
      landing log e.original = head_original log rest ∧
      landing log t = head_original log rest) ∧
    undo_chain log rest

/-- The targets of the next Redos, newest first: the walk from a target stops at
its original, and the walk from the original stops at `below`, the original of the
target before (for the first one, of the first Undo target). -/
def redo_chain (log : InfAdoptedRequestLog Op) : Option Nat → List Nat → Prop
  | _, [] => True
  | below, r :: rest =>
    ∃ e, log.entries.get? r = some e ∧ landing log r = some e.original ∧
      landing log e.original = below ∧ redo_chain log (some e.original) rest

/-- The targets of a log fit the walks of is_component_reachable. -/
def stacks_linked (log : InfAdoptedRequestLog Op) : Prop :=
  landing log log.entries.length = head_original log log.undo_targets ∧
  undo_chain log log.undo_targets ∧
  redo_chain log (head_original log log.undo_targets) log.redo_targets

/-- The invariant of the reachability claim: distinct user ids, logs indexed by
their owner's component and starting at slot 0, current equal to the ends of the
logs, linked logs and targets, and the vector of every logged request reachable. -/
def reachability_invariant (algorithm : InfAdoptedAlgorithm Op Buf) : Prop :=
  (algorithm.users.map (fun u => u.id)).Nodup ∧
  logs_indexed algorithm ∧
  current_matches_logs algorithm ∧
  (∀ u ∈ algorithm.users, log_linked u.request_log ∧ stacks_linked u.request_log) ∧
  (∀ u ∈ algorithm.users, ∀ e ∈ u.request_log.entries,
    vector_reachable algorithm e.request.vector = true)

/-- The slot numbers of all logs stay below 2^31 - 1. -/
def logs_small (algorithm : InfAdoptedAlgorithm Op Buf) : Prop :=
  ∀ u ∈ algorithm.users,
    2 * (u.request_log.log_begin + u.request_log.entries.length) + 2 < GUINT_MOD

/-- A call of one of the five entry points through which requests reach the logs,
with its arguments. -/
inductive InfAdoptedAlgorithmCall (Op : Type) where
  | generate_request (user : Nat) (operation : Op)
  | generate_request_noexec (user : Nat) (operation : Op)
  | generate_undo (user : Nat)
  | generate_redo (user : Nat)
  | receive_request (request : InfAdoptedRequest Op)

/-- The state after one call of an entry point; the value the call returns is
dropped. -/
def perform_call (fuel : Nat) (O : InfAdoptedOperationClass Op Buf)
    (algorithm : InfAdoptedAlgorithm Op Buf) :
    InfAdoptedAlgorithmCall Op → Except Failure (InfAdoptedAlgorithm Op Buf)
  | .generate_request user operation =>
    match inf_adopted_algorithm_generate_request fuel O algorithm user operation with
    | .error e => .error e
    | .ok (_, algorithm) => .ok algorithm
  | .generate_request_noexec user operation =>
    match inf_adopted_algorithm_generate_request_noexec fuel O algorithm user operation with
    | .error e => .error e
    | .ok (_, algorithm) => .ok algorithm
  | .generate_undo user =>
    match inf_adopted_algorithm_generate_undo fuel O algorithm user with
    | .error e => .error e
    | .ok (_, algorithm) => .ok algorithm
  | .generate_redo user =>
    match inf_adopted_algorithm_generate_redo fuel O algorithm user with
    | .error e => .error e
    | .ok (_, algorithm) => .ok algorithm
  | .receive_request request =>
    match inf_adopted_algorithm_receive_request fuel O algorithm request with
    | .error e => .error e
    | .ok (_, algorithm) => .ok algorithm

/-- The state after a sequence of calls of the entry points, one after the other;
an abort of one call aborts the sequence. -/
def perform_calls (fuel : Nat) (O : InfAdoptedOperationClass Op Buf) :
    InfAdoptedAlgorithm Op Buf → List (InfAdoptedAlgorithmCall Op) →
      Except Failure (InfAdoptedAlgorithm Op Buf)
  | algorithm, [] => .ok algorithm
  | algorithm, call :: rest =>
    match perform_call fuel O algorithm call with
    | .error e => .error e
    | .ok next => perform_calls fuel O next rest

/-- A session before its first request: distinct user ids, every user has its own
log, empty and starting at slot 0, with no Undo or Redo target, and current is zero
in every user's component. -/
def logs_empty (algorithm : InfAdoptedAlgorithm Op Buf) : Prop :=
  (algorithm.users.map (fun u => u.id)).Nodup ∧
  ∀ u ∈ algorithm.users,
    u.request_log.user_id = u.id ∧ u.request_log.log_begin = 0 ∧
    u.request_log.entries = [] ∧ u.request_log.undo_targets = [] ∧
    u.request_log.redo_targets = [] ∧
    inf_adopted_state_vector_get algorithm.current u.id = 0

/-- The values the variable `query` takes in the binary search of
`inf_adopted_algorithm_find_blockers`, in order: a trace of
`find_blockers_search`, which it follows turn by turn. -/
def find_blockers_search_queries (log : InfAdoptedRequestLog Op) (user_id upper_comp : Nat) :
    Nat → Nat → Nat → List Nat
  | 0, _, _ => []
  | count + 1, begin_, end_ =>
    if begin_ < end_ then
      let query := guint_add begin_ end_ / 2
      match inf_adopted_request_log_get_request log query with
      | none => [query]
      | some candidate =>
        let vector := inf_adopted_request_get_vector candidate
        if inf_adopted_state_vector_get vector user_id ≤ upper_comp then
          query :: find_blockers_search_queries log user_id upper_comp count
            (max query (guint_add begin_ 1)) end_
        else
          query :: find_blockers_search_queries log user_id upper_comp count begin_
            (min query (guint_sub end_ 1))
    else []

/-- The recursive definition `reach` of the reachability of a component, in the
words of the specification, with the depth of the recursion bounded by `depth`:
reach(0) is true; for n > 0 with r the request in slot n - 1 of the log of p, if r
is a Do then reach(n) says that r.vector with p's component increased by one is
causally before v, and if r is an Undo or Redo then reach(n) is reach(a.vector[p])
for a the prev_associated request of r. It is false where the log has no such
request or the depth is used up. -/
def reach_within (log : InfAdoptedRequestLog Op) (v : InfAdoptedStateVector) (p : Nat) :
    Nat → Nat → Bool
  | _, 0 => true
  | 0, _ + 1 => false
  | depth + 1, n + 1 =>
    match inf_adopted_request_log_get_request log n with
    | none => false
    | some r =>
      if r.type = InfAdoptedRequestType.DO then
        inf_adopted_state_vector_causally_before (inf_adopted_state_vector_add r.vector p 1) v
      else
        match inf_adopted_request_log_prev_associated log r with
        | none => false
        | some a => reach_within log v p depth (inf_adopted_state_vector_get a.vector p)

/-- The value reach(n) of the specification: the recursion goes to smaller
arguments, so the depth n is enough. -/
def reach (log : InfAdoptedRequestLog Op) (v : InfAdoptedStateVector) (p n : Nat) : Bool :=
  reach_within log v p n n

/-- The sum of the components of a vector over the participants of the user array. -/
def vector_sum (users : List (InfAdoptedUser Op)) (v : InfAdoptedStateVector) : Nat :=
  (users.map (fun u => inf_adopted_state_vector_get v u.id)).sum

/-- The measure that decreases along the recursion of translate_request: the sum of
the components of `to` over the participants, plus the distance by which the
request's own slot lies above the issuer's component of `to`. -/
def translate_measure (algorithm : InfAdoptedAlgorithm Op Buf) (request : InfAdoptedRequest Op)
    (to_ : InfAdoptedStateVector) : Nat :=
  vector_sum algorithm.users to_ +
    (request_slot request - inf_adopted_state_vector_get to_ request.user_id)

/-- The number of requests of the longest log. -/
def longest_log (algorithm : InfAdoptedAlgorithm Op Buf) : Nat :=
  (algorithm.users.map (fun u => u.request_log.entries.length)).foldl max 0

/-- The user named by a call of a generate function; `none` for receive_request. -/
def call_user : InfAdoptedAlgorithmCall Op → Option Nat
  | .generate_request user _ => some user
  | .generate_request_noexec user _ => some user
  | .generate_undo user => some user
  | .generate_redo user => some user
  | .receive_request _ => none

/-- The local user for whom a call generates a request: the user named by a call of
a generate function, if it is a user of the session with the local flag (for any
other user the generate functions return at their first check). -/
def generating_user (algorithm : InfAdoptedAlgorithm Op Buf)
    (call : InfAdoptedAlgorithmCall Op) : Option Nat :=
  match call_user call with
  | none => none
  | some user =>
    match inf_user_table_lookup_user_by_id algorithm.users user with
    | none => none
    | some u => if u.flags_local then some user else none

/-- No queued request counts more requests of `user` than `current` does: the
component of `user` in the vector of every queued request is at most the one in
`current`. -/
def queue_counts_issued (algorithm : InfAdoptedAlgorithm Op Buf) (user : Nat) : Bool :=
  algorithm.queue.all (fun q =>
    decide (inf_adopted_state_vector_get q.vector user ≤
      inf_adopted_state_vector_get algorithm.current user))

/-- Along a sequence of calls, whenever a generate function is called for a local
user the queue counts no more requests of that user than `current` does (checked in
the state in which the call is made). -/
def calls_counted (fuel : Nat) (O : InfAdoptedOperationClass Op Buf) :
    InfAdoptedAlgorithm Op Buf → List (InfAdoptedAlgorithmCall Op) → Bool
  | _, [] => true
  | algorithm, call :: rest =>
    (match generating_user algorithm call with
      | none => true
      | some user => queue_counts_issued algorithm user) &&
    (match perform_call fuel O algorithm call with
      | .error _ => true
      | .ok next => calls_counted fuel O next rest)

/-- The steps of a translation as the specification names them, each with the
participant and the request it is taken against; `not_reached` stands for the case
that no step applies. -/
inductive TranslateStep (Op : Type) where
  | identity
  | late_mirror (associated : InfAdoptedRequest Op)
  | late_fold (q : Nat) (target : InfAdoptedRequest Op)
  | directional_transform (q : Nat) (against : InfAdoptedRequest Op)
  | last_resort_transform (q : Nat) (against : InfAdoptedRequest Op)
  | not_reached
deriving DecidableEq, Repr

/-- The rule of the late mirror, in the words of the specification: it is
applicable for an Undo or Redo R when `to`, with the issuer's component set back to
that of the request R toggles, is reachable. -/
def late_mirror_offer (algorithm : InfAdoptedAlgorithm Op Buf) (request : InfAdoptedRequest Op)
    (to_ : InfAdoptedStateVector) (user : InfAdoptedUser Op) : Option (TranslateStep Op) :=
  if request.type = InfAdoptedRequestType.DO then none
  else
    match inf_adopted_request_log_prev_associated user.request_log request with
    | none => none
    | some associated =>
      if vector_reachable algorithm
          (inf_adopted_state_vector_set to_ request.user_id
            (inf_adopted_state_vector_get associated.vector request.user_id)) then
        some (.late_mirror associated)
      else none

/-- The rule of the first pass, in the words of the specification as amended: the
step participant q offers. The issuer and a participant with to[q] = 0 offer none.
If the request in slot to[q] - 1 of L(q) is an Undo or Redo, q offers the late fold
when the folded vector (`to` with q's component set back to that of the toggled
request) is reachable and R.vector is causally before it. If that request is a Do,
q offers the directional transform against it when R.vector[q] < to[q] and `to`
with q's component decreased by one is reachable. -/
def first_pass_offer (algorithm : InfAdoptedAlgorithm Op Buf) (request : InfAdoptedRequest Op)
    (to_ : InfAdoptedStateVector) (q : InfAdoptedUser Op) : Option (TranslateStep Op) :=
  if q.id = request.user_id then none
  else if inf_adopted_state_vector_get to_ q.id = 0 then none
  else
    match inf_adopted_request_log_get_request q.request_log
        (inf_adopted_state_vector_get to_ q.id - 1) with
    | none => none
    | some newest =>
      if newest.type = InfAdoptedRequestType.DO then
        if inf_adopted_state_vector_get request.vector q.id <
              inf_adopted_state_vector_get to_ q.id ∧
            vector_reachable algorithm
              (inf_adopted_state_vector_set to_ q.id
                (inf_adopted_state_vector_get to_ q.id - 1)) = true then
          some (.directional_transform q.id newest)
        else none
      else
        match inf_adopted_request_log_prev_associated q.request_log newest with
        | none => none
        | some target =>
          if vector_reachable algorithm
                (inf_adopted_state_vector_set to_ q.id
                  (inf_adopted_state_vector_get target.vector q.id)) = true ∧
              inf_adopted_state_vector_causally_before request.vector
                (inf_adopted_state_vector_set to_ q.id
                  (inf_adopted_state_vector_get target.vector q.id)) = true then
            some (.late_fold q.id target)
          else none

/-- The rule of the second pass, in the words of the specification: the step
participant q offers as the last resort, the transform against the request in slot
to[q] - 1 of L(q), whatever its type, when q is not the issuer, to[q] > 0,
R.vector[q] < to[q] and `to` with q's component decreased by one is reachable. -/
def last_resort_offer (algorithm : InfAdoptedAlgorithm Op Buf) (request : InfAdoptedRequest Op)
    (to_ : InfAdoptedStateVector) (q : InfAdoptedUser Op) : Option (TranslateStep Op) :=
  if q.id = request.user_id then none
  else if inf_adopted_state_vector_get to_ q.id = 0 then none
  else if inf_adopted_state_vector_get request.vector q.id <
        inf_adopted_state_vector_get to_ q.id ∧
      vector_reachable algorithm
        (inf_adopted_state_vector_set to_ q.id
          (inf_adopted_state_vector_get to_ q.id - 1)) = true then
    match inf_adopted_request_log_get_request q.request_log
        (inf_adopted_state_vector_get to_ q.id - 1) with
    | none => none
    | some newest => some (.last_resort_transform q.id newest)
  else none

/-- The first applicable step of translate(R, to), in the words of the
specification as amended, in this order: the identity for a Do whose vector equals
`to`; the late mirror; the step of the first participant, in the order of the user
array, that offers one in the first pass (a late fold or a directional transform);
the last-resort transform against the first participant of the array that offers
one in the second pass; else none. -/
def first_applicable_step (algorithm : InfAdoptedAlgorithm Op Buf)
    (request : InfAdoptedRequest Op) (to_ : InfAdoptedStateVector)
    (user : InfAdoptedUser Op) : TranslateStep Op :=
  if request.type = InfAdoptedRequestType.DO ∧
      inf_adopted_state_vector_compare request.vector to_ = 0 then .identity
  else
    match late_mirror_offer algorithm request to_ user with
    | some step => step
    | none =>
      match algorithm.users.findSome? (first_pass_offer algorithm request to_) with
      | some step => step
      | none =>
        match algorithm.users.findSome? (last_resort_offer algorithm request to_) with
        | some step => step
        | none => .not_reached

/-- The request counts no more requests of any local user than `current` does: for
every user of the session with the local flag, the user's component of the vector of
the request is at most the one of `current`. -/
def request_counts_issued (algorithm : InfAdoptedAlgorithm Op Buf)
    (request : InfAdoptedRequest Op) : Bool :=
  algorithm.users.all (fun u =>
    !u.flags_local ||
      decide (inf_adopted_state_vector_get request.vector u.id ≤
        inf_adopted_state_vector_get algorithm.current u.id))

/-- Along a sequence of calls, every request passed to receive_request counts no
more requests of any local user than `current` does at the time of the call: the
remote site has not seen a request the local user has not generated yet. -/
def calls_causal (fuel : Nat) (O : InfAdoptedOperationClass Op Buf) :
    InfAdoptedAlgorithm Op Buf → List (InfAdoptedAlgorithmCall Op) → Bool
  | _, [] => true
  | algorithm, call :: rest =>
    (match call with
      | .receive_request request => request_counts_issued algorithm request
      | _ => true) &&
    (match perform_call fuel O algorithm call with
      | .error _ => true
      | .ok next => calls_causal fuel O next rest)

end Auxiliary

/-! ## Sample states used as witnesses -/

/-- A sample operation class: an operation adds an integer to a counter. The
operations commute, so transforming and folding leave them as they are; the inverse
adds the negated integer; adding 0 does not affect the buffer. -/
def CounterOperation : InfAdoptedOperationClass Int Int :=
  { transform := fun op _ => op
    mirror := fun op => -op
    fold := fun op _ _ => op
    affects_buffer := fun op => op != 0
    is_reversible := fun _ => true
    make_reversible := fun _ _ _ => none
    apply := fun op _ buffer => buffer + op }

/-- An empty request log of the given user. -/
def sample_log (id : Nat) : InfAdoptedRequestLog Int :=
  { user_id := id, log_begin := 0, entries := [], undo_targets := [], redo_targets := [] }

/-- A user that has not issued anything yet. -/
def sample_user (id : Nat) (is_local : Bool) : InfAdoptedUser Int :=
  { id := id, flags_local := is_local, vector := [], request_log := sample_log id }

/-- A fresh session: user 1 is local, users 2 and 3 are remote. -/
def sample_algorithm : InfAdoptedAlgorithm Int Int :=
  { max_total_log_size := 2048
    current := [(1, 0), (2, 0), (3, 0)]
    users := [sample_user 1 true, sample_user 2 false, sample_user 3 false]
    buffer := 0
    queue := []
    local_users := [{ user := 1, can_undo := false, can_redo := false }]
    emitted := [] }

/-- The state after running a call, or the given state if the call aborted. -/
def state_after {α : Type} (algorithm : InfAdoptedAlgorithm Int Int)
    (result : Except Failure (α × InfAdoptedAlgorithm Int Int)) : InfAdoptedAlgorithm Int Int :=
  match result with
  | .ok (_, algorithm) => algorithm
  | .error _ => algorithm

/-- The sample session after local user 1 has generated a Do adding 5. -/
def sample_after_do : InfAdoptedAlgorithm Int Int :=
  state_after sample_algorithm
    (inf_adopted_algorithm_generate_request 8 CounterOperation sample_algorithm 1 5)

/-- The state after a call that returns no value, or the given state if the call
aborted. -/
def state_of (algorithm : InfAdoptedAlgorithm Int Int)
    (result : Except Failure (InfAdoptedAlgorithm Int Int)) : InfAdoptedAlgorithm Int Int :=
  match result with
  | .ok algorithm => algorithm
  | .error _ => algorithm

/-- The first request of remote user 2, adding 7, issued in the initial state. -/
def sample_remote_first : InfAdoptedRequest Int := inf_adopted_request_new_do [] 2 7

/-- The second request of remote user 2, adding 8, issued right after its first. -/
def sample_remote_second : InfAdoptedRequest Int := inf_adopted_request_new_do [(2, 1)] 2 8

/-- The sample session after the first request of remote user 2 was received. -/
def sample_after_remote : InfAdoptedAlgorithm Int Int :=
  state_after sample_algorithm
    (inf_adopted_algorithm_receive_request 8 CounterOperation sample_algorithm
      sample_remote_first)

/-- The sample session after local user 1 has generated two Dos, adding 5 and 6. -/
def sample_two_dos : InfAdoptedAlgorithm Int Int :=
  state_after sample_after_do
    (inf_adopted_algorithm_generate_request 8 CounterOperation sample_after_do 1 6)

/-- The first Do of local user 1 in the sample session, as logged. -/
def sample_first_do : InfAdoptedRequest Int :=
  inf_adopted_request_new_do sample_algorithm.current 1 5

/-- A request of remote user 2, adding 7, issued after user 2 has seen the first
request of user 3. -/
def sample_dependent : InfAdoptedRequest Int := inf_adopted_request_new_do [(3, 1)] 2 7

/-- The first request of remote user 3, adding 100, issued in the initial state. -/
def sample_prerequisite : InfAdoptedRequest Int := inf_adopted_request_new_do [] 3 100

/-- The sample session after `sample_dependent` arrived before its prerequisite. -/
def sample_waiting : InfAdoptedAlgorithm Int Int :=
  state_after sample_algorithm
    (inf_adopted_algorithm_receive_request 8 CounterOperation sample_algorithm sample_dependent)

/-- The sample session after the prerequisite arrived, too. -/
def sample_drained : InfAdoptedAlgorithm Int Int :=
  state_after sample_waiting
    (inf_adopted_algorithm_receive_request 8 CounterOperation sample_waiting
      sample_prerequisite)

/-- A request of remote user 2 that does not affect the buffer, issued after user 2
saw the first request of user 3. -/
def sample_silent : InfAdoptedRequest Int := inf_adopted_request_new_do [(3, 1)] 2 0

/-- The request user 2 issues right after `sample_silent`: its vector is the same,
since a request that does not affect the buffer does not advance the issuer. -/
def sample_silent_next : InfAdoptedRequest Int := inf_adopted_request_new_do [(3, 1)] 2 9

/-- The request user 2 issues right after `sample_dependent`. -/
def sample_dependent_next : InfAdoptedRequest Int :=
  inf_adopted_request_new_do [(2, 1), (3, 1)] 2 8

/-- The sample session after `sample_silent` and `sample_silent_next` were received,
in that order: both wait in the queue. -/
def sample_silent_waiting : InfAdoptedAlgorithm Int Int :=
  state_of sample_algorithm
    (receive_requests 8 CounterOperation [sample_silent, sample_silent_next] sample_algorithm)

/-- The state in which receive_request executes `sample_prerequisite`, received after
the two requests of user 2: the vector of user 3 has been recorded. -/
def sample_silent_recorded : InfAdoptedAlgorithm Int Int :=
  { sample_silent_waiting with
    users := inf_adopted_user_set_vector sample_silent_waiting.users 3 [(3, 1)] }

/-- The state after `sample_prerequisite` was executed there. -/
def sample_silent_first : InfAdoptedAlgorithm Int Int :=
  state_of sample_silent_recorded
    (inf_adopted_algorithm_execute_request 8 CounterOperation sample_silent_recorded
      sample_prerequisite true)

/-- The state after the first pass over the queue that follows. -/
def sample_silent_second : InfAdoptedAlgorithm Int Int :=
  { state_of sample_silent_first
      (inf_adopted_algorithm_execute_request 8 CounterOperation sample_silent_first
        sample_silent_next true) with
    queue := [sample_silent] }

/-- The log of local user 1 after its first Do. -/
def sample_after_do_log : InfAdoptedRequestLog Int :=
  ((inf_user_table_lookup_user_by_id sample_after_do.users 1).map
    (fun u => u.request_log)).getD (sample_log 1)

/-- The sample session after the first Do, with an unbounded log size. -/
def sample_unbounded : InfAdoptedAlgorithm Int Int :=
  { sample_after_do with max_total_log_size := 0 }

/-- The sample session after the first Do, with the total log size bounded by 1. -/
def sample_tight : InfAdoptedAlgorithm Int Int :=
  { sample_after_do with max_total_log_size := 1 }

/-- A request of remote user 2 issued at the state after the first Do of user 1,
with an operation that does not affect the buffer. -/
def sample_silent_now : InfAdoptedRequest Int :=
  inf_adopted_request_new_do sample_after_do.current 2 0

/-- A request of remote user 2 issued at the state after the first Do of user 1,
adding 7. -/
def sample_loud_now : InfAdoptedRequest Int :=
  inf_adopted_request_new_do sample_after_do.current 2 7

/-- The sample session after local user 1 has generated a Do adding 5 without
applying it. -/
def sample_after_noexec : InfAdoptedAlgorithm Int Int :=
  state_after sample_algorithm
    (inf_adopted_algorithm_generate_request_noexec 8 CounterOperation sample_algorithm 1 5)

/-- The sample session right after the first Do of local user 1 was executed, before
the availability flags were brought up to date. -/
def sample_executed : InfAdoptedAlgorithm Int Int :=
  state_of sample_algorithm
    (inf_adopted_algorithm_execute_request 8 CounterOperation sample_algorithm
      sample_first_do true)

/-- The state after update_undo_redo ran on `sample_executed`. -/
def sample_executed_updated : InfAdoptedAlgorithm Int Int :=
  state_of sample_executed (inf_adopted_algorithm_update_undo_redo sample_executed)

/-- The sample session after local user 1 has generated a Do and undone it. -/
def sample_undone : InfAdoptedAlgorithm Int Int :=
  state_after sample_after_do
    (inf_adopted_algorithm_generate_undo 8 CounterOperation sample_after_do 1)

/-- A request of remote user 3, adding 100, issued after user 3 has seen both
requests of user 1. -/
def sample_ahead : InfAdoptedRequest Int := inf_adopted_request_new_do [(1, 2)] 3 100

/-- The sample session after the Do and the Undo of user 1 and the request of user 3
that has seen both, with the total log size bounded by 1: the group of the Do and its
Undo is old enough to be scheduled for removal. -/
def sample_undone_tight : InfAdoptedAlgorithm Int Int :=
  { state_after sample_undone
      (inf_adopted_algorithm_receive_request 8 CounterOperation sample_undone sample_ahead) with
    max_total_log_size := 1 }

/-- The Undo of local user 1 as logged in the sample session. -/
def sample_undo_request : InfAdoptedRequest Int :=
  inf_adopted_request_new_undo sample_after_do.current 1

/-- A user that joins the session after having issued three requests elsewhere: its
recorded vector has the own component 3 and its log starts at slot 3. -/
def sample_joined : InfAdoptedUser Int :=
  { id := 4, flags_local := false, vector := [(4, 3)],
    request_log := { sample_log 4 with log_begin := 3 } }

/-- A fresh session of two participants, local user 1 (A) and remote user 2 (B),
with the total log size bounded by 4. -/
def sample_pair : InfAdoptedAlgorithm Int Int :=
  { max_total_log_size := 4
    current := [(1, 0), (2, 0)]
    users := [sample_user 1 true, sample_user 2 false]
    buffer := 0
    queue := []
    local_users := [{ user := 1, can_undo := false, can_redo := false }]
    emitted := [] }

/-- The session of two participants after user 1 has generated `n` Do requests, the
k-th of them adding k to the counter. -/
def sample_pair_dos : Nat → InfAdoptedAlgorithm Int Int
  | 0 => sample_pair
  | n + 1 =>
    state_after (sample_pair_dos n)
      (inf_adopted_algorithm_generate_request 8 CounterOperation (sample_pair_dos n) 1
        (Int.ofNat (n + 1)))

/-- A request of user 2 that does not affect the buffer, issued after user 2 has
processed the five requests of user 1: it acknowledges them. -/
def sample_acknowledgement : InfAdoptedRequest Int := inf_adopted_request_new_do [(1, 5)] 2 0

/-- The session of two participants after the five Do requests of user 1 and the
acknowledgement of user 2. -/
def sample_pair_synced : InfAdoptedAlgorithm Int Int :=
  state_after (sample_pair_dos 5)
    (inf_adopted_algorithm_receive_request 8 CounterOperation (sample_pair_dos 5)
      sample_acknowledgement)

/-- The session of two participants after the five Do requests, the acknowledgement
and then `n` Undo requests generated by user 1. -/
def sample_pair_undone : Nat → InfAdoptedAlgorithm Int Int
  | 0 => sample_pair_synced
  | n + 1 =>
    state_after (sample_pair_undone n)
      (inf_adopted_algorithm_generate_undo 8 CounterOperation (sample_pair_undone n) 1)

/-- The first Do of user 1 in the session of two participants. -/
def sample_pair_first : InfAdoptedRequest Int :=
  inf_adopted_request_new_do sample_pair.current 1 1

/-- The removal scheduled in `sample_undone_tight`, before the search for blockers. -/
def sample_removal : InfAdoptedAlgorithmLogRemoval Int :=
  { log := 1, upper := sample_undo_request, blockers := [] }

/-- The request log of the user with the given id in a state (an empty log if there
is no such user). -/
def sample_log_of (algorithm : InfAdoptedAlgorithm Int Int) (id : Nat) :
    InfAdoptedRequestLog Int :=
  ((inf_user_table_lookup_user_by_id algorithm.users id).map
    (fun u => u.request_log)).getD (sample_log id)

/-- The record of user 1 in a state (a fresh record if there is none). -/
def sample_user_one (algorithm : InfAdoptedAlgorithm Int Int) : InfAdoptedUser Int :=
  (inf_user_table_lookup_user_by_id algorithm.users 1).getD (sample_user 1 true)

/-- A session of three calls: local user 1 generates a Do adding 5, the first
request of remote user 2 is received, and user 1 undoes its Do. -/
def sample_calls : List (InfAdoptedAlgorithmCall Int) :=
  [.generate_request 1 5, .receive_request sample_remote_first, .generate_undo 1]

/-- The sample session after `sample_calls`. -/
def sample_calls_end : InfAdoptedAlgorithm Int Int :=
  state_of sample_algorithm (perform_calls 8 CounterOperation sample_algorithm sample_calls)

/-- A sample operation class that records the steps applied to an operation:
transforming appends 1, mirroring appends 2 and folding appends 3 to the list the
operation carries. -/
def TraceOperation : InfAdoptedOperationClass (List Nat) Nat :=
  { transform := fun op _ => op ++ [1]
    mirror := fun op => op ++ [2]
    fold := fun op _ _ => op ++ [3]
    affects_buffer := fun _ => true
    is_reversible := fun _ => true
    make_reversible := fun _ _ _ => none
    apply := fun _ _ buffer => buffer + 1 }

/-- A user of the trace sessions that has not issued anything yet; user 1 is the
local one. -/
def sample_trace_user (id : Nat) : InfAdoptedUser (List Nat) :=
  { id := id, flags_local := id == 1, vector := [],
    request_log := { user_id := id, log_begin := 0, entries := [], undo_targets := [],
                     redo_targets := [] } }

/-- A fresh session over the trace operations with the local user 1 and the remote
users 2 and 3; `order` is the order of their ids in the user array. -/
def sample_trace_session (order : List Nat) : InfAdoptedAlgorithm (List Nat) Nat :=
  { max_total_log_size := 0
    current := [(1, 0), (2, 0), (3, 0)]
    users := order.map sample_trace_user
    buffer := 0
    queue := []
    local_users := [{ user := 1, can_undo := false, can_redo := false }]
    emitted := [] }

/-- The calls of the trace sessions: user 1 generates a Do, and a Do of user 2 and
the Undo of it are received; the Do requests are concurrent to each other. -/
def sample_trace_calls : List (InfAdoptedAlgorithmCall (List Nat)) :=
  [.generate_request 1 [], .receive_request (inf_adopted_request_new_do [] 2 []),
    .receive_request (inf_adopted_request_new_undo [(2, 1)] 2)]

/-- The trace session with the given order of the user array after
`sample_trace_calls`: current is (1:1, 2:2, 3:0). -/
def sample_trace_undone (order : List Nat) : InfAdoptedAlgorithm (List Nat) Nat :=
  match perform_calls 8 TraceOperation (sample_trace_session order) sample_trace_calls with
  | .ok algorithm => algorithm
  | .error _ => sample_trace_session order

/-- The record of a user in a trace session (a fresh record if there is none). -/
def sample_trace_user_of (algorithm : InfAdoptedAlgorithm (List Nat) Nat) (id : Nat) :
    InfAdoptedUser (List Nat) :=
  (inf_user_table_lookup_user_by_id algorithm.users id).getD (sample_trace_user id)

/-- The first request of user 3 in the trace sessions, concurrent to all requests
of `sample_trace_calls`. -/
def sample_trace_request : InfAdoptedRequest (List Nat) := inf_adopted_request_new_do [] 3 []

/-- The Do of user 1 in the trace sessions, as logged. -/
def sample_trace_do : InfAdoptedRequest (List Nat) :=
  inf_adopted_request_new_do [(1, 0), (2, 0), (3, 0)] 1 []

/-- The Do of user 2 in the trace sessions. -/
def sample_trace_undone_do : InfAdoptedRequest (List Nat) := inf_adopted_request_new_do [] 2 []

/-- The Undo of user 2 in the trace sessions, as logged. -/
def sample_trace_undo : InfAdoptedRequest (List Nat) := inf_adopted_request_new_undo [(2, 1)] 2

/-- A fresh session like `sample_algorithm`, constructed with the total log size
bounded by 1. -/
def sample_bounded : InfAdoptedAlgorithm Int Int :=
  { sample_algorithm with max_total_log_size := 1 }

/-- The request of remote user 3 issued after it has processed the first request of
user 1. -/
def sample_bounded_reply : InfAdoptedRequest Int := inf_adopted_request_new_do [(1, 1)] 3 100

/-- The calls of the bounded session: local user 1 generates a Do adding 5, then the
reply of user 3 is received; user 2 stays silent. -/
def sample_bounded_calls : List (InfAdoptedAlgorithmCall Int) :=
  [.generate_request 1 5, .receive_request sample_bounded_reply]

/-- The bounded session after `sample_bounded_calls`. -/
def sample_bounded_end : InfAdoptedAlgorithm Int Int :=
  state_of sample_bounded (perform_calls 8 CounterOperation sample_bounded sample_bounded_calls)

/-- A request of remote user 3 that does not affect the buffer, issued after user 3
has processed the first request of user 2. -/
def sample_idle : InfAdoptedRequest Int := inf_adopted_request_new_do [(2, 1)] 3 0

/-- The request user 3 issues right after `sample_idle`: its vector is the same,
since a request that does not affect the buffer does not advance the issuer. -/
def sample_idle_next : InfAdoptedRequest Int := inf_adopted_request_new_do [(2, 1)] 3 9

/-- The two requests of user 3 are received, in the order of their issue, before
the request of user 2 they depend on. -/
def sample_idle_calls : List (InfAdoptedAlgorithmCall Int) :=
  [.receive_request sample_idle, .receive_request sample_idle_next]

/-- The sample session after `sample_idle_calls`: both requests wait in the queue. -/
def sample_idle_waiting : InfAdoptedAlgorithm Int Int :=
  state_of sample_algorithm
    (perform_calls 8 CounterOperation sample_algorithm sample_idle_calls)

/-- The state in which receive_request executes `sample_remote_first`, received
after the two requests of user 3: the vector of user 2 has been recorded. -/
def sample_idle_recorded : InfAdoptedAlgorithm Int Int :=
  { sample_idle_waiting with
    users := inf_adopted_user_set_vector sample_idle_waiting.users 2 [(2, 1)] }

/-- The state after `sample_remote_first` was executed there. -/
def sample_idle_first : InfAdoptedAlgorithm Int Int :=
  state_of sample_idle_recorded
    (inf_adopted_algorithm_execute_request 8 CounterOperation sample_idle_recorded
      sample_remote_first true)

/-- The state after the first pass over the queue that follows: the later request
of user 3 has been executed and unlinked. -/
def sample_idle_second : InfAdoptedAlgorithm Int Int :=
  { state_of sample_idle_first
      (inf_adopted_algorithm_execute_request 8 CounterOperation sample_idle_first
        sample_idle_next true) with
    queue := [sample_idle] }

/-- A session in which a remote request waits in the queue while local user 1
generates a Do and then its Undo. -/
def sample_counted_calls : List (InfAdoptedAlgorithmCall Int) :=
  [.receive_request sample_dependent, .generate_request 1 5, .generate_undo 1]

/-- The sample session after `sample_counted_calls`. -/
def sample_counted_end : InfAdoptedAlgorithm Int Int :=
  state_of sample_algorithm
    (perform_calls 8 CounterOperation sample_algorithm sample_counted_calls)

/-- The calls of the trace session in which only user 2 issues requests: a Do of
user 2 and the Undo of it are received. -/
def sample_trace_alone_calls : List (InfAdoptedAlgorithmCall (List Nat)) :=
  [.receive_request (inf_adopted_request_new_do [] 2 []),
    .receive_request (inf_adopted_request_new_undo [(2, 1)] 2)]

/-- The trace session with the user array 1, 2, 3 after `sample_trace_alone_calls`:
current is (1:0, 2:2, 3:0). -/
def sample_trace_alone : InfAdoptedAlgorithm (List Nat) Nat :=
  match perform_calls 8 TraceOperation (sample_trace_session [1, 2, 3])
      sample_trace_alone_calls with
  | .ok algorithm => algorithm
  | .error _ => sample_trace_session [1, 2, 3]

/-- A request of user 3 issued after user 3 has processed the Do of user 2, but not
its Undo. -/
def sample_trace_between : InfAdoptedRequest (List Nat) :=
  inf_adopted_request_new_do [(2, 1)] 3 []

/-- The two generate_request calls that lead from the sample session to
`sample_two_dos`. -/
def sample_two_dos_calls : List (InfAdoptedAlgorithmCall Int) :=
  [.generate_request 1 5, .generate_request 1 6]

/-! ## Text insert operation: theorems -/

/-- A `guint` sum that does not overflow. -/
theorem guint_add_small (a b : Nat) (h : a + b < GUINT_MOD) : guint_add a b = a + b := by
  unfold guint_add
  exact Nat.mod_eq_of_lt h

/-- An insert at the end of the part `X` of the buffer `X ++ Z`. -/
theorem insert_apply_at (op : InfTextInsertOperation) (X Z W : List Char)
    (hW : W = X ++ Z) (h : op.position = X.length) :
    inf_text_insert_operation_apply op W = X ++ op.text ++ Z := by
  subst hW
  unfold inf_text_insert_operation_apply
  rw [h]
  simp

/-- A buffer cut at two positions. -/
theorem buffer_split3 (buf : List Char) (p q : Nat) (hpq : p ≤ q) (hq : q ≤ buf.length) :
    ∃ X Y Z : List Char, buf = X ++ Y ++ Z ∧ X.length = p ∧ Y.length = q - p := by
  refine ⟨buf.take p, (buf.drop p).take (q - p), (buf.drop p).drop (q - p), ?_, ?_, ?_⟩
  · rw [List.append_assoc, List.take_append_drop, List.take_append_drop]
  · simp; omega
  · simp; omega

/-- Applying `a` and then `b` moved right by the length of `a` equals applying
`b` and then `a`, when `a` is not to the right of `b`. -/
theorem insert_insert_commute (buffer : InfTextBuffer) (a b : InfTextInsertOperation)
    (hab : a.position ≤ b.position) (hb : b.position ≤ buffer.length) :
    inf_text_insert_operation_apply (transform_position b (b.position + a.text.length))
        (inf_text_insert_operation_apply a buffer) =
      inf_text_insert_operation_apply a (inf_text_insert_operation_apply b buffer) := by
  obtain ⟨X, Y, Z, hbuf, hX, hY⟩ := buffer_split3 buffer a.position b.position hab hb
  rw [insert_apply_at a X (Y ++ Z) buffer (by rw [hbuf, List.append_assoc]) hX.symm]
  rw [insert_apply_at b (X ++ Y) Z buffer hbuf (by simp; omega)]
  rw [insert_apply_at (transform_position b (b.position + a.text.length)) (X ++ a.text ++ Y) Z
    (X ++ a.text ++ (Y ++ Z)) (by simp) (by simp [transform_position]; omega)]
  rw [insert_apply_at a X (Y ++ b.text ++ Z) (X ++ Y ++ b.text ++ Z) (by simp) hX.symm]
  simp [transform_position]

/-- C3: two concurrent inserts converge. For every buffer, inserts `a` and `b` with
positions inside the buffer (sizes representable as `guint`), lcs forms `a_lcs`, `b_lcs`
and concurrency id `c` in {SELF, OTHER}: both transformations return, and applying
`a` and then `transform_insert(b, a, b_lcs, a_lcs, c)` gives the same buffer as applying
`b` and then `transform_insert(a, b, a_lcs, b_lcs, opposite of c)`. -/
theorem transform_insert_converges (buffer : InfTextBuffer)
    (a b a_lcs b_lcs : InfTextInsertOperation) (c : InfAdoptedConcurrencyId)
    (hc : c = InfAdoptedConcurrencyId.SELF ∨ c = InfAdoptedConcurrencyId.OTHER)
    (ha : a.position ≤ buffer.length) (hb : b.position ≤ buffer.length)
    (hsize : buffer.length + a.text.length + b.text.length < GUINT_MOD) :
    ∃ b' a' : InfTextInsertOperation,
      inf_text_insert_operation_transform_insert b a (some b_lcs) (some a_lcs) c = .ok b' ∧
      inf_text_insert_operation_transform_insert a b (some a_lcs) (some b_lcs) c.opposite
        = .ok a' ∧
      inf_text_insert_operation_apply b' (inf_text_insert_operation_apply a buffer) =
        inf_text_insert_operation_apply a' (inf_text_insert_operation_apply b buffer) := by
  have hsa : guint_add a.position b.text.length = a.position + b.text.length :=
    guint_add_small _ _ (by omega)
  have hsb : guint_add b.position a.text.length = b.position + a.text.length :=
    guint_add_small _ _ (by omega)
  have keep_b : ∀ h : b.position ≤ a.position,
      inf_text_insert_operation_apply b (inf_text_insert_operation_apply a buffer) =
      inf_text_insert_operation_apply (transform_position a (a.position + b.text.length))
        (inf_text_insert_operation_apply b buffer) :=
    fun h => (insert_insert_commute buffer b a h ha).symm
  have keep_a : ∀ h : a.position ≤ b.position,
      inf_text_insert_operation_apply (transform_position b (b.position + a.text.length))
        (inf_text_insert_operation_apply a buffer) =
      inf_text_insert_operation_apply a (inf_text_insert_operation_apply b buffer) :=
    fun h => insert_insert_commute buffer a b h hb
  unfold inf_text_insert_operation_transform_insert
  simp only [inf_text_insert_operation_get_position, inf_text_insert_operation_get_length,
    inf_adopted_operation_copy, hsa, hsb]
  rcases Nat.lt_trichotomy a.position b.position with hlt | heq | hgt
  · refine ⟨transform_position b (b.position + a.text.length), a, ?_, ?_, keep_a (by omega)⟩
    · simp [Nat.not_lt.mpr (Nat.le_of_lt hlt), hlt]
    · simp [hlt]
  · rcases Nat.lt_trichotomy a_lcs.position b_lcs.position with h1 | h1 | h1
    · refine ⟨transform_position b (b.position + a.text.length), a, ?_, ?_, keep_a (by omega)⟩
      · simp [heq, h1, Nat.not_lt.mpr (Nat.le_of_lt h1), Nat.ne_of_gt h1]
      · simp [heq, h1]
    · rcases hc with hc | hc
      · subst hc
        refine ⟨transform_position b (b.position + a.text.length), a, ?_, ?_, keep_a (by omega)⟩
        · simp [heq, h1]
        · simp [heq, h1, InfAdoptedConcurrencyId.opposite]
      · subst hc
        refine ⟨b, transform_position a (a.position + b.text.length), ?_, ?_, keep_b (by omega)⟩
        · simp [heq, h1]
        · simp [heq, h1, InfAdoptedConcurrencyId.opposite]
    · refine ⟨b, transform_position a (a.position + b.text.length), ?_, ?_, keep_b (by omega)⟩
      · simp [heq, h1]
      · simp [heq, h1, Nat.not_lt.mpr (Nat.le_of_lt h1), Nat.ne_of_gt h1]
  · refine ⟨b, transform_position a (a.position + b.text.length), ?_, ?_, keep_b (by omega)⟩
    · simp [hgt]
    · simp [hgt, Nat.not_lt.mpr (Nat.le_of_lt hgt)]

/-- C3 at insert "x" at 0 and insert "y" at 0 on the empty buffer. -/
theorem transform_insert_converges_witness :
    ∃ b' a' : InfTextInsertOperation,
      inf_text_insert_operation_transform_insert ⟨0, ['y']⟩ ⟨0, ['x']⟩ (some ⟨0, ['y']⟩) (some ⟨0, ['x']⟩) .SELF = .ok b' ∧
      inf_text_insert_operation_transform_insert ⟨0, ['x']⟩ ⟨0, ['y']⟩ (some ⟨0, ['x']⟩) (some ⟨0, ['y']⟩) InfAdoptedConcurrencyId.SELF.opposite
        = .ok a' ∧
      inf_text_insert_operation_apply b' (inf_text_insert_operation_apply ⟨0, ['x']⟩ []) =
        inf_text_insert_operation_apply a' (inf_text_insert_operation_apply ⟨0, ['y']⟩ []) :=
  transform_insert_converges [] ⟨0, ['x']⟩ ⟨0, ['y']⟩ ⟨0, ['x']⟩ ⟨0, ['y']⟩ .SELF (Or.inl rfl) (by decide) (by decide) (by decide)

/-! ## State vectors: lemmas -/

theorem get_set (v : InfAdoptedStateVector) (id n j : Nat) :
    inf_adopted_state_vector_get (inf_adopted_state_vector_set v id n) j =
      if j = id then n else inf_adopted_state_vector_get v j := by
  induction v with
  | nil =>
    by_cases h : j = id
    · simp [inf_adopted_state_vector_set, inf_adopted_state_vector_get, h]
    · have h' : ¬ id = j := fun e => h e.symm
      simp [inf_adopted_state_vector_set, inf_adopted_state_vector_get, h, h']
  | cons e rest ih =>
    obtain ⟨k, m⟩ := e
    by_cases hk : k = id
    · by_cases h : j = id
      · simp [inf_adopted_state_vector_set, inf_adopted_state_vector_get, hk, h]
      · have h' : ¬ id = j := fun e => h e.symm
        simp [inf_adopted_state_vector_set, inf_adopted_state_vector_get, hk, h, h']
    · by_cases hkj : k = j
      · have h : ¬ j = id := fun e => hk (hkj.trans e)
        simp [inf_adopted_state_vector_set, inf_adopted_state_vector_get, hk, hkj, h]
      · simp [inf_adopted_state_vector_set, inf_adopted_state_vector_get, hk, hkj, ih]

theorem get_add (v : InfAdoptedStateVector) (id k j : Nat) :
    inf_adopted_state_vector_get (inf_adopted_state_vector_add v id k) j =
      if j = id then guint_add (inf_adopted_state_vector_get v id) k
      else inf_adopted_state_vector_get v j := by
  unfold inf_adopted_state_vector_add
  exact get_set v id _ j

theorem get_eq_zero_of_not_mem (v : InfAdoptedStateVector) (id : Nat)
    (h : ∀ e ∈ v, e.1 ≠ id) : inf_adopted_state_vector_get v id = 0 := by
  induction v with
  | nil => rfl
  | cons e rest ih =>
    obtain ⟨k, m⟩ := e
    have hk : k ≠ id := h (k, m) (List.mem_cons_self _ _)
    simp only [inf_adopted_state_vector_get, hk, if_false]
    exact ih (fun e he => h e (List.mem_cons_of_mem _ he))

theorem causally_before_iff (v w : InfAdoptedStateVector) :
    inf_adopted_state_vector_causally_before v w = true ↔
      ∀ id, inf_adopted_state_vector_get v id ≤ inf_adopted_state_vector_get w id := by
  unfold inf_adopted_state_vector_causally_before
  rw [List.all_eq_true]
  constructor
  · intro h id
    by_cases hm : ∃ e ∈ v, e.1 = id
    · obtain ⟨e, he, rfl⟩ := hm
      exact of_decide_eq_true (h e he)
    · have : inf_adopted_state_vector_get v id = 0 :=
        get_eq_zero_of_not_mem v id (fun e he heq => hm ⟨e, he, heq⟩)
      omega
  · intro h e _
    exact decide_eq_true (h e.1)

theorem causally_before_refl (v : InfAdoptedStateVector) :
    inf_adopted_state_vector_causally_before v v = true :=
  (causally_before_iff v v).mpr (fun _ => Nat.le_refl _)

theorem causally_before_eq_false_iff (v w : InfAdoptedStateVector) :
    inf_adopted_state_vector_causally_before v w = false ↔
      ∃ id, inf_adopted_state_vector_get w id < inf_adopted_state_vector_get v id := by
  constructor
  · intro h
    by_contra hne
    have : inf_adopted_state_vector_causally_before v w = true :=
      (causally_before_iff v w).mpr (fun id => by
        by_contra hlt
        exact hne ⟨id, by omega⟩)
    rw [h] at this
    exact Bool.noConfusion this
  · rintro ⟨id, hlt⟩
    cases hcb : inf_adopted_state_vector_causally_before v w
    · rfl
    · have := (causally_before_iff v w).mp hcb id
      omega

theorem compare_eq_zero_iff (v w : InfAdoptedStateVector) :
    inf_adopted_state_vector_compare v w = 0 ↔
      ∀ id, inf_adopted_state_vector_get v id = inf_adopted_state_vector_get w id := by
  unfold inf_adopted_state_vector_compare
  cases h1 : inf_adopted_state_vector_causally_before v w <;>
    cases h2 : inf_adopted_state_vector_causally_before w v
  · simp
    obtain ⟨id, hlt⟩ := (causally_before_eq_false_iff v w).mp h1
    exact ⟨id, by omega⟩
  · simp
    obtain ⟨id, hlt⟩ := (causally_before_eq_false_iff v w).mp h1
    exact ⟨id, by omega⟩
  · simp
    obtain ⟨id, hlt⟩ := (causally_before_eq_false_iff w v).mp h2
    exact ⟨id, by omega⟩
  · simp
    intro id
    have a := (causally_before_iff v w).mp h1 id
    have b := (causally_before_iff w v).mp h2 id
    omega


/-! ## Rejected calls -/

/-- C5: atomic rejection on precondition failure. The four generate functions
called for a user that is not in the table or lacks the LOCAL flag, generate_undo
with can_undo false, generate_redo with can_redo false, and receive_request for a
request whose issuer is not in the table or is a local user, all return without a
request (resp. report the failed check) and return the state they were given:
current, queue, logs, recorded vectors, cached flags and buffer are unchanged. -/
theorem rejected_calls_leave_state_unchanged {Op Buf : Type} (fuel : Nat)
    (O : InfAdoptedOperationClass Op Buf) (algorithm : InfAdoptedAlgorithm Op Buf)
    (user : Nat) (operation : Op) (request : InfAdoptedRequest Op) :
    ((∀ u, inf_user_table_lookup_user_by_id algorithm.users user = some u →
        u.flags_local = false) →
      inf_adopted_algorithm_generate_request fuel O algorithm user operation
        = .ok (none, algorithm) ∧
      inf_adopted_algorithm_generate_request_noexec fuel O algorithm user operation
        = .ok (none, algorithm) ∧
      inf_adopted_algorithm_generate_undo fuel O algorithm user = .ok (none, algorithm) ∧
      inf_adopted_algorithm_generate_redo fuel O algorithm user = .ok (none, algorithm)) ∧
    (inf_adopted_algorithm_can_undo algorithm user = false →
      inf_adopted_algorithm_generate_undo fuel O algorithm user = .ok (none, algorithm)) ∧
    (inf_adopted_algorithm_can_redo algorithm user = false →
      inf_adopted_algorithm_generate_redo fuel O algorithm user = .ok (none, algorithm)) ∧
    ((∀ u, inf_user_table_lookup_user_by_id algorithm.users request.user_id = some u →
        u.flags_local = true) →
      inf_adopted_algorithm_receive_request fuel O algorithm request
        = .ok (false, algorithm)) := by
  refine ⟨?_, ?_, ?_, ?_⟩
  · intro h
    unfold inf_adopted_algorithm_generate_request inf_adopted_algorithm_generate_request_noexec
      inf_adopted_algorithm_generate_undo inf_adopted_algorithm_generate_redo
    cases hu : inf_user_table_lookup_user_by_id algorithm.users user with
    | none => simp
    | some u => simp [h u hu]
  · intro h
    unfold inf_adopted_algorithm_generate_undo
    cases hu : inf_user_table_lookup_user_by_id algorithm.users user with
    | none => simp
    | some u =>
      cases hl : u.flags_local <;> simp [h]
  · intro h
    unfold inf_adopted_algorithm_generate_redo
    cases hu : inf_user_table_lookup_user_by_id algorithm.users user with
    | none => simp
    | some u =>
      cases hl : u.flags_local <;> simp [h]
  · intro h
    unfold inf_adopted_algorithm_receive_request
    simp only [inf_adopted_request_get_user_id]
    cases hu : inf_user_table_lookup_user_by_id algorithm.users request.user_id with
    | none => simp
    | some u => simp [h u hu]


/-- C5 on the fresh sample session: remote user 2 cannot generate, local user 1
can neither undo nor redo yet, and a request issued by local user 1 is not received. -/
theorem rejected_calls_leave_state_unchanged_witness :
    (inf_adopted_algorithm_generate_request 8 CounterOperation sample_algorithm 2 5
        = .ok (none, sample_algorithm) ∧
      inf_adopted_algorithm_generate_request_noexec 8 CounterOperation sample_algorithm 2 5
        = .ok (none, sample_algorithm) ∧
      inf_adopted_algorithm_generate_undo 8 CounterOperation sample_algorithm 2
        = .ok (none, sample_algorithm) ∧
      inf_adopted_algorithm_generate_redo 8 CounterOperation sample_algorithm 2
        = .ok (none, sample_algorithm)) ∧
    inf_adopted_algorithm_generate_undo 8 CounterOperation sample_algorithm 1
      = .ok (none, sample_algorithm) ∧
    inf_adopted_algorithm_generate_redo 8 CounterOperation sample_algorithm 1
      = .ok (none, sample_algorithm) ∧
    inf_adopted_algorithm_receive_request 8 CounterOperation sample_algorithm
      (inf_adopted_request_new_do [] 1 5) = .ok (false, sample_algorithm) :=
  ⟨(rejected_calls_leave_state_unchanged 8 CounterOperation sample_algorithm 2 5
      (inf_adopted_request_new_do [] 1 5)).1
      (fun u h => by cases h; rfl),
    (rejected_calls_leave_state_unchanged 8 CounterOperation sample_algorithm 1 5
      (inf_adopted_request_new_do [] 1 5)).2.1 (by decide),
    (rejected_calls_leave_state_unchanged 8 CounterOperation sample_algorithm 1 5
      (inf_adopted_request_new_do [] 1 5)).2.2.1 (by decide),
    (rejected_calls_leave_state_unchanged 8 CounterOperation sample_algorithm 1 5
      (inf_adopted_request_new_do [] 1 5)).2.2.2
      (fun u h => by cases h; rfl)⟩


/-! ## Frame properties of the parts of the algorithm -/

section Frame

variable {Op Buf : Type}

theorem lookup_update_user (users : List (InfAdoptedUser Op)) (id j : Nat)
    (f : InfAdoptedUser Op → InfAdoptedUser Op) (hf : ∀ u, (f u).id = u.id) :
    inf_user_table_lookup_user_by_id (update_user users id f) j =
      if j = id then (inf_user_table_lookup_user_by_id users j).map f
      else inf_user_table_lookup_user_by_id users j := by
  induction users with
  | nil => simp [update_user, inf_user_table_lookup_user_by_id]
  | cons u rest ih =>
    unfold inf_user_table_lookup_user_by_id at ih ⊢
    by_cases hu : u.id = id
    · by_cases hj : j = id
      · simp [update_user, hu, hj, hf, List.find?]
      · have : ¬ id = j := fun e => hj e.symm
        simp [update_user, hu, hj, this, hf, List.find?]
    · by_cases huj : u.id = j
      · have : ¬ j = id := fun e => hu (huj.trans e)
        simp [update_user, hu, huj, this, List.find?]
      · simp [update_user, hu, huj, List.find?, ih]

theorem update_user_map_id (users : List (InfAdoptedUser Op)) (id : Nat)
    (f : InfAdoptedUser Op → InfAdoptedUser Op) (hf : ∀ u, (f u).id = u.id) :
    (update_user users id f).map (fun u => u.id) = users.map (fun u => u.id) := by
  induction users with
  | nil => rfl
  | cons u rest ih =>
    by_cases hu : u.id = id
    · simp [update_user, hu, hf]
    · simp [update_user, hu, ih]

theorem execute_request_ok (fuel : Nat) (O : InfAdoptedOperationClass Op Buf)
    (algorithm algorithm' : InfAdoptedAlgorithm Op Buf) (request : InfAdoptedRequest Op)
    (apply : Bool)
    (h : inf_adopted_algorithm_execute_request fuel O algorithm request apply = .ok algorithm') :
    ∃ user log_request translated recorded,
      inf_adopted_state_vector_causally_before request.vector algorithm.current = true ∧
      inf_user_table_lookup_user_by_id algorithm.users request.user_id = some user ∧
      execute_request_log_request user.request_log request = .ok log_request ∧
      inf_adopted_algorithm_translate_request fuel O algorithm log_request algorithm.current
        = .ok translated ∧
      (match execute_request_recorded O algorithm.buffer request log_request translated with
        | none => recorded = none
        | some r => ∃ log, inf_adopted_request_log_add_request user.request_log r = .ok log ∧
            recorded = some log) ∧
      algorithm' = execute_request_result O algorithm request apply user translated recorded := by
  unfold inf_adopted_algorithm_execute_request at h
  simp only [inf_adopted_request_get_vector, inf_adopted_request_get_user_id,
    inf_adopted_request_copy] at h
  cases hcb : inf_adopted_state_vector_causally_before request.vector algorithm.current with
  | false => simp [hcb] at h
  | true =>
    simp only [hcb, Bool.not_true, Bool.false_eq_true, if_false] at h
    cases hu : inf_user_table_lookup_user_by_id algorithm.users request.user_id with
    | none => simp [hu] at h
    | some user =>
      simp only [hu] at h
      cases hl : execute_request_log_request user.request_log request with
      | error e => simp [hl] at h
      | ok log_request =>
        simp only [hl] at h
        cases ht : inf_adopted_algorithm_translate_request fuel O algorithm log_request
            algorithm.current with
        | error e => simp [ht] at h
        | ok translated =>
          simp only [ht] at h
          cases hr : execute_request_recorded O algorithm.buffer request log_request translated with
          | none =>
            simp only [hr] at h
            refine ⟨user, log_request, translated, none, rfl, rfl, hl, ht, ?_, ?_⟩
            · simp [hr]
            · cases apply <;> simp [execute_request_result] at h ⊢ <;> exact h.symm
          | some r =>
            simp only [hr] at h
            cases ha : inf_adopted_request_log_add_request user.request_log r with
            | error e => simp [ha] at h
            | ok log =>
              simp only [ha] at h
              refine ⟨user, log_request, translated, some log, rfl, rfl, hl, ht, ?_, ?_⟩
              · simp [hr, ha]
              · cases apply <;> simp [execute_request_result] at h ⊢ <;> exact h.symm

end Frame

section Frame2

variable {Op Buf : Type}

theorem update_user_map_eq {γ : Type} (F : InfAdoptedUser Op → γ)
    (users : List (InfAdoptedUser Op)) (id : Nat)
    (f : InfAdoptedUser Op → InfAdoptedUser Op) (hf : ∀ u, F (f u) = F u) :
    (update_user users id f).map F = users.map F := by
  induction users with
  | nil => rfl
  | cons u rest ih =>
    by_cases hu : u.id = id
    · simp [update_user, hu, hf]
    · simp [update_user, hu, ih]

theorem update_user_eq_map (users : List (InfAdoptedUser Op)) (id : Nat)
    (f : InfAdoptedUser Op → InfAdoptedUser Op)
    (hnodup : (users.map (fun u => u.id)).Nodup) :
    update_user users id f = users.map (fun u => if u.id = id then f u else u) := by
  induction users with
  | nil => rfl
  | cons u rest ih =>
    rw [List.map_cons, List.nodup_cons] at hnodup
    by_cases hu : u.id = id
    · have hrest : rest.map (fun u => if u.id = id then f u else u) = rest := by
        conv_rhs => rw [← List.map_id rest]
        apply List.map_congr_left
        intro x hx
        have : x.id ≠ id := by
          intro hx'
          apply hnodup.1
          rw [hu, ← hx']
          exact List.mem_map_of_mem (fun u => u.id) hx
        simp [this]
      simp [update_user, hu, hrest]
    · simp [update_user, hu, ih hnodup.2]

theorem remove_requests_get_end (log : InfAdoptedRequestLog Op) (up_to : Nat) :
    inf_adopted_request_log_get_end (inf_adopted_request_log_remove_requests log up_to) =
      inf_adopted_request_log_get_end log := by
  unfold inf_adopted_request_log_get_end inf_adopted_request_log_remove_requests
  simp only [List.length_drop]
  have hsum : log.log_begin + min (up_to - log.log_begin) log.entries.length +
      (log.entries.length - (up_to - log.log_begin)) = log.log_begin + log.entries.length := by
    omega
  unfold guint_add
  rw [hsum]

theorem perform_removals_frame (algorithm : InfAdoptedAlgorithm Op Buf)
    (removals : List (InfAdoptedAlgorithmLogRemoval Op)) :
    (inf_adopted_algorithm_perform_removals algorithm removals).users.map user_summary =
        algorithm.users.map user_summary ∧
      (inf_adopted_algorithm_perform_removals algorithm removals).current = algorithm.current ∧
      (inf_adopted_algorithm_perform_removals algorithm removals).queue = algorithm.queue ∧
      (inf_adopted_algorithm_perform_removals algorithm removals).buffer = algorithm.buffer ∧
      (inf_adopted_algorithm_perform_removals algorithm removals).emitted = algorithm.emitted ∧
      (inf_adopted_algorithm_perform_removals algorithm removals).local_users =
        algorithm.local_users ∧
      (inf_adopted_algorithm_perform_removals algorithm removals).max_total_log_size =
        algorithm.max_total_log_size := by
  induction removals generalizing algorithm with
  | nil => simp [inf_adopted_algorithm_perform_removals]
  | cons removal rest ih =>
    unfold inf_adopted_algorithm_perform_removals
    by_cases hb : removal.blockers.isEmpty = true
    · simp only [hb, if_true]
      obtain ⟨h1, h2, h3, h4, h5, h6, h7⟩ := ih
        { algorithm with
          users := update_user algorithm.users removal.log (fun u =>
            { u with
              request_log := inf_adopted_request_log_remove_requests u.request_log
                (guint_add
                  (inf_adopted_state_vector_get (inf_adopted_request_get_vector removal.upper)
                    (inf_adopted_request_get_user_id removal.upper)) 1) }) }
      refine ⟨?_, h2, h3, h4, h5, h6, h7⟩
      rw [h1]
      apply update_user_map_eq
      intro u
      simp [user_summary, remove_requests_get_end]
    · simp only [hb]
      exact ih algorithm

theorem update_request_logs_frame (algorithm algorithm' : InfAdoptedAlgorithm Op Buf)
    (h : inf_adopted_algorithm_update_request_logs algorithm = .ok algorithm') :
    algorithm'.users.map user_summary = algorithm.users.map user_summary ∧
      algorithm'.current = algorithm.current ∧ algorithm'.queue = algorithm.queue ∧
      algorithm'.buffer = algorithm.buffer ∧ algorithm'.emitted = algorithm.emitted ∧
      algorithm'.local_users = algorithm.local_users ∧
      algorithm'.max_total_log_size = algorithm.max_total_log_size := by
  unfold inf_adopted_algorithm_update_request_logs at h
  cases hc : inf_adopted_algorithm_create_removals algorithm with
  | error e => simp [hc] at h
  | ok removals =>
    simp only [hc, Except.ok.injEq] at h
    subst h
    exact perform_removals_frame algorithm removals

theorem applied_requests_append (xs ys : List (InfAdoptedAlgorithmSignal Op)) :
    applied_requests (xs ++ ys) = applied_requests xs ++ applied_requests ys := by
  induction xs with
  | nil => rfl
  | cons x rest ih =>
    cases x <;> simp [applied_requests, ih]

theorem update_undo_redo_loop_frame (count index : Nat)
    (algorithm algorithm' : InfAdoptedAlgorithm Op Buf)
    (h : update_undo_redo_loop count index algorithm = .ok algorithm') :
    algorithm'.users = algorithm.users ∧
      algorithm'.current = algorithm.current ∧ algorithm'.queue = algorithm.queue ∧
      algorithm'.buffer = algorithm.buffer ∧
      applied_requests algorithm'.emitted = applied_requests algorithm.emitted ∧
      algorithm'.max_total_log_size = algorithm.max_total_log_size := by
  induction count generalizing index algorithm with
  | zero =>
    simp only [update_undo_redo_loop, Except.ok.injEq] at h
    subst h
    simp
  | succ count ih =>
    unfold update_undo_redo_loop at h
    cases hl : algorithm.local_users.get? index with
    | none =>
      simp only [hl, Except.ok.injEq] at h
      subst h
      simp
    | some local_ =>
      simp only [hl] at h
      cases hu : inf_user_table_lookup_user_by_id algorithm.users local_.user with
      | none => simp [hu] at h
      | some user =>
        simp only [hu] at h
        cases h1 : inf_adopted_algorithm_can_undo_redo algorithm user.request_log
            (inf_adopted_request_log_next_undo user.request_log) with
        | error e => simp [h1] at h
        | ok can_undo =>
          simp only [h1] at h
          cases h2 : inf_adopted_algorithm_can_undo_redo algorithm user.request_log
              (inf_adopted_request_log_next_redo user.request_log) with
          | error e => simp [h2] at h
          | ok can_redo =>
            simp only [h2] at h
            have := ih _ _ h
            obtain ⟨a1, a2, a3, a4, a5, a6⟩ := this
            refine ⟨?_, ?_, ?_, ?_, ?_, ?_⟩
            · rw [a1]; split <;> split <;>
                simp [emit_can_redo_changed, emit_can_undo_changed,
                  inf_adopted_algorithm_can_redo_changed, inf_adopted_algorithm_can_undo_changed]
            · rw [a2]; split <;> split <;>
                simp [emit_can_redo_changed, emit_can_undo_changed,
                  inf_adopted_algorithm_can_redo_changed, inf_adopted_algorithm_can_undo_changed]
            · rw [a3]; split <;> split <;>
                simp [emit_can_redo_changed, emit_can_undo_changed,
                  inf_adopted_algorithm_can_redo_changed, inf_adopted_algorithm_can_undo_changed]
            · rw [a4]; split <;> split <;>
                simp [emit_can_redo_changed, emit_can_undo_changed,
                  inf_adopted_algorithm_can_redo_changed, inf_adopted_algorithm_can_undo_changed]
            · rw [a5]; split <;> split <;>
                simp [emit_can_redo_changed, emit_can_undo_changed,
                  inf_adopted_algorithm_can_redo_changed, inf_adopted_algorithm_can_undo_changed,
                  applied_requests_append, applied_requests]
            · rw [a6]; split <;> split <;>
                simp [emit_can_redo_changed, emit_can_undo_changed,
                  inf_adopted_algorithm_can_redo_changed, inf_adopted_algorithm_can_undo_changed]

/-- What `update_request_logs` followed by `update_undo_redo` leaves unchanged. -/
theorem update_logs_and_undo_redo_frame (algorithm algorithm' : InfAdoptedAlgorithm Op Buf)
    (h : update_logs_and_undo_redo algorithm = .ok algorithm') :
    algorithm'.users.map user_summary = algorithm.users.map user_summary ∧
      algorithm'.current = algorithm.current ∧ algorithm'.queue = algorithm.queue ∧
      algorithm'.buffer = algorithm.buffer ∧
      applied_requests algorithm'.emitted = applied_requests algorithm.emitted ∧
      algorithm'.max_total_log_size = algorithm.max_total_log_size := by
  unfold update_logs_and_undo_redo at h
  cases hg : inf_adopted_algorithm_update_request_logs algorithm with
  | error e => simp [hg] at h
  | ok mid =>
    simp only [hg] at h
    obtain ⟨g1, g2, g3, g4, g5, _, g7⟩ := update_request_logs_frame algorithm mid hg
    obtain ⟨u1, u2, u3, u4, u5, u6⟩ :=
      update_undo_redo_loop_frame _ _ mid algorithm' h
    refine ⟨?_, ?_, ?_, ?_, ?_, ?_⟩
    · rw [u1, g1]
    · rw [u2, g2]
    · rw [u3, g3]
    · rw [u4, g4]
    · rw [u5, g5]
    · rw [u6, g7]

end Frame2

section Frame3

variable {Op Buf : Type}

theorem local_user_times_users (locals : List InfAdoptedAlgorithmLocalUser)
    (c : InfAdoptedStateVector) (users : List (InfAdoptedUser Op))
    (hnodup : (users.map (fun u => u.id)).Nodup) :
    locals.foldl (fun users local_ => inf_adopted_user_set_vector users local_.user c) users =
      users.map (fun u =>
        if locals.any (fun l => decide (l.user = u.id)) then { u with vector := c } else u) := by
  induction locals generalizing users with
  | nil => simp
  | cons l rest ih =>
    rw [List.foldl_cons]
    unfold inf_adopted_user_set_vector at ih ⊢
    rw [update_user_eq_map users l.user _ hnodup]
    rw [ih]
    · rw [List.map_map]
      apply List.map_congr_left
      intro u _
      by_cases h1 : u.id = l.user
      · simp [h1]
      · have h1' : ¬ l.user = u.id := fun e => h1 e.symm
        simp [h1, h1']
    · rw [List.map_map]
      have : ((fun u : InfAdoptedUser Op => u.id) ∘
          fun u => if u.id = l.user then { u with vector := c } else u) = fun u => u.id := by
        funext u
        by_cases h1 : u.id = l.user <;> simp [h1]
      rw [this]
      exact hnodup

/-- The users after `inf_adopted_algorithm_execute_request`, for a user table
with distinct ids. -/
theorem execute_request_result_users (O : InfAdoptedOperationClass Op Buf)
    (algorithm : InfAdoptedAlgorithm Op Buf) (request : InfAdoptedRequest Op) (apply : Bool)
    (user : InfAdoptedUser Op) (translated : InfAdoptedRequest Op)
    (log : InfAdoptedRequestLog Op)
    (hnodup : (algorithm.users.map (fun u => u.id)).Nodup) :
    (execute_request_result O algorithm request apply user translated (some log)).users =
      algorithm.users.map (fun u =>
        if algorithm.local_users.any (fun l => decide (l.user = u.id)) then
          { (if u.id = request.user_id then { u with request_log := log } else u) with
            vector := inf_adopted_state_vector_add algorithm.current request.user_id 1 }
        else (if u.id = request.user_id then { u with request_log := log } else u)) := by
  have hmid : (update_user algorithm.users request.user_id
      (fun u => { u with request_log := log })).map (fun u => u.id) =
      algorithm.users.map (fun u => u.id) :=
    update_user_map_eq (fun u => u.id) _ _ _ (fun _ => rfl)
  have key : (inf_adopted_algorithm_update_local_user_times
      { algorithm with
        users := update_user algorithm.users request.user_id
          (fun u => { u with request_log := log })
        current := inf_adopted_state_vector_add algorithm.current request.user_id 1 }).users =
      algorithm.users.map (fun u =>
        if algorithm.local_users.any (fun l => decide (l.user = u.id)) then
          { (if u.id = request.user_id then { u with request_log := log } else u) with
            vector := inf_adopted_state_vector_add algorithm.current request.user_id 1 }
        else (if u.id = request.user_id then { u with request_log := log } else u)) := by
    unfold inf_adopted_algorithm_update_local_user_times
    simp only [inf_adopted_state_vector_copy]
    rw [local_user_times_users _ _ _ (by rw [hmid]; exact hnodup)]
    rw [update_user_eq_map _ _ _ hnodup, List.map_map]
    apply List.map_congr_left
    intro u _
    by_cases h1 : u.id = request.user_id <;> simp [h1]
  unfold execute_request_result
  cases apply
  · simpa using key
  · simp only [if_true, emit_apply_request, inf_adopted_algorithm_apply_request]
    split <;> simpa using key

theorem execute_request_result_frame (O : InfAdoptedOperationClass Op Buf)
    (algorithm : InfAdoptedAlgorithm Op Buf) (request : InfAdoptedRequest Op) (apply : Bool)
    (user : InfAdoptedUser Op) (translated : InfAdoptedRequest Op)
    (recorded : Option (InfAdoptedRequestLog Op)) :
    (execute_request_result O algorithm request apply user translated recorded).queue =
        algorithm.queue ∧
      (execute_request_result O algorithm request apply user translated recorded).local_users =
        algorithm.local_users ∧
      (execute_request_result O algorithm request apply user translated
        recorded).max_total_log_size = algorithm.max_total_log_size ∧
      (execute_request_result O algorithm request apply user translated recorded).current =
        (match recorded with
          | none => algorithm.current
          | some _ => inf_adopted_state_vector_add algorithm.current request.user_id 1) ∧
      (execute_request_result O algorithm request apply user translated recorded).emitted =
        algorithm.emitted ++
          (if apply then [InfAdoptedAlgorithmSignal.APPLY_REQUEST user.id translated] else []) ∧
      (recorded = none →
        (execute_request_result O algorithm request apply user translated recorded).users =
          algorithm.users) := by
  unfold execute_request_result
  cases recorded <;> cases apply <;>
    simp [emit_apply_request, inf_adopted_algorithm_apply_request,
      inf_adopted_algorithm_update_local_user_times] <;>
    (try split) <;> simp

end Frame3

/-! ## The invariant `current[p] = end(L(p))` -/

section CurrentMatchesLogs

variable {Op Buf : Type}

theorem lookup_mem (users : List (InfAdoptedUser Op)) (id : Nat) (user : InfAdoptedUser Op)
    (h : inf_user_table_lookup_user_by_id users id = some user) :
    user ∈ users ∧ user.id = id := by
  unfold inf_user_table_lookup_user_by_id at h
  exact ⟨List.mem_of_find?_eq_some h, by simpa using List.find?_some h⟩

theorem eq_of_nodup_ids (users : List (InfAdoptedUser Op))
    (hnodup : (users.map (fun u => u.id)).Nodup) (u u' : InfAdoptedUser Op)
    (hu : u ∈ users) (hu' : u' ∈ users) (hid : u.id = u'.id) : u = u' :=
  List.inj_on_of_nodup_map hnodup hu hu' hid

theorem add_request_get_end (log log' : InfAdoptedRequestLog Op) (r : InfAdoptedRequest Op)
    (h : inf_adopted_request_log_add_request log r = .ok log') :
    inf_adopted_request_log_get_end log' = guint_add (inf_adopted_request_log_get_end log) 1 ∧
      log'.user_id = log.user_id ∧ log'.log_begin = log.log_begin ∧
      r.user_id = log.user_id ∧ request_slot r = inf_adopted_request_log_get_end log ∧
      ∃ e, log'.entries = log.entries ++ [e] ∧ e.request = r := by
  have hend : ∀ (b n : Nat), guint_add b (n + 1) = guint_add (guint_add b n) 1 := by
    intro b n
    unfold guint_add GUINT_MOD
    omega
  unfold inf_adopted_request_log_add_request at h
  by_cases h1 : r.user_id = log.user_id
  · by_cases h2 : request_slot r = inf_adopted_request_log_get_end log
    · simp only [h1, h2, ne_eq, not_true_eq_false, if_false] at h
      cases ht : r.type with
      | DO =>
        simp only [ht, Except.ok.injEq] at h
        subst h
        refine ⟨?_, rfl, rfl, h1, h2, _, rfl, rfl⟩
        simp only [inf_adopted_request_log_get_end, List.length_append, List.length_singleton]
        exact hend _ _
      | UNDO =>
        simp only [ht] at h
        cases hl : log.undo_targets with
        | nil => simp [hl] at h
        | cons a rest =>
          simp only [hl] at h
          cases he : inf_adopted_request_log_get_entry log a with
          | none => simp [he] at h
          | some e =>
            simp only [he, Except.ok.injEq] at h
            subst h
            refine ⟨?_, rfl, rfl, h1, h2, _, rfl, rfl⟩
            simp only [inf_adopted_request_log_get_end, List.length_append,
              List.length_singleton]
            exact hend _ _
      | REDO =>
        simp only [ht] at h
        cases hl : log.redo_targets with
        | nil => simp [hl] at h
        | cons a rest =>
          simp only [hl] at h
          cases he : inf_adopted_request_log_get_entry log a with
          | none => simp [he] at h
          | some e =>
            simp only [he, Except.ok.injEq] at h
            subst h
            refine ⟨?_, rfl, rfl, h1, h2, _, rfl, rfl⟩
            simp only [inf_adopted_request_log_get_end, List.length_append,
              List.length_singleton]
            exact hend _ _
    · simp [h1, h2] at h
  · simp [h1] at h

theorem current_matches_logs_congr (algorithm algorithm' : InfAdoptedAlgorithm Op Buf)
    (husers : algorithm'.users.map user_summary = algorithm.users.map user_summary)
    (hcur : algorithm'.current = algorithm.current)
    (h : current_matches_logs algorithm) : current_matches_logs algorithm' := by
  intro u' hu'
  have hm : user_summary u' ∈ algorithm.users.map user_summary := by
    rw [← husers]
    exact List.mem_map_of_mem _ hu'
  obtain ⟨u, hu, hs⟩ := List.mem_map.mp hm
  have h1 := h u hu
  simp only [user_summary, Prod.mk.injEq] at hs
  rw [hcur, ← hs.1, ← hs.2.2.2]
  exact h1

theorem ids_of_summary (users users' : List (InfAdoptedUser Op))
    (h : users'.map user_summary = users.map user_summary) :
    users'.map (fun u => u.id) = users.map (fun u => u.id) := by
  have := congrArg (List.map (fun s : Nat × Bool × InfAdoptedStateVector × Nat => s.1)) h
  simpa [List.map_map, Function.comp, user_summary] using this

theorem execute_request_current_matches_logs (fuel : Nat) (O : InfAdoptedOperationClass Op Buf)
    (algorithm algorithm' : InfAdoptedAlgorithm Op Buf) (request : InfAdoptedRequest Op)
    (apply : Bool)
    (hnodup : (algorithm.users.map (fun u => u.id)).Nodup)
    (hinv : current_matches_logs algorithm)
    (h : inf_adopted_algorithm_execute_request fuel O algorithm request apply = .ok algorithm') :
    (algorithm'.users.map (fun u => u.id)).Nodup ∧ current_matches_logs algorithm' := by
  obtain ⟨user, log_request, translated, recorded, _, hu, _, _, hrec, hres⟩ :=
    execute_request_ok fuel O algorithm algorithm' request apply h
  subst hres
  obtain ⟨_, _, _, hcur, _, husers⟩ :=
    execute_request_result_frame O algorithm request apply user translated recorded
  cases recorded with
  | none =>
    rw [husers rfl]
    refine ⟨hnodup, ?_⟩
    intro u hu'
    rw [husers rfl] at hu'
    rw [hcur]
    exact hinv u hu'
  | some log =>
    have hlog : ∃ r, inf_adopted_request_log_add_request user.request_log r = .ok log := by
      cases hr : execute_request_recorded O algorithm.buffer request log_request translated with
      | none => simp [hr] at hrec
      | some r =>
        simp only [hr] at hrec
        obtain ⟨log2, hadd, heq⟩ := hrec
        cases heq
        exact ⟨r, hadd⟩
    obtain ⟨r, hadd⟩ := hlog
    have hend := (add_request_get_end _ _ _ hadd).1
    have hus := execute_request_result_users O algorithm request apply user translated log hnodup
    constructor
    · rw [hus, List.map_map]
      have : ((fun u : InfAdoptedUser Op => u.id) ∘ fun u =>
          if algorithm.local_users.any (fun l => decide (l.user = u.id)) then
            { (if u.id = request.user_id then { u with request_log := log } else u) with
              vector := inf_adopted_state_vector_add algorithm.current request.user_id 1 }
          else (if u.id = request.user_id then { u with request_log := log } else u)) =
          fun u => u.id := by
        funext u
        simp only [Function.comp]
        split <;> split <;> rfl
      rw [this]
      exact hnodup
    · intro u' hu'
      rw [hus] at hu'
      obtain ⟨u, hmem, rfl⟩ := List.mem_map.mp hu'
      rw [hcur]
      simp only
      have hlk := lookup_mem _ _ _ hu
      by_cases hid : u.id = request.user_id
      · have : u = user := eq_of_nodup_ids _ hnodup u user hmem hlk.1 (hid.trans hlk.2.symm)
        subst this
        have h1 := hinv u hmem
        split <;> simp [hid, get_add, hend] <;> rw [← hid, h1]
      · have h1 := hinv u hmem
        split <;> simp [hid, get_add, h1]

end CurrentMatchesLogs

section Drain

variable {Op Buf : Type}

theorem receive_request_pass_ok (fuel : Nat) (O : InfAdoptedOperationClass Op Buf)
    (algorithm algorithm' : InfAdoptedAlgorithm Op Buf) (items : List (InfAdoptedRequest Op))
    (index : Nat)
    (h : receive_request_pass fuel O algorithm items index = .ok (some algorithm')) :
    ∃ k queued_request executed,
      items.get? k = some queued_request ∧
      (∀ j r, j < k → items.get? j = some r →
        inf_adopted_state_vector_causally_before r.vector algorithm.current = false) ∧
      inf_adopted_state_vector_causally_before queued_request.vector algorithm.current = true ∧
      inf_adopted_algorithm_execute_request fuel O algorithm queued_request true = .ok executed ∧
      algorithm' = { executed with queue := executed.queue.eraseIdx (index + k) } := by
  induction items generalizing index with
  | nil => simp [receive_request_pass] at h
  | cons q rest ih =>
    unfold receive_request_pass at h
    simp only [inf_adopted_request_get_vector] at h
    cases hcb : inf_adopted_state_vector_causally_before q.vector algorithm.current with
    | true =>
      simp only [hcb, if_true] at h
      cases he : inf_adopted_algorithm_execute_request fuel O algorithm q true with
      | error e => simp [he] at h
      | ok executed =>
        simp only [he, Except.ok.injEq, Option.some.injEq] at h
        refine ⟨0, q, executed, rfl, ?_, hcb, he, ?_⟩
        · intro j r hj
          omega
        · simpa using h.symm
    | false =>
      simp only [hcb, Bool.false_eq_true, if_false] at h
      obtain ⟨k, qr, ex, h1, h2, h3, h4, h5⟩ := ih (index + 1) h
      refine ⟨k + 1, qr, ex, by simpa using h1, ?_, h3, h4, ?_⟩
      · intro j r hj hr
        cases j with
        | zero =>
          simp at hr
          subst hr
          exact hcb
        | succ j => exact h2 j r (by omega) (by simpa using hr)
      · rw [h5]
        congr 2
        omega

theorem receive_request_pass_none (fuel : Nat) (O : InfAdoptedOperationClass Op Buf)
    (algorithm : InfAdoptedAlgorithm Op Buf) (items : List (InfAdoptedRequest Op))
    (index : Nat)
    (h : receive_request_pass fuel O algorithm items index = .ok none) :
    ∀ r ∈ items,
      inf_adopted_state_vector_causally_before r.vector algorithm.current = false := by
  induction items generalizing index with
  | nil => simp
  | cons q rest ih =>
    unfold receive_request_pass at h
    simp only [inf_adopted_request_get_vector] at h
    cases hcb : inf_adopted_state_vector_causally_before q.vector algorithm.current with
    | true =>
      simp only [hcb, if_true] at h
      cases he : inf_adopted_algorithm_execute_request fuel O algorithm q true with
      | error e => simp [he] at h
      | ok executed => simp [he] at h
    | false =>
      simp only [hcb, Bool.false_eq_true, if_false] at h
      intro r hr
      rcases List.mem_cons.mp hr with rfl | hr
      · exact hcb
      · exact ih (index + 1) h r hr

/-- An induction principle for the drain loop: a property kept by every execution
and by unlinking a queue item holds after the loop. -/
theorem receive_request_drain_induction (fuel : Nat) (O : InfAdoptedOperationClass Op Buf)
    (Q : InfAdoptedAlgorithm Op Buf → Prop)
    (hexec : ∀ a r a', Q a →
      inf_adopted_algorithm_execute_request fuel O a r true = .ok a' → Q a')
    (hqueue : ∀ (a : InfAdoptedAlgorithm Op Buf) q, Q a → Q { a with queue := q })
    (count : Nat) (algorithm algorithm' : InfAdoptedAlgorithm Op Buf)
    (h : receive_request_drain fuel O count algorithm = .ok algorithm')
    (hQ : Q algorithm) : Q algorithm' := by
  induction count generalizing algorithm with
  | zero => simp [receive_request_drain] at h
  | succ count ih =>
    unfold receive_request_drain at h
    cases hp : receive_request_pass fuel O algorithm algorithm.queue 0 with
    | error e => simp [hp] at h
    | ok res =>
      cases res with
      | none =>
        simp only [hp, Except.ok.injEq] at h
        subst h
        exact hQ
      | some mid =>
        simp only [hp] at h
        obtain ⟨k, qr, ex, _, _, _, h4, h5⟩ := receive_request_pass_ok fuel O _ _ _ _ hp
        apply ih mid h
        rw [h5]
        exact hqueue _ _ (hexec _ _ _ hQ h4)

end Drain

section CurrentMatchesLogs2

variable {Op Buf : Type}

theorem update_logs_and_undo_redo_current_matches_logs
    (algorithm algorithm' : InfAdoptedAlgorithm Op Buf)
    (h : update_logs_and_undo_redo algorithm = .ok algorithm')
    (hP : (algorithm.users.map (fun u => u.id)).Nodup ∧ current_matches_logs algorithm) :
    (algorithm'.users.map (fun u => u.id)).Nodup ∧ current_matches_logs algorithm' := by
  obtain ⟨h1, h2, _⟩ := update_logs_and_undo_redo_frame algorithm algorithm' h
  exact ⟨by rw [ids_of_summary _ _ h1]; exact hP.1,
    current_matches_logs_congr algorithm algorithm' h1 h2 hP.2⟩

theorem generate_execute_current_matches_logs (fuel : Nat) (O : InfAdoptedOperationClass Op Buf)
    (algorithm algorithm' : InfAdoptedAlgorithm Op Buf) (request : InfAdoptedRequest Op)
    (apply : Bool) (r : Option (InfAdoptedRequest Op))
    (h : generate_execute fuel O algorithm request apply = .ok (r, algorithm'))
    (hP : (algorithm.users.map (fun u => u.id)).Nodup ∧ current_matches_logs algorithm) :
    current_matches_logs algorithm' := by
  unfold generate_execute at h
  cases he : inf_adopted_algorithm_execute_request fuel O algorithm request apply with
  | error e => simp [he] at h
  | ok mid =>
    simp only [he] at h
    cases hu : update_logs_and_undo_redo mid with
    | error e => simp [hu] at h
    | ok fin =>
      simp only [hu, Except.ok.injEq, Prod.mk.injEq] at h
      rw [← h.2]
      exact (update_logs_and_undo_redo_current_matches_logs mid fin hu
        (execute_request_current_matches_logs fuel O algorithm mid request apply hP.1 hP.2 he)).2

/-- C2: `current[p] = end(L(p))` for every known participant p is an invariant of
execute_request, for apply = TRUE and FALSE and for Do, Undo and Redo requests, and
hence holds after every generate_request, generate_request_noexec, generate_undo,
generate_redo and receive_request call (the ids of the user table are distinct). -/
theorem current_matches_logs_invariant (fuel : Nat) (O : InfAdoptedOperationClass Op Buf)
    (algorithm : InfAdoptedAlgorithm Op Buf)
    (hnodup : (algorithm.users.map (fun u => u.id)).Nodup)
    (hinv : current_matches_logs algorithm) :
    (∀ request apply algorithm',
      inf_adopted_algorithm_execute_request fuel O algorithm request apply = .ok algorithm' →
      current_matches_logs algorithm') ∧
    (∀ user operation r algorithm',
      inf_adopted_algorithm_generate_request fuel O algorithm user operation
        = .ok (r, algorithm') → current_matches_logs algorithm') ∧
    (∀ user operation r algorithm',
      inf_adopted_algorithm_generate_request_noexec fuel O algorithm user operation
        = .ok (r, algorithm') → current_matches_logs algorithm') ∧
    (∀ user r algorithm',
      inf_adopted_algorithm_generate_undo fuel O algorithm user = .ok (r, algorithm') →
      current_matches_logs algorithm') ∧
    (∀ user r algorithm',
      inf_adopted_algorithm_generate_redo fuel O algorithm user = .ok (r, algorithm') →
      current_matches_logs algorithm') ∧
    (∀ request accepted algorithm',
      inf_adopted_algorithm_receive_request fuel O algorithm request
        = .ok (accepted, algorithm') → current_matches_logs algorithm') := by
  have hP : (algorithm.users.map (fun u => u.id)).Nodup ∧ current_matches_logs algorithm :=
    ⟨hnodup, hinv⟩
  refine ⟨?_, ?_, ?_, ?_, ?_, ?_⟩
  · intro request apply algorithm' h
    exact (execute_request_current_matches_logs fuel O algorithm algorithm' request apply
      hnodup hinv h).2
  · intro user operation r algorithm' h
    unfold inf_adopted_algorithm_generate_request at h
    cases hu : inf_user_table_lookup_user_by_id algorithm.users user with
    | none => simp [hu] at h; rw [← h.2]; exact hinv
    | some u =>
      simp only [hu] at h
      cases hl : u.flags_local with
      | false => simp [hl] at h; rw [← h.2]; exact hinv
      | true =>
        simp only [hl, Bool.true_eq_false, if_false] at h
        exact generate_execute_current_matches_logs fuel O _ _ _ _ _ h hP
  · intro user operation r algorithm' h
    unfold inf_adopted_algorithm_generate_request_noexec at h
    cases hu : inf_user_table_lookup_user_by_id algorithm.users user with
    | none => simp [hu] at h; rw [← h.2]; exact hinv
    | some u =>
      simp only [hu] at h
      cases hl : u.flags_local with
      | false => simp [hl] at h; rw [← h.2]; exact hinv
      | true =>
        simp only [hl, Bool.true_eq_false, if_false] at h
        exact generate_execute_current_matches_logs fuel O _ _ _ _ _ h hP
  · intro user r algorithm' h
    unfold inf_adopted_algorithm_generate_undo at h
    cases hu : inf_user_table_lookup_user_by_id algorithm.users user with
    | none => simp [hu] at h; rw [← h.2]; exact hinv
    | some u =>
      simp only [hu] at h
      cases hl : u.flags_local with
      | false => simp [hl] at h; rw [← h.2]; exact hinv
      | true =>
        simp only [hl, Bool.true_eq_false, if_false] at h
        cases hc : inf_adopted_algorithm_can_undo algorithm user with
        | false => simp [hc] at h; rw [← h.2]; exact hinv
        | true =>
          simp only [hc, Bool.true_eq_false, if_false] at h
          exact generate_execute_current_matches_logs fuel O _ _ _ _ _ h hP
  · intro user r algorithm' h
    unfold inf_adopted_algorithm_generate_redo at h
    cases hu : inf_user_table_lookup_user_by_id algorithm.users user with
    | none => simp [hu] at h; rw [← h.2]; exact hinv
    | some u =>
      simp only [hu] at h
      cases hl : u.flags_local with
      | false => simp [hl] at h; rw [← h.2]; exact hinv
      | true =>
        simp only [hl, Bool.true_eq_false, if_false] at h
        cases hc : inf_adopted_algorithm_can_redo algorithm user with
        | false => simp [hc] at h; rw [← h.2]; exact hinv
        | true =>
          simp only [hc, Bool.true_eq_false, if_false] at h
          exact generate_execute_current_matches_logs fuel O _ _ _ _ _ h hP
  · intro request accepted algorithm' h
    unfold inf_adopted_algorithm_receive_request at h
    simp only [inf_adopted_request_get_user_id, inf_adopted_request_get_vector,
      inf_adopted_state_vector_copy] at h
    cases hu : inf_user_table_lookup_user_by_id algorithm.users request.user_id with
    | none => simp [hu] at h; rw [← h.2]; exact hinv
    | some u =>
      simp only [hu] at h
      cases hl : u.flags_local with
      | true => simp [hl] at h; rw [← h.2]; exact hinv
      | false =>
        simp only [hl, Bool.false_eq_true, if_false] at h
        -- the state after the update of the recorded vector
        generalize hmid : (if inf_adopted_state_vector_causally_before u.vector request.vector
            = true then
            { algorithm with
              users := inf_adopted_user_set_vector algorithm.users u.id
                (if inf_adopted_request_affects_buffer O request = true then
                  inf_adopted_state_vector_add request.vector u.id 1
                else request.vector) }
          else algorithm) = mid at h
        have hPmid : (mid.users.map (fun u => u.id)).Nodup ∧ current_matches_logs mid := by
          rw [← hmid]
          split
          · have hs : ∀ v, (inf_adopted_user_set_vector algorithm.users u.id v).map
                (fun u => (u.id, inf_adopted_request_log_get_end u.request_log)) =
                algorithm.users.map
                  (fun u => (u.id, inf_adopted_request_log_get_end u.request_log)) :=
              fun v => update_user_map_eq _ _ _ _ (fun _ => rfl)
            have hi : ∀ v, (inf_adopted_user_set_vector algorithm.users u.id v).map
                (fun u => u.id) = algorithm.users.map (fun u => u.id) :=
              fun v => update_user_map_eq _ _ _ _ (fun _ => rfl)
            refine ⟨by simp only [hi]; exact hnodup, ?_⟩
            intro u' hu'
            have hm := List.mem_map_of_mem
              (fun u => (u.id, inf_adopted_request_log_get_end u.request_log)) hu'
            simp only [hs] at hm
            obtain ⟨u0, hu0, he⟩ := List.mem_map.mp hm
            simp only [Prod.mk.injEq] at he
            rw [← he.1, ← he.2]
            exact hinv u0 hu0
          · exact hP
        cases hq : inf_adopted_state_vector_causally_before request.vector mid.current with
        | false =>
          simp only [hq] at h
          cases ht : update_logs_and_undo_redo { mid with queue := request :: mid.queue } with
          | error e => simp [ht] at h
          | ok fin =>
            simp only [ht, if_true, Except.ok.injEq, Prod.mk.injEq] at h
            rw [← h.2]
            exact (update_logs_and_undo_redo_current_matches_logs _ fin ht hPmid).2
        | true =>
          simp only [hq, Bool.true_eq_false, if_false] at h
          cases he : inf_adopted_algorithm_execute_request fuel O mid request true with
          | error e => simp [he] at h
          | ok ex =>
            simp only [he] at h
            cases hd : receive_request_drain fuel O (ex.queue.length + 1) ex with
            | error e => simp [hd] at h
            | ok dr =>
              simp only [hd] at h
              cases ht : update_logs_and_undo_redo dr with
              | error e => simp [ht] at h
              | ok fin =>
                simp only [ht, Except.ok.injEq, Prod.mk.injEq] at h
                rw [← h.2]
                have hPex := execute_request_current_matches_logs fuel O mid ex request true
                  hPmid.1 hPmid.2 he
                have hexec : ∀ (a : InfAdoptedAlgorithm Op Buf) r a',
                    ((a.users.map (fun u => u.id)).Nodup ∧ current_matches_logs a) →
                    inf_adopted_algorithm_execute_request fuel O a r true = .ok a' →
                    ((a'.users.map (fun u => u.id)).Nodup ∧ current_matches_logs a') :=
                  fun a r a' hQ hx =>
                    execute_request_current_matches_logs fuel O a a' r true hQ.1 hQ.2 hx
                have hqueue : ∀ (a : InfAdoptedAlgorithm Op Buf) (q : List (InfAdoptedRequest Op)),
                    ((a.users.map (fun u => u.id)).Nodup ∧ current_matches_logs a) →
                    ((a.users.map (fun u => u.id)).Nodup ∧
                      current_matches_logs
                        ({ a with queue := q } : InfAdoptedAlgorithm Op Buf)) :=
                  fun a q hQ => hQ
                have hPdr := receive_request_drain_induction fuel O
                  (fun a : InfAdoptedAlgorithm Op Buf =>
                    (a.users.map (fun u => u.id)).Nodup ∧ current_matches_logs a)
                  hexec hqueue _ ex dr hd hPex
                exact (update_logs_and_undo_redo_current_matches_logs dr fin ht hPdr).2

end CurrentMatchesLogs2

/-- C2 on the sample session: after local user 1 generates a Do, and after an Undo
of it is executed with apply = FALSE, current matches the log ends. -/
theorem current_matches_logs_invariant_witness :
    current_matches_logs sample_after_do ∧
    current_matches_logs (state_of sample_after_do
      (inf_adopted_algorithm_execute_request 8 CounterOperation sample_after_do
        (inf_adopted_request_new_undo sample_after_do.current 1) false)) :=
  ⟨(current_matches_logs_invariant 8 CounterOperation sample_algorithm (by decide)
      (by unfold current_matches_logs; decide)).2.1 1 5
      (some (inf_adopted_request_new_do sample_algorithm.current 1 5)) sample_after_do rfl,
    (current_matches_logs_invariant 8 CounterOperation sample_after_do (by decide)
      (by unfold current_matches_logs; decide)).1
      (inf_adopted_request_new_undo sample_after_do.current 1) false _ rfl⟩


/-! ## The recorded vector of the issuer of a received request -/

section RecordedVector

variable {Op Buf : Type}

theorem lookup_map_users (users : List (InfAdoptedUser Op))
    (g : InfAdoptedUser Op → InfAdoptedUser Op) (hg : ∀ u, (g u).id = u.id) (id : Nat) :
    inf_user_table_lookup_user_by_id (users.map g) id =
      (inf_user_table_lookup_user_by_id users id).map g := by
  induction users with
  | nil => rfl
  | cons u rest ih =>
    unfold inf_user_table_lookup_user_by_id at ih ⊢
    by_cases h : u.id = id
    · simp [List.find?, hg, h]
    · simp [List.find?, hg, h, ih]

theorem lookup_summary (users users' : List (InfAdoptedUser Op))
    (h : users'.map user_summary = users.map user_summary) (id : Nat) :
    (inf_user_table_lookup_user_by_id users' id).map user_summary =
      (inf_user_table_lookup_user_by_id users id).map user_summary := by
  induction users generalizing users' with
  | nil =>
    cases users' with
    | nil => rfl
    | cons a b => simp at h
  | cons u rest ih =>
    cases users' with
    | nil => simp at h
    | cons u' rest' =>
      simp only [List.map_cons, List.cons.injEq] at h
      have hid : u'.id = u.id := by
        have := congrArg Prod.fst h.1
        simpa [user_summary] using this
      unfold inf_user_table_lookup_user_by_id at ih ⊢
      by_cases hu : u.id = id
      · simp [List.find?, hid, hu, h.1]
      · simp [List.find?, hid, hu]
        exact ih rest' h.2

theorem set_vector_ids (users : List (InfAdoptedUser Op)) (id : Nat)
    (v : InfAdoptedStateVector) :
    (inf_adopted_user_set_vector users id v).map (fun u => u.id) = users.map (fun u => u.id) :=
  update_user_map_eq (fun u => u.id) users id _ (fun _ => rfl)

theorem lookup_set_vector (users : List (InfAdoptedUser Op)) (id : Nat)
    (v : InfAdoptedStateVector) (j : Nat) :
    inf_user_table_lookup_user_by_id (inf_adopted_user_set_vector users id v) j =
      if j = id then (inf_user_table_lookup_user_by_id users j).map
        (fun u => { u with vector := v })
      else inf_user_table_lookup_user_by_id users j :=
  lookup_update_user users id j _ (fun _ => rfl)

/-- The recorded vector of a user without local record survives an execution. -/
theorem execute_request_keeps_vector (fuel : Nat) (O : InfAdoptedOperationClass Op Buf)
    (algorithm algorithm' : InfAdoptedAlgorithm Op Buf) (request : InfAdoptedRequest Op)
    (apply : Bool) (id : Nat) (v : InfAdoptedStateVector)
    (hnodup : (algorithm.users.map (fun u => u.id)).Nodup)
    (hrec : algorithm.local_users.any (fun l => decide (l.user = id)) = false)
    (hv : (inf_user_table_lookup_user_by_id algorithm.users id).map (fun u => u.vector) = some v)
    (h : inf_adopted_algorithm_execute_request fuel O algorithm request apply = .ok algorithm') :
    algorithm'.local_users = algorithm.local_users ∧
      (inf_user_table_lookup_user_by_id algorithm'.users id).map (fun u => u.vector) = some v := by
  obtain ⟨user, log_request, translated, recorded, _, hu, _, _, hrec', hres⟩ :=
    execute_request_ok fuel O algorithm algorithm' request apply h
  subst hres
  obtain ⟨_, hloc, _, _, _, husers⟩ :=
    execute_request_result_frame O algorithm request apply user translated recorded
  refine ⟨hloc, ?_⟩
  cases recorded with
  | none => rw [husers rfl]; exact hv
  | some log =>
    rw [execute_request_result_users O algorithm request apply user translated log hnodup]
    rw [lookup_map_users]
    · cases hl : inf_user_table_lookup_user_by_id algorithm.users id with
      | none => simp [hl] at hv
      | some u0 =>
        have hid := (lookup_mem _ _ _ hl).2
        simp only [hl, Option.map_some', Option.some.injEq] at hv ⊢
        rw [hid, hrec]
        simp only [Bool.false_eq_true, if_false]
        split <;> exact hv
    · intro u
      split <;> split <;> rfl

theorem update_logs_and_undo_redo_keeps_vector
    (algorithm algorithm' : InfAdoptedAlgorithm Op Buf) (id : Nat) (v : InfAdoptedStateVector)
    (hv : (inf_user_table_lookup_user_by_id algorithm.users id).map (fun u => u.vector) = some v)
    (h : update_logs_and_undo_redo algorithm = .ok algorithm') :
    (inf_user_table_lookup_user_by_id algorithm'.users id).map (fun u => u.vector) = some v := by
  obtain ⟨h1, _⟩ := update_logs_and_undo_redo_frame algorithm algorithm' h
  have h2 := lookup_summary _ _ h1 id
  have h3 := congrArg (Option.map (fun s : Nat × Bool × InfAdoptedStateVector × Nat => s.2.2.1)) h2
  simp only [Option.map_map] at h3
  have hf : ((fun s : Nat × Bool × InfAdoptedStateVector × Nat => s.2.2.1) ∘ user_summary) =
      fun u : InfAdoptedUser Op => u.vector := by
    funext u
    rfl
  rw [hf] at h3
  rw [h3]
  exact hv

/-- C10 (amended): receive_request replaces the recorded vector of the issuer P
exactly when P's recorded vector is causally before the request's vector, equality
included; the new recorded vector is the request's vector with P's own component
increased by one if the request affects the buffer and not increased otherwise; in
every other case the recorded vector is left unchanged. (P is a known non-local user
without local record, the ids of the user table are distinct.) -/
theorem receive_request_recorded_vector (fuel : Nat) (O : InfAdoptedOperationClass Op Buf)
    (algorithm algorithm' : InfAdoptedAlgorithm Op Buf) (request : InfAdoptedRequest Op)
    (user : InfAdoptedUser Op) (accepted : Bool)
    (hnodup : (algorithm.users.map (fun u => u.id)).Nodup)
    (hu : inf_user_table_lookup_user_by_id algorithm.users request.user_id = some user)
    (hnl : user.flags_local = false)
    (hrec : algorithm.local_users.any (fun l => decide (l.user = request.user_id)) = false)
    (h : inf_adopted_algorithm_receive_request fuel O algorithm request
      = .ok (accepted, algorithm')) :
    (inf_user_table_lookup_user_by_id algorithm'.users request.user_id).map (fun u => u.vector) =
      some (if inf_adopted_state_vector_causally_before user.vector request.vector then
          (if inf_adopted_request_affects_buffer O request then
            inf_adopted_state_vector_add request.vector request.user_id 1
          else request.vector)
        else user.vector) := by
  have huid := (lookup_mem _ _ _ hu).2
  unfold inf_adopted_algorithm_receive_request at h
  simp only [inf_adopted_request_get_user_id, inf_adopted_request_get_vector,
    inf_adopted_state_vector_copy, hu, hnl, Bool.false_eq_true, if_false, huid] at h
  generalize hX : (if inf_adopted_state_vector_causally_before user.vector request.vector then
          (if inf_adopted_request_affects_buffer O request then
            inf_adopted_state_vector_add request.vector request.user_id 1
          else request.vector)
        else user.vector) = X
  generalize hmid : (if inf_adopted_state_vector_causally_before user.vector request.vector
      = true then
      { algorithm with
        users := inf_adopted_user_set_vector algorithm.users request.user_id
          (if inf_adopted_request_affects_buffer O request = true then
            inf_adopted_state_vector_add request.vector request.user_id 1
          else request.vector) }
    else algorithm) = mid at h
  have hmidP : (mid.users.map (fun u => u.id)).Nodup ∧ mid.local_users = algorithm.local_users ∧
      (inf_user_table_lookup_user_by_id mid.users request.user_id).map (fun u => u.vector)
        = some X := by
    rw [← hmid, ← hX]
    split
    · refine ⟨?_, rfl, ?_⟩
      · show ((inf_adopted_user_set_vector algorithm.users request.user_id _).map
            (fun u => u.id)).Nodup
        rw [set_vector_ids]
        exact hnodup
      · show (inf_user_table_lookup_user_by_id
            (inf_adopted_user_set_vector algorithm.users request.user_id _)
            request.user_id).map (fun u => u.vector) = _
        rw [lookup_set_vector]
        simp [hu]
    · exact ⟨hnodup, rfl, by simp [hu]⟩
  have hexec : ∀ (a : InfAdoptedAlgorithm Op Buf) r a',
      ((a.users.map (fun u => u.id)).Nodup ∧ a.local_users = algorithm.local_users ∧
        (inf_user_table_lookup_user_by_id a.users request.user_id).map (fun u => u.vector)
          = some X) →
      inf_adopted_algorithm_execute_request fuel O a r true = .ok a' →
      ((a'.users.map (fun u => u.id)).Nodup ∧ a'.local_users = algorithm.local_users ∧
        (inf_user_table_lookup_user_by_id a'.users request.user_id).map (fun u => u.vector)
          = some X) := by
    intro a r a' hQ hx
    obtain ⟨k1, k2⟩ := execute_request_keeps_vector fuel O a a' r true request.user_id X hQ.1
      (by rw [hQ.2.1]; exact hrec) hQ.2.2 hx
    refine ⟨?_, by rw [k1]; exact hQ.2.1, k2⟩
    obtain ⟨user2, lr, tr, recd, _, _, _, _, _, hres⟩ := execute_request_ok fuel O a a' r true hx
    subst hres
    cases recd with
    | none =>
      rw [(execute_request_result_frame O a r true user2 tr none).2.2.2.2.2 rfl]
      exact hQ.1
    | some log =>
      rw [execute_request_result_users O a r true user2 tr log hQ.1, List.map_map]
      have : ((fun u : InfAdoptedUser Op => u.id) ∘ fun u =>
          if a.local_users.any (fun l => decide (l.user = u.id)) then
            { (if u.id = r.user_id then { u with request_log := log } else u) with
              vector := inf_adopted_state_vector_add a.current r.user_id 1 }
          else (if u.id = r.user_id then { u with request_log := log } else u)) =
          fun u => u.id := by
        funext u
        simp only [Function.comp]
        split <;> split <;> rfl
      rw [this]
      exact hQ.1
  cases hq : inf_adopted_state_vector_causally_before request.vector mid.current with
  | false =>
    simp only [hq] at h
    cases ht : update_logs_and_undo_redo { mid with queue := request :: mid.queue } with
    | error e => simp [ht] at h
    | ok fin =>
      simp only [ht, if_true, Except.ok.injEq, Prod.mk.injEq] at h
      rw [← h.2]
      exact update_logs_and_undo_redo_keeps_vector
        ({ mid with queue := request :: mid.queue } : InfAdoptedAlgorithm Op Buf) fin _ X
        hmidP.2.2 ht
  | true =>
    simp only [hq, Bool.true_eq_false, if_false] at h
    cases he : inf_adopted_algorithm_execute_request fuel O mid request true with
    | error e => simp [he] at h
    | ok ex =>
      simp only [he] at h
      cases hd : receive_request_drain fuel O (ex.queue.length + 1) ex with
      | error e => simp [hd] at h
      | ok dr =>
        simp only [hd] at h
        cases ht : update_logs_and_undo_redo dr with
        | error e => simp [ht] at h
        | ok fin =>
          simp only [ht, Except.ok.injEq, Prod.mk.injEq] at h
          rw [← h.2]
          have hqueue : ∀ (a : InfAdoptedAlgorithm Op Buf) (q : List (InfAdoptedRequest Op)),
              ((a.users.map (fun u => u.id)).Nodup ∧ a.local_users = algorithm.local_users ∧
                (inf_user_table_lookup_user_by_id a.users request.user_id).map
                  (fun u => u.vector) = some X) →
              ((a.users.map (fun u => u.id)).Nodup ∧
                ({ a with queue := q } : InfAdoptedAlgorithm Op Buf).local_users
                  = algorithm.local_users ∧
                (inf_user_table_lookup_user_by_id a.users request.user_id).map
                  (fun u => u.vector) = some X) :=
            fun a q hQ => hQ
          have hPdr := receive_request_drain_induction fuel O
            (fun a : InfAdoptedAlgorithm Op Buf =>
              (a.users.map (fun u => u.id)).Nodup ∧ a.local_users = algorithm.local_users ∧
                (inf_user_table_lookup_user_by_id a.users request.user_id).map
                  (fun u => u.vector) = some X)
            hexec hqueue _ ex dr hd (hexec mid request ex hmidP he)
          exact update_logs_and_undo_redo_keeps_vector dr fin _ X hPdr.2.2 ht

end RecordedVector

/-- C10 as stated fails: the recorded vector of remote user 2 equals the vector of
its second request (so the request's vector is not strictly newer), and still
receive_request replaces the recorded vector: its own component goes from 1 to 2. -/
theorem receive_request_recorded_vector_counterexample :
    ∃ user algorithm' user',
      inf_user_table_lookup_user_by_id sample_after_remote.users 2 = some user ∧
      inf_adopted_state_vector_compare user.vector sample_remote_second.vector = 0 ∧
      inf_adopted_algorithm_receive_request 8 CounterOperation sample_after_remote
        sample_remote_second = .ok (true, algorithm') ∧
      inf_user_table_lookup_user_by_id algorithm'.users 2 = some user' ∧
      inf_adopted_state_vector_get user.vector 2 = 1 ∧
      inf_adopted_state_vector_get user'.vector 2 = 2 :=
  ⟨_, _, _, rfl, by decide, rfl, rfl, by decide, by decide⟩

/-- C10 (amended) on the sample session: the second request of remote user 2 moves
the recorded vector of user 2 to the request's vector plus one tick of user 2. -/
theorem receive_request_recorded_vector_witness :
    (inf_user_table_lookup_user_by_id
        (state_after sample_after_remote
          (inf_adopted_algorithm_receive_request 8 CounterOperation sample_after_remote
            sample_remote_second)).users 2).map (fun u => u.vector) =
      some (inf_adopted_state_vector_add sample_remote_second.vector 2 1) :=
  receive_request_recorded_vector 8 CounterOperation sample_after_remote _ sample_remote_second
    _ true (by decide) rfl rfl (by decide) rfl

/-! ## Garbage collection of the logs: the blocker search -/

section BlockerSearch

variable {Op Buf : Type}

theorem guint_sub_small (a b : Nat) (h1 : b ≤ a) (h2 : a < GUINT_MOD) :
    guint_sub a b = a - b := by
  unfold guint_sub
  unfold GUINT_MOD at h2 ⊢
  omega

theorem get_request_in_range (log : InfAdoptedRequestLog Op) (q : Nat)
    (h1 : log.log_begin ≤ q) (h2 : q < log.log_begin + log.entries.length) :
    ∃ r, inf_adopted_request_log_get_request log q = some r := by
  unfold inf_adopted_request_log_get_request inf_adopted_request_log_get_entry
  simp only [h1, if_true]
  have hlt : q - log.log_begin < log.entries.length := by omega
  rw [List.get?_eq_get hlt]
  exact ⟨_, rfl⟩

/-- The binary search of find_blockers: it ends with begin = end inside the log,
the request below the final begin (if any) was probed and has a component that is at
most upper_comp; on a log whose components are the slot numbers the final begin is
upper_comp + 1. -/
theorem find_blockers_search_spec (log : InfAdoptedRequestLog Op) (p c : Nat) (own : Prop)
    (hsize : 2 * (log.log_begin + log.entries.length) < GUINT_MOD)
    (hown : own → ∀ i r, inf_adopted_request_log_get_request log i = some r →
      inf_adopted_state_vector_get r.vector p = i) :
    ∀ (count b e : Nat) (vec : Option InfAdoptedStateVector),
      log.log_begin ≤ b → b ≤ e → e ≤ log.log_begin + log.entries.length → e - b ≤ count →
      (log.log_begin < b →
        (∃ r, inf_adopted_request_log_get_request log (b - 1) = some r ∧
          inf_adopted_state_vector_get r.vector p ≤ c) ∨
        ((∃ r, inf_adopted_request_log_get_request log b = some r ∧
          inf_adopted_state_vector_get r.vector p ≤ c) ∧ b < e)) →
      (own → b ≤ c + 1 ∧ c < e) →
      ∃ b' vec', find_blockers_search log p c count b e vec = .ok (b', b', vec') ∧
        log.log_begin ≤ b' ∧ b' ≤ log.log_begin + log.entries.length ∧
        (log.log_begin < b' →
          ∃ r, inf_adopted_request_log_get_request log (b' - 1) = some r ∧
            inf_adopted_state_vector_get r.vector p ≤ c) ∧
        (own → b' = c + 1) ∧ (b < e → vec'.isSome = true) ∧ (b = e → vec' = vec) := by
  intro count
  induction count with
  | zero =>
    intro b e vec hb hbe he hcount htest hmono
    have heq : b = e := by omega
    subst heq
    refine ⟨b, vec, by simp [find_blockers_search], hb, he, ?_, ?_, by simp, by simp⟩
    · intro hlt
      rcases htest hlt with h | h
      · exact h
      · exact absurd h.2 (Nat.lt_irrefl _)
    · intro ho
      have := hmono ho
      omega
  | succ count ih =>
    intro b e vec hb hbe he hcount htest hmono
    unfold find_blockers_search
    by_cases hlt : b < e
    · simp only [hlt, if_true]
      have hM : b + e < GUINT_MOD := by omega
      have hq : guint_add b e / 2 = (b + e) / 2 := by
        unfold guint_add
        rw [Nat.mod_eq_of_lt hM]
      have hb1 : guint_add b 1 = b + 1 := guint_add_small _ _ (by omega)
      have he1 : guint_sub e 1 = e - 1 := guint_sub_small _ _ (by omega) (by omega)
      rw [hq, hb1, he1]
      have hqb : b ≤ (b + e) / 2 := by omega
      have hqe : (b + e) / 2 < e := by omega
      obtain ⟨cand, hcand⟩ := get_request_in_range log ((b + e) / 2) (by omega) (by omega)
      simp only [hcand, inf_adopted_request_get_vector]
      have hmin : min ((b + e) / 2) (e - 1) = (b + e) / 2 := min_eq_left (by omega)
      rw [hmin]
      clear hmin
      by_cases hle : inf_adopted_state_vector_get cand.vector p ≤ c
      · simp only [hle, if_true]
        by_cases hqeq : (b + e) / 2 = b
        · have hmax : max ((b + e) / 2) (b + 1) = b + 1 := max_eq_right (by omega)
          rw [hmax]
          clear hmax
          have hstep := ih (b + 1) e (some cand.vector)
            (by omega) (by omega) he (by omega)
            (by
              intro _
              left
              refine ⟨cand, ?_, hle⟩
              have : b + 1 - 1 = (b + e) / 2 := by omega
              rw [this]
              exact hcand)
            (by
              intro ho
              have hm := hmono ho
              have hv := hown ho _ _ hcand
              omega)
          obtain ⟨b', vec', h1, h2, h3, h4, h5, h6, h7⟩ := hstep
          refine ⟨b', vec', h1, h2, h3, h4, h5, ?_, ?_⟩
          · intro _
            by_cases hme : b + 1 < e
            · exact h6 hme
            · have : b + 1 = e := by omega
              rw [h7 this]
              rfl
          · intro hbe'
            omega
        · have hmax : max ((b + e) / 2) (b + 1) = (b + e) / 2 := max_eq_left (by omega)
          rw [hmax]
          clear hmax
          have hstep := ih ((b + e) / 2) e (some cand.vector)
            (by omega) (by omega) he (by omega)
            (by
              intro _
              right
              exact ⟨⟨cand, hcand, hle⟩, hqe⟩)
            (by
              intro ho
              have hm := hmono ho
              have hv := hown ho _ _ hcand
              omega)
          obtain ⟨b', vec', h1, h2, h3, h4, h5, h6, h7⟩ := hstep
          refine ⟨b', vec', h1, h2, h3, h4, h5, ?_, ?_⟩
          · intro _
            exact h6 hqe
          · intro hbe'
            omega
      · simp only [hle, if_false]
        have hstep := ih b ((b + e) / 2) (some cand.vector)
          hb (by omega) (by omega) (by omega)
          (by
            intro hlb
            rcases htest hlb with h | h
            · left; exact h
            · right
              refine ⟨h.1, ?_⟩
              obtain ⟨r, hr, hrc⟩ := h.1
              have hne : (b + e) / 2 ≠ b := by
                intro heq
                rw [heq, hr] at hcand
                cases hcand
                exact hle hrc
              omega)
          (by
            intro ho
            have hm := hmono ho
            have hv := hown ho _ _ hcand
            omega)
        obtain ⟨b', vec', h1, h2, h3, h4, h5, h6, h7⟩ := hstep
        refine ⟨b', vec', h1, h2, h3, h4, h5, ?_, ?_⟩
        · intro _
          by_cases hme : b < (b + e) / 2
          · exact h6 hme
          · have : b = (b + e) / 2 := by omega
            rw [h7 this]
            rfl
        · intro hbe'
          omega
    · have heq : b = e := by omega
      subst heq
      simp only [Nat.lt_irrefl, if_false]
      refine ⟨b, vec, rfl, hb, he, ?_, ?_, by simp, by simp⟩
      · intro hlt'
        rcases htest hlt' with h | h
        · exact h
        · exact absurd h.2 (Nat.lt_irrefl _)
      · intro ho
        have := hmono ho
        omega

end BlockerSearch

section Blockers

variable {Op Buf : Type}

theorem get_request_indexed (log : InfAdoptedRequestLog Op) (hlog : log_indexed log)
    (i : Nat) (r : InfAdoptedRequest Op)
    (h : inf_adopted_request_log_get_request log i = some r) :
    request_slot r = i ∧ r.user_id = log.user_id ∧ log.log_begin ≤ i ∧
      i < log.log_begin + log.entries.length := by
  unfold inf_adopted_request_log_get_request inf_adopted_request_log_get_entry at h
  by_cases hb : log.log_begin ≤ i
  · simp only [hb, if_true, List.get?_eq_getElem?] at h
    cases he : log.entries[i - log.log_begin]? with
    | none => rw [he] at h; simp at h
    | some e =>
      rw [he] at h
      simp only [Option.map_some', Option.some.injEq] at h
      have hlt : i - log.log_begin < log.entries.length := by
        rw [List.getElem?_eq_some] at he
        exact he.1
      have hmem : e ∈ log.entries := List.getElem?_mem he
      have hslot := congrArg (fun l => l[i - log.log_begin]?) hlog.1
      simp only [List.getElem?_map, he, Option.map_some'] at hslot
      rw [List.getElem?_range' _ _ hlt] at hslot
      simp only [Option.some.injEq, Nat.one_mul] at hslot
      subst h
      refine ⟨by rw [hslot]; omega, hlog.2.1 e hmem, hb, by omega⟩
  · simp [hb] at h

theorem log_indexed_end (log : InfAdoptedRequestLog Op) (hlog : log_indexed log) :
    inf_adopted_request_log_get_end log = log.log_begin + log.entries.length := by
  unfold inf_adopted_request_log_get_end
  exact guint_add_small _ _ (by have := hlog.2.2; omega)

/-- The loop of find_blockers over the users returns; blockers found earlier are
kept, and a log that is indexed by the component searched for and holds the slot
`upper_comp` contributes a blocker. -/
theorem find_blockers_users_spec (p c : Nat) (users : List (InfAdoptedUser Op))
    (blockers : List (InfAdoptedRequest Op))
    (hlogs : ∀ u ∈ users, log_indexed u.request_log) :
    ∃ blockers', find_blockers_users p c users blockers = .ok blockers' ∧
      (blockers ≠ [] → blockers' ≠ []) ∧
      ((∃ u ∈ users, u.request_log.user_id = p ∧
        ∃ r, inf_adopted_request_log_get_request u.request_log c = some r) →
        blockers' ≠ []) := by
  induction users generalizing blockers with
  | nil =>
    refine ⟨blockers, rfl, id, ?_⟩
    rintro ⟨u, hu, _⟩
    simp at hu
  | cons u rest ih =>
    have hlog := hlogs u (List.mem_cons_self _ _)
    have hrest : ∀ u ∈ rest, log_indexed u.request_log :=
      fun x hx => hlogs x (List.mem_cons_of_mem _ hx)
    have hend := log_indexed_end _ hlog
    unfold find_blockers_users
    simp only [inf_adopted_request_log_get_begin, hend]
    have hsearch := find_blockers_search_spec u.request_log p c
      (u.request_log.user_id = p ∧
        ∃ r, inf_adopted_request_log_get_request u.request_log c = some r)
      (by have := hlog.2.2; omega)
      (by
        rintro ⟨hp, _⟩ i r hr
        have := get_request_indexed _ hlog i r hr
        rw [← this.1, ← hp, ← this.2.1]
        rfl)
      (u.request_log.log_begin + u.request_log.entries.length - u.request_log.log_begin)
      u.request_log.log_begin (u.request_log.log_begin + u.request_log.entries.length) none
      (Nat.le_refl _) (by omega) (Nat.le_refl _) (Nat.le_refl _)
      (by intro h; exact absurd h (Nat.lt_irrefl _))
      (by
        rintro ⟨_, r, hr⟩
        have := get_request_indexed _ hlog c r hr
        omega)
    obtain ⟨b', vec', hs, hb1, hb2, htested, hownres, hsome, _⟩ := hsearch
    rw [hs]
    simp only
    by_cases hcond : (vec'.isSome && decide (b' > u.request_log.log_begin)) = true
    · simp only [hcond, if_true]
      simp only [Bool.and_eq_true, decide_eq_true_eq] at hcond
      have hsub : guint_sub b' 1 = b' - 1 :=
        guint_sub_small _ _ (by omega) (by have := hlog.2.2; omega)
      rw [hsub]
      obtain ⟨r, hr, hrc⟩ := htested hcond.2
      simp only [hr, inf_adopted_request_get_vector, hrc, if_true]
      obtain ⟨blockers', h1, h2, _⟩ := ih (r :: blockers) hrest
      exact ⟨blockers', h1, fun _ => h2 (by simp), fun _ => h2 (by simp)⟩
    · simp only [hcond]
      obtain ⟨blockers', h1, h2, h3⟩ := ih blockers hrest
      refine ⟨blockers', h1, h2, ?_⟩
      rintro ⟨u0, hu0, hp, r, hr⟩
      rcases List.mem_cons.mp hu0 with rfl | hmem
      · exfalso
        apply hcond
        have hrange := get_request_indexed _ hlog c r hr
        have hb := hownres ⟨hp, r, hr⟩
        have hv := hsome (by omega)
        simp only [Bool.and_eq_true, decide_eq_true_eq]
        exact ⟨hv, by omega⟩
      · exact h3 ⟨u0, hmem, hp, r, hr⟩

/-- A scheduled removal whose newest request lies in the indexed log of its
issuer. -/
theorem find_blockers_spec (algorithm : InfAdoptedAlgorithm Op Buf)
    (hlogs : ∀ u ∈ algorithm.users, log_indexed u.request_log)
    (removals : List (InfAdoptedAlgorithmLogRemoval Op))
    (hrem : ∀ removal ∈ removals, ∃ u ∈ algorithm.users,
      u.request_log.user_id = removal.upper.user_id ∧
      ∃ r, inf_adopted_request_log_get_request u.request_log
        (request_slot removal.upper) = some r) :
    ∃ removals', inf_adopted_algorithm_find_blockers algorithm removals = .ok removals' ∧
      ∀ removal ∈ removals', removal.blockers ≠ [] := by
  induction removals with
  | nil => exact ⟨[], rfl, by simp⟩
  | cons removal rest ih =>
    unfold inf_adopted_algorithm_find_blockers
    simp only [inf_adopted_request_get_user_id, inf_adopted_request_get_vector]
    obtain ⟨blockers', h1, _, h3⟩ := find_blockers_users_spec removal.upper.user_id
      (inf_adopted_state_vector_get removal.upper.vector removal.upper.user_id)
      algorithm.users removal.blockers hlogs
    obtain ⟨rest', h4, h5⟩ := ih (fun r hr => hrem r (List.mem_cons_of_mem _ hr))
    rw [h1]
    simp only [h4]
    refine ⟨_, rfl, ?_⟩
    intro r hr
    rcases List.mem_cons.mp hr with rfl | hr
    · exact h3 (hrem removal (List.mem_cons_self _ _))
    · exact h5 r hr

theorem perform_removals_blocked (algorithm : InfAdoptedAlgorithm Op Buf)
    (removals : List (InfAdoptedAlgorithmLogRemoval Op))
    (h : ∀ removal ∈ removals, removal.blockers ≠ []) :
    inf_adopted_algorithm_perform_removals algorithm removals = algorithm := by
  induction removals with
  | nil => rfl
  | cons removal rest ih =>
    unfold inf_adopted_algorithm_perform_removals
    have hb : removal.blockers.isEmpty = false := by
      have := h removal (List.mem_cons_self _ _)
      cases hbl : removal.blockers with
      | nil => exact absurd hbl this
      | cons a b => rfl
    simp only [hb, Bool.false_eq_true, if_false]
    exact ih (fun r hr => h r (List.mem_cons_of_mem _ hr))

end Blockers

section Removals

variable {Op Buf : Type}

theorem create_removals_vdiff_total (algorithm : InfAdoptedAlgorithm Op Buf)
    (request : InfAdoptedRequest Op) (users : List (InfAdoptedUser Op)) (vdiff min_vdiff : Nat) :
    ∃ res, create_removals_vdiff algorithm request users vdiff min_vdiff = .ok res := by
  induction users generalizing vdiff min_vdiff with
  | nil => exact ⟨_, rfl⟩
  | cons u rest ih =>
    unfold create_removals_vdiff
    simp only [inf_adopted_request_get_vector]
    cases hcb : inf_adopted_state_vector_causally_before request.vector u.vector with
    | false => simp only [Bool.false_eq_true, if_false]; exact ih _ _
    | true =>
      simp only [if_true, inf_adopted_algorithm_state_vector_vdiff, hcb]
      exact ih _ _

theorem upper_related_walk_range (rest : List (InfAdoptedRequestLogEntry Op)) (n cur : Nat)
    (h : cur < n) :
    cur ≤ upper_related_walk rest n cur ∧ upper_related_walk rest n cur < n + rest.length := by
  induction rest generalizing n cur with
  | nil => simp [upper_related_walk]; omega
  | cons e rest ih =>
    unfold upper_related_walk
    split
    · have := ih (n + 1) n (by omega)
      simp only [List.length_cons]
      omega
    · have := ih (n + 1) cur (by omega)
      simp only [List.length_cons]
      omega

theorem upper_related_spec (log : InfAdoptedRequestLog Op) (hlog : log_indexed log)
    (request : InfAdoptedRequest Op)
    (h : inf_adopted_request_log_get_request log log.log_begin = some request) :
    ∃ upper, inf_adopted_request_log_upper_related log request = some upper ∧
      upper.user_id = log.user_id ∧
      inf_adopted_request_log_get_request log (request_slot upper) = some upper := by
  have hidx := get_request_indexed log hlog _ _ h
  unfold inf_adopted_request_log_upper_related
  simp only [hidx.1]
  have hentry : ∃ e, inf_adopted_request_log_get_entry log log.log_begin = some e := by
    unfold inf_adopted_request_log_get_request at h
    cases he : inf_adopted_request_log_get_entry log log.log_begin with
    | none => simp [he] at h
    | some e => exact ⟨e, rfl⟩
  obtain ⟨e, he⟩ := hentry
  simp only [he]
  have hw := upper_related_walk_range (log.entries.drop (log.log_begin + 1 - log.log_begin))
    (log.log_begin + 1) log.log_begin (by omega)
  simp only [List.length_drop] at hw
  obtain ⟨upper, hup⟩ := get_request_in_range log
    (upper_related_walk (log.entries.drop (log.log_begin + 1 - log.log_begin))
      (log.log_begin + 1) log.log_begin) hw.1 (by omega)
  refine ⟨upper, hup, ?_⟩
  have hi := get_request_indexed log hlog _ _ hup
  exact ⟨hi.2.1, by rw [hi.1]; exact hup⟩

theorem create_removals_users_spec (algorithm : InfAdoptedAlgorithm Op Buf)
    (users : List (InfAdoptedUser Op)) (vdiff : Nat)
    (result : List (InfAdoptedAlgorithmLogRemoval Op))
    (husers : ∀ u ∈ users, u ∈ algorithm.users ∧ log_indexed u.request_log)
    (hres : ∀ removal ∈ result, ∃ u ∈ algorithm.users,
      u.request_log.user_id = removal.upper.user_id ∧
      ∃ r, inf_adopted_request_log_get_request u.request_log
        (request_slot removal.upper) = some r) :
    ∃ result', create_removals_users algorithm users vdiff result = .ok result' ∧
      ∀ removal ∈ result', ∃ u ∈ algorithm.users,
        u.request_log.user_id = removal.upper.user_id ∧
        ∃ r, inf_adopted_request_log_get_request u.request_log
          (request_slot removal.upper) = some r := by
  induction users generalizing vdiff result with
  | nil => exact ⟨result, rfl, hres⟩
  | cons u rest ih =>
    have hu := husers u (List.mem_cons_self _ _)
    have hrest : ∀ x ∈ rest, x ∈ algorithm.users ∧ log_indexed x.request_log :=
      fun x hx => husers x (List.mem_cons_of_mem _ hx)
    unfold create_removals_users
    simp only [inf_adopted_request_log_get_begin, log_indexed_end _ hu.2]
    by_cases hempty : u.request_log.log_begin =
        u.request_log.log_begin + u.request_log.entries.length
    · simp only [hempty.symm, if_true]
      exact ih _ _ hrest hres
    · simp only [hempty, if_false]
      obtain ⟨request, hreq⟩ := get_request_in_range u.request_log u.request_log.log_begin
        (Nat.le_refl _) (by omega)
      simp only [hreq]
      obtain ⟨res, hvd⟩ := create_removals_vdiff_total algorithm request algorithm.users
        vdiff G_MAXUINT
      rw [hvd]
      simp only
      split
      · obtain ⟨upper, hup, hid, hget⟩ := upper_related_spec _ hu.2 request hreq
        simp only [hup]
        apply ih _ _ hrest
        intro removal hr
        rcases List.mem_cons.mp hr with rfl | hr
        · exact ⟨u, hu.1, hid.symm, upper, hget⟩
        · exact hres removal hr
      · exact ih _ _ hrest hres

/-- With logs indexed by their owner's component, every scheduled removal is
blocked by its own newest request, and update_request_logs returns the state
unchanged. -/
theorem update_request_logs_indexed (algorithm : InfAdoptedAlgorithm Op Buf)
    (hlogs : logs_indexed algorithm) :
    inf_adopted_algorithm_update_request_logs algorithm = .ok algorithm := by
  unfold inf_adopted_algorithm_update_request_logs inf_adopted_algorithm_create_removals
  obtain ⟨result, h1, h2⟩ := create_removals_users_spec algorithm algorithm.users 0 []
    (fun u hu => ⟨hu, (hlogs u hu).2⟩) (by simp)
  rw [h1]
  simp only
  obtain ⟨removals, h3, h4⟩ := find_blockers_spec algorithm (fun u hu => (hlogs u hu).2)
    result h2
  rw [h3]
  simp only
  rw [perform_removals_blocked algorithm removals h4]

end Removals

/-! ## Totality of the closing maintenance steps -/

section Maintenance

variable {Op Buf : Type}

theorem can_undo_redo_total (algorithm : InfAdoptedAlgorithm Op Buf)
    (log : InfAdoptedRequestLog Op) (target : Option (InfAdoptedRequest Op))
    (h : target_ready algorithm log target = true) :
    ∃ b, inf_adopted_algorithm_can_undo_redo algorithm log target = .ok b := by
  unfold inf_adopted_algorithm_can_undo_redo
  cases target with
  | none => exact ⟨false, rfl⟩
  | some request =>
    simp only
    by_cases hm : algorithm.max_total_log_size > 0
    · simp only [hm, if_true]
      unfold target_ready at h
      simp only [Bool.or_eq_true, beq_iff_eq] at h
      rcases h with h | h
      · omega
      · cases ho : inf_adopted_request_log_original_request log request with
        | none => simp [ho] at h
        | some original =>
          simp only [ho] at h
          simp only [inf_adopted_algorithm_state_vector_vdiff, inf_adopted_request_get_vector,
            h, if_true]
          split <;> exact ⟨_, rfl⟩
    · simp only [hm, if_false]
      exact ⟨true, rfl⟩

/-- The readiness of the availability check only depends on the users, on
current, on the log bound and on the users named by the local records. -/
theorem undo_redo_ready_congr (a a' : InfAdoptedAlgorithm Op Buf)
    (h1 : a'.users = a.users) (h2 : a'.current = a.current)
    (h3 : a'.max_total_log_size = a.max_total_log_size)
    (h4 : a'.local_users.map (fun l => l.user) = a.local_users.map (fun l => l.user))
    (h : undo_redo_ready a = true) : undo_redo_ready a' = true := by
  unfold undo_redo_ready at h ⊢
  rw [List.all_eq_true] at h ⊢
  intro l' hl'
  have hm : l'.user ∈ a.local_users.map (fun l => l.user) := by
    rw [← h4]
    exact List.mem_map_of_mem _ hl'
  obtain ⟨l, hl, he⟩ := List.mem_map.mp hm
  have := h l hl
  have he' : l.user = l'.user := he
  rw [he'] at this
  rw [h1]
  cases hlk : inf_user_table_lookup_user_by_id a.users l'.user with
  | none => simp [hlk] at this
  | some u0 =>
    simp only [hlk] at this ⊢
    unfold target_ready at this ⊢
    rw [h2, h3]
    exact this

theorem update_undo_redo_loop_total (count index : Nat)
    (algorithm : InfAdoptedAlgorithm Op Buf) (hready : undo_redo_ready algorithm = true) :
    ∃ algorithm', update_undo_redo_loop count index algorithm = .ok algorithm' := by
  induction count generalizing index algorithm with
  | zero => exact ⟨algorithm, rfl⟩
  | succ count ih =>
    unfold update_undo_redo_loop
    cases hl : algorithm.local_users.get? index with
    | none => exact ⟨algorithm, rfl⟩
    | some local_ =>
      simp only
      have hr := hready
      unfold undo_redo_ready at hr
      rw [List.all_eq_true] at hr
      have hr := hr local_ (List.get?_mem hl)
      cases hu : inf_user_table_lookup_user_by_id algorithm.users local_.user with
      | none => simp [hu] at hr
      | some user =>
        simp only [hu, Bool.and_eq_true] at hr ⊢
        obtain ⟨can_undo, h1⟩ := can_undo_redo_total algorithm user.request_log _ hr.1
        obtain ⟨can_redo, h2⟩ := can_undo_redo_total algorithm user.request_log _ hr.2
        simp only [h1, h2]
        apply ih
        have hflags : ∀ (ls : List InfAdoptedAlgorithmLocalUser)
            (g : InfAdoptedAlgorithmLocalUser → InfAdoptedAlgorithmLocalUser),
            (∀ l, (g l).user = l.user) →
            (ls.map g).map (fun l => l.user) = ls.map (fun l => l.user) := by
          intro ls g hg
          rw [List.map_map]
          apply List.map_congr_left
          intro l _
          exact hg l
        have hundo : ∀ (x : InfAdoptedAlgorithm Op Buf) (v : Bool),
            undo_redo_ready x = true →
            undo_redo_ready (emit_can_undo_changed x local_.user v) = true :=
          fun x v hx => undo_redo_ready_congr x (emit_can_undo_changed x local_.user v)
            rfl rfl rfl (hflags _ _ (fun l => by split <;> rfl)) hx
        have hredo : ∀ (x : InfAdoptedAlgorithm Op Buf) (v : Bool),
            undo_redo_ready x = true →
            undo_redo_ready (emit_can_redo_changed x local_.user v) = true :=
          fun x v hx => undo_redo_ready_congr x (emit_can_redo_changed x local_.user v)
            rfl rfl rfl (hflags _ _ (fun l => by split <;> rfl)) hx
        have step1 : undo_redo_ready
            (if local_.can_undo ≠ can_undo then
              emit_can_undo_changed algorithm local_.user can_undo else algorithm) = true := by
          split
          · exact hundo _ _ hready
          · exact hready
        split
        · exact hredo _ _ step1
        · exact step1

/-- With indexed logs and checkable Undo / Redo targets the closing steps
`update_request_logs` and `update_undo_redo` return. -/
theorem update_logs_and_undo_redo_total (algorithm : InfAdoptedAlgorithm Op Buf)
    (hlogs : logs_indexed algorithm) (hready : undo_redo_ready algorithm = true) :
    ∃ algorithm', update_logs_and_undo_redo algorithm = .ok algorithm' := by
  unfold update_logs_and_undo_redo
  rw [update_request_logs_indexed algorithm hlogs]
  exact update_undo_redo_loop_total _ _ algorithm hready

end Maintenance

/-! ## Premature receipt -/

section Premature

variable {Op Buf : Type}

theorem set_vector_logs (users : List (InfAdoptedUser Op)) (id : Nat)
    (v : InfAdoptedStateVector) :
    (inf_adopted_user_set_vector users id v).map (fun u => (u.id, u.request_log)) =
      users.map (fun u => (u.id, u.request_log)) :=
  update_user_map_eq (fun u => (u.id, u.request_log)) users id _ (fun _ => rfl)

theorem logs_indexed_congr (algorithm algorithm' : InfAdoptedAlgorithm Op Buf)
    (h : algorithm'.users.map (fun u => (u.id, u.request_log)) =
      algorithm.users.map (fun u => (u.id, u.request_log)))
    (hlogs : logs_indexed algorithm) : logs_indexed algorithm' := by
  intro u' hu'
  have hm := List.mem_map_of_mem (fun u => (u.id, u.request_log)) hu'
  rw [h] at hm
  obtain ⟨u, hu, he⟩ := List.mem_map.mp hm
  simp only [Prod.mk.injEq] at he
  rw [← he.1, ← he.2]
  exact hlogs u hu

theorem undo_redo_ready_set_vector (algorithm : InfAdoptedAlgorithm Op Buf) (id : Nat)
    (v : InfAdoptedStateVector) (q : List (InfAdoptedRequest Op))
    (h : undo_redo_ready algorithm = true) :
    undo_redo_ready
      ({ algorithm with
          users := inf_adopted_user_set_vector algorithm.users id v
          queue := q } : InfAdoptedAlgorithm Op Buf) = true := by
  unfold undo_redo_ready at h ⊢
  rw [List.all_eq_true] at h ⊢
  intro l hl
  have := h l hl
  simp only [lookup_set_vector]
  cases hlk : inf_user_table_lookup_user_by_id algorithm.users l.user with
  | none => simp [hlk] at this
  | some u =>
    simp only [hlk] at this
    by_cases hji : l.user = id
    · simp only [hji, if_true, Option.map_some']
      exact this
    · simp only [hji, if_false]
      exact this

/-- C7: premature receipt. A request of a known non-local user whose vector is
not causally before current is not executed: receive_request succeeds, the queue
grows by exactly that request, current and the buffer are unchanged and no
apply-request is emitted (logs indexed by their owner's component, targets of the
availability check resolvable). -/
theorem receive_request_premature (fuel : Nat) (O : InfAdoptedOperationClass Op Buf)
    (algorithm : InfAdoptedAlgorithm Op Buf) (request : InfAdoptedRequest Op)
    (user : InfAdoptedUser Op)
    (hu : inf_user_table_lookup_user_by_id algorithm.users request.user_id = some user)
    (hnl : user.flags_local = false)
    (hpre : inf_adopted_state_vector_causally_before request.vector algorithm.current = false)
    (hlogs : logs_indexed algorithm) (hready : undo_redo_ready algorithm = true) :
    ∃ algorithm',
      inf_adopted_algorithm_receive_request fuel O algorithm request = .ok (true, algorithm') ∧
      algorithm'.queue = request :: algorithm.queue ∧
      algorithm'.current = algorithm.current ∧
      algorithm'.buffer = algorithm.buffer ∧
      applied_requests algorithm'.emitted = applied_requests algorithm.emitted := by
  have huid := (lookup_mem _ _ _ hu).2
  unfold inf_adopted_algorithm_receive_request
  simp only [inf_adopted_request_get_user_id, inf_adopted_request_get_vector,
    inf_adopted_state_vector_copy, hu, hnl, Bool.false_eq_true, if_false, huid]
  by_cases hcb : inf_adopted_state_vector_causally_before user.vector request.vector = true
  · simp only [hcb, if_true, hpre]
    have hl : logs_indexed
        ({ algorithm with
            users := inf_adopted_user_set_vector algorithm.users request.user_id
              (if inf_adopted_request_affects_buffer O request = true then
                inf_adopted_state_vector_add request.vector request.user_id 1
              else request.vector)
            queue := request :: algorithm.queue } : InfAdoptedAlgorithm Op Buf) :=
      logs_indexed_congr algorithm _ (set_vector_logs _ _ _) hlogs
    obtain ⟨fin, hfin⟩ := update_logs_and_undo_redo_total _ hl
      (undo_redo_ready_set_vector algorithm _ _ _ hready)
    obtain ⟨_, f2, f3, f4, f5, _⟩ := update_logs_and_undo_redo_frame _ fin hfin
    simp only [hfin]
    exact ⟨fin, rfl, f3, f2, f4, f5⟩
  · have hcb' : inf_adopted_state_vector_causally_before user.vector request.vector = false := by
      simpa using hcb
    simp only [hcb', Bool.false_eq_true, if_false, if_true, hpre]
    have hl : logs_indexed
        ({ algorithm with queue := request :: algorithm.queue } : InfAdoptedAlgorithm Op Buf) :=
      hlogs
    have hr : undo_redo_ready
        ({ algorithm with queue := request :: algorithm.queue } : InfAdoptedAlgorithm Op Buf)
        = true := hready
    obtain ⟨fin, hfin⟩ := update_logs_and_undo_redo_total _ hl hr
    obtain ⟨_, f2, f3, f4, f5, _⟩ := update_logs_and_undo_redo_frame _ fin hfin
    simp only [hfin]
    exact ⟨fin, rfl, f3, f2, f4, f5⟩

end Premature

/-- C7 on the fresh sample session: a request of remote user 2 that needs the
first request of user 3 is queued, nothing is executed. -/
theorem receive_request_premature_witness :
    ∃ algorithm',
      inf_adopted_algorithm_receive_request 8 CounterOperation sample_algorithm
        (inf_adopted_request_new_do [(3, 1)] 2 7) = .ok (true, algorithm') ∧
      algorithm'.queue = inf_adopted_request_new_do [(3, 1)] 2 7 :: sample_algorithm.queue ∧
      algorithm'.current = sample_algorithm.current ∧
      algorithm'.buffer = sample_algorithm.buffer ∧
      applied_requests algorithm'.emitted = applied_requests sample_algorithm.emitted :=
  receive_request_premature 8 CounterOperation sample_algorithm
    (inf_adopted_request_new_do [(3, 1)] 2 7) (sample_user 2 false) rfl rfl (by decide)
    (by unfold logs_indexed log_indexed; decide) (by decide)

/-! ## The vector of a translated request -/

section TranslateVector

variable {Op Buf : Type}

theorem guint_add_sub_cancel (a t : Nat) (ht : t < GUINT_MOD) :
    guint_add a (guint_sub t a) = t := by
  unfold guint_add guint_sub
  unfold GUINT_MOD at ht ⊢
  omega

theorem guint_pred_succ (n : Nat) (h0 : n ≠ 0) (hn : n < GUINT_MOD) :
    guint_add (n - 1) 1 = n := by
  unfold guint_add
  unfold GUINT_MOD at hn ⊢
  omega

theorem is_reachable_causally_before (fuel : Nat) (algorithm : InfAdoptedAlgorithm Op Buf)
    (v : InfAdoptedStateVector) (b : Bool)
    (h : inf_adopted_algorithm_is_reachable fuel algorithm v = .ok b) :
    inf_adopted_state_vector_causally_before v algorithm.current = true := by
  unfold inf_adopted_algorithm_is_reachable at h
  cases hcb : inf_adopted_state_vector_causally_before v algorithm.current with
  | true => rfl
  | false => simp [hcb] at h

/-- The vector after `inf_adopted_algorithm_transform_request`, when the
translation function it calls ends at its target and keeps the issuer. -/
theorem transform_request_with_vector
    (translate : InfAdoptedRequest Op → InfAdoptedStateVector →
      Except Failure (InfAdoptedRequest Op))
    (hspec : ∀ r t res, translate r t = .ok res →
      (∀ p, inf_adopted_state_vector_get res.vector p = inf_adopted_state_vector_get t p) ∧
        res.user_id = r.user_id)
    (O : InfAdoptedOperationClass Op Buf) (algorithm : InfAdoptedAlgorithm Op Buf)
    (request against : InfAdoptedRequest Op) (at_ : InfAdoptedStateVector)
    (res : InfAdoptedRequest Op)
    (h : transform_request_with translate O algorithm request against at_ = .ok res) :
    (∀ p, inf_adopted_state_vector_get res.vector p =
      inf_adopted_state_vector_get (inf_adopted_state_vector_add at_ against.user_id 1) p) ∧
      res.user_id = request.user_id := by
  unfold transform_request_with at h
  simp only [inf_adopted_request_get_vector, inf_adopted_request_copy] at h
  split at h
  · simp at h
  · split at h
    · simp at h
    · split at h
      · simp at h
      · cases h1 : translate against (inf_adopted_algorithm_least_common_successor algorithm
            request.vector against.vector) with
        | error e => simp [h1] at h
        | ok lcs_against =>
          simp only [h1] at h
          cases h2 : translate request (inf_adopted_algorithm_least_common_successor algorithm
              request.vector against.vector) with
          | error e => simp [h2] at h
          | ok lcs_request =>
            simp only [h2] at h
            cases h3 : translate lcs_against at_ with
            | error e => simp [h3] at h
            | ok against_copy =>
              simp only [h3] at h
              cases h4 : translate lcs_request at_ with
              | error e => simp [h4] at h
              | ok result =>
                simp only [h4, Except.ok.injEq] at h
                subst h
                have s1 := hspec _ _ _ h1
                have s2 := hspec _ _ _ h2
                have s3 := hspec _ _ _ h3
                have s4 := hspec _ _ _ h4
                have hag : against_copy.user_id = against.user_id := s3.2.trans s1.2
                refine ⟨?_, ?_⟩
                · intro p
                  simp only [inf_adopted_request_transform, get_add, hag, s4.1]
                · simp only [inf_adopted_request_transform]
                  exact s4.2.trans s2.2

end TranslateVector

section TranslateVector2

variable {Op Buf : Type}

theorem get_set_reset (v : InfAdoptedStateVector) (q x y p : Nat) :
    inf_adopted_state_vector_get
        (inf_adopted_state_vector_set (inf_adopted_state_vector_set v q x) q y) p =
      if p = q then y else inf_adopted_state_vector_get v p := by
  rw [get_set, get_set]
  split <;> rfl

/-- The first loop of translate_request: a result it returns has the target
vector and the issuer of the request; otherwise `v` again has the components of the
target. -/
theorem translate_request_first_loop_vector
    (translate : InfAdoptedRequest Op → InfAdoptedStateVector →
      Except Failure (InfAdoptedRequest Op))
    (hspec : ∀ r t res, translate r t = .ok res →
      (∀ p, inf_adopted_state_vector_get res.vector p = inf_adopted_state_vector_get t p) ∧
        res.user_id = r.user_id)
    (fuel : Nat) (O : InfAdoptedOperationClass Op Buf) (algorithm : InfAdoptedAlgorithm Op Buf)
    (request : InfAdoptedRequest Op) (to_ : InfAdoptedStateVector)
    (hto : ∀ p, inf_adopted_state_vector_get to_ p < GUINT_MOD)
    (users : List (InfAdoptedUser Op))
    (howner : ∀ u ∈ users, ∀ i r,
      inf_adopted_request_log_get_request u.request_log i = some r → r.user_id = u.id)
    (v : InfAdoptedStateVector)
    (hv : ∀ p, inf_adopted_state_vector_get v p = inf_adopted_state_vector_get to_ p)
    (res : Option (InfAdoptedRequest Op)) (v' : InfAdoptedStateVector)
    (h : translate_request_first_loop translate fuel O algorithm request to_ users v
      = .ok (res, v')) :
    (∀ r, res = some r →
      (∀ p, inf_adopted_state_vector_get r.vector p = inf_adopted_state_vector_get to_ p) ∧
        r.user_id = request.user_id) ∧
    (res = none →
      ∀ p, inf_adopted_state_vector_get v' p = inf_adopted_state_vector_get to_ p) := by
  induction users generalizing v with
  | nil =>
    simp only [translate_request_first_loop, Except.ok.injEq, Prod.mk.injEq] at h
    obtain ⟨h1, h2⟩ := h
    subst h1 h2
    exact ⟨fun r hr => (by cases hr), fun _ => hv⟩
  | cons user rest ih =>
    have hrest : ∀ u ∈ rest, ∀ i r,
        inf_adopted_request_log_get_request u.request_log i = some r → r.user_id = u.id :=
      fun u hu => howner u (List.mem_cons_of_mem _ hu)
    have huser := howner user (List.mem_cons_self _ _)
    unfold translate_request_first_loop at h
    simp only [inf_adopted_request_get_user_id, inf_adopted_request_get_vector,
      inf_adopted_request_get_request_type] at h
    by_cases hsame : user.id = request.user_id
    · simp only [hsame, if_true] at h
      exact ih hrest v hv h
    · simp only [hsame, if_false] at h
      by_cases hn : inf_adopted_state_vector_get v user.id = 0
      · simp only [hn, if_true] at h
        exact ih hrest v hv h
      · simp only [hn, if_false] at h
        cases hget : inf_adopted_request_log_get_request user.request_log
            (inf_adopted_state_vector_get v user.id - 1) with
        | none => simp [hget] at h
        | some associated =>
          simp only [hget] at h
          by_cases hdo : associated.type = InfAdoptedRequestType.DO
          · simp only [hdo, ne_eq, not_true_eq_false, if_false] at h
            by_cases hlt : inf_adopted_state_vector_get request.vector user.id <
                inf_adopted_state_vector_get to_ user.id
            · simp only [hlt, if_true] at h
              cases hr : inf_adopted_algorithm_is_reachable fuel algorithm
                  (inf_adopted_state_vector_set v user.id
                    (inf_adopted_state_vector_get v user.id - 1)) with
              | error e => simp [hr] at h
              | ok b =>
                cases b with
                | true =>
                  simp only [hr] at h
                  cases ht : transform_request_with translate O algorithm request associated
                      (inf_adopted_state_vector_set v user.id
                        (inf_adopted_state_vector_get v user.id - 1)) with
                  | error e => simp [ht] at h
                  | ok result =>
                    simp only [ht, Except.ok.injEq, Prod.mk.injEq] at h
                    obtain ⟨h1, _⟩ := h
                    subst h1
                    have hs := transform_request_with_vector translate hspec O algorithm
                      request associated _ result ht
                    have hq : associated.user_id = user.id := huser _ _ hget
                    refine ⟨?_, fun hnone => by cases hnone⟩
                    intro r hr
                    cases hr
                    refine ⟨?_, hs.2⟩
                    intro p
                    rw [hs.1 p, hq, get_add, get_set, get_set]
                    by_cases hp : p = user.id
                    · simp only [hp, if_true]
                      rw [guint_pred_succ _ hn (by rw [hv]; exact hto _), hv]
                    · simp only [hp, if_false]
                      exact hv p
                | false =>
                  simp only [hr] at h
                  apply ih hrest _ _ h
                  intro p
                  rw [get_set_reset]
                  by_cases hp : p = user.id
                  · simp only [hp, if_true]
                    exact hv _
                  · simp only [hp, if_false]
                    exact hv p
            · simp only [hlt, if_false] at h
              exact ih hrest v hv h
          · simp only [hdo, ne_eq, not_false_eq_true, if_true] at h
            cases hpa : inf_adopted_request_log_prev_associated user.request_log associated with
            | none => simp [hpa] at h
            | some assoc2 =>
              simp only [hpa] at h
              cases hr : inf_adopted_algorithm_is_reachable fuel algorithm
                  (inf_adopted_state_vector_set v user.id
                    (inf_adopted_state_vector_get assoc2.vector user.id)) with
              | error e => simp [hr] at h
              | ok b =>
                simp only [hr] at h
                by_cases hc : (b && inf_adopted_state_vector_causally_before request.vector
                    (inf_adopted_state_vector_set v user.id
                      (inf_adopted_state_vector_get assoc2.vector user.id))) = true
                · simp only [hc, if_true] at h
                  cases ht : translate request (inf_adopted_state_vector_set v user.id
                      (inf_adopted_state_vector_get assoc2.vector user.id)) with
                  | error e => simp [ht] at h
                  | ok result =>
                    simp only [ht, Except.ok.injEq, Prod.mk.injEq] at h
                    obtain ⟨h1, _⟩ := h
                    subst h1
                    have hs := hspec _ _ _ ht
                    refine ⟨?_, fun hnone => by cases hnone⟩
                    intro r hr
                    cases hr
                    refine ⟨?_, hs.2⟩
                    intro p
                    simp only [inf_adopted_request_fold, get_add, hs.1, get_set]
                    by_cases hp : p = user.id
                    · simp only [hp, if_true]
                      exact guint_add_sub_cancel _ _ (hto _)
                    · simp only [hp, if_false]
                      exact hv p
                · simp only [hc, if_false] at h
                  apply ih hrest _ _ h
                  intro p
                  rw [get_set_reset]
                  by_cases hp : p = user.id
                  · simp only [hp, if_true]
                  · simp only [hp, if_false]
                    exact hv p

end TranslateVector2

section TranslateVector3

variable {Op Buf : Type}

/-- The second loop of translate_request: as for the first loop. -/
theorem translate_request_second_loop_vector
    (translate : InfAdoptedRequest Op → InfAdoptedStateVector →
      Except Failure (InfAdoptedRequest Op))
    (hspec : ∀ r t res, translate r t = .ok res →
      (∀ p, inf_adopted_state_vector_get res.vector p = inf_adopted_state_vector_get t p) ∧
        res.user_id = r.user_id)
    (fuel : Nat) (O : InfAdoptedOperationClass Op Buf) (algorithm : InfAdoptedAlgorithm Op Buf)
    (request : InfAdoptedRequest Op) (to_ : InfAdoptedStateVector)
    (hto : ∀ p, inf_adopted_state_vector_get to_ p < GUINT_MOD)
    (users : List (InfAdoptedUser Op))
    (howner : ∀ u ∈ users, ∀ i r,
      inf_adopted_request_log_get_request u.request_log i = some r → r.user_id = u.id)
    (v : InfAdoptedStateVector)
    (hv : ∀ p, inf_adopted_state_vector_get v p = inf_adopted_state_vector_get to_ p)
    (res : Option (InfAdoptedRequest Op)) (v' : InfAdoptedStateVector)
    (h : translate_request_second_loop translate fuel O algorithm request to_ users v
      = .ok (res, v')) :
    ∀ r, res = some r →
      (∀ p, inf_adopted_state_vector_get r.vector p = inf_adopted_state_vector_get to_ p) ∧
        r.user_id = request.user_id := by
  induction users generalizing v with
  | nil =>
    simp only [translate_request_second_loop, Except.ok.injEq, Prod.mk.injEq] at h
    obtain ⟨h1, _⟩ := h
    subst h1
    intro r hr
    cases hr
  | cons user rest ih =>
    have hrest : ∀ u ∈ rest, ∀ i r,
        inf_adopted_request_log_get_request u.request_log i = some r → r.user_id = u.id :=
      fun u hu => howner u (List.mem_cons_of_mem _ hu)
    have huser := howner user (List.mem_cons_self _ _)
    unfold translate_request_second_loop at h
    simp only [inf_adopted_request_get_user_id, inf_adopted_request_get_vector] at h
    by_cases hsame : user.id = request.user_id
    · simp only [hsame, if_true] at h
      exact ih hrest v hv h
    · simp only [hsame, if_false] at h
      by_cases hn : inf_adopted_state_vector_get v user.id = 0
      · simp only [hn, if_true] at h
        exact ih hrest v hv h
      · simp only [hn, if_false] at h
        by_cases hlt : inf_adopted_state_vector_get request.vector user.id <
            inf_adopted_state_vector_get to_ user.id
        · simp only [hlt, if_true] at h
          cases hr : inf_adopted_algorithm_is_reachable fuel algorithm
              (inf_adopted_state_vector_set v user.id
                (inf_adopted_state_vector_get v user.id - 1)) with
          | error e => simp [hr] at h
          | ok b =>
            cases b with
            | true =>
              simp only [hr] at h
              cases hget : inf_adopted_request_log_get_request user.request_log
                  (inf_adopted_state_vector_get v user.id - 1) with
              | none => simp [hget] at h
              | some associated =>
                simp only [hget] at h
                cases ht : transform_request_with translate O algorithm request associated
                    (inf_adopted_state_vector_set v user.id
                      (inf_adopted_state_vector_get v user.id - 1)) with
                | error e => simp [ht] at h
                | ok result =>
                  simp only [ht, Except.ok.injEq, Prod.mk.injEq] at h
                  obtain ⟨h1, _⟩ := h
                  subst h1
                  have hs := transform_request_with_vector translate hspec O algorithm
                    request associated _ result ht
                  have hq : associated.user_id = user.id := huser _ _ hget
                  intro r hr'
                  cases hr'
                  refine ⟨?_, hs.2⟩
                  intro p
                  rw [hs.1 p, hq, get_add, get_set, get_set]
                  by_cases hp : p = user.id
                  · simp only [hp, if_true]
                    rw [guint_pred_succ _ hn (by rw [hv]; exact hto _), hv]
                  · simp only [hp, if_false]
                    exact hv p
            | false =>
              simp only [hr] at h
              apply ih hrest _ _ h
              intro p
              rw [get_set_reset]
              by_cases hp : p = user.id
              · simp only [hp, if_true]
                exact hv _
              · simp only [hp, if_false]
                exact hv p
        · simp only [hlt, if_false] at h
          exact ih hrest v hv h

theorem prev_associated_owner (log : InfAdoptedRequestLog Op) (request r : InfAdoptedRequest Op)
    (h : inf_adopted_request_log_prev_associated log request = some r) :
    ∃ i, inf_adopted_request_log_get_request log i = some r := by
  unfold inf_adopted_request_log_prev_associated at h
  cases hs : prev_associated_slot log request with
  | none => simp [hs] at h
  | some n =>
    simp only [hs] at h
    exact ⟨n, h⟩

/-- The body of translate_request returns a request at the target vector that
keeps the issuer, when its recursive calls do. -/
theorem translate_request_body_vector
    (translate : InfAdoptedRequest Op → InfAdoptedStateVector →
      Except Failure (InfAdoptedRequest Op))
    (hspec : ∀ r t res, translate r t = .ok res →
      (∀ p, inf_adopted_state_vector_get res.vector p = inf_adopted_state_vector_get t p) ∧
        res.user_id = r.user_id)
    (fuel : Nat) (O : InfAdoptedOperationClass Op Buf) (algorithm : InfAdoptedAlgorithm Op Buf)
    (howner : ∀ u ∈ algorithm.users, ∀ i r,
      inf_adopted_request_log_get_request u.request_log i = some r → r.user_id = u.id)
    (hcur : ∀ p, inf_adopted_state_vector_get algorithm.current p < GUINT_MOD)
    (request : InfAdoptedRequest Op) (to_ : InfAdoptedStateVector)
    (result : InfAdoptedRequest Op)
    (h : translate_request_body translate fuel O algorithm request to_ = .ok result) :
    (∀ p, inf_adopted_state_vector_get result.vector p = inf_adopted_state_vector_get to_ p) ∧
      result.user_id = request.user_id := by
  have hloops : ∀ v, (∀ p, inf_adopted_state_vector_get v p = inf_adopted_state_vector_get to_ p) →
      (∀ p, inf_adopted_state_vector_get to_ p < GUINT_MOD) →
      translate_request_loops translate fuel O algorithm request to_ v = .ok result →
      (∀ p, inf_adopted_state_vector_get result.vector p = inf_adopted_state_vector_get to_ p) ∧
        result.user_id = request.user_id := by
    intro v hv hto hl
    unfold translate_request_loops at hl
    cases h1 : translate_request_first_loop translate fuel O algorithm request to_
        algorithm.users v with
    | error e => simp [h1] at hl
    | ok pr =>
      obtain ⟨res1, v1⟩ := pr
      have s1 := translate_request_first_loop_vector translate hspec fuel O algorithm request
        to_ hto algorithm.users howner v hv res1 v1 h1
      cases res1 with
      | some r1 =>
        simp only [h1, Except.ok.injEq] at hl
        subst hl
        exact s1.1 r1 rfl
      | none =>
        simp only [h1] at hl
        cases h2 : translate_request_second_loop translate fuel O algorithm request to_
            algorithm.users v1 with
        | error e => simp [h2] at hl
        | ok pr2 =>
          obtain ⟨res2, v2⟩ := pr2
          have s2 := translate_request_second_loop_vector translate hspec fuel O algorithm
            request to_ hto algorithm.users howner v1 (s1.2 rfl) res2 v2 h2
          cases res2 with
          | some r2 =>
            simp only [h2, Except.ok.injEq] at hl
            subst hl
            exact s2 r2 rfl
          | none => simp [h2] at hl
  unfold translate_request_body at h
  simp only [inf_adopted_request_get_user_id, inf_adopted_request_get_vector,
    inf_adopted_request_get_request_type, inf_adopted_state_vector_copy,
    inf_adopted_request_copy] at h
  cases hu : inf_user_table_lookup_user_by_id algorithm.users request.user_id with
  | none => simp [hu] at h
  | some user =>
    simp only [hu] at h
    have hmem := lookup_mem _ _ _ hu
    cases ho : inf_adopted_request_log_original_request user.request_log request with
    | none => simp [ho] at h
    | some original =>
      simp only [ho] at h
      cases hc1 : inf_adopted_state_vector_causally_before to_ algorithm.current with
      | false => simp [hc1] at h
      | true =>
        simp only [hc1, Bool.not_true, Bool.false_eq_true, if_false] at h
        have hto : ∀ p, inf_adopted_state_vector_get to_ p < GUINT_MOD := by
          intro p
          have := (causally_before_iff _ _).mp hc1 p
          have := hcur p
          omega
        cases hc2 : inf_adopted_state_vector_causally_before original.vector to_ with
        | false => simp [hc2] at h
        | true =>
          simp only [hc2, Bool.not_true, Bool.false_eq_true, if_false] at h
          cases hr : inf_adopted_algorithm_is_reachable fuel algorithm to_ with
          | error e => simp [hr] at h
          | ok b =>
            cases b with
            | false => simp [hr] at h
            | true =>
              simp only [hr] at h
              by_cases hdo : request.type = InfAdoptedRequestType.DO
              · simp only [hdo, ne_eq, not_true_eq_false, if_false] at h
                by_cases hcmp : inf_adopted_state_vector_compare request.vector to_ = 0
                · simp only [hcmp, if_true, Except.ok.injEq] at h
                  subst h
                  exact ⟨(compare_eq_zero_iff _ _).mp hcmp, rfl⟩
                · simp only [hcmp, if_false] at h
                  exact hloops to_ (fun _ => rfl) hto h
              · simp only [hdo, ne_eq, not_false_eq_true, if_true] at h
                cases hpa : inf_adopted_request_log_prev_associated user.request_log request with
                | none => simp [hpa] at h
                | some associated =>
                  simp only [hpa] at h
                  cases hr2 : inf_adopted_algorithm_is_reachable fuel algorithm
                      (inf_adopted_state_vector_set to_ request.user_id
                        (inf_adopted_state_vector_get associated.vector request.user_id)) with
                  | error e => simp [hr2] at h
                  | ok b2 =>
                    cases b2 with
                    | true =>
                      simp only [hr2] at h
                      cases ht : translate associated
                          (inf_adopted_state_vector_set to_ request.user_id
                            (inf_adopted_state_vector_get associated.vector
                              request.user_id)) with
                      | error e => simp [ht] at h
                      | ok res =>
                        simp only [ht, Except.ok.injEq] at h
                        subst h
                        have hs := hspec _ _ _ ht
                        obtain ⟨i, hi⟩ := prev_associated_owner _ _ _ hpa
                        have hown : associated.user_id = request.user_id :=
                          (howner user hmem.1 i associated hi).trans hmem.2
                        have hru : res.user_id = request.user_id := hs.2.trans hown
                        refine ⟨?_, ?_⟩
                        · intro p
                          simp only [inf_adopted_request_mirror, get_add, hs.1, get_set, hru]
                          by_cases hp : p = request.user_id
                          · simp only [hp, if_true]
                            exact guint_add_sub_cancel _ _ (hto _)
                          · simp only [hp, if_false]
                        · simp only [inf_adopted_request_mirror]
                          exact hru
                    | false =>
                      simp only [hr2] at h
                      apply hloops _ _ hto h
                      intro p
                      rw [get_set_reset]
                      by_cases hp : p = request.user_id
                      · simp only [hp, if_true]
                      · simp only [hp, if_false]

/-- The vector of a returned translation: whenever translate_request(R, to) returns a request, i.e. no
assertion met during the translation fails, the final g_assert_not_reached included,
the returned request's state vector equals `to` and it carries R's issuer (every log
holds requests of its owner only, the components of current are `guint`). -/
theorem translate_request_vector (fuel : Nat) (O : InfAdoptedOperationClass Op Buf)
    (algorithm : InfAdoptedAlgorithm Op Buf)
    (howner : ∀ u ∈ algorithm.users, ∀ i r,
      inf_adopted_request_log_get_request u.request_log i = some r → r.user_id = u.id)
    (hcur : ∀ p, inf_adopted_state_vector_get algorithm.current p < GUINT_MOD)
    (request : InfAdoptedRequest Op) (to_ : InfAdoptedStateVector)
    (result : InfAdoptedRequest Op)
    (h : inf_adopted_algorithm_translate_request fuel O algorithm request to_ = .ok result) :
    inf_adopted_state_vector_compare result.vector to_ = 0 ∧
      result.user_id = request.user_id := by
  have key : ∀ fuel request to_ result,
      inf_adopted_algorithm_translate_request fuel O algorithm request to_ = .ok result →
      (∀ p, inf_adopted_state_vector_get result.vector p = inf_adopted_state_vector_get to_ p) ∧
        result.user_id = request.user_id := by
    intro fuel
    induction fuel with
    | zero =>
      intro request to_ result h
      simp [inf_adopted_algorithm_translate_request] at h
    | succ fuel ih =>
      intro request to_ result h
      unfold inf_adopted_algorithm_translate_request at h
      exact translate_request_body_vector _ (fun r t res hr => ih r t res hr) (fuel + 1) O
        algorithm howner hcur request to_ result h
  have := key fuel request to_ result h
  exact ⟨(compare_eq_zero_iff _ _).mpr this.1, this.2⟩

end TranslateVector3

section TranslateVector4

variable {Op Buf : Type}

theorem owner_of_logs_indexed (algorithm : InfAdoptedAlgorithm Op Buf)
    (h : logs_indexed algorithm) :
    ∀ u ∈ algorithm.users, ∀ i r,
      inf_adopted_request_log_get_request u.request_log i = some r → r.user_id = u.id := by
  intro u hu i r hr
  have := get_request_indexed _ (h u hu).2 i r hr
  exact this.2.1.trans (h u hu).1

theorem guint_vector_of_entries (v : InfAdoptedStateVector)
    (h : ∀ e ∈ v, e.2 < GUINT_MOD) : ∀ p, inf_adopted_state_vector_get v p < GUINT_MOD := by
  intro p
  induction v with
  | nil => simp [inf_adopted_state_vector_get, GUINT_MOD]
  | cons e rest ih =>
    obtain ⟨k, n⟩ := e
    unfold inf_adopted_state_vector_get
    split
    · exact h (k, n) (List.mem_cons_self _ _)
    · exact ih (fun e he => h e (List.mem_cons_of_mem _ he))

end TranslateVector4

/-- The asserted preconditions do not make translate_request return for every
request: in the sample session after two Dos of user 1, the first
Do and the target `current` meet the three asserted preconditions (the request's
vector is causally before the target, the target is causally before current and is
reachable), yet translate_request returns no request, whatever the fuel: both loops
skip the issuer and g_assert_not_reached is hit. -/
theorem translate_request_counterexample :
    (inf_user_table_lookup_user_by_id sample_two_dos.users sample_first_do.user_id).bind
        (fun u => inf_adopted_request_log_original_request u.request_log sample_first_do)
        = some sample_first_do ∧
      inf_adopted_state_vector_causally_before sample_first_do.vector sample_two_dos.current
        = true ∧
      inf_adopted_state_vector_causally_before sample_two_dos.current sample_two_dos.current
        = true ∧
      inf_adopted_algorithm_is_reachable 8 sample_two_dos sample_two_dos.current = .ok true ∧
      inf_adopted_algorithm_translate_request 8 CounterOperation sample_two_dos sample_first_do
        sample_two_dos.current = .error Failure.not_reached ∧
      ∀ fuel result,
        inf_adopted_algorithm_translate_request fuel CounterOperation sample_two_dos
          sample_first_do sample_two_dos.current ≠ .ok result := by
  refine ⟨rfl, by decide, by decide, rfl, rfl, ?_⟩
  intro fuel result h
  cases fuel with
  | zero => simp [inf_adopted_algorithm_translate_request] at h
  | succ n =>
    have : inf_adopted_algorithm_translate_request (n + 1) CounterOperation sample_two_dos
        sample_first_do sample_two_dos.current = .error Failure.not_reached := rfl
    rw [this] at h
    cases h

/-- A returned translation on the sample session: the first request of remote user 2,
issued in the initial state, is translated to the state after the Do of user 1 (by a
transformation against that Do) and arrives with the vector of that state. -/
theorem translate_request_vector_witness :
    ∃ result,
      inf_adopted_algorithm_translate_request 8 CounterOperation sample_after_do
        sample_remote_first sample_after_do.current = .ok result ∧
      inf_adopted_state_vector_compare result.vector sample_after_do.current = 0 ∧
      result.user_id = sample_remote_first.user_id :=
  ⟨_, rfl, translate_request_vector 8 CounterOperation sample_after_do
    (owner_of_logs_indexed _ (by unfold logs_indexed log_indexed; decide))
    (guint_vector_of_entries _ (by decide)) sample_remote_first sample_after_do.current _ rfl⟩

/-! ## The drain of the queue -/

section QueueDrain

variable {Op Buf : Type}

theorem perm_cons_eraseIdx {α : Type} (l : List α) (k : Nat) (q : α)
    (h : l.get? k = some q) : List.Perm l (q :: l.eraseIdx k) := by
  induction l generalizing k with
  | nil => simp at h
  | cons a rest ih =>
    cases k with
    | zero =>
      simp at h
      subst h
      simp
    | succ k =>
      simp only [List.get?_cons_succ] at h
      simp only [List.eraseIdx_cons_succ]
      exact (List.Perm.cons a (ih k h)).trans (List.Perm.swap q a _)

theorem execute_request_frame (fuel : Nat) (O : InfAdoptedOperationClass Op Buf)
    (a a' : InfAdoptedAlgorithm Op Buf) (r : InfAdoptedRequest Op) (apply : Bool)
    (h : inf_adopted_algorithm_execute_request fuel O a r apply = .ok a') :
    a'.queue = a.queue ∧
      inf_adopted_state_vector_causally_before r.vector a.current = true ∧
      ∃ translated, applied_requests a'.emitted =
        applied_requests a.emitted ++ (if apply then [(r.user_id, translated)] else []) := by
  obtain ⟨user, log_request, translated, recorded, hcb, hu, _, _, _, hres⟩ :=
    execute_request_ok fuel O a a' r apply h
  subst hres
  obtain ⟨f1, _, _, _, f5, _⟩ := execute_request_result_frame O a r apply user translated recorded
  refine ⟨f1, hcb, translated, ?_⟩
  rw [f5, applied_requests_append, (lookup_mem _ _ _ hu).2]
  cases apply <;> simp [applied_requests]

theorem receive_request_drain_run (fuel : Nat) (O : InfAdoptedOperationClass Op Buf)
    (count : Nat) (a b : InfAdoptedAlgorithm Op Buf)
    (h : receive_request_drain fuel O count a = .ok b) :
    ∃ taken, DrainRun fuel O a taken b := by
  induction count generalizing a with
  | zero => simp [receive_request_drain] at h
  | succ count ih =>
    unfold receive_request_drain at h
    cases hp : receive_request_pass fuel O a a.queue 0 with
    | error e => simp [hp] at h
    | ok res =>
      cases res with
      | none =>
        simp only [hp, Except.ok.injEq] at h
        subst h
        exact ⟨[], DrainRun.done a (receive_request_pass_none fuel O a a.queue 0 hp)⟩
      | some mid =>
        simp only [hp] at h
        obtain ⟨k, q, ex, h1, _, h3, h4, h5⟩ := receive_request_pass_ok fuel O _ _ _ _ hp
        obtain ⟨taken, hrun⟩ := ih mid h
        rw [h5, Nat.zero_add] at hrun
        exact ⟨q :: taken, DrainRun.step a ex b k q taken h1 h3 h4 hrun⟩

/-- What a drain run does: the final queue holds no ready request, every request
of the initial queue is either taken or still queued, and each taken request gave
rise to exactly one apply-request, in the order of the run. -/
theorem drain_run_spec (fuel : Nat) (O : InfAdoptedOperationClass Op Buf)
    (a b : InfAdoptedAlgorithm Op Buf) (taken : List (InfAdoptedRequest Op))
    (h : DrainRun fuel O a taken b) :
    (∀ q ∈ b.queue, inf_adopted_state_vector_causally_before q.vector b.current = false) ∧
      List.Perm a.queue (taken ++ b.queue) ∧
      ∃ ts, applied_requests b.emitted = applied_requests a.emitted ++ ts ∧
        ts.map Prod.fst = taken.map (fun r => r.user_id) := by
  induction h with
  | done a hq => exact ⟨hq, by simp, [], by simp, rfl⟩
  | step a executed b k q rest hget hcb hex _ ih =>
    obtain ⟨i1, i2, ts, i3, i4⟩ := ih
    obtain ⟨f1, _, translated, f3⟩ := execute_request_frame fuel O a executed q true hex
    refine ⟨i1, ?_, (q.user_id, translated) :: ts, ?_, ?_⟩
    · simp only at i2
      rw [f1] at i2
      exact (perm_cons_eraseIdx a.queue k q hget).trans (List.Perm.cons q i2)
    · rw [i3]
      simp only
      rw [f3]
      simp
    · simp [i4]

end QueueDrain

section QueueDrain2

variable {Op Buf : Type}

/-- C6: queue drain. When receive_request executes the received request (known
non-local issuer, vector causally before current) and returns, the request was
executed first, then the drain loop ran: every request it took from the queue was
executed at a moment when its vector was causally before current and was unlinked
(`DrainRun`); on return no queued request has a vector causally before current,
every request of the old queue is either taken once or still queued, and the
apply-request emissions of the call are one for the received request followed by
exactly one per taken request, in the order of their execution. -/
theorem receive_request_drains (fuel : Nat) (O : InfAdoptedOperationClass Op Buf)
    (algorithm algorithm' : InfAdoptedAlgorithm Op Buf) (request : InfAdoptedRequest Op)
    (user : InfAdoptedUser Op) (accepted : Bool)
    (hu : inf_user_table_lookup_user_by_id algorithm.users request.user_id = some user)
    (hnl : user.flags_local = false)
    (hready : inf_adopted_state_vector_causally_before request.vector algorithm.current = true)
    (h : inf_adopted_algorithm_receive_request fuel O algorithm request
      = .ok (accepted, algorithm')) :
    ∃ mid first drained taken translated ts,
      mid.queue = algorithm.queue ∧ mid.current = algorithm.current ∧
      inf_adopted_algorithm_execute_request fuel O mid request true = .ok first ∧
      DrainRun fuel O first taken drained ∧
      algorithm'.queue = drained.queue ∧ algorithm'.current = drained.current ∧
      (∀ q ∈ algorithm'.queue,
        inf_adopted_state_vector_causally_before q.vector algorithm'.current = false) ∧
      List.Perm algorithm.queue (taken ++ algorithm'.queue) ∧
      applied_requests algorithm'.emitted =
        applied_requests algorithm.emitted ++ (request.user_id, translated) :: ts ∧
      ts.map Prod.fst = taken.map (fun r => r.user_id) := by
  have huid := (lookup_mem _ _ _ hu).2
  unfold inf_adopted_algorithm_receive_request at h
  simp only [inf_adopted_request_get_user_id, inf_adopted_request_get_vector,
    inf_adopted_state_vector_copy, hu, hnl, Bool.false_eq_true, if_false, huid] at h
  generalize hmid : (if inf_adopted_state_vector_causally_before user.vector request.vector
      = true then
      { algorithm with
        users := inf_adopted_user_set_vector algorithm.users request.user_id
          (if inf_adopted_request_affects_buffer O request = true then
            inf_adopted_state_vector_add request.vector request.user_id 1
          else request.vector) }
    else algorithm) = mid at h
  have hmq : mid.queue = algorithm.queue ∧ mid.current = algorithm.current ∧
      mid.emitted = algorithm.emitted := by
    rw [← hmid]
    split <;> exact ⟨rfl, rfl, rfl⟩
  have hq : inf_adopted_state_vector_causally_before request.vector mid.current = true := by
    rw [hmq.2.1]
    exact hready
  simp only [hq, Bool.true_eq_false, if_false] at h
  cases he : inf_adopted_algorithm_execute_request fuel O mid request true with
  | error e => simp [he] at h
  | ok first =>
    simp only [he] at h
    cases hd : receive_request_drain fuel O (first.queue.length + 1) first with
    | error e => simp [hd] at h
    | ok drained =>
      simp only [hd] at h
      cases ht : update_logs_and_undo_redo drained with
      | error e => simp [ht] at h
      | ok fin =>
        simp only [ht, Except.ok.injEq, Prod.mk.injEq] at h
        obtain ⟨_, hfin⟩ := h
        subst hfin
        obtain ⟨taken, hrun⟩ := receive_request_drain_run fuel O _ first drained hd
        obtain ⟨d1, d2, ts, d3, d4⟩ := drain_run_spec fuel O first drained taken hrun
        obtain ⟨f1, _, translated, f3⟩ := execute_request_frame fuel O mid first request true he
        obtain ⟨_, t2, t3, _, t5, _⟩ := update_logs_and_undo_redo_frame drained fin ht
        refine ⟨mid, first, drained, taken, translated, ts, hmq.1, hmq.2.1, he, hrun, t3, t2,
          ?_, ?_, ?_, d4⟩
        · rw [t3, t2]
          exact d1
        · rw [t3, ← hmq.1, ← f1]
          exact d2
        · rw [t5, d3, f3, hmq.2.2]
          simp

end QueueDrain2

/-- C6 on the sample session (scenario T4): the request of user 2 that waits for
the first request of user 3 is queued; when that request arrives it is executed,
then the queued one, within the same call; the queue ends empty. -/
theorem receive_request_drains_witness :
    (∃ mid first drained taken translated ts,
      mid.queue = sample_waiting.queue ∧ mid.current = sample_waiting.current ∧
      inf_adopted_algorithm_execute_request 8 CounterOperation mid sample_prerequisite true
        = .ok first ∧
      DrainRun 8 CounterOperation first taken drained ∧
      sample_drained.queue = drained.queue ∧ sample_drained.current = drained.current ∧
      (∀ q ∈ sample_drained.queue,
        inf_adopted_state_vector_causally_before q.vector sample_drained.current = false) ∧
      List.Perm sample_waiting.queue (taken ++ sample_drained.queue) ∧
      applied_requests sample_drained.emitted =
        applied_requests sample_waiting.emitted ++
          (sample_prerequisite.user_id, translated) :: ts ∧
      ts.map Prod.fst = taken.map (fun r => r.user_id)) ∧
    sample_waiting.queue = [sample_dependent] ∧ sample_drained.queue = [] ∧
    (applied_requests sample_drained.emitted).map (fun p => (p.1, p.2.operation)) =
      [(3, some 100), (2, some 7)] ∧
    sample_drained.buffer = 107 :=
  ⟨receive_request_drains 8 CounterOperation sample_waiting sample_drained sample_prerequisite
      (sample_user 3 false) true rfl rfl (by decide) rfl,
    by decide, by decide, by decide, by decide⟩

/-! ## The queue invariant -/

section QueueInvariant

variable {Op Buf : Type}

theorem receive_request_queue_waiting (fuel : Nat) (O : InfAdoptedOperationClass Op Buf)
    (algorithm algorithm' : InfAdoptedAlgorithm Op Buf) (request : InfAdoptedRequest Op)
    (accepted : Bool) (hinv : queue_waiting algorithm)
    (h : inf_adopted_algorithm_receive_request fuel O algorithm request
      = .ok (accepted, algorithm')) : queue_waiting algorithm' := by
  unfold inf_adopted_algorithm_receive_request at h
  simp only [inf_adopted_request_get_user_id, inf_adopted_request_get_vector,
    inf_adopted_state_vector_copy] at h
  cases hu : inf_user_table_lookup_user_by_id algorithm.users request.user_id with
  | none => simp [hu] at h; rw [← h.2]; exact hinv
  | some user =>
    simp only [hu] at h
    cases hl : user.flags_local with
    | true => simp [hl] at h; rw [← h.2]; exact hinv
    | false =>
      simp only [hl, Bool.false_eq_true, if_false] at h
      generalize hmid : (if inf_adopted_state_vector_causally_before user.vector request.vector
          = true then
          { algorithm with
            users := inf_adopted_user_set_vector algorithm.users user.id
              (if inf_adopted_request_affects_buffer O request = true then
                inf_adopted_state_vector_add request.vector user.id 1
              else request.vector) }
        else algorithm) = mid at h
      have hmq : mid.queue = algorithm.queue ∧ mid.current = algorithm.current := by
        rw [← hmid]
        split <;> exact ⟨rfl, rfl⟩
      cases hq : inf_adopted_state_vector_causally_before request.vector mid.current with
      | false =>
        simp only [hq] at h
        cases ht : update_logs_and_undo_redo { mid with queue := request :: mid.queue } with
        | error e => simp [ht] at h
        | ok fin =>
          simp only [ht, if_true, Except.ok.injEq, Prod.mk.injEq] at h
          rw [← h.2]
          obtain ⟨_, t2, t3, _⟩ := update_logs_and_undo_redo_frame _ fin ht
          intro q hmem
          rw [t3] at hmem
          rw [t2]
          simp only at hmem ⊢
          rcases List.mem_cons.mp hmem with rfl | hmem
          · exact hq
          · rw [hmq.2]
            exact hinv q (by rw [← hmq.1]; exact hmem)
      | true =>
        simp only [hq, Bool.true_eq_false, if_false] at h
        cases he : inf_adopted_algorithm_execute_request fuel O mid request true with
        | error e => simp [he] at h
        | ok first =>
          simp only [he] at h
          cases hd : receive_request_drain fuel O (first.queue.length + 1) first with
          | error e => simp [hd] at h
          | ok drained =>
            simp only [hd] at h
            cases ht : update_logs_and_undo_redo drained with
            | error e => simp [ht] at h
            | ok fin =>
              simp only [ht, Except.ok.injEq, Prod.mk.injEq] at h
              rw [← h.2]
              obtain ⟨taken, hrun⟩ := receive_request_drain_run fuel O _ first drained hd
              obtain ⟨d1, _⟩ := drain_run_spec fuel O first drained taken hrun
              obtain ⟨_, t2, t3, _⟩ := update_logs_and_undo_redo_frame drained fin ht
              intro q hmem
              rw [t3] at hmem
              rw [t2]
              exact d1 q hmem

theorem generate_execute_queue (fuel : Nat) (O : InfAdoptedOperationClass Op Buf)
    (algorithm algorithm' : InfAdoptedAlgorithm Op Buf) (request : InfAdoptedRequest Op)
    (apply : Bool) (r : Option (InfAdoptedRequest Op))
    (h : generate_execute fuel O algorithm request apply = .ok (r, algorithm')) :
    algorithm'.queue = algorithm.queue := by
  unfold generate_execute at h
  cases he : inf_adopted_algorithm_execute_request fuel O algorithm request apply with
  | error e => simp [he] at h
  | ok mid =>
    simp only [he] at h
    cases hu : update_logs_and_undo_redo mid with
    | error e => simp [hu] at h
    | ok fin =>
      simp only [hu, Except.ok.injEq, Prod.mk.injEq] at h
      rw [← h.2]
      obtain ⟨_, _, t3, _⟩ := update_logs_and_undo_redo_frame mid fin hu
      rw [t3]
      exact (execute_request_frame fuel O algorithm mid request apply he).1

end QueueInvariant

section IssuerOrder

variable {Op Buf : Type}

/-- Two requests of the same issuer of which the later one has the larger issuer
component (the earlier one affected the buffer): whenever the later
one is executed, the issuer's component of current, which is the end of the issuer's
log, is beyond the earlier one's position, and a log that still holds that position
holds there a request of the issuer with the earlier one's issuer component: the
later request is executed only after a request was executed at the earlier one's
position. -/
theorem execute_request_issuer_order (fuel : Nat) (O : InfAdoptedOperationClass Op Buf)
    (algorithm algorithm' : InfAdoptedAlgorithm Op Buf)
    (earlier later : InfAdoptedRequest Op) (apply : Bool) (user : InfAdoptedUser Op)
    (hinv : current_matches_logs algorithm) (hlogs : logs_indexed algorithm)
    (hu : inf_user_table_lookup_user_by_id algorithm.users later.user_id = some user)
    (hsame : earlier.user_id = later.user_id)
    (hlt : request_slot earlier < request_slot later)
    (h : inf_adopted_algorithm_execute_request fuel O algorithm later apply = .ok algorithm') :
    request_slot earlier < inf_adopted_state_vector_get algorithm.current later.user_id ∧
      request_slot earlier < inf_adopted_request_log_get_end user.request_log ∧
      (user.request_log.log_begin ≤ request_slot earlier →
        ∃ r, inf_adopted_request_log_get_request user.request_log (request_slot earlier)
            = some r ∧
          r.user_id = earlier.user_id ∧ request_slot r = request_slot earlier) := by
  obtain ⟨_, hcb, _⟩ := execute_request_frame fuel O algorithm algorithm' later apply h
  obtain ⟨hmem, hid⟩ := lookup_mem _ _ _ hu
  have hle := (causally_before_iff _ _).mp hcb later.user_id
  have hcur := hinv user hmem
  rw [hid] at hcur
  have h1 : request_slot earlier <
      inf_adopted_state_vector_get algorithm.current later.user_id := by
    unfold request_slot at hlt ⊢
    omega
  refine ⟨h1, by rw [← hcur]; exact h1, ?_⟩
  intro hb
  obtain ⟨howner, hidx⟩ := hlogs user hmem
  have hend := log_indexed_end _ hidx
  have hrange : request_slot earlier <
      user.request_log.log_begin + user.request_log.entries.length := by
    rw [← hend, ← hcur]; exact h1
  obtain ⟨r, hr⟩ := get_request_in_range user.request_log (request_slot earlier) hb hrange
  obtain ⟨g1, g2, _, _⟩ := get_request_indexed _ hidx _ r hr
  exact ⟨r, hr, by rw [g2, howner, hid, hsame], g1⟩

end IssuerOrder

/-- C9 fails on the code: remote user 2 issues a request that does not affect the
buffer and then a request that does (with the same vector, as the first one did not
advance user 2); both are received in that order and wait for the first request of
user 3, the later one at the head of the queue. When that request of user 3 is
received and executed, the first pass over the queue executes the later request of
user 2 and emits its apply-request; the next pass takes the earlier one, whose
translation across the later one reaches g_assert_not_reached: receive_request
aborts, and the earlier request is never executed. -/
theorem issuer_order_failing_input :
    sample_silent.user_id = 2 ∧ sample_silent_next.user_id = 2 ∧
      (sample_user 2 false).flags_local = false ∧
      receive_requests 8 CounterOperation [sample_silent, sample_silent_next]
        sample_algorithm = .ok sample_silent_waiting ∧
      sample_silent_waiting.queue = [sample_silent_next, sample_silent] ∧
      inf_adopted_algorithm_execute_request 8 CounterOperation sample_silent_recorded
        sample_prerequisite true = .ok sample_silent_first ∧
      receive_request_pass 8 CounterOperation sample_silent_first
        sample_silent_first.queue 0 = .ok (some sample_silent_second) ∧
      (applied_requests sample_silent_second.emitted).map (fun p => (p.1, p.2.operation)) =
        [(3, some 100), (2, sample_silent_next.operation)] ∧
      sample_silent_second.queue = [sample_silent] ∧
      inf_adopted_state_vector_causally_before sample_silent.vector
        sample_silent_second.current = true ∧
      inf_adopted_algorithm_execute_request 8 CounterOperation sample_silent_second
        sample_silent true = .error Failure.not_reached ∧
      inf_adopted_algorithm_receive_request 8 CounterOperation sample_silent_waiting
        sample_prerequisite = .error Failure.not_reached :=
  ⟨rfl, rfl, rfl, rfl, by decide, rfl, rfl, by decide, by decide, by decide, rfl, rfl⟩

/-- The order of buffer-affecting requests on the sample session: after the requests
of scenario T4 were executed, the next request of user 2 is executed in a state whose
log of user 2 holds the earlier request of user 2 at its position. -/
theorem execute_request_issuer_order_witness :
    ∃ user algorithm',
      inf_user_table_lookup_user_by_id sample_drained.users sample_dependent_next.user_id
        = some user ∧
      inf_adopted_algorithm_execute_request 8 CounterOperation sample_drained
        sample_dependent_next true = .ok algorithm' ∧
      request_slot sample_dependent < request_slot sample_dependent_next ∧
      request_slot sample_dependent <
        inf_adopted_state_vector_get sample_drained.current sample_dependent_next.user_id ∧
      request_slot sample_dependent < inf_adopted_request_log_get_end user.request_log ∧
      (user.request_log.log_begin ≤ request_slot sample_dependent →
        ∃ r, inf_adopted_request_log_get_request user.request_log
            (request_slot sample_dependent) = some r ∧
          r.user_id = sample_dependent.user_id ∧
          request_slot r = request_slot sample_dependent) :=
  ⟨_, _, rfl, rfl, by decide,
    execute_request_issuer_order 8 CounterOperation sample_drained _ sample_dependent
      sample_dependent_next true _ (by unfold current_matches_logs; decide)
      (by unfold logs_indexed log_indexed; decide)
      rfl rfl (by decide) rfl⟩

/-! ## Round-trip undo -/

section RoundTrip

variable {Op Buf : Type}

theorem causally_before_congr (v v' w w' : InfAdoptedStateVector)
    (hv : ∀ p, inf_adopted_state_vector_get v p = inf_adopted_state_vector_get v' p)
    (hw : ∀ p, inf_adopted_state_vector_get w p = inf_adopted_state_vector_get w' p) :
    inf_adopted_state_vector_causally_before v w =
      inf_adopted_state_vector_causally_before v' w' := by
  rw [Bool.eq_iff_iff, causally_before_iff, causally_before_iff]
  constructor
  · intro h p; rw [← hv, ← hw]; exact h p
  · intro h p; rw [hv, hw]; exact h p

theorem is_component_reachable_loop_congr (log : InfAdoptedRequestLog Op)
    (v v' : InfAdoptedStateVector) (c : Nat)
    (hv : ∀ p, inf_adopted_state_vector_get v p = inf_adopted_state_vector_get v' p) :
    ∀ (fuel : Nat) (cur cur' : InfAdoptedStateVector),
      inf_adopted_state_vector_get cur c = inf_adopted_state_vector_get cur' c →
      is_component_reachable_loop log v c fuel cur =
        is_component_reachable_loop log v' c fuel cur' := by
  intro fuel
  induction fuel with
  | zero => intro cur cur' _; rfl
  | succ fuel ih =>
    intro cur cur' hc
    unfold is_component_reachable_loop
    simp only [hc]
    split
    · rfl
    · cases inf_adopted_request_log_get_request log
          (inf_adopted_state_vector_get cur' c - 1) with
      | none => rfl
      | some request =>
        simp only
        split
        · rw [causally_before_congr _ _ v v' (fun _ => rfl) hv]
        · cases inf_adopted_request_log_prev_associated log request with
          | none => rfl
          | some associated => exact ih _ _ rfl

theorem is_reachable_congr (fuel : Nat) (algorithm : InfAdoptedAlgorithm Op Buf)
    (v v' : InfAdoptedStateVector)
    (hv : ∀ p, inf_adopted_state_vector_get v p = inf_adopted_state_vector_get v' p) :
    inf_adopted_algorithm_is_reachable fuel algorithm v =
      inf_adopted_algorithm_is_reachable fuel algorithm v' := by
  unfold inf_adopted_algorithm_is_reachable
  rw [causally_before_congr v v' algorithm.current algorithm.current hv (fun _ => rfl)]
  have key : ∀ users : List (InfAdoptedUser Op),
      is_reachable_users fuel v users = is_reachable_users fuel v' users := by
    intro users
    induction users with
    | nil => rfl
    | cons u rest ih =>
      unfold is_reachable_users inf_adopted_algorithm_is_component_reachable
      rw [is_component_reachable_loop_congr u.request_log v v' u.id hv fuel v v' (hv _), ih]
  rw [key]

theorem is_component_reachable_loop_fuel (log : InfAdoptedRequestLog Op)
    (v : InfAdoptedStateVector) (c : Nat) :
    ∀ (fuel : Nat) (cur : InfAdoptedStateVector) (b : Bool),
      is_component_reachable_loop log v c fuel cur = .ok b →
      is_component_reachable_loop log v c (fuel + 1) cur = .ok b := by
  intro fuel
  induction fuel with
  | zero => intro cur b h; simp [is_component_reachable_loop] at h
  | succ fuel ih =>
    intro cur b h
    unfold is_component_reachable_loop at h ⊢
    by_cases h0 : inf_adopted_state_vector_get cur c = 0
    · simp only [h0, if_true] at h ⊢; exact h
    · simp only [h0, if_false] at h ⊢
      cases hr : inf_adopted_request_log_get_request log
          (inf_adopted_state_vector_get cur c - 1) with
      | none => simp [hr] at h
      | some request =>
        simp only [hr] at h ⊢
        by_cases ht : inf_adopted_request_get_request_type request = InfAdoptedRequestType.DO
        · simp only [ht, if_true] at h ⊢; exact h
        · simp only [ht, if_false] at h ⊢
          cases ha : inf_adopted_request_log_prev_associated log request with
          | none => simp [ha] at h
          | some associated =>
            simp only [ha] at h ⊢
            exact ih _ _ h

theorem is_reachable_fuel (fuel : Nat) (algorithm : InfAdoptedAlgorithm Op Buf)
    (v : InfAdoptedStateVector) (b : Bool)
    (h : inf_adopted_algorithm_is_reachable fuel algorithm v = .ok b) :
    inf_adopted_algorithm_is_reachable (fuel + 1) algorithm v = .ok b := by
  unfold inf_adopted_algorithm_is_reachable at h ⊢
  split at h
  · rename_i hcb
    simp only [hcb, if_true]
    have key : ∀ (users : List (InfAdoptedUser Op)) (b : Bool),
        is_reachable_users fuel v users = .ok b →
        is_reachable_users (fuel + 1) v users = .ok b := by
      intro users
      induction users with
      | nil => intro b h; exact h
      | cons u rest ih =>
        intro b h
        unfold is_reachable_users inf_adopted_algorithm_is_component_reachable at h ⊢
        cases hc : is_component_reachable_loop u.request_log v u.id fuel v with
        | error e => simp [hc] at h
        | ok r =>
          rw [is_component_reachable_loop_fuel _ _ _ _ _ _ hc]
          simp only [hc] at h
          cases r with
          | false => exact h
          | true => exact ih b h
    exact key _ _ h
  · simp at h

end RoundTrip

section RoundTripLog

variable {Op Buf : Type}

/-- In an indexed log whose newest request is the Do `D`: the slot of `D` is the
last one, `D` is found there, and nothing is found at the end of the log. -/
theorem newest_do_slots (log : InfAdoptedRequestLog Op) (D : InfAdoptedRequest Op)
    (rest : List Nat) (hidx : log_indexed log) (hnew : newest_do log D rest) :
    request_slot D + 1 = log.log_begin + log.entries.length ∧
      D.user_id = log.user_id ∧
      inf_adopted_request_log_get_end log = request_slot D + 1 ∧
      inf_adopted_request_log_get_entry log (request_slot D) =
        some { request := D, prev_associated := none, original := request_slot D } ∧
      inf_adopted_request_log_get_entry log (request_slot D + 1) = none := by
  obtain ⟨_, ⟨older, hent⟩, _⟩ := hnew
  have hlen : log.entries.length = older.length + 1 := by rw [hent]; simp
  have hget : inf_adopted_request_log_get_entry log (log.log_begin + older.length) =
      some { request := D, prev_associated := none, original := request_slot D } := by
    unfold inf_adopted_request_log_get_entry
    simp [hent]
  have hreq : inf_adopted_request_log_get_request log (log.log_begin + older.length) =
      some D := by
    unfold inf_adopted_request_log_get_request
    rw [hget]; rfl
  obtain ⟨g1, g2, _, _⟩ := get_request_indexed log hidx _ D hreq
  have hend := log_indexed_end log hidx
  refine ⟨by omega, g2, by rw [hend]; omega, by rw [← g1] at hget; exact hget, ?_⟩
  unfold inf_adopted_request_log_get_entry
  have : log.log_begin ≤ request_slot D + 1 := by omega
  simp only [this, if_true, List.get?_eq_getElem?]
  rw [List.getElem?_eq_none]
  omega

/-- A new Undo at the end of such a log is associated with `D`, which is also its
original request. -/
theorem newest_do_associated (log : InfAdoptedRequestLog Op) (D : InfAdoptedRequest Op)
    (rest : List Nat) (hidx : log_indexed log) (hnew : newest_do log D rest)
    (r : InfAdoptedRequest Op) (htype : r.type = InfAdoptedRequestType.UNDO)
    (hslot : request_slot r = request_slot D + 1) :
    inf_adopted_request_log_prev_associated log r = some D ∧
      inf_adopted_request_log_original_request log r = some D := by
  obtain ⟨_, _, hend, hget, hnone⟩ := newest_do_slots log D rest hidx hnew
  have hprev : prev_associated_slot log r = some (request_slot D) := by
    unfold prev_associated_slot
    rw [hslot, hnone]
    simp [hend, htype, hnew.2.2]
  have hreq : inf_adopted_request_log_get_request log (request_slot D) = some D := by
    unfold inf_adopted_request_log_get_request
    rw [hget]; rfl
  constructor
  · unfold inf_adopted_request_log_prev_associated
    rw [hprev]; exact hreq
  · unfold inf_adopted_request_log_original_request
    rw [htype]
    simp only [hprev, hget]
    exact hreq

/-- The identity translation: a Do request whose vector equals `to` is returned as
it is, provided the assertions of translate_request hold. -/
theorem translate_request_identity (fuel : Nat) (O : InfAdoptedOperationClass Op Buf)
    (algorithm : InfAdoptedAlgorithm Op Buf) (r : InfAdoptedRequest Op)
    (to_ : InfAdoptedStateVector) (u : InfAdoptedUser Op)
    (hu : inf_user_table_lookup_user_by_id algorithm.users r.user_id = some u)
    (htype : r.type = InfAdoptedRequestType.DO)
    (hto : inf_adopted_state_vector_causally_before to_ algorithm.current = true)
    (heq : ∀ p, inf_adopted_state_vector_get r.vector p = inf_adopted_state_vector_get to_ p)
    (hreach : inf_adopted_algorithm_is_reachable (fuel + 1) algorithm to_ = .ok true) :
    inf_adopted_algorithm_translate_request (fuel + 1) O algorithm r to_ = .ok r := by
  unfold inf_adopted_algorithm_translate_request translate_request_body
  have hcb : inf_adopted_state_vector_causally_before r.vector to_ = true :=
    (causally_before_iff _ _).mpr (fun p => Nat.le_of_eq (heq p))
  have hcmp : inf_adopted_state_vector_compare r.vector to_ = 0 :=
    (compare_eq_zero_iff _ _).mpr heq
  simp [inf_adopted_request_get_user_id, hu, inf_adopted_request_log_original_request, htype,
    inf_adopted_request_get_vector, hto, hcb, hreach, inf_adopted_request_get_request_type, hcmp]

end RoundTripLog

section RoundTripTranslate

variable {Op Buf : Type}

/-- The vectors at hand when the newest request of user U is the Do `D` issued at
the state just before current. -/
theorem newest_do_vectors (algorithm : InfAdoptedAlgorithm Op Buf) (U : Nat)
    (log : InfAdoptedRequestLog Op) (D : InfAdoptedRequest Op) (rest : List Nat)
    (hidx : log_indexed log) (hown : log.user_id = U) (hnew : newest_do log D rest)
    (hcur : ∀ p, inf_adopted_state_vector_get algorithm.current p =
      inf_adopted_state_vector_get (inf_adopted_state_vector_add D.vector U 1) p) :
    D.user_id = U ∧ inf_adopted_state_vector_get D.vector U = request_slot D ∧
      request_slot D + 1 < GUINT_MOD ∧
      inf_adopted_state_vector_get algorithm.current U = request_slot D + 1 ∧
      (∀ p, p ≠ U → inf_adopted_state_vector_get algorithm.current p =
        inf_adopted_state_vector_get D.vector p) ∧
      (∀ p, inf_adopted_state_vector_get D.vector p ≤
        inf_adopted_state_vector_get algorithm.current p) := by
  obtain ⟨h1, h2, _, _, _⟩ := newest_do_slots log D rest hidx hnew
  have hDu : D.user_id = U := by rw [h2, hown]
  have hDU : inf_adopted_state_vector_get D.vector U = request_slot D := by
    unfold request_slot; rw [hDu]
  have hb : request_slot D + 1 < GUINT_MOD := by have := hidx.2.2; omega
  have hcU : inf_adopted_state_vector_get algorithm.current U = request_slot D + 1 := by
    rw [hcur U, get_add, if_pos rfl, hDU, guint_add_small _ _ hb]
  have hcp : ∀ p, p ≠ U → inf_adopted_state_vector_get algorithm.current p =
      inf_adopted_state_vector_get D.vector p := by
    intro p hp
    rw [hcur p, get_add, if_neg hp]
  refine ⟨hDu, hDU, hb, hcU, hcp, ?_⟩
  intro p
  by_cases hp : p = U
  · subst hp; rw [hcU, hDU]; omega
  · rw [hcp p hp]

/-- The late mirror: translating a new Undo of user U to current, when the newest
request of U is the Do `D` issued at the state just before current, yields the copy
of `D` mirrored by 1. -/
theorem translate_request_late_mirror (fuel : Nat) (O : InfAdoptedOperationClass Op Buf)
    (algorithm : InfAdoptedAlgorithm Op Buf) (U : Nat) (u : InfAdoptedUser Op)
    (D : InfAdoptedRequest Op) (rest : List Nat)
    (hu : inf_user_table_lookup_user_by_id algorithm.users U = some u)
    (hidx : log_indexed u.request_log) (hown : u.request_log.user_id = U)
    (hnew : newest_do u.request_log D rest)
    (hcur : ∀ p, inf_adopted_state_vector_get algorithm.current p =
      inf_adopted_state_vector_get (inf_adopted_state_vector_add D.vector U 1) p)
    (hreach : inf_adopted_algorithm_is_reachable (fuel + 1) algorithm algorithm.current
      = .ok true)
    (hprev : inf_adopted_algorithm_is_reachable (fuel + 1) algorithm D.vector = .ok true)
    (r : InfAdoptedRequest Op) (htype : r.type = InfAdoptedRequestType.UNDO)
    (hru : r.user_id = U) (hslot : request_slot r = request_slot D + 1) :
    inf_adopted_algorithm_translate_request (fuel + 2) O algorithm r algorithm.current =
      .ok (inf_adopted_request_mirror O (inf_adopted_request_copy D) 1) := by
  obtain ⟨hDu, hDU, hb, hcU, hcp, hle⟩ :=
    newest_do_vectors algorithm U u.request_log D rest hidx hown hnew hcur
  obtain ⟨hassoc, horig⟩ := newest_do_associated u.request_log D rest hidx hnew r htype hslot
  have hv1 : ∀ p, inf_adopted_state_vector_get D.vector p =
      inf_adopted_state_vector_get (inf_adopted_state_vector_set algorithm.current U
        (inf_adopted_state_vector_get D.vector U)) p := by
    intro p
    rw [get_set]
    by_cases hp : p = U
    · rw [if_pos hp, hp]
    · rw [if_neg hp, hcp p hp]
  have hcbD : inf_adopted_state_vector_causally_before D.vector algorithm.current = true :=
    (causally_before_iff _ _).mpr hle
  have hcbv : inf_adopted_state_vector_causally_before
      (inf_adopted_state_vector_set algorithm.current U
        (inf_adopted_state_vector_get D.vector U)) algorithm.current = true := by
    rw [← causally_before_congr D.vector _ algorithm.current algorithm.current hv1
      (fun _ => rfl)]
    exact hcbD
  have hr1 : inf_adopted_algorithm_is_reachable (fuel + 1) algorithm
      (inf_adopted_state_vector_set algorithm.current U
        (inf_adopted_state_vector_get D.vector U)) = .ok true := by
    rw [← is_reachable_congr (fuel + 1) algorithm D.vector _ hv1]
    exact hprev
  have hinner : inf_adopted_algorithm_translate_request (fuel + 1) O algorithm D
      (inf_adopted_state_vector_set algorithm.current U
        (inf_adopted_state_vector_get D.vector U)) = .ok D :=
    translate_request_identity fuel O algorithm D _ u (by rw [hDu]; exact hu) hnew.1 hcbv
      hv1 hr1
  have hsub : guint_sub (inf_adopted_state_vector_get algorithm.current U)
      (inf_adopted_state_vector_get (inf_adopted_state_vector_set algorithm.current U
        (inf_adopted_state_vector_get D.vector U)) U) = 1 := by
    rw [get_set, if_pos rfl, hcU, hDU, guint_sub_small _ _ (by omega) hb]
    omega
  unfold inf_adopted_algorithm_translate_request translate_request_body
  simp only [inf_adopted_request_get_user_id, hru, hu, horig, inf_adopted_request_get_vector,
    causally_before_refl, hcbD, is_reachable_fuel _ _ _ _ hreach, Bool.not_true,
    Bool.false_eq_true, if_false, inf_adopted_request_get_request_type, htype, ne_eq,
    not_false_eq_true, if_true, hassoc, inf_adopted_state_vector_copy,
    is_reachable_fuel _ _ _ _ hr1, inf_adopted_request_copy, hinner, hsub, reduceCtorEq]

end RoundTripTranslate

section RoundTripExecute

variable {Op Buf : Type}

/-- Recording a new Undo of the newest Do `D`: the Undo is appended, associated
with `D`, `D` stops being an Undo target and the new request becomes the next Redo
target. -/
theorem add_request_undo_newest (log : InfAdoptedRequestLog Op) (D : InfAdoptedRequest Op)
    (rest : List Nat) (hidx : log_indexed log) (hnew : newest_do log D rest)
    (r : InfAdoptedRequest Op) (htype : r.type = InfAdoptedRequestType.UNDO)
    (hru : r.user_id = log.user_id) (hslot : request_slot r = request_slot D + 1) :
    inf_adopted_request_log_add_request log r =
      .ok { log with
            entries := log.entries ++ [{ request := r, prev_associated := some (request_slot D),
                                         original := request_slot D }]
            undo_targets := rest
            redo_targets := (request_slot D + 1) :: log.redo_targets } := by
  obtain ⟨_, _, hend, hget, _⟩ := newest_do_slots log D rest hidx hnew
  unfold inf_adopted_request_log_add_request
  simp only [hru, ne_eq, not_true_eq_false, if_false, hslot, hend, htype, hnew.2.2, hget]

/-- Executing a new Undo of local user U, when the newest request of U is the Do `D`
issued at the state just before current: the Undo is recorded in the log of U and
the copy of `D` mirrored by 1 is what apply-request is emitted with. -/
theorem execute_request_undo_newest (fuel : Nat) (O : InfAdoptedOperationClass Op Buf)
    (algorithm : InfAdoptedAlgorithm Op Buf) (U : Nat) (u : InfAdoptedUser Op)
    (D : InfAdoptedRequest Op) (rest : List Nat)
    (hu : inf_user_table_lookup_user_by_id algorithm.users U = some u)
    (hidx : log_indexed u.request_log) (hown : u.request_log.user_id = U)
    (hnew : newest_do u.request_log D rest)
    (hcur : ∀ p, inf_adopted_state_vector_get algorithm.current p =
      inf_adopted_state_vector_get (inf_adopted_state_vector_add D.vector U 1) p)
    (hreach : inf_adopted_algorithm_is_reachable (fuel + 1) algorithm algorithm.current
      = .ok true)
    (hprev : inf_adopted_algorithm_is_reachable (fuel + 1) algorithm D.vector = .ok true) :
    inf_adopted_algorithm_execute_request (fuel + 2) O algorithm
        (inf_adopted_request_new_undo algorithm.current U) true =
      .ok (execute_request_result O algorithm (inf_adopted_request_new_undo algorithm.current U)
        true u (inf_adopted_request_mirror O (inf_adopted_request_copy D) 1)
        (some { u.request_log with
          entries := u.request_log.entries ++
            [{ request := inf_adopted_request_new_undo
                (inf_adopted_state_vector_set D.vector U
                  (inf_adopted_state_vector_get algorithm.current U)) U,
               prev_associated := some (request_slot D), original := request_slot D }]
          undo_targets := rest
          redo_targets := (request_slot D + 1) :: u.request_log.redo_targets })) := by
  obtain ⟨hDu, hDU, hb, hcU, hcp, hle⟩ :=
    newest_do_vectors algorithm U u.request_log D rest hidx hown hnew hcur
  have hs0 : request_slot (inf_adopted_request_new_undo algorithm.current U :
      InfAdoptedRequest Op) = request_slot D + 1 := hcU
  obtain ⟨_, horig⟩ := newest_do_associated u.request_log D rest hidx hnew
    (inf_adopted_request_new_undo algorithm.current U) rfl hs0
  have hs1 : request_slot (inf_adopted_request_new_undo
      (inf_adopted_state_vector_set D.vector U
        (inf_adopted_state_vector_get algorithm.current U)) U : InfAdoptedRequest Op) =
      request_slot D + 1 := by
    show inf_adopted_state_vector_get (inf_adopted_state_vector_set D.vector U
      (inf_adopted_state_vector_get algorithm.current U)) U = request_slot D + 1
    rw [get_set, if_pos rfl, hcU]
  have htr := translate_request_late_mirror fuel O algorithm U u D rest hu hidx hown hnew hcur
    hreach hprev (inf_adopted_request_new_undo
      (inf_adopted_state_vector_set D.vector U
        (inf_adopted_state_vector_get algorithm.current U)) U) rfl rfl hs1
  have hadd := add_request_undo_newest u.request_log D rest hidx hnew
    (inf_adopted_request_new_undo
      (inf_adopted_state_vector_set D.vector U
        (inf_adopted_state_vector_get algorithm.current U)) U) rfl hown.symm hs1
  have hlr : execute_request_log_request u.request_log
      (inf_adopted_request_new_undo algorithm.current U) =
      .ok (inf_adopted_request_new_undo
        (inf_adopted_state_vector_set D.vector U
          (inf_adopted_state_vector_get algorithm.current U)) U) := by
    unfold execute_request_log_request
    simp only [inf_adopted_request_get_request_type, horig]
    simp [inf_adopted_request_new_undo, inf_adopted_state_vector_copy,
      inf_adopted_request_get_vector, inf_adopted_request_get_user_id]
  unfold inf_adopted_algorithm_execute_request
  have hcb : inf_adopted_state_vector_causally_before
      (inf_adopted_request_get_vector (inf_adopted_request_new_undo algorithm.current U :
        InfAdoptedRequest Op)) algorithm.current = true := causally_before_refl _
  have huid : inf_adopted_request_get_user_id (inf_adopted_request_new_undo algorithm.current U :
      InfAdoptedRequest Op) = U := rfl
  have hrec : execute_request_recorded O algorithm.buffer
      (inf_adopted_request_new_undo algorithm.current U)
      (inf_adopted_request_new_undo
        (inf_adopted_state_vector_set D.vector U
          (inf_adopted_state_vector_get algorithm.current U)) U)
      (inf_adopted_request_mirror O (inf_adopted_request_copy D) 1) =
      some (inf_adopted_request_new_undo
        (inf_adopted_state_vector_set D.vector U
          (inf_adopted_state_vector_get algorithm.current U)) U) := by
    unfold execute_request_recorded
    simp [inf_adopted_request_get_request_type, inf_adopted_request_new_undo]
  simp only [inf_adopted_request_copy] at htr hrec ⊢
  simp only [hcb, Bool.not_true, Bool.false_eq_true, if_false, huid, hu, hlr, htr, hrec, hadd,
    if_true]
  rfl

end RoundTripExecute

section RoundTripTail

variable {Op Buf : Type}

theorem local_user_times_logs (locals : List InfAdoptedAlgorithmLocalUser)
    (c : InfAdoptedStateVector) (users : List (InfAdoptedUser Op)) :
    (locals.foldl (fun users local_ => inf_adopted_user_set_vector users local_.user c)
        users).map (fun u => (u.id, u.request_log)) =
      users.map (fun u => (u.id, u.request_log)) := by
  induction locals generalizing users with
  | nil => rfl
  | cons l rest ih =>
    rw [List.foldl_cons, ih, set_vector_logs]

theorem local_user_times_lookup_log (locals : List InfAdoptedAlgorithmLocalUser)
    (c : InfAdoptedStateVector) (users : List (InfAdoptedUser Op)) (j : Nat) :
    (inf_user_table_lookup_user_by_id
        (locals.foldl (fun users local_ => inf_adopted_user_set_vector users local_.user c)
          users) j).map (fun u => u.request_log) =
      (inf_user_table_lookup_user_by_id users j).map (fun u => u.request_log) := by
  induction locals generalizing users with
  | nil => rfl
  | cons l rest ih =>
    rw [List.foldl_cons, ih, lookup_set_vector]
    split
    · cases inf_user_table_lookup_user_by_id users j <;> rfl
    · rfl

theorem mem_update_user (users : List (InfAdoptedUser Op)) (id : Nat)
    (f : InfAdoptedUser Op → InfAdoptedUser Op) (x : InfAdoptedUser Op)
    (hx : x ∈ update_user users id f) :
    x ∈ users ∨ ∃ u0, inf_user_table_lookup_user_by_id users id = some u0 ∧ x = f u0 := by
  induction users with
  | nil => simp [update_user] at hx
  | cons u rest ih =>
    unfold update_user at hx
    unfold inf_user_table_lookup_user_by_id
    by_cases hid : u.id = id
    · simp only [hid, if_true, List.mem_cons] at hx
      rcases hx with rfl | hx
      · right; exact ⟨u, by simp [List.find?, hid], rfl⟩
      · left; exact List.mem_cons_of_mem _ hx
    · simp only [hid, if_false, List.mem_cons] at hx
      rcases hx with rfl | hx
      · left; exact List.mem_cons_self _ _
      · rcases ih hx with h | ⟨u0, h1, h2⟩
        · left; exact List.mem_cons_of_mem _ h
        · right
          refine ⟨u0, ?_, h2⟩
          unfold inf_user_table_lookup_user_by_id at h1
          simp [List.find?, hid, h1]

/-- The users of the state execute_request leaves behind after recording a
request: the logs are as before, the issuer's log apart. -/
theorem execute_request_result_logs (O : InfAdoptedOperationClass Op Buf)
    (algorithm : InfAdoptedAlgorithm Op Buf) (request : InfAdoptedRequest Op) (apply : Bool)
    (user : InfAdoptedUser Op) (translated : InfAdoptedRequest Op)
    (log : InfAdoptedRequestLog Op) :
    (execute_request_result O algorithm request apply user translated (some log)).users.map
        (fun u => (u.id, u.request_log)) =
      (update_user algorithm.users request.user_id
        (fun u => { u with request_log := log })).map (fun u => (u.id, u.request_log)) ∧
    ∀ j, (inf_user_table_lookup_user_by_id
        (execute_request_result O algorithm request apply user translated (some log)).users
          j).map (fun u => u.request_log) =
      if j = request.user_id then
        (inf_user_table_lookup_user_by_id algorithm.users j).map (fun _ => log)
      else (inf_user_table_lookup_user_by_id algorithm.users j).map (fun u => u.request_log) := by
  have husers : (execute_request_result O algorithm request apply user translated
      (some log)).users =
      algorithm.local_users.foldl
        (fun users local_ => inf_adopted_user_set_vector users local_.user
          (inf_adopted_state_vector_add algorithm.current request.user_id 1))
        (update_user algorithm.users request.user_id
          (fun u => { u with request_log := log })) := by
    unfold execute_request_result emit_apply_request inf_adopted_algorithm_apply_request
      inf_adopted_algorithm_update_local_user_times inf_adopted_state_vector_copy
    cases apply
    · rfl
    · simp only [if_true]
      split <;> rfl
  rw [husers]
  refine ⟨local_user_times_logs _ _ _, ?_⟩
  intro j
  rw [local_user_times_lookup_log,
    lookup_update_user algorithm.users request.user_id j
      (fun u => { u with request_log := log }) (fun _ => rfl)]
  split
  · cases inf_user_table_lookup_user_by_id algorithm.users j <;> rfl
  · rfl

/-- Recording a request in an indexed log of its issuer keeps all logs indexed. -/
theorem execute_request_result_logs_indexed (O : InfAdoptedOperationClass Op Buf)
    (algorithm : InfAdoptedAlgorithm Op Buf) (request : InfAdoptedRequest Op) (apply : Bool)
    (user : InfAdoptedUser Op) (translated : InfAdoptedRequest Op)
    (log : InfAdoptedRequestLog Op) (hlogs : logs_indexed algorithm)
    (hown : log.user_id = request.user_id) (hidx : log_indexed log) :
    logs_indexed (execute_request_result O algorithm request apply user translated
      (some log)) := by
  apply logs_indexed_congr
    ({ algorithm with
        users := update_user algorithm.users request.user_id
          (fun u => { u with request_log := log }) } : InfAdoptedAlgorithm Op Buf) _
    (execute_request_result_logs O algorithm request apply user translated log).1
  intro x hx
  rcases mem_update_user _ _ _ x hx with h | ⟨u0, h1, h2⟩
  · exact hlogs x h
  · subst h2
    exact ⟨by rw [hown]; exact (lookup_mem _ _ _ h1).2.symm, hidx⟩

theorem target_ready_mono (a a' : InfAdoptedAlgorithm Op Buf) (log : InfAdoptedRequestLog Op)
    (target : Option (InfAdoptedRequest Op))
    (hmax : a'.max_total_log_size = a.max_total_log_size)
    (hle : ∀ p, inf_adopted_state_vector_get a.current p ≤
      inf_adopted_state_vector_get a'.current p)
    (h : target_ready a log target = true) : target_ready a' log target = true := by
  unfold target_ready at h ⊢
  cases target with
  | none => rfl
  | some request =>
    simp only [Bool.or_eq_true] at h ⊢
    rcases h with h | h
    · left; rw [hmax]; exact h
    · right
      cases ho : inf_adopted_request_log_original_request log request with
      | none => simp [ho] at h
      | some original =>
        simp only [ho] at h ⊢
        rw [causally_before_iff] at h ⊢
        exact fun p => Nat.le_trans (h p) (hle p)

end RoundTripTail

section RoundTripReady

variable {Op Buf : Type}

theorem appended_get_entry (log log2 : InfAdoptedRequestLog Op)
    (ex : List (InfAdoptedRequestLogEntry Op)) (hb : log2.log_begin = log.log_begin)
    (he : log2.entries = log.entries ++ ex) (k : Nat) (e : InfAdoptedRequestLogEntry Op)
    (h : inf_adopted_request_log_get_entry log k = some e) :
    inf_adopted_request_log_get_entry log2 k = some e := by
  unfold inf_adopted_request_log_get_entry at h ⊢
  rw [hb, he]
  by_cases hk : log.log_begin ≤ k
  · simp only [hk, if_true, List.get?_eq_getElem?] at h ⊢
    have hlt : k - log.log_begin < log.entries.length := by
      by_contra hc
      rw [List.getElem?_eq_none (by omega)] at h
      cases h
    rw [List.getElem?_append_left hlt]
    exact h
  · simp [hk] at h

theorem appended_get_request (log log2 : InfAdoptedRequestLog Op)
    (ex : List (InfAdoptedRequestLogEntry Op)) (hb : log2.log_begin = log.log_begin)
    (he : log2.entries = log.entries ++ ex) (k : Nat) (r : InfAdoptedRequest Op)
    (h : inf_adopted_request_log_get_request log k = some r) :
    inf_adopted_request_log_get_request log2 k = some r := by
  unfold inf_adopted_request_log_get_request at h ⊢
  cases hg : inf_adopted_request_log_get_entry log k with
  | none => simp [hg] at h
  | some e =>
    rw [appended_get_entry log log2 ex hb he k e hg]
    rw [hg] at h
    exact h

/-- The original request of a logged request is found again after requests were
appended to the log. -/
theorem appended_original_request (log log2 : InfAdoptedRequestLog Op)
    (ex : List (InfAdoptedRequestLogEntry Op)) (hb : log2.log_begin = log.log_begin)
    (he : log2.entries = log.entries ++ ex) (r : InfAdoptedRequest Op)
    (e0 : InfAdoptedRequestLogEntry Op)
    (h0 : inf_adopted_request_log_get_entry log (request_slot r) = some e0)
    (o : InfAdoptedRequest Op)
    (h : inf_adopted_request_log_original_request log r = some o) :
    inf_adopted_request_log_original_request log2 r = some o := by
  have hslot : prev_associated_slot log2 r = prev_associated_slot log r := by
    unfold prev_associated_slot
    rw [h0, appended_get_entry log log2 ex hb he _ e0 h0]
  unfold inf_adopted_request_log_original_request at h ⊢
  rw [hslot]
  cases ht : r.type with
  | DO => rw [ht] at h; exact h
  | UNDO =>
    rw [ht] at h
    simp only at h ⊢
    cases hp : prev_associated_slot log r with
    | none => simp [hp] at h
    | some n =>
      simp only [hp] at h ⊢
      cases hg : inf_adopted_request_log_get_entry log n with
      | none => simp [hg] at h
      | some e1 =>
        simp only [hg] at h
        simp only [appended_get_entry log log2 ex hb he n e1 hg]
        exact appended_get_request log log2 ex hb he _ o h
  | REDO =>
    rw [ht] at h
    simp only at h ⊢
    cases hp : prev_associated_slot log r with
    | none => simp [hp] at h
    | some n =>
      simp only [hp] at h ⊢
      cases hg : inf_adopted_request_log_get_entry log n with
      | none => simp [hg] at h
      | some e1 =>
        simp only [hg] at h
        simp only [appended_get_entry log log2 ex hb he n e1 hg]
        exact appended_get_request log log2 ex hb he _ o h

/-- After the Undo of the newest Do `D` was recorded, the next Undo and Redo
targets of the log can be checked for availability, if the Undo target below `D`
could be checked before. -/
theorem undo_newest_targets_ready (a a2 : InfAdoptedAlgorithm Op Buf)
    (log : InfAdoptedRequestLog Op) (D : InfAdoptedRequest Op) (rest : List Nat)
    (r : InfAdoptedRequest Op) (hidx : log_indexed log) (hnew : newest_do log D rest)
    (htype : r.type = InfAdoptedRequestType.UNDO)
    (hslot : request_slot r = request_slot D + 1)
    (hmax : a2.max_total_log_size = a.max_total_log_size)
    (hle : ∀ p, inf_adopted_state_vector_get a.current p ≤
      inf_adopted_state_vector_get a2.current p)
    (hD : inf_adopted_state_vector_causally_before D.vector a.current = true)
    (hnext : target_ready a log
      (inf_adopted_request_log_next_undo { log with undo_targets := rest }) = true)
    (log2 : InfAdoptedRequestLog Op)
    (hlog2 : log2 = { log with
      entries := log.entries ++ [{ request := r, prev_associated := some (request_slot D),
                                   original := request_slot D }]
      undo_targets := rest
      redo_targets := (request_slot D + 1) :: log.redo_targets }) :
    target_ready a2 log2 (inf_adopted_request_log_next_undo log2) = true ∧
      target_ready a2 log2 (inf_adopted_request_log_next_redo log2) = true := by
  obtain ⟨h1, _, hend, hget, hnone⟩ := newest_do_slots log D rest hidx hnew
  have hb : log2.log_begin = log.log_begin := by rw [hlog2]
  have he : log2.entries = log.entries ++
      [{ request := r, prev_associated := some (request_slot D),
         original := request_slot D }] := by
    rw [hlog2]
  have hnewent : inf_adopted_request_log_get_entry log2 (request_slot D + 1) =
      some { request := r, prev_associated := some (request_slot D),
             original := request_slot D } := by
    unfold inf_adopted_request_log_get_entry
    rw [hb, he]
    have hle2 : log.log_begin ≤ request_slot D + 1 := by omega
    have hidx2 : request_slot D + 1 - log.log_begin = log.entries.length := by omega
    simp [hle2, hidx2]
  have hDent := appended_get_entry log log2 _ hb he _ _ hget
  have hDreq : inf_adopted_request_log_get_request log2 (request_slot D) = some D := by
    unfold inf_adopted_request_log_get_request
    rw [hDent]; rfl
  have horig : inf_adopted_request_log_original_request log2 r = some D := by
    unfold inf_adopted_request_log_original_request prev_associated_slot
    rw [htype, hslot, hnewent]
    simp only [hDent]
    exact hDreq
  have hcb2 : inf_adopted_state_vector_causally_before D.vector a2.current = true := by
    rw [causally_before_iff] at hD ⊢
    exact fun p => Nat.le_trans (hD p) (hle p)
  have hr : target_ready a2 log2 (some r) = true := by
    unfold target_ready
    simp only [horig, hcb2, Bool.or_true]
  have hreq2 : inf_adopted_request_log_get_request log2 (request_slot D + 1) = some r := by
    unfold inf_adopted_request_log_get_request
    rw [hnewent]; rfl
  constructor
  · unfold inf_adopted_request_log_next_undo at hnext ⊢
    have hu2 : log2.undo_targets = rest := by rw [hlog2]
    rw [hu2]
    cases rest with
    | nil => rfl
    | cons t tl =>
      simp only at hnext ⊢
      by_cases hin : log.log_begin ≤ t ∧ t < log.log_begin + log.entries.length
      · obtain ⟨r0, hr0⟩ := get_request_in_range log t hin.1 hin.2
        have hr0' : inf_adopted_request_log_get_request
            { log with undo_targets := t :: tl } t = some r0 := hr0
        rw [hr0'] at hnext
        rw [appended_get_request log log2 _ hb he t r0 hr0]
        have hmono := target_ready_mono a a2 log (some r0) hmax hle hnext
        unfold target_ready at hmono ⊢
        simp only [Bool.or_eq_true] at hmono ⊢
        rcases hmono with hm | hm
        · left; exact hm
        · right
          cases ho : inf_adopted_request_log_original_request log r0 with
          | none => simp [ho] at hm
          | some o =>
            simp only [ho] at hm
            obtain ⟨g1, _, _, _⟩ := get_request_indexed log hidx t r0 hr0
            have hent : ∃ e0, inf_adopted_request_log_get_entry log (request_slot r0) =
                some e0 := by
              rw [g1]
              unfold inf_adopted_request_log_get_request at hr0
              cases hg : inf_adopted_request_log_get_entry log t with
              | none => simp [hg] at hr0
              | some e0 => exact ⟨e0, rfl⟩
            obtain ⟨e0, he0⟩ := hent
            rw [appended_original_request log log2 _ hb he r0 e0 he0 o ho]
            exact hm
      · by_cases ht : t = request_slot D + 1
        · rw [ht, hreq2]; exact hr
        · have hnone2 : inf_adopted_request_log_get_request log2 t = none := by
            unfold inf_adopted_request_log_get_request inf_adopted_request_log_get_entry
            rw [hb, he]
            by_cases hbt : log.log_begin ≤ t
            · simp only [hbt, if_true, List.get?_eq_getElem?]
              rw [List.getElem?_eq_none (by simp; omega)]
              rfl
            · simp [hbt]
          rw [hnone2]
          rfl
  · unfold inf_adopted_request_log_next_redo
    have hr2 : log2.redo_targets = (request_slot D + 1) :: log.redo_targets := by rw [hlog2]
    rw [hr2]
    simp only [hreq2]
    exact hr

end RoundTripReady

section RoundTripMain

variable {Op Buf : Type}

/-- C4: round-trip undo. Local user U can undo, the newest request of U's log is
the Do `D`, recorded as the next Undo target, and current is `D`'s vector advanced by
one at U (no request of any participant was executed since). Then generate_undo(U)
returns the new Undo request, and the apply-request it emits carries the copy of `D`
mirrored by distance 1: the late mirror, whose intermediate vector agrees with
`D.vector` and is reached by the identity translation. Hence the buffer afterwards is
the buffer before with the mirrored operation of `D` applied, and when that undoes
the operation of `D`, it is the buffer before the Do. (Side conditions: the logs are
indexed by their owners' components with room for two more requests in the log of U,
the Undo / Redo targets can be checked, and current and `D.vector` are reachable.) -/
theorem generate_undo_round_trip (fuel : Nat) (O : InfAdoptedOperationClass Op Buf)
    (algorithm : InfAdoptedAlgorithm Op Buf) (U : Nat) (u : InfAdoptedUser Op)
    (D : InfAdoptedRequest Op) (dop : Op) (rest : List Nat)
    (hu : inf_user_table_lookup_user_by_id algorithm.users U = some u)
    (hlocal : u.flags_local = true)
    (hcan : inf_adopted_algorithm_can_undo algorithm U = true)
    (hlogs : logs_indexed algorithm)
    (hslack : 2 * (u.request_log.log_begin + u.request_log.entries.length) + 4 < GUINT_MOD)
    (hready : undo_redo_ready algorithm = true)
    (hnext : target_ready algorithm u.request_log
      (inf_adopted_request_log_next_undo { u.request_log with undo_targets := rest }) = true)
    (hnew : newest_do u.request_log D rest) (hop : D.operation = some dop)
    (hcur : ∀ p, inf_adopted_state_vector_get algorithm.current p =
      inf_adopted_state_vector_get (inf_adopted_state_vector_add D.vector U 1) p)
    (hreach : inf_adopted_algorithm_is_reachable (fuel + 1) algorithm algorithm.current
      = .ok true)
    (hprev : inf_adopted_algorithm_is_reachable (fuel + 1) algorithm D.vector = .ok true) :
    ∃ algorithm',
      inf_adopted_algorithm_generate_undo (fuel + 2) O algorithm U =
        .ok (some (inf_adopted_request_new_undo algorithm.current U), algorithm') ∧
      applied_requests algorithm'.emitted = applied_requests algorithm.emitted ++
        [(U, inf_adopted_request_mirror O (inf_adopted_request_copy D) 1)] ∧
      (∀ p, inf_adopted_state_vector_get (inf_adopted_state_vector_set algorithm.current U
          (inf_adopted_state_vector_get D.vector U)) p =
        inf_adopted_state_vector_get D.vector p) ∧
      inf_adopted_algorithm_translate_request (fuel + 1) O algorithm
        (inf_adopted_request_copy D)
        (inf_adopted_state_vector_set algorithm.current U
          (inf_adopted_state_vector_get D.vector U)) = .ok (inf_adopted_request_copy D) ∧
      algorithm'.buffer = O.apply (O.mirror dop) U algorithm.buffer ∧
      ∀ before, algorithm.buffer = O.apply dop U before →
        O.apply (O.mirror dop) U (O.apply dop U before) = before →
        algorithm'.buffer = before := by
  obtain ⟨hmem, hid⟩ := lookup_mem _ _ _ hu
  obtain ⟨hown0, hidx⟩ := hlogs u hmem
  have hown : u.request_log.user_id = U := by rw [hown0, hid]
  obtain ⟨hDu, hDU, hb, hcU, hcp, hle⟩ :=
    newest_do_vectors algorithm U u.request_log D rest hidx hown hnew hcur
  obtain ⟨h1, _, hend, hget, hnone⟩ := newest_do_slots u.request_log D rest hidx hnew
  have hexec := execute_request_undo_newest fuel O algorithm U u D rest hu hidx hown hnew hcur
    hreach hprev
  generalize hlog2 : ({ u.request_log with
      entries := u.request_log.entries ++
        [{ request := inf_adopted_request_new_undo
            (inf_adopted_state_vector_set D.vector U
              (inf_adopted_state_vector_get algorithm.current U)) U,
           prev_associated := some (request_slot D), original := request_slot D }]
      undo_targets := rest
      redo_targets := (request_slot D + 1) :: u.request_log.redo_targets } :
      InfAdoptedRequestLog Op) = log2 at hexec
  have hs1 : request_slot (inf_adopted_request_new_undo
      (inf_adopted_state_vector_set D.vector U
        (inf_adopted_state_vector_get algorithm.current U)) U : InfAdoptedRequest Op) =
      request_slot D + 1 := by
    show inf_adopted_state_vector_get (inf_adopted_state_vector_set D.vector U
      (inf_adopted_state_vector_get algorithm.current U)) U = request_slot D + 1
    rw [get_set, if_pos rfl, hcU]
  -- the new log is indexed
  have hidx2 : log_indexed log2 := by
    rw [← hlog2]
    refine ⟨?_, ?_, ?_⟩
    · simp only [List.map_append, List.map_cons, List.map_nil, List.length_append,
        List.length_singleton, hidx.1, hs1]
      rw [List.range'_1_concat, h1]
    · intro e he
      simp only [List.mem_append, List.mem_singleton] at he
      rcases he with he | he
      · exact hidx.2.1 e he
      · rw [he]; exact hown.symm ▸ rfl
    · simp only [List.length_append, List.length_singleton]
      omega
  generalize hmid : execute_request_result O algorithm
      (inf_adopted_request_new_undo algorithm.current U) true u
      (inf_adopted_request_mirror O (inf_adopted_request_copy D) 1) (some log2) = mid at hexec
  obtain ⟨_, f2, f3, f4, f5, _⟩ := execute_request_result_frame O algorithm
    (inf_adopted_request_new_undo algorithm.current U) true u
    (inf_adopted_request_mirror O (inf_adopted_request_copy D) 1) (some log2)
  rw [hmid] at f2 f3 f4 f5
  simp only [if_true] at f4 f5
  have hUreq : (inf_adopted_request_new_undo algorithm.current U :
      InfAdoptedRequest Op).user_id = U := rfl
  rw [hUreq] at f4
  have hlogs2 : logs_indexed mid := by
    rw [← hmid]
    exact execute_request_result_logs_indexed O algorithm _ true u _ log2 hlogs
      (by rw [← hlog2]; exact hown) hidx2
  have hle2 : ∀ p, inf_adopted_state_vector_get algorithm.current p ≤
      inf_adopted_state_vector_get mid.current p := by
    intro p
    rw [f4, get_add]
    split
    · rename_i hp
      rw [hp, hcU, guint_add_small _ _ (by omega)]
      omega
    · exact Nat.le_refl _
  have hcbD : inf_adopted_state_vector_causally_before D.vector algorithm.current = true :=
    (causally_before_iff _ _).mpr hle
  have hready2 : undo_redo_ready mid = true := by
    have hr := hready
    unfold undo_redo_ready at hr ⊢
    rw [List.all_eq_true] at hr ⊢
    intro l hl
    rw [f2] at hl
    have hrl := hr l hl
    have hlk := (execute_request_result_logs O algorithm
      (inf_adopted_request_new_undo algorithm.current U) true u
      (inf_adopted_request_mirror O (inf_adopted_request_copy D) 1) log2).2 l.user
    rw [hmid, hUreq] at hlk
    cases h0 : inf_user_table_lookup_user_by_id algorithm.users l.user with
    | none => simp [h0] at hrl
    | some u0 =>
      simp only [h0, Bool.and_eq_true] at hrl
      rw [h0] at hlk
      cases h2 : inf_user_table_lookup_user_by_id mid.users l.user with
      | none => rw [h2] at hlk; split at hlk <;> simp at hlk
      | some u2 =>
        rw [h2] at hlk
        simp only [Bool.and_eq_true]
        by_cases hlU : l.user = U
        · simp only [hlU, if_true, Option.map_some', Option.some.injEq] at hlk
          rw [hlk]
          exact undo_newest_targets_ready algorithm mid u.request_log D rest _ hidx hnew rfl
            hs1 f3 hle2 hcbD hnext log2 hlog2.symm
        · simp only [hlU, if_false, Option.map_some', Option.some.injEq] at hlk
          rw [hlk]
          exact ⟨target_ready_mono algorithm mid _ _ f3 hle2 hrl.1,
            target_ready_mono algorithm mid _ _ f3 hle2 hrl.2⟩
  obtain ⟨fin, hfin⟩ := update_logs_and_undo_redo_total mid hlogs2 hready2
  obtain ⟨_, _, _, t4, t5, _⟩ := update_logs_and_undo_redo_frame mid fin hfin
  have hv1 : ∀ p, inf_adopted_state_vector_get (inf_adopted_state_vector_set algorithm.current U
      (inf_adopted_state_vector_get D.vector U)) p =
      inf_adopted_state_vector_get D.vector p := by
    intro p
    rw [get_set]
    by_cases hp : p = U
    · rw [if_pos hp, hp]
    · rw [if_neg hp, hcp p hp]
  have hbuf : mid.buffer = O.apply (O.mirror dop) U algorithm.buffer := by
    rw [← hmid]
    unfold execute_request_result emit_apply_request inf_adopted_algorithm_apply_request
      inf_adopted_algorithm_update_local_user_times inf_adopted_request_get_operation
      inf_adopted_request_mirror inf_adopted_request_copy
    simp [hop, hid]
  refine ⟨fin, ?_, ?_, hv1, ?_, by rw [t4, hbuf], ?_⟩
  · unfold inf_adopted_algorithm_generate_undo generate_execute
    simp only [hu, hlocal, hcan, Bool.true_eq_false, if_false, hid, hexec, hfin]
  · rw [t5, f5, applied_requests_append, hid]
    rfl
  · have hcbv : inf_adopted_state_vector_causally_before
        (inf_adopted_state_vector_set algorithm.current U
          (inf_adopted_state_vector_get D.vector U)) algorithm.current = true := by
      rw [causally_before_congr _ D.vector algorithm.current algorithm.current hv1
        (fun _ => rfl)]
      exact hcbD
    have hr1 : inf_adopted_algorithm_is_reachable (fuel + 1) algorithm
        (inf_adopted_state_vector_set algorithm.current U
          (inf_adopted_state_vector_get D.vector U)) = .ok true := by
      rw [is_reachable_congr (fuel + 1) algorithm _ D.vector hv1]
      exact hprev
    exact translate_request_identity fuel O algorithm D _ u (by rw [hDu]; exact hu) hnew.1 hcbv
      (fun p => (hv1 p).symm) hr1
  · intro before hb1 hb2
    rw [t4, hbuf, hb1, hb2]

end RoundTripMain

/-- C4 on the sample session: local user 1 has generated a Do adding 5 to the
counter 0; generate_undo emits the logged Do mirrored by 1 and the counter is back
at 0. -/
theorem generate_undo_round_trip_witness :
    sample_algorithm.buffer = 0 ∧ sample_after_do.buffer = 5 ∧
      ∃ algorithm',
        inf_adopted_algorithm_generate_undo 8 CounterOperation sample_after_do 1 =
          .ok (some (inf_adopted_request_new_undo sample_after_do.current 1), algorithm') ∧
        applied_requests algorithm'.emitted = applied_requests sample_after_do.emitted ++
          [(1, inf_adopted_request_mirror CounterOperation
            (inf_adopted_request_copy sample_first_do) 1)] ∧
        algorithm'.buffer = 0 := by
  obtain ⟨a, h1, h2, _, _, _, h6⟩ :=
    generate_undo_round_trip 6 CounterOperation sample_after_do 1 _ sample_first_do 5 [] rfl rfl
      (by decide) (by unfold logs_indexed log_indexed; decide) (by decide) (by decide)
      (by decide) ⟨rfl, ⟨[], rfl⟩, rfl⟩ rfl (fun _ => rfl) rfl rfl
  exact ⟨by decide, by decide, a, h1, h2, h6 0 (by decide) (by decide)⟩

/-! ## Text insert operation: the cases of the transformations -/

/-- C16: transform_insert keeps op when op's position is smaller than against's, or
when the positions are equal and op_lcs's position is smaller than ag_lcs's; it
moves op to position + length(against) when op's position is greater than against's,
or when the positions are equal and op_lcs's position is greater than ag_lcs's. In
these four cases the result is the same for every cid, and when the positions
differ also for every op_lcs and ag_lcs, `NULL` included (the new position is taken
to fit a `guint`). -/
theorem transform_insert_position_cases (op against : InfTextInsertOperation)
    (hfit : op.position + against.text.length < GUINT_MOD) :
    (op.position < against.position →
      ∀ op_lcs ag_lcs cid,
        inf_text_insert_operation_transform_insert op against op_lcs ag_lcs cid = .ok op) ∧
    (against.position < op.position →
      ∀ op_lcs ag_lcs cid,
        inf_text_insert_operation_transform_insert op against op_lcs ag_lcs cid =
          .ok { op with position := op.position + against.text.length }) ∧
    (op.position = against.position →
      ∀ (op_lcs ag_lcs : InfTextInsertOperation) cid, op_lcs.position < ag_lcs.position →
        inf_text_insert_operation_transform_insert op against (some op_lcs) (some ag_lcs) cid =
          .ok op) ∧
    (op.position = against.position →
      ∀ (op_lcs ag_lcs : InfTextInsertOperation) cid, ag_lcs.position < op_lcs.position →
        inf_text_insert_operation_transform_insert op against (some op_lcs) (some ag_lcs) cid =
          .ok { op with position := op.position + against.text.length }) := by
  have hs : guint_add op.position against.text.length = op.position + against.text.length :=
    guint_add_small _ _ hfit
  unfold inf_text_insert_operation_transform_insert
  simp only [inf_text_insert_operation_get_position, inf_text_insert_operation_get_length,
    inf_adopted_operation_copy, transform_position, hs]
  refine ⟨?_, ?_, ?_, ?_⟩
  · intro h op_lcs ag_lcs cid
    simp [h]
  · intro h op_lcs ag_lcs cid
    simp [h, Nat.not_lt.mpr (Nat.le_of_lt h)]
  · intro h op_lcs ag_lcs cid h1
    simp [h, h1]
  · intro h op_lcs ag_lcs cid h1
    simp [h, h1, Nat.not_lt.mpr (Nat.le_of_lt h1), Nat.ne_of_gt h1]

/-- C16 at insert "y" at 2 against insert "ab" at 1 (moved to 4), at the same pair
the other way round (kept at 1), and at two inserts at 1 whose lcs forms are at 0
and 3. -/
theorem transform_insert_position_cases_witness :
    inf_text_insert_operation_transform_insert ⟨1, ['a', 'b']⟩ ⟨2, ['y']⟩ none none .NONE =
        .ok ⟨1, ['a', 'b']⟩ ∧
      inf_text_insert_operation_transform_insert ⟨2, ['y']⟩ ⟨1, ['a', 'b']⟩ none none .NONE =
        .ok ⟨4, ['y']⟩ ∧
      inf_text_insert_operation_transform_insert ⟨1, ['y']⟩ ⟨1, ['a', 'b']⟩
        (some ⟨0, ['y']⟩) (some ⟨3, ['a', 'b']⟩) .SELF = .ok ⟨1, ['y']⟩ ∧
      inf_text_insert_operation_transform_insert ⟨1, ['a', 'b']⟩ ⟨1, ['y']⟩
        (some ⟨3, ['a', 'b']⟩) (some ⟨0, ['y']⟩) .OTHER = .ok ⟨2, ['a', 'b']⟩ :=
  ⟨(transform_insert_position_cases ⟨1, ['a', 'b']⟩ ⟨2, ['y']⟩ (by decide)).1 (by decide)
      none none .NONE,
    (transform_insert_position_cases ⟨2, ['y']⟩ ⟨1, ['a', 'b']⟩ (by decide)).2.1 (by decide)
      none none .NONE,
    (transform_insert_position_cases ⟨1, ['y']⟩ ⟨1, ['a', 'b']⟩ (by decide)).2.2.1 rfl
      ⟨0, ['y']⟩ ⟨3, ['a', 'b']⟩ .SELF (by decide),
    (transform_insert_position_cases ⟨1, ['a', 'b']⟩ ⟨1, ['y']⟩ (by decide)).2.2.2 rfl
      ⟨3, ['a', 'b']⟩ ⟨0, ['y']⟩ .OTHER (by decide)⟩

/-- C17 (amended): when op and against have equal positions and op_lcs and ag_lcs
have equal positions, transform_insert with cid = OTHER returns op with its position
retained, and with cid = SELF it moves op right to position + length(against) (the
new position is taken to fit a `guint`). -/
theorem transform_insert_tie_break (op against op_lcs ag_lcs : InfTextInsertOperation)
    (hpos : op.position = against.position) (hlcs : op_lcs.position = ag_lcs.position)
    (hfit : op.position + against.text.length < GUINT_MOD) :
    inf_text_insert_operation_transform_insert op against (some op_lcs) (some ag_lcs)
        InfAdoptedConcurrencyId.OTHER = .ok op ∧
      inf_text_insert_operation_transform_insert op against (some op_lcs) (some ag_lcs)
        InfAdoptedConcurrencyId.SELF =
          .ok { op with position := op.position + against.text.length } := by
  have hs : guint_add op.position against.text.length = op.position + against.text.length :=
    guint_add_small _ _ hfit
  unfold inf_text_insert_operation_transform_insert
  simp only [inf_text_insert_operation_get_position, inf_text_insert_operation_get_length,
    inf_adopted_operation_copy, transform_position, hs]
  simp [hpos, hlcs]

/-- C17 as stated fails: for insert "y" at 0 against insert "x" at 0, with lcs
forms at 0, cid = OTHER does not move "y" to position 1 but keeps it at 0, and
cid = SELF does not keep it at 0 but moves it to 1. -/
theorem transform_insert_tie_break_counterexample :
    inf_text_insert_operation_transform_insert ⟨0, ['y']⟩ ⟨0, ['x']⟩ (some ⟨0, ['y']⟩)
        (some ⟨0, ['x']⟩) InfAdoptedConcurrencyId.OTHER = .ok ⟨0, ['y']⟩ ∧
      inf_text_insert_operation_transform_insert ⟨0, ['y']⟩ ⟨0, ['x']⟩ (some ⟨0, ['y']⟩)
        (some ⟨0, ['x']⟩) InfAdoptedConcurrencyId.OTHER ≠ .ok ⟨0 + ['x'].length, ['y']⟩ ∧
      inf_text_insert_operation_transform_insert ⟨0, ['y']⟩ ⟨0, ['x']⟩ (some ⟨0, ['y']⟩)
        (some ⟨0, ['x']⟩) InfAdoptedConcurrencyId.SELF = .ok ⟨1, ['y']⟩ ∧
      inf_text_insert_operation_transform_insert ⟨0, ['y']⟩ ⟨0, ['x']⟩ (some ⟨0, ['y']⟩)
        (some ⟨0, ['x']⟩) InfAdoptedConcurrencyId.SELF ≠ .ok ⟨0, ['y']⟩ := by
  refine ⟨rfl, ?_, rfl, ?_⟩
  · intro h
    have h2 : inf_text_insert_operation_transform_insert ⟨0, ['y']⟩ ⟨0, ['x']⟩ (some ⟨0, ['y']⟩)
        (some ⟨0, ['x']⟩) InfAdoptedConcurrencyId.OTHER = .ok ⟨0, ['y']⟩ := rfl
    rw [h2] at h
    simp at h
  · intro h
    have h2 : inf_text_insert_operation_transform_insert ⟨0, ['y']⟩ ⟨0, ['x']⟩ (some ⟨0, ['y']⟩)
        (some ⟨0, ['x']⟩) InfAdoptedConcurrencyId.SELF = .ok ⟨1, ['y']⟩ := rfl
    rw [h2] at h
    simp at h

/-- C17 (amended) at insert "y" at 0 against insert "x" at 0. -/
theorem transform_insert_tie_break_witness :
    inf_text_insert_operation_transform_insert ⟨0, ['y']⟩ ⟨0, ['x']⟩ (some ⟨0, ['y']⟩)
        (some ⟨0, ['x']⟩) InfAdoptedConcurrencyId.OTHER = .ok ⟨0, ['y']⟩ ∧
      inf_text_insert_operation_transform_insert ⟨0, ['y']⟩ ⟨0, ['x']⟩ (some ⟨0, ['y']⟩)
        (some ⟨0, ['x']⟩) InfAdoptedConcurrencyId.SELF = .ok ⟨1, ['y']⟩ :=
  transform_insert_tie_break ⟨0, ['y']⟩ ⟨0, ['x']⟩ ⟨0, ['y']⟩ ⟨0, ['x']⟩ rfl rfl (by decide)

/-- C18: need_concurrency_id(op, against) is TRUE exactly when against is an insert
operation whose position equals op's position: it is FALSE for every insert at
another position and for every delete, also one at op's position. -/
theorem need_concurrency_id_iff (op : InfTextInsertOperation) (against : InfTextOperation) :
    (inf_text_insert_operation_need_concurrency_id op against = true ↔
      ∃ insert_against, against = InfTextOperation.insert insert_against ∧
        insert_against.position = op.position) ∧
    (∀ insert_against : InfTextInsertOperation, insert_against.position ≠ op.position →
      inf_text_insert_operation_need_concurrency_id op (InfTextOperation.insert insert_against)
        = false) ∧
    (∀ delete_against : InfTextDeleteOperation,
      inf_text_insert_operation_need_concurrency_id op (InfTextOperation.delete delete_against)
        = false) := by
  refine ⟨?_, ?_, ?_⟩
  · cases against with
    | insert a =>
      unfold inf_text_insert_operation_need_concurrency_id
        inf_text_insert_operation_get_position
      constructor
      · intro h
        refine ⟨a, rfl, ?_⟩
        by_contra hne
        have : ¬ op.position = a.position := fun e => hne e.symm
        simp [this] at h
      · rintro ⟨b, hb, hpos⟩
        cases hb
        simp [hpos]
    | delete d =>
      unfold inf_text_insert_operation_need_concurrency_id
      constructor
      · intro h; cases h
      · rintro ⟨b, hb, _⟩; cases hb
  · intro a hne
    unfold inf_text_insert_operation_need_concurrency_id inf_text_insert_operation_get_position
    have : ¬ op.position = a.position := fun e => hne e.symm
    simp [this]
  · intro d
    rfl

/-- C18 at the insert at 3: an insert at 3 needs a concurrency id, an insert at 4
and a delete at 3 do not. -/
theorem need_concurrency_id_iff_witness :
    inf_text_insert_operation_need_concurrency_id ⟨3, ['x']⟩ (.insert ⟨3, ['y']⟩) = true ∧
      inf_text_insert_operation_need_concurrency_id ⟨3, ['x']⟩ (.insert ⟨4, ['y']⟩) = false ∧
      inf_text_insert_operation_need_concurrency_id ⟨3, ['x']⟩ (.delete ⟨3, 1⟩) = false :=
  ⟨(need_concurrency_id_iff ⟨3, ['x']⟩ (.insert ⟨3, ['y']⟩)).1.mpr ⟨⟨3, ['y']⟩, rfl, rfl⟩,
    (need_concurrency_id_iff ⟨3, ['x']⟩ (.insert ⟨3, ['y']⟩)).2.1 ⟨4, ['y']⟩ (by decide),
    (need_concurrency_id_iff ⟨3, ['x']⟩ (.insert ⟨3, ['y']⟩)).2.2 ⟨3, 1⟩⟩

/-! ## Text insert operation: transformation against a delete -/

theorem outside_range_eq (piece : List Char) (p l : Nat) : ∀ s : Nat,
    outside_range piece s p l = piece.take (p - s) ++ piece.drop (p + l - s) := by
  unfold outside_range
  induction piece with
  | nil => intro s; simp
  | cons x xs ih =>
    intro s
    rw [List.enumFrom_cons, List.filter_cons]
    by_cases h1 : s < p
    · have e1 : p - s = (p - (s + 1)) + 1 := by omega
      have e2 : p + l - s = (p + l - (s + 1)) + 1 := by omega
      have hk : (!(decide (p ≤ s) && decide (s < p + l))) = true := by simp; omega
      simp only [hk, if_true, List.map_cons, ih (s + 1)]
      rw [e1, e2]
      simp
    · by_cases h2 : s < p + l
      · have e1 : p - s = 0 := by omega
        have e0 : p - (s + 1) = 0 := by omega
        have e2 : p + l - s = (p + l - (s + 1)) + 1 := by omega
        have hk : (!(decide (p ≤ s) && decide (s < p + l))) = false := by simp; omega
        simp only [hk, Bool.false_eq_true, if_false, ih (s + 1)]
        rw [e1, e2, e0]
        simp
      · have e1 : p - s = 0 := by omega
        have e0 : p - (s + 1) = 0 := by omega
        have e2 : p + l - s = 0 := by omega
        have e3 : p + l - (s + 1) = 0 := by omega
        have hk : (!(decide (p ≤ s) && decide (s < p + l))) = true := by simp; omega
        simp only [hk, if_true, List.map_cons, ih (s + 1)]
        rw [e1, e2, e0, e3]
        simp

/-- A buffer cut at three positions. -/
theorem buffer_split4 (buf : List Char) (a b c : Nat) (hab : a ≤ b) (hbc : b ≤ c)
    (hc : c ≤ buf.length) :
    ∃ X Y Z W : List Char, buf = X ++ Y ++ Z ++ W ∧ X.length = a ∧ Y.length = b - a ∧
      Z.length = c - b := by
  obtain ⟨XY, Z, W, h1, h2, h3⟩ := buffer_split3 buf b c hbc hc
  obtain ⟨X, Y, R, h4, h5, h6⟩ := buffer_split3 XY a b hab (by omega)
  have hR : R = [] := by
    have hl : XY.length = X.length + Y.length + R.length := by rw [h4]; simp; omega
    exact List.eq_nil_of_length_eq_zero (by omega)
  subst hR
  refine ⟨X, Y, Z, W, ?_, h5, h6, h3⟩
  rw [h1, h4]
  simp

/-- C19: transform_delete(insert at i, delete of l characters at p) returns the
insert at i - l when i >= p + l, the insert unchanged when i < p, and the insert at
p when p <= i < p + l. Consequently, for every buffer that contains the deleted
range and every i within the buffer, deleting the range and then applying the
transformed insert gives the buffer obtained by inserting the text at i and then
removing the buffer's original characters of the range (the buffer length is taken
to fit a `guint`). -/
theorem transform_delete_cases (operation : InfTextInsertOperation)
    (against : InfTextDeleteOperation) (buffer : InfTextBuffer)
    (hsize : buffer.length < GUINT_MOD)
    (hrange : against.position + against.length ≤ buffer.length)
    (hi : operation.position ≤ buffer.length) :
    (against.position + against.length ≤ operation.position →
      inf_text_insert_operation_transform_delete operation against =
        { operation with position := operation.position - against.length }) ∧
    (operation.position < against.position →
      inf_text_insert_operation_transform_delete operation against = operation) ∧
    (against.position ≤ operation.position →
      operation.position < against.position + against.length →
      inf_text_insert_operation_transform_delete operation against =
        { operation with position := against.position }) ∧
    inf_text_insert_operation_apply
        (inf_text_insert_operation_transform_delete operation against)
        (inf_text_delete_operation_apply against buffer) =
      insert_then_remove_original_range buffer operation.position operation.text
        against.position against.length := by
  have hadd : guint_add against.position against.length =
      against.position + against.length := guint_add_small _ _ (by omega)
  have hsub : against.length ≤ operation.position →
      guint_sub operation.position against.length = operation.position - against.length :=
    fun h => guint_sub_small _ _ h (by omega)
  have c1 : against.position + against.length ≤ operation.position →
      inf_text_insert_operation_transform_delete operation against =
        { operation with position := operation.position - against.length } := by
    intro h
    unfold inf_text_insert_operation_transform_delete
    simp only [inf_text_insert_operation_get_position, hadd, ge_iff_le, h, if_true,
      transform_position, hsub (by omega)]
  have c2 : operation.position < against.position →
      inf_text_insert_operation_transform_delete operation against = operation := by
    intro h
    unfold inf_text_insert_operation_transform_delete
    have h' : ¬ against.position + against.length ≤ operation.position := by omega
    simp only [inf_text_insert_operation_get_position, hadd, ge_iff_le, h', if_false, h,
      if_true, inf_adopted_operation_copy]
  have c3 : against.position ≤ operation.position →
      operation.position < against.position + against.length →
      inf_text_insert_operation_transform_delete operation against =
        { operation with position := against.position } := by
    intro h1 h2
    unfold inf_text_insert_operation_transform_delete
    have h' : ¬ against.position + against.length ≤ operation.position := by omega
    have h'' : ¬ operation.position < against.position := by omega
    simp only [inf_text_insert_operation_get_position, hadd, ge_iff_le, h', if_false, h'',
      transform_position]
  refine ⟨c1, c2, c3, ?_⟩
  unfold insert_then_remove_original_range inf_text_delete_operation_apply
  rw [outside_range_eq, outside_range_eq]
  by_cases h1 : operation.position < against.position
  · rw [c2 h1]
    obtain ⟨X, Y, Z, W, hb, hX, hY, hZ⟩ := buffer_split4 buffer operation.position
      against.position (against.position + against.length) (by omega) (by omega) hrange
    have hp : against.position = (X ++ Y).length := by simp; omega
    have hpl : against.position + against.length = (X ++ Y ++ Z).length := by simp; omega
    have t1 : List.take against.position buffer = X ++ Y := by
      rw [hb, hp, List.append_assoc (X ++ Y), List.take_left]
    have t2 : List.drop (against.position + against.length) buffer = W := by
      rw [hb, hpl, List.drop_left]
    have t3 : List.take operation.position buffer = X := by
      rw [hb, ← hX, List.append_assoc, List.append_assoc, List.take_left]
    have t4 : List.drop operation.position buffer = Y ++ Z ++ W := by
      rw [hb, ← hX, List.append_assoc, List.append_assoc, List.drop_left]
      simp
    rw [t1, t2, t3, t4]
    rw [insert_apply_at operation X (Y ++ W) (X ++ Y ++ W) (by simp) hX.symm]
    have e1 : against.position - 0 = against.position := rfl
    have e2 : against.position + against.length - 0 = against.position + against.length := rfl
    rw [e1, e2]
    have t5 : List.take against.position X = X := List.take_of_length_le (by omega)
    have t6 : List.drop (against.position + against.length) X = [] :=
      List.drop_of_length_le (by omega)
    have t7 : List.take (against.position - operation.position) (Y ++ Z ++ W) = Y := by
      rw [← hY, List.append_assoc, List.take_left]
    have t8 : List.drop (against.position + against.length - operation.position)
        (Y ++ Z ++ W) = W := by
      have : against.position + against.length - operation.position = (Y ++ Z).length := by
        simp; omega
      rw [this, List.drop_left]
    rw [t5, t6, t7, t8]
    simp
  · by_cases h2 : operation.position < against.position + against.length
    · rw [c3 (by omega) h2]
      obtain ⟨X, Y, Z, W, hb, hX, hY, hZ⟩ := buffer_split4 buffer against.position
        operation.position (against.position + against.length) (by omega) (by omega) hrange
      have hi2 : operation.position = (X ++ Y).length := by simp; omega
      have hpl : against.position + against.length = (X ++ Y ++ Z).length := by simp; omega
      have t1 : List.take against.position buffer = X := by
        rw [hb, ← hX, List.append_assoc, List.append_assoc, List.take_left]
      have t2 : List.drop (against.position + against.length) buffer = W := by
        rw [hb, hpl, List.drop_left]
      have t3 : List.take operation.position buffer = X ++ Y := by
        rw [hb, hi2, List.append_assoc (X ++ Y), List.take_left]
      have t4 : List.drop operation.position buffer = Z ++ W := by
        rw [hb, hi2, List.append_assoc (X ++ Y), List.drop_left]
      rw [t1, t2, t3, t4]
      rw [insert_apply_at { operation with position := against.position } X W (X ++ W) rfl
        hX.symm]
      have e1 : against.position - 0 = against.position := rfl
      have e2 : against.position + against.length - 0 = against.position + against.length :=
        rfl
      rw [e1, e2]
      have t5 : List.take against.position (X ++ Y) = X := by rw [← hX, List.take_left]
      have t6 : List.drop (against.position + against.length) (X ++ Y) = [] :=
        List.drop_of_length_le (by simp; omega)
      have t7 : List.take (against.position - operation.position) (Z ++ W) = [] := by
        have : against.position - operation.position = 0 := by omega
        rw [this]; rfl
      have t8 : List.drop (against.position + against.length - operation.position)
          (Z ++ W) = W := by
        have : against.position + against.length - operation.position = Z.length := by omega
        rw [this, List.drop_left]
      rw [t5, t6, t7, t8]
      simp
    · rw [c1 (by omega)]
      obtain ⟨X, Y, Z, W, hb, hX, hY, hZ⟩ := buffer_split4 buffer against.position
        (against.position + against.length) operation.position (by omega) (by omega) hi
      have hpl : against.position + against.length = (X ++ Y).length := by simp; omega
      have hi2 : operation.position = (X ++ Y ++ Z).length := by simp; omega
      have t1 : List.take against.position buffer = X := by
        rw [hb, ← hX, List.append_assoc, List.append_assoc, List.take_left]
      have t2 : List.drop (against.position + against.length) buffer = Z ++ W := by
        rw [hb, hpl, List.append_assoc (X ++ Y), List.drop_left]
      have t3 : List.take operation.position buffer = X ++ Y ++ Z := by
        rw [hb, hi2, List.take_left]
      have t4 : List.drop operation.position buffer = W := by
        rw [hb, hi2, List.drop_left]
      rw [t1, t2, t3, t4]
      rw [insert_apply_at { operation with position := operation.position - against.length }
        (X ++ Z) W (X ++ (Z ++ W)) (by simp) (by simp; omega)]
      have e1 : against.position - 0 = against.position := rfl
      have e2 : against.position + against.length - 0 = against.position + against.length :=
        rfl
      rw [e1, e2]
      have t5 : List.take against.position (X ++ Y ++ Z) = X := by
        rw [← hX, List.append_assoc, List.take_left]
      have t6 : List.drop (against.position + against.length) (X ++ Y ++ Z) = Z := by
        rw [hpl, List.drop_left]
      have t7 : List.take (against.position - operation.position) W = [] := by
        have : against.position - operation.position = 0 := by omega
        rw [this]; rfl
      have t8 : List.drop (against.position + against.length - operation.position) W = W := by
        have : against.position + against.length - operation.position = 0 := by omega
        rw [this]; rfl
      rw [t5, t6, t7, t8]
      simp

/-- C19 on "hello": the delete of [1..4) followed by the transformed insert of "X"
at 3 gives "hXo", which is "helXlo" without the original characters 1 to 3. -/
theorem transform_delete_cases_witness :
    inf_text_insert_operation_transform_delete ⟨3, ['X']⟩ ⟨1, 3⟩ = ⟨1, ['X']⟩ ∧
      inf_text_delete_operation_apply ⟨1, 3⟩ ['h', 'e', 'l', 'l', 'o'] = ['h', 'o'] ∧
      inf_text_insert_operation_apply
          (inf_text_insert_operation_transform_delete ⟨3, ['X']⟩ ⟨1, 3⟩)
          (inf_text_delete_operation_apply ⟨1, 3⟩ ['h', 'e', 'l', 'l', 'o']) =
        insert_then_remove_original_range ['h', 'e', 'l', 'l', 'o'] 3 ['X'] 1 3 ∧
      insert_then_remove_original_range ['h', 'e', 'l', 'l', 'o'] 3 ['X'] 1 3 =
        ['h', 'X', 'o'] :=
  ⟨(transform_delete_cases ⟨3, ['X']⟩ ⟨1, 3⟩ ['h', 'e', 'l', 'l', 'o'] (by decide) (by decide)
      (by decide)).2.2.1 (by decide) (by decide),
    by decide,
    (transform_delete_cases ⟨3, ['X']⟩ ⟨1, 3⟩ ['h', 'e', 'l', 'l', 'o'] (by decide) (by decide)
      (by decide)).2.2.2,
    by decide⟩

/-! ## Availability of Undo and Redo -/

section Availability

variable {Op Buf : Type}

theorem except_error_or_ok {ε α : Type} (x : Except ε α) :
    (∃ e, x = .error e) ∨ ∃ a, x = .ok a := by
  cases x with
  | error e => exact Or.inl ⟨e, rfl⟩
  | ok a => exact Or.inr ⟨a, rfl⟩

/-- The value of can_undo_redo for an existing request when the log size is
bounded, by the original request and the vdiff found. -/
theorem can_undo_redo_bounded (algorithm : InfAdoptedAlgorithm Op Buf)
    (log : InfAdoptedRequestLog Op) (request : InfAdoptedRequest Op)
    (hm : 0 < algorithm.max_total_log_size) :
    inf_adopted_algorithm_can_undo_redo algorithm log (some request) =
      match inf_adopted_request_log_original_request log request with
      | none => .error Failure.null_pointer
      | some original =>
        match inf_adopted_algorithm_state_vector_vdiff algorithm original.vector
            algorithm.current with
        | .error e => .error e
        | .ok diff => .ok (decide (diff < algorithm.max_total_log_size)) := by
  unfold inf_adopted_algorithm_can_undo_redo
  have hm' : algorithm.max_total_log_size > 0 := hm
  simp only [hm', if_true, inf_adopted_request_get_vector]
  rcases Option.eq_none_or_eq_some
      (inf_adopted_request_log_original_request log request) with ho | ⟨original, ho⟩
  · rw [ho]
  · rw [ho]
    simp only
    rcases except_error_or_ok (inf_adopted_algorithm_state_vector_vdiff algorithm
        original.vector algorithm.current) with ⟨e, hv⟩ | ⟨diff, hv⟩
    · rw [hv]
    · rw [hv]
      simp only
      by_cases hd : diff ≥ algorithm.max_total_log_size
      · have : ¬ diff < algorithm.max_total_log_size := by omega
        simp [hd, this]
      · have : diff < algorithm.max_total_log_size := by omega
        simp [hd, this]

/-- C11: can_undo_redo(log, R) is TRUE exactly when R is not `NULL` and either
max_total_log_size is 0 or vdiff(original_request(R).vector, current) is strictly
less than max_total_log_size, and FALSE exactly when R is `NULL` or
max_total_log_size is positive and that vdiff is at least max_total_log_size. In
particular it is TRUE for every existing R when max_total_log_size = 0 and FALSE
when vdiff equals max_total_log_size; it returns a value whenever R is `NULL`, the
log size is unbounded, or the original request is found with a vector causally
before current. -/
theorem can_undo_redo_iff (algorithm : InfAdoptedAlgorithm Op Buf)
    (log : InfAdoptedRequestLog Op) (target : Option (InfAdoptedRequest Op)) :
    (inf_adopted_algorithm_can_undo_redo algorithm log target = .ok true ↔
      ∃ request, target = some request ∧
        (algorithm.max_total_log_size = 0 ∨
          ∃ original diff,
            inf_adopted_request_log_original_request log request = some original ∧
            inf_adopted_algorithm_state_vector_vdiff algorithm original.vector
              algorithm.current = .ok diff ∧
            diff < algorithm.max_total_log_size)) ∧
    (inf_adopted_algorithm_can_undo_redo algorithm log target = .ok false ↔
      target = none ∨
        ∃ request original diff, target = some request ∧
          0 < algorithm.max_total_log_size ∧
          inf_adopted_request_log_original_request log request = some original ∧
          inf_adopted_algorithm_state_vector_vdiff algorithm original.vector
            algorithm.current = .ok diff ∧
          algorithm.max_total_log_size ≤ diff) ∧
    (∀ request, algorithm.max_total_log_size = 0 →
      inf_adopted_algorithm_can_undo_redo algorithm log (some request) = .ok true) ∧
    (∀ request original, 0 < algorithm.max_total_log_size →
      inf_adopted_request_log_original_request log request = some original →
      inf_adopted_algorithm_state_vector_vdiff algorithm original.vector algorithm.current =
        .ok algorithm.max_total_log_size →
      inf_adopted_algorithm_can_undo_redo algorithm log (some request) = .ok false) ∧
    (∀ request original,
      inf_adopted_request_log_original_request log request = some original →
      inf_adopted_state_vector_causally_before original.vector algorithm.current = true →
      ∃ b, inf_adopted_algorithm_can_undo_redo algorithm log (some request) = .ok b) := by
  have hnone : inf_adopted_algorithm_can_undo_redo algorithm log none = .ok false := rfl
  have hzero : ∀ request, algorithm.max_total_log_size = 0 →
      inf_adopted_algorithm_can_undo_redo algorithm log (some request) = .ok true := by
    intro request hm
    unfold inf_adopted_algorithm_can_undo_redo
    simp [hm]
  refine ⟨?_, ?_, hzero, ?_, ?_⟩
  · constructor
    · intro h
      cases target with
      | none => rw [hnone] at h; simp at h
      | some request =>
        refine ⟨request, rfl, ?_⟩
        by_cases hm : 0 < algorithm.max_total_log_size
        · right
          rw [can_undo_redo_bounded algorithm log request hm] at h
          rcases Option.eq_none_or_eq_some
              (inf_adopted_request_log_original_request log request) with ho | ⟨original, ho⟩
          · rw [ho] at h; simp at h
          · rw [ho] at h
            simp only at h
            rcases except_error_or_ok (inf_adopted_algorithm_state_vector_vdiff algorithm
                original.vector algorithm.current) with ⟨e, hv⟩ | ⟨diff, hv⟩
            · rw [hv] at h; simp at h
            · rw [hv] at h
              simp only [Except.ok.injEq, decide_eq_true_eq] at h
              exact ⟨original, diff, ho, hv, h⟩
        · left; omega
    · rintro ⟨request, rfl, h⟩
      by_cases hm : 0 < algorithm.max_total_log_size
      · rcases h with h | ⟨original, diff, ho, hv, hd⟩
        · omega
        · rw [can_undo_redo_bounded algorithm log request hm, ho]
          simp only [hv, hd, decide_True]
      · exact hzero request (by omega)
  · constructor
    · intro h
      cases target with
      | none => left; rfl
      | some request =>
        right
        by_cases hm : 0 < algorithm.max_total_log_size
        · rw [can_undo_redo_bounded algorithm log request hm] at h
          rcases Option.eq_none_or_eq_some
              (inf_adopted_request_log_original_request log request) with ho | ⟨original, ho⟩
          · rw [ho] at h; simp at h
          · rw [ho] at h
            simp only at h
            rcases except_error_or_ok (inf_adopted_algorithm_state_vector_vdiff algorithm
                original.vector algorithm.current) with ⟨e, hv⟩ | ⟨diff, hv⟩
            · rw [hv] at h; simp at h
            · rw [hv] at h
              simp only [Except.ok.injEq, decide_eq_false_iff_not, Nat.not_lt] at h
              exact ⟨request, original, diff, rfl, hm, ho, hv, h⟩
        · rw [hzero request (by omega)] at h
          simp at h
    · rintro (rfl | ⟨request, original, diff, rfl, hm, ho, hv, hd⟩)
      · exact hnone
      · rw [can_undo_redo_bounded algorithm log request hm, ho]
        have : ¬ diff < algorithm.max_total_log_size := by omega
        simp only [hv, this, decide_False]
  · intro request original hm ho hv
    rw [can_undo_redo_bounded algorithm log request hm, ho]
    simp only [hv, Nat.lt_irrefl, decide_False]
  · intro request original ho hcb
    by_cases hm : 0 < algorithm.max_total_log_size
    · rw [can_undo_redo_bounded algorithm log request hm, ho]
      unfold inf_adopted_algorithm_state_vector_vdiff
      simp only [hcb, if_true]
      exact ⟨_, rfl⟩
    · exact ⟨true, hzero request (by omega)⟩

end Availability

/-- C11 on the sample session after the first Do of user 1 (vdiff from the Do to
current is 1): the Do can be undone with the bound 2048 and with the unbounded log
size, and cannot with the bound 1. -/
theorem can_undo_redo_iff_witness :
    inf_adopted_algorithm_can_undo_redo sample_after_do sample_after_do_log
        (some sample_first_do) = .ok true ∧
      inf_adopted_algorithm_can_undo_redo sample_unbounded sample_after_do_log
        (some sample_first_do) = .ok true ∧
      inf_adopted_algorithm_can_undo_redo sample_tight sample_after_do_log
        (some sample_first_do) = .ok false ∧
      inf_adopted_algorithm_can_undo_redo sample_tight sample_after_do_log none = .ok false :=
  ⟨(can_undo_redo_iff sample_after_do sample_after_do_log (some sample_first_do)).1.mpr
      ⟨sample_first_do, rfl, Or.inr ⟨sample_first_do, 1, rfl, rfl, by decide⟩⟩,
    (can_undo_redo_iff sample_unbounded sample_after_do_log none).2.2.1 sample_first_do rfl,
    (can_undo_redo_iff sample_tight sample_after_do_log none).2.2.2.1 sample_first_do
      sample_first_do (by decide) rfl rfl,
    (can_undo_redo_iff sample_tight sample_after_do_log none).2.1.mpr (Or.inl rfl)⟩

/-! ## The identity translation and the frame of execute_request -/

section IdentityAndFrame

variable {Op Buf : Type}

/-- C15: identity translation. For every Do request R of a known issuer and every
reachable vector `to` causally before current with R.vector equal to `to`
(`inf_adopted_state_vector_compare` gives 0), translate_request(R, to) returns R
itself, operation and vector unchanged; it does so for every operation class, that
is, without calling transform, mirror or fold. -/
theorem translate_request_returns_request (fuel : Nat) (O : InfAdoptedOperationClass Op Buf)
    (algorithm : InfAdoptedAlgorithm Op Buf) (R : InfAdoptedRequest Op)
    (to_ : InfAdoptedStateVector) (u : InfAdoptedUser Op)
    (hu : inf_user_table_lookup_user_by_id algorithm.users R.user_id = some u)
    (htype : R.type = InfAdoptedRequestType.DO)
    (hto : inf_adopted_state_vector_causally_before to_ algorithm.current = true)
    (heq : inf_adopted_state_vector_compare R.vector to_ = 0)
    (hreach : inf_adopted_algorithm_is_reachable (fuel + 1) algorithm to_ = .ok true) :
    inf_adopted_algorithm_translate_request (fuel + 1) O algorithm R to_ = .ok R ∧
      ∀ (O2 : InfAdoptedOperationClass Op Buf) (result : InfAdoptedRequest Op),
        inf_adopted_algorithm_translate_request (fuel + 1) O2 algorithm R to_ = .ok result →
        result = R ∧ result.operation = R.operation ∧ result.vector = R.vector :=
  ⟨translate_request_identity fuel O algorithm R to_ u hu htype hto
      ((compare_eq_zero_iff _ _).mp heq) hreach,
    fun O2 result h => by
      rw [translate_request_identity fuel O2 algorithm R to_ u hu htype hto
        ((compare_eq_zero_iff _ _).mp heq) hreach] at h
      cases h
      exact ⟨rfl, rfl, rfl⟩⟩

/-- Which request execute_request records: none for a request that does not affect
the buffer, one for every other request. -/
theorem execute_request_recorded_spec (O : InfAdoptedOperationClass Op Buf) (buffer : Buf)
    (request log_request translated : InfAdoptedRequest Op) :
    (inf_adopted_request_affects_buffer O request = false →
      request.type = InfAdoptedRequestType.DO ∧
        execute_request_recorded O buffer request log_request translated = none) ∧
    (inf_adopted_request_affects_buffer O request = true →
      ∃ r, execute_request_recorded O buffer request log_request translated = some r) := by
  unfold inf_adopted_request_affects_buffer execute_request_recorded
    inf_adopted_request_get_request_type inf_adopted_request_get_operation
  cases ht : request.type with
  | DO =>
    cases hop : request.operation with
    | none => simp
    | some op =>
      cases ha : O.affects_buffer op with
      | false => simp [ha]
      | true =>
        simp only [ha, if_true, Bool.true_eq_false, false_implies, true_and, forall_const]
        split
        · split
          · exact ⟨_, rfl⟩
          · exact ⟨_, rfl⟩
        · exact ⟨_, rfl⟩
  | UNDO => simp
  | REDO => simp

end IdentityAndFrame

section ExecuteFrame

variable {Op Buf : Type}

/-- C13: the frame of execute_request, for a request of a known issuer with a vector
causally before current. A Do request that does not affect the buffer is not
recorded: the call is the translation of the request to current followed, when
apply = TRUE, by one emission of apply-request; the users (their logs and recorded
vectors), current, the local-user records and the queue are unchanged. Every other
request that is executed (Do with AFFECTS_BUFFER, Undo, Redo) appends exactly one
request to the issuer's log, leaves every other log as it is, and increases current
by one at the issuer's component and at no other component. -/
theorem execute_request_frame_effect (fuel : Nat) (O : InfAdoptedOperationClass Op Buf)
    (algorithm : InfAdoptedAlgorithm Op Buf) (request : InfAdoptedRequest Op) (apply : Bool)
    (user : InfAdoptedUser Op)
    (hcb : inf_adopted_state_vector_causally_before request.vector algorithm.current = true)
    (hu : inf_user_table_lookup_user_by_id algorithm.users request.user_id = some user) :
    (inf_adopted_request_affects_buffer O request = false →
      inf_adopted_algorithm_execute_request fuel O algorithm request apply =
        (match inf_adopted_algorithm_translate_request fuel O algorithm request
            algorithm.current with
          | .error e => .error e
          | .ok translated =>
            .ok (if apply then emit_apply_request O algorithm user.id translated
              else algorithm)) ∧
      ∀ algorithm',
        inf_adopted_algorithm_execute_request fuel O algorithm request apply = .ok algorithm' →
        ∃ translated,
          inf_adopted_algorithm_translate_request fuel O algorithm request algorithm.current
            = .ok translated ∧
          algorithm'.users = algorithm.users ∧ algorithm'.current = algorithm.current ∧
          algorithm'.local_users = algorithm.local_users ∧
          algorithm'.queue = algorithm.queue ∧
          algorithm'.emitted = algorithm.emitted ++
            (if apply then [InfAdoptedAlgorithmSignal.APPLY_REQUEST user.id translated]
              else [])) ∧
    (inf_adopted_request_affects_buffer O request = true →
      ∀ algorithm',
        inf_adopted_algorithm_execute_request fuel O algorithm request apply = .ok algorithm' →
        ∃ logged log2 e,
          inf_adopted_request_log_add_request user.request_log logged = .ok log2 ∧
          log2.entries = user.request_log.entries ++ [e] ∧ e.request = logged ∧
          log2.log_begin = user.request_log.log_begin ∧
          (∀ j, (inf_user_table_lookup_user_by_id algorithm'.users j).map
              (fun u => u.request_log) =
            if j = request.user_id then some log2
            else (inf_user_table_lookup_user_by_id algorithm.users j).map
              (fun u => u.request_log)) ∧
          (∀ p, inf_adopted_state_vector_get algorithm'.current p =
            if p = request.user_id then
              guint_add (inf_adopted_state_vector_get algorithm.current p) 1
            else inf_adopted_state_vector_get algorithm.current p) ∧
          (inf_adopted_state_vector_get algorithm.current request.user_id + 1 < GUINT_MOD →
            inf_adopted_state_vector_get algorithm'.current request.user_id =
              inf_adopted_state_vector_get algorithm.current request.user_id + 1)) := by
  constructor
  · intro haff
    have heqn : inf_adopted_algorithm_execute_request fuel O algorithm request apply =
        (match inf_adopted_algorithm_translate_request fuel O algorithm request
            algorithm.current with
          | .error e => .error e
          | .ok translated =>
            .ok (if apply then emit_apply_request O algorithm user.id translated
              else algorithm)) := by
      have htype := ((execute_request_recorded_spec O algorithm.buffer request request
        request).1 haff).1
      unfold inf_adopted_algorithm_execute_request
      have hlr : execute_request_log_request user.request_log request = .ok request := by
        unfold execute_request_log_request
        simp [inf_adopted_request_get_request_type, htype]
      simp only [inf_adopted_request_get_vector, hcb, Bool.not_true, Bool.false_eq_true,
        if_false, inf_adopted_request_get_user_id, hu, hlr, inf_adopted_request_copy]
      rcases except_error_or_ok (inf_adopted_algorithm_translate_request fuel O algorithm
          request algorithm.current) with ⟨e, ht⟩ | ⟨translated, ht⟩
      · rw [ht]
      · rw [ht]
        simp only [((execute_request_recorded_spec O algorithm.buffer request request
          translated).1 haff).2]
        cases apply <;> simp
    refine ⟨heqn, ?_⟩
    intro algorithm' h
    rw [heqn] at h
    rcases except_error_or_ok (inf_adopted_algorithm_translate_request fuel O algorithm
        request algorithm.current) with ⟨e, ht⟩ | ⟨translated, ht⟩
    · rw [ht] at h; simp at h
    · rw [ht] at h
      simp only [Except.ok.injEq] at h
      subst h
      refine ⟨translated, ht, ?_⟩
      cases apply
      · simp
      · simp only [if_true]
        unfold emit_apply_request inf_adopted_algorithm_apply_request
        split <;> simp
  · intro haff algorithm' h
    obtain ⟨user2, log_request, translated, recorded, _, hu2, _, _, hrec, hres⟩ :=
      execute_request_ok fuel O algorithm algorithm' request apply h
    rw [hu] at hu2
    cases hu2
    obtain ⟨logged, hlogged⟩ := (execute_request_recorded_spec O algorithm.buffer request
      log_request translated).2 haff
    rw [hlogged] at hrec
    obtain ⟨log2, hadd, hrecorded⟩ := hrec
    subst hrecorded
    obtain ⟨_, _, hbegin, _, _, e, hent, he⟩ := add_request_get_end _ _ _ hadd
    obtain ⟨_, _, _, hcur, _, _⟩ := execute_request_result_frame O algorithm request apply user
      translated (some log2)
    have hlk := (execute_request_result_logs O algorithm request apply user translated
      log2).2
    rw [← hres] at hcur hlk
    simp only at hcur
    refine ⟨logged, log2, e, hadd, hent, he, hbegin, ?_, ?_, ?_⟩
    · intro j
      rw [hlk j]
      by_cases hj : j = request.user_id
      · simp only [hj, if_true, hu, Option.map_some']
      · simp only [hj, if_false]
    · intro p
      rw [hcur, get_add]
      by_cases hp : p = request.user_id
      · simp only [hp, if_true]
      · simp only [hp, if_false]
    · intro hfit
      rw [hcur, get_add, if_pos rfl, guint_add_small _ _ hfit]

end ExecuteFrame

/-- C15 on the sample session: a Do of user 2 issued at current is translated to
current as it is. -/
theorem translate_request_returns_request_witness :
    inf_adopted_algorithm_translate_request 8 CounterOperation sample_after_do sample_loud_now
        sample_after_do.current = .ok sample_loud_now :=
  (translate_request_returns_request 7 CounterOperation sample_after_do sample_loud_now
    sample_after_do.current _ rfl rfl (by decide) (by decide) rfl).1

/-- C13 on the sample session after the first Do of user 1: executing a Do of user
2 that does not affect the buffer changes neither users nor current and emits one
apply-request; executing a Do of user 2 that adds 7 appends one request to the
log of user 2 and moves current from (1, 0, 0) to (1, 1, 0). -/
theorem execute_request_frame_effect_witness :
    (state_of sample_after_do (inf_adopted_algorithm_execute_request 8 CounterOperation
        sample_after_do sample_silent_now true)).users = sample_after_do.users ∧
      (state_of sample_after_do (inf_adopted_algorithm_execute_request 8 CounterOperation
        sample_after_do sample_silent_now true)).current = sample_after_do.current ∧
      (state_of sample_after_do (inf_adopted_algorithm_execute_request 8 CounterOperation
        sample_after_do sample_silent_now true)).emitted =
        sample_after_do.emitted ++ [.APPLY_REQUEST 2 sample_silent_now] ∧
      (∀ p, inf_adopted_state_vector_get
          (state_of sample_after_do (inf_adopted_algorithm_execute_request 8 CounterOperation
            sample_after_do sample_loud_now true)).current p =
        if p = 2 then 1 else inf_adopted_state_vector_get sample_after_do.current p) ∧
      ((inf_user_table_lookup_user_by_id
          (state_of sample_after_do (inf_adopted_algorithm_execute_request 8 CounterOperation
            sample_after_do sample_loud_now true)).users 2).map
        (fun u => u.request_log.entries.map (fun e => e.request))) = some [sample_loud_now] := by
  obtain ⟨translated, ht, h1, h2, _, _, h5⟩ :=
    ((execute_request_frame_effect 8 CounterOperation sample_after_do sample_silent_now true
      (sample_user 2 false) (by decide) rfl).1 rfl).2
      (state_of sample_after_do (inf_adopted_algorithm_execute_request 8 CounterOperation
        sample_after_do sample_silent_now true)) rfl
  obtain ⟨logged, log2, e, _, _, _, _, _, h6, _⟩ :=
    (execute_request_frame_effect 8 CounterOperation sample_after_do sample_loud_now true
      (sample_user 2 false) (by decide) rfl).2 rfl
      (state_of sample_after_do (inf_adopted_algorithm_execute_request 8 CounterOperation
        sample_after_do sample_loud_now true)) rfl
  have ht2 : inf_adopted_algorithm_translate_request 8 CounterOperation sample_after_do
      sample_silent_now sample_after_do.current = .ok sample_silent_now := rfl
  rw [ht2] at ht
  cases ht
  refine ⟨h1, h2, h5, ?_, by decide⟩
  intro p
  rw [h6 p]
  by_cases hp : p = 2
  · subst hp; rfl
  · have : ¬ p = sample_loud_now.user_id := hp
    simp only [hp, this, if_false]

/-! ## generate_request and generate_request_noexec -/

section NoExec

variable {Op Buf : Type}

theorem create_removals_vdiff_applied (a : InfAdoptedAlgorithm Op Buf) (B : Buf) (n : Nat)
    (x : InfAdoptedAlgorithmSignal Op) (request : InfAdoptedRequest Op)
    (users : List (InfAdoptedUser Op)) (vdiff min_vdiff : Nat) :
    create_removals_vdiff (with_applied a B n x) request users vdiff min_vdiff =
      create_removals_vdiff a request users vdiff min_vdiff := by
  induction users generalizing vdiff min_vdiff with
  | nil => rfl
  | cons u rest ih =>
    unfold create_removals_vdiff
    have hv : ∀ f s, inf_adopted_algorithm_state_vector_vdiff (with_applied a B n x) f s =
        inf_adopted_algorithm_state_vector_vdiff a f s := fun _ _ => rfl
    simp only [hv, ih]

theorem create_removals_users_applied (a : InfAdoptedAlgorithm Op Buf) (B : Buf) (n : Nat)
    (x : InfAdoptedAlgorithmSignal Op) (users : List (InfAdoptedUser Op)) (vdiff : Nat)
    (result : List (InfAdoptedAlgorithmLogRemoval Op)) :
    create_removals_users (with_applied a B n x) users vdiff result =
      create_removals_users a users vdiff result := by
  induction users generalizing vdiff result with
  | nil => rfl
  | cons u rest ih =>
    unfold create_removals_users
    have hu : (with_applied a B n x).users = a.users := rfl
    have hm : (with_applied a B n x).max_total_log_size = a.max_total_log_size := rfl
    simp only [create_removals_vdiff_applied, hu, hm, ih]

theorem find_blockers_applied (a : InfAdoptedAlgorithm Op Buf) (B : Buf) (n : Nat)
    (x : InfAdoptedAlgorithmSignal Op) (removals : List (InfAdoptedAlgorithmLogRemoval Op)) :
    inf_adopted_algorithm_find_blockers (with_applied a B n x) removals =
      inf_adopted_algorithm_find_blockers a removals := by
  induction removals with
  | nil => rfl
  | cons r rest ih =>
    unfold inf_adopted_algorithm_find_blockers
    have hu : (with_applied a B n x).users = a.users := rfl
    simp only [hu, ih]

theorem perform_removals_applied (B : Buf) (n : Nat) (x : InfAdoptedAlgorithmSignal Op)
    (removals : List (InfAdoptedAlgorithmLogRemoval Op)) (a : InfAdoptedAlgorithm Op Buf) :
    inf_adopted_algorithm_perform_removals (with_applied a B n x) removals =
      with_applied (inf_adopted_algorithm_perform_removals a removals) B n x := by
  induction removals generalizing a with
  | nil => rfl
  | cons r rest ih =>
    unfold inf_adopted_algorithm_perform_removals
    have hb : (with_applied a B n x).users = a.users := rfl
    split
    · exact ih { a with
        users := update_user a.users r.log (fun u =>
          { u with
            request_log := inf_adopted_request_log_remove_requests u.request_log
              (guint_add
                (inf_adopted_state_vector_get (inf_adopted_request_get_vector r.upper)
                  (inf_adopted_request_get_user_id r.upper)) 1) }) }
    · exact ih a

theorem update_request_logs_applied (a : InfAdoptedAlgorithm Op Buf) (B : Buf) (n : Nat)
    (x : InfAdoptedAlgorithmSignal Op) :
    inf_adopted_algorithm_update_request_logs (with_applied a B n x) =
      match inf_adopted_algorithm_update_request_logs a with
      | .error e => .error e
      | .ok a2 => .ok (with_applied a2 B n x) := by
  unfold inf_adopted_algorithm_update_request_logs inf_adopted_algorithm_create_removals
  have hu : (with_applied a B n x).users = a.users := rfl
  rw [hu, create_removals_users_applied]
  rcases except_error_or_ok (create_removals_users a a.users 0 []) with ⟨e, h⟩ | ⟨rs, h⟩
  · rw [h]
  · rw [h]
    simp only [find_blockers_applied]
    rcases except_error_or_ok (inf_adopted_algorithm_find_blockers a rs) with
      ⟨e, h2⟩ | ⟨rs2, h2⟩
    · rw [h2]
    · rw [h2]
      simp only [perform_removals_applied]

theorem emit_can_undo_changed_applied (a : InfAdoptedAlgorithm Op Buf) (B : Buf) (n : Nat)
    (x : InfAdoptedAlgorithmSignal Op) (hn : n ≤ a.emitted.length) (user : Nat) (v : Bool) :
    emit_can_undo_changed (with_applied a B n x) user v =
        with_applied (emit_can_undo_changed a user v) B n x ∧
      emit_can_redo_changed (with_applied a B n x) user v =
        with_applied (emit_can_redo_changed a user v) B n x ∧
      n ≤ (emit_can_undo_changed a user v).emitted.length ∧
      n ≤ (emit_can_redo_changed a user v).emitted.length := by
  unfold emit_can_undo_changed emit_can_redo_changed inf_adopted_algorithm_can_undo_changed
    inf_adopted_algorithm_can_redo_changed with_applied
  refine ⟨?_, ?_, ?_, ?_⟩
  · simp [List.take_append_of_le_length hn, List.drop_append_of_le_length hn]
  · simp [List.take_append_of_le_length hn, List.drop_append_of_le_length hn]
  · simp only [List.length_append, List.length_singleton]; omega
  · simp only [List.length_append, List.length_singleton]; omega

theorem update_undo_redo_loop_applied (B : Buf) (n : Nat) (x : InfAdoptedAlgorithmSignal Op)
    (count : Nat) :
    ∀ (index : Nat) (a : InfAdoptedAlgorithm Op Buf), n ≤ a.emitted.length →
      update_undo_redo_loop count index (with_applied a B n x) =
        match update_undo_redo_loop count index a with
        | .error e => .error e
        | .ok a2 => .ok (with_applied a2 B n x) := by
  induction count with
  | zero => intro index a _; rfl
  | succ count ih =>
    intro index a hn
    unfold update_undo_redo_loop
    have hl : (with_applied a B n x).local_users = a.local_users := rfl
    have hu : (with_applied a B n x).users = a.users := rfl
    have hc : ∀ log t, inf_adopted_algorithm_can_undo_redo (with_applied a B n x) log t =
        inf_adopted_algorithm_can_undo_redo a log t := fun _ _ => rfl
    rw [hl, hu]
    cases a.local_users.get? index with
    | none => rfl
    | some local_ =>
      simp only
      cases inf_user_table_lookup_user_by_id a.users local_.user with
      | none => rfl
      | some user =>
        simp only [hc]
        rcases except_error_or_ok (inf_adopted_algorithm_can_undo_redo a user.request_log
            (inf_adopted_request_log_next_undo user.request_log)) with ⟨e, h1⟩ | ⟨v, h1⟩
        · rw [h1]
        · rw [h1]
          rcases except_error_or_ok (inf_adopted_algorithm_can_undo_redo a user.request_log
              (inf_adopted_request_log_next_redo user.request_log)) with ⟨e, h2⟩ | ⟨w, h2⟩
          · rw [h2]
          · rw [h2]
            by_cases hv : local_.can_undo ≠ v
            · simp only [if_pos hv]
              obtain ⟨e1, _, l1, _⟩ := emit_can_undo_changed_applied a B n x hn local_.user v
              rw [e1]
              by_cases hw : local_.can_redo ≠ w
              · simp only [if_pos hw]
                obtain ⟨_, e2, _, l2⟩ := emit_can_undo_changed_applied
                  (emit_can_undo_changed a local_.user v) B n x l1 local_.user w
                rw [e2]
                exact ih _ _ l2
              · simp only [if_neg hw]
                exact ih _ _ l1
            · simp only [if_neg hv]
              by_cases hw : local_.can_redo ≠ w
              · simp only [if_pos hw]
                obtain ⟨_, e2, _, l2⟩ := emit_can_undo_changed_applied a B n x hn local_.user w
                rw [e2]
                exact ih _ _ l2
              · simp only [if_neg hw]
                exact ih _ _ hn

theorem update_logs_and_undo_redo_applied (a : InfAdoptedAlgorithm Op Buf) (B : Buf)
    (n : Nat) (x : InfAdoptedAlgorithmSignal Op) (hn : n ≤ a.emitted.length) :
    update_logs_and_undo_redo (with_applied a B n x) =
      match update_logs_and_undo_redo a with
      | .error e => .error e
      | .ok a2 => .ok (with_applied a2 B n x) := by
  unfold update_logs_and_undo_redo inf_adopted_algorithm_update_undo_redo
  rw [update_request_logs_applied]
  rcases except_error_or_ok (inf_adopted_algorithm_update_request_logs a) with
    ⟨e, h⟩ | ⟨a2, h⟩
  · rw [h]
  · rw [h]
    simp only
    have hf := update_request_logs_frame a a2 h
    have hl : (with_applied a2 B n x).local_users = a2.local_users := rfl
    rw [hl]
    exact update_undo_redo_loop_applied B n x _ 0 a2 (by rw [hf.2.2.2.2.1]; exact hn)

end NoExec

section NoExecMain

variable {Op Buf : Type}

theorem update_undo_redo_loop_emitted (count : Nat) :
    ∀ (index : Nat) (a a2 : InfAdoptedAlgorithm Op Buf),
      update_undo_redo_loop count index a = .ok a2 →
      ∃ signals, a2.emitted = a.emitted ++ signals ∧ applied_requests signals = [] := by
  induction count with
  | zero =>
    intro index a a2 h
    simp only [update_undo_redo_loop, Except.ok.injEq] at h
    subst h
    exact ⟨[], by simp, rfl⟩
  | succ count ih =>
    intro index a a2 h
    unfold update_undo_redo_loop at h
    cases hl : a.local_users.get? index with
    | none =>
      simp only [hl, Except.ok.injEq] at h
      subst h
      exact ⟨[], by simp, rfl⟩
    | some local_ =>
      simp only [hl] at h
      cases hu : inf_user_table_lookup_user_by_id a.users local_.user with
      | none => simp [hu] at h
      | some user =>
        simp only [hu] at h
        rcases except_error_or_ok (inf_adopted_algorithm_can_undo_redo a user.request_log
            (inf_adopted_request_log_next_undo user.request_log)) with ⟨e, h1⟩ | ⟨v, h1⟩
        · rw [h1] at h; simp at h
        · rw [h1] at h
          rcases except_error_or_ok (inf_adopted_algorithm_can_undo_redo a user.request_log
              (inf_adopted_request_log_next_redo user.request_log)) with ⟨e, h2⟩ | ⟨w, h2⟩
          · rw [h2] at h; simp at h
          · rw [h2] at h
            simp only at h
            obtain ⟨signals, hs1, hs2⟩ := ih _ _ _ h
            have e1 : ∀ (b : InfAdoptedAlgorithm Op Buf) (u : Nat) (x : Bool),
                (emit_can_undo_changed b u x).emitted =
                  b.emitted ++ [InfAdoptedAlgorithmSignal.CAN_UNDO_CHANGED u x] :=
              fun _ _ _ => rfl
            have e2 : ∀ (b : InfAdoptedAlgorithm Op Buf) (u : Nat) (x : Bool),
                (emit_can_redo_changed b u x).emitted =
                  b.emitted ++ [InfAdoptedAlgorithmSignal.CAN_REDO_CHANGED u x] :=
              fun _ _ _ => rfl
            by_cases hv : local_.can_undo ≠ v <;> by_cases hw : local_.can_redo ≠ w
            · simp only [if_pos hv, if_pos hw, e1, e2] at hs1
              exact ⟨InfAdoptedAlgorithmSignal.CAN_UNDO_CHANGED local_.user v ::
                InfAdoptedAlgorithmSignal.CAN_REDO_CHANGED local_.user w :: signals,
                by rw [hs1]; simp, by simp [applied_requests, hs2]⟩
            · simp only [if_pos hv, if_neg hw, e1] at hs1
              exact ⟨InfAdoptedAlgorithmSignal.CAN_UNDO_CHANGED local_.user v :: signals,
                by rw [hs1]; simp, by simp [applied_requests, hs2]⟩
            · simp only [if_neg hv, if_pos hw, e2] at hs1
              exact ⟨InfAdoptedAlgorithmSignal.CAN_REDO_CHANGED local_.user w :: signals,
                by rw [hs1]; simp, by simp [applied_requests, hs2]⟩
            · simp only [if_neg hv, if_neg hw] at hs1
              exact ⟨signals, hs1, hs2⟩

theorem update_logs_and_undo_redo_emitted (a a2 : InfAdoptedAlgorithm Op Buf)
    (h : update_logs_and_undo_redo a = .ok a2) :
    ∃ signals, a2.emitted = a.emitted ++ signals ∧ applied_requests signals = [] := by
  unfold update_logs_and_undo_redo inf_adopted_algorithm_update_undo_redo at h
  rcases except_error_or_ok (inf_adopted_algorithm_update_request_logs a) with
    ⟨e, h1⟩ | ⟨a1, h1⟩
  · rw [h1] at h; simp at h
  · rw [h1] at h
    simp only at h
    obtain ⟨signals, hs1, hs2⟩ := update_undo_redo_loop_emitted _ _ _ _ h
    exact ⟨signals, by rw [hs1, (update_request_logs_frame a a1 h1).2.2.2.2.1], hs2⟩

theorem emit_apply_request_eq (O : InfAdoptedOperationClass Op Buf)
    (a : InfAdoptedAlgorithm Op Buf) (user : Nat) (request : InfAdoptedRequest Op) :
    emit_apply_request O a user request =
      with_applied a (inf_adopted_algorithm_apply_request O a user request).buffer
        a.emitted.length (.APPLY_REQUEST user request) := by
  unfold emit_apply_request inf_adopted_algorithm_apply_request with_applied
  cases inf_adopted_request_get_operation request <;> simp

/-- execute_request with apply = TRUE is execute_request with apply = FALSE followed
by the emission of apply-request. -/
theorem execute_request_apply (fuel : Nat) (O : InfAdoptedOperationClass Op Buf)
    (algorithm : InfAdoptedAlgorithm Op Buf) (request : InfAdoptedRequest Op) :
    (∀ e, inf_adopted_algorithm_execute_request fuel O algorithm request false = .error e →
      inf_adopted_algorithm_execute_request fuel O algorithm request true = .error e) ∧
    (∀ mid, inf_adopted_algorithm_execute_request fuel O algorithm request false = .ok mid →
      mid.emitted = algorithm.emitted ∧ mid.buffer = algorithm.buffer ∧
      ∃ uid translated,
        execute_request_translated fuel O algorithm request = some (uid, translated) ∧
        inf_adopted_algorithm_execute_request fuel O algorithm request true =
          .ok (emit_apply_request O mid uid translated)) := by
  unfold inf_adopted_algorithm_execute_request execute_request_translated
  by_cases hcb : inf_adopted_state_vector_causally_before
      (inf_adopted_request_get_vector request) algorithm.current = true
  · simp only [hcb, Bool.not_true, Bool.false_eq_true, if_false]
    cases hu : inf_user_table_lookup_user_by_id algorithm.users
        (inf_adopted_request_get_user_id request) with
    | none => simp
    | some user =>
      simp only
      rcases except_error_or_ok (execute_request_log_request user.request_log request) with
        ⟨e, h1⟩ | ⟨log_request, h1⟩
      · rw [h1]; simp
      · rw [h1]
        simp only
        rcases except_error_or_ok (inf_adopted_algorithm_translate_request fuel O algorithm
            (inf_adopted_request_copy log_request) algorithm.current) with
          ⟨e, h2⟩ | ⟨translated, h2⟩
        · rw [h2]; simp
        · rw [h2]
          simp only
          cases execute_request_recorded O algorithm.buffer request log_request translated with
          | none =>
            simp only [if_true]
            refine ⟨by simp, ?_⟩
            intro mid hmid
            simp only [Except.ok.injEq] at hmid
            subst hmid
            exact ⟨rfl, rfl, _, _, rfl, rfl⟩
          | some logged =>
            simp only
            rcases except_error_or_ok (inf_adopted_request_log_add_request user.request_log
                logged) with ⟨e, h3⟩ | ⟨log2, h3⟩
            · rw [h3]; simp
            · rw [h3]
              simp only [if_true]
              refine ⟨by simp, ?_⟩
              intro mid hmid
              simp only [Except.ok.injEq] at hmid
              subst hmid
              exact ⟨rfl, rfl, _, _, rfl, rfl⟩
  · have hcb' : inf_adopted_state_vector_causally_before
        (inf_adopted_request_get_vector request) algorithm.current = false := by
      cases h : inf_adopted_state_vector_causally_before
        (inf_adopted_request_get_vector request) algorithm.current
      · rfl
      · exact absurd h hcb
    simp [hcb']

end NoExecMain

section NoExecTheorem

variable {Op Buf : Type}

theorem generate_execute_apply (fuel : Nat) (O : InfAdoptedOperationClass Op Buf)
    (algorithm : InfAdoptedAlgorithm Op Buf) (request : InfAdoptedRequest Op) :
    (∀ e, generate_execute fuel O algorithm request false = .error e →
      generate_execute fuel O algorithm request true = .error e) ∧
    (∀ r a1, generate_execute fuel O algorithm request false = .ok (r, a1) →
      ∃ mid uid translated,
        r = some request ∧
        inf_adopted_algorithm_execute_request fuel O algorithm request false = .ok mid ∧
        execute_request_translated fuel O algorithm request = some (uid, translated) ∧
        inf_adopted_algorithm_execute_request fuel O algorithm request true =
          .ok (emit_apply_request O mid uid translated) ∧
        update_logs_and_undo_redo mid = .ok a1 ∧
        generate_execute fuel O algorithm request true =
          .ok (some request,
            with_applied a1 (inf_adopted_algorithm_apply_request O algorithm uid
              translated).buffer algorithm.emitted.length
              (.APPLY_REQUEST uid translated))) := by
  obtain ⟨herr, hok⟩ := execute_request_apply fuel O algorithm request
  rcases except_error_or_ok (inf_adopted_algorithm_execute_request fuel O algorithm request
      false) with ⟨e, h1⟩ | ⟨mid, h1⟩
  · constructor
    · intro e2 h
      unfold generate_execute at h ⊢
      rw [h1] at h
      rw [herr e h1]
      exact h
    · intro r a1 h
      unfold generate_execute at h
      rw [h1] at h
      simp at h
  · obtain ⟨hem, hbuf, uid, translated, htr, htrue⟩ := hok mid h1
    have hB : (inf_adopted_algorithm_apply_request O mid uid translated).buffer =
        (inf_adopted_algorithm_apply_request O algorithm uid translated).buffer := by
      unfold inf_adopted_algorithm_apply_request
      cases inf_adopted_request_get_operation translated with
      | none => exact hbuf
      | some op => simp only [hbuf]
    have hup := update_logs_and_undo_redo_applied mid
      (inf_adopted_algorithm_apply_request O algorithm uid translated).buffer
      algorithm.emitted.length (.APPLY_REQUEST uid translated) (by rw [hem])
    have htrue2 : inf_adopted_algorithm_execute_request fuel O algorithm request true =
        .ok (with_applied mid (inf_adopted_algorithm_apply_request O algorithm uid
          translated).buffer algorithm.emitted.length (.APPLY_REQUEST uid translated)) := by
      rw [htrue, emit_apply_request_eq, hB, hem]
    rcases except_error_or_ok (update_logs_and_undo_redo mid) with ⟨e, h2⟩ | ⟨fin, h2⟩
    · rw [h2] at hup
      constructor
      · intro e2 h
        unfold generate_execute at h ⊢
        rw [h1] at h
        simp only [h2] at h
        rw [htrue2]
        simp only [hup]
        exact h
      · intro r a1 h
        unfold generate_execute at h
        rw [h1] at h
        simp [h2] at h
    · rw [h2] at hup
      constructor
      · intro e2 h
        unfold generate_execute at h
        rw [h1] at h
        simp [h2] at h
      · intro r a1 h
        unfold generate_execute at h
        rw [h1] at h
        simp only [h2, Except.ok.injEq, Prod.mk.injEq] at h
        obtain ⟨hr, ha⟩ := h
        subst ha
        refine ⟨mid, uid, translated, hr.symm, h1, htr, htrue, h2, ?_⟩
        unfold generate_execute
        rw [htrue2]
        simp only [hup]

/-- C14: generate_request_noexec and generate_request, called in the same state
with the same user and operation. Both fail together, and both are rejected
together (returning no request and the state unchanged). Otherwise they return the
same request, a Do carrying the operation, stamped with the user's id and with
current as it was before the call, and the resulting states have the same current,
users (logs and recorded vectors), local-user records (can_undo / can_redo flags)
and queue. generate_request_noexec emits no apply-request and leaves the buffer
as it is; generate_request emits exactly one, with the translated request, on the
state execute_request leaves with apply = FALSE, that is, after current has been
updated. -/
theorem generate_request_noexec_agrees (fuel : Nat) (O : InfAdoptedOperationClass Op Buf)
    (algorithm : InfAdoptedAlgorithm Op Buf) (user : Nat) (operation : Op) :
    (∀ e, inf_adopted_algorithm_generate_request_noexec fuel O algorithm user operation
        = .error e →
      inf_adopted_algorithm_generate_request fuel O algorithm user operation = .error e) ∧
    (∀ r a1, inf_adopted_algorithm_generate_request_noexec fuel O algorithm user operation
        = .ok (r, a1) →
      (r = none ∧ a1 = algorithm ∧
        inf_adopted_algorithm_generate_request fuel O algorithm user operation
          = .ok (none, algorithm)) ∨
      ∃ u mid translated a2,
        inf_user_table_lookup_user_by_id algorithm.users user = some u ∧
        r = some (inf_adopted_request_new_do algorithm.current u.id operation) ∧
        inf_adopted_algorithm_generate_request fuel O algorithm user operation = .ok (r, a2) ∧
        inf_adopted_algorithm_execute_request fuel O algorithm
          (inf_adopted_request_new_do algorithm.current u.id operation) false = .ok mid ∧
        inf_adopted_algorithm_execute_request fuel O algorithm
          (inf_adopted_request_new_do algorithm.current u.id operation) true =
            .ok (emit_apply_request O mid u.id translated) ∧
        a1.current = mid.current ∧
        a2.current = a1.current ∧ a2.users = a1.users ∧
        a2.local_users = a1.local_users ∧ a2.queue = a1.queue ∧
        a1.buffer = algorithm.buffer ∧
        a2.buffer = (inf_adopted_algorithm_apply_request O algorithm u.id translated).buffer ∧
        applied_requests a1.emitted = applied_requests algorithm.emitted ∧
        applied_requests a2.emitted =
          applied_requests algorithm.emitted ++ [(u.id, translated)]) ∧
    (∀ r a2, inf_adopted_algorithm_generate_request fuel O algorithm user operation
        = .ok (r, a2) →
      ∃ a1, inf_adopted_algorithm_generate_request_noexec fuel O algorithm user operation
        = .ok (r, a1)) := by
  suffices main : (∀ e,
      inf_adopted_algorithm_generate_request_noexec fuel O algorithm user operation
        = .error e →
      inf_adopted_algorithm_generate_request fuel O algorithm user operation = .error e) ∧
    (∀ r a1, inf_adopted_algorithm_generate_request_noexec fuel O algorithm user operation
        = .ok (r, a1) →
      (r = none ∧ a1 = algorithm ∧
        inf_adopted_algorithm_generate_request fuel O algorithm user operation
          = .ok (none, algorithm)) ∨
      ∃ u mid translated a2,
        inf_user_table_lookup_user_by_id algorithm.users user = some u ∧
        r = some (inf_adopted_request_new_do algorithm.current u.id operation) ∧
        inf_adopted_algorithm_generate_request fuel O algorithm user operation = .ok (r, a2) ∧
        inf_adopted_algorithm_execute_request fuel O algorithm
          (inf_adopted_request_new_do algorithm.current u.id operation) false = .ok mid ∧
        inf_adopted_algorithm_execute_request fuel O algorithm
          (inf_adopted_request_new_do algorithm.current u.id operation) true =
            .ok (emit_apply_request O mid u.id translated) ∧
        a1.current = mid.current ∧
        a2.current = a1.current ∧ a2.users = a1.users ∧
        a2.local_users = a1.local_users ∧ a2.queue = a1.queue ∧
        a1.buffer = algorithm.buffer ∧
        a2.buffer = (inf_adopted_algorithm_apply_request O algorithm u.id translated).buffer ∧
        applied_requests a1.emitted = applied_requests algorithm.emitted ∧
        applied_requests a2.emitted =
          applied_requests algorithm.emitted ++ [(u.id, translated)]) by
    refine ⟨main.1, main.2, ?_⟩
    intro r a2 h
    rcases except_error_or_ok (inf_adopted_algorithm_generate_request_noexec fuel O algorithm
        user operation) with ⟨e, h1⟩ | ⟨⟨r1, a1⟩, h1⟩
    · rw [main.1 e h1] at h
      cases h
    · rcases main.2 r1 a1 h1 with ⟨hr, _, hg⟩ | ⟨_, _, _, a3, _, _, hg, _⟩
      · rw [hg] at h
        simp only [Except.ok.injEq, Prod.mk.injEq] at h
        exact ⟨a1, by rw [h1, hr, h.1]⟩
      · rw [hg] at h
        simp only [Except.ok.injEq, Prod.mk.injEq] at h
        exact ⟨a1, by rw [h1, h.1]⟩
  unfold inf_adopted_algorithm_generate_request_noexec inf_adopted_algorithm_generate_request
  cases hu : inf_user_table_lookup_user_by_id algorithm.users user with
  | none =>
    simp only
    refine ⟨by simp, ?_⟩
    intro r a1 h
    simp only [Except.ok.injEq, Prod.mk.injEq] at h
    exact Or.inl ⟨h.1.symm, h.2.symm, by first | rfl | trivial⟩
  | some u =>
    simp only
    cases hl : u.flags_local with
    | false =>
      simp only [if_true]
      refine ⟨by simp, ?_⟩
      intro r a1 h
      simp only [Except.ok.injEq, Prod.mk.injEq] at h
      exact Or.inl ⟨h.1.symm, h.2.symm, by first | rfl | trivial⟩
    | true =>
      simp only [Bool.true_eq_false, if_false]
      obtain ⟨herr, hok⟩ := generate_execute_apply fuel O algorithm
        (inf_adopted_request_new_do algorithm.current u.id operation)
      refine ⟨herr, ?_⟩
      intro r a1 h
      right
      obtain ⟨mid, uid, translated, hr, hfalse, htr, htrue, hupd, hgen⟩ := hok r a1 h
      have huid : uid = u.id := by
        unfold execute_request_translated at htr
        have hid := (lookup_mem _ _ _ hu).2
        have hreq : inf_adopted_request_get_user_id
            (inf_adopted_request_new_do algorithm.current u.id operation) = user := hid
        rw [hreq, hu] at htr
        simp only at htr
        split at htr
        · cases htr
        · split at htr
          · cases htr
          · simp only [Option.some.injEq, Prod.mk.injEq] at htr
            exact htr.1.symm
      subst huid
      obtain ⟨hem, hbuf, _⟩ := (execute_request_apply fuel O algorithm
        (inf_adopted_request_new_do algorithm.current u.id operation)).2 mid hfalse
      obtain ⟨_, t2, _, t4, t5, _⟩ := update_logs_and_undo_redo_frame mid a1 hupd
      obtain ⟨signals, hs1, hs2⟩ := update_logs_and_undo_redo_emitted mid a1 hupd
      refine ⟨u, mid, translated,
        with_applied a1 (inf_adopted_algorithm_apply_request O algorithm u.id
          translated).buffer algorithm.emitted.length (.APPLY_REQUEST u.id translated),
        rfl, hr, by rw [hr]; exact hgen, hfalse, htrue, t2, rfl,
        rfl, rfl, rfl, by rw [t4, hbuf], rfl, by rw [t5, hem], ?_⟩
      show applied_requests (a1.emitted.take algorithm.emitted.length ++
        InfAdoptedAlgorithmSignal.APPLY_REQUEST u.id translated ::
          a1.emitted.drop algorithm.emitted.length) = _
      rw [hs1, hem, List.take_left, List.drop_left, applied_requests_append]
      simp [applied_requests, hs2]

end NoExecTheorem

/-- C14 on the fresh sample session: generate_request_noexec and generate_request
of local user 1 with the operation adding 5 return the same Do and reach the same
current, users and flags; the buffer stays 0 without the execution and becomes 5
with it, with one apply-request emitted. -/
theorem generate_request_noexec_agrees_witness :
    inf_adopted_algorithm_generate_request_noexec 8 CounterOperation sample_algorithm 1 5 =
        .ok (some sample_first_do, sample_after_noexec) ∧
      inf_adopted_algorithm_generate_request 8 CounterOperation sample_algorithm 1 5 =
        .ok (some sample_first_do, sample_after_do) ∧
      sample_after_do.current = sample_after_noexec.current ∧
      sample_after_do.users = sample_after_noexec.users ∧
      sample_after_do.local_users = sample_after_noexec.local_users ∧
      sample_after_noexec.buffer = 0 ∧ sample_after_do.buffer = 5 ∧
      applied_requests sample_after_noexec.emitted = [] ∧
      applied_requests sample_after_do.emitted = [(1, sample_first_do)] := by
  have hg : inf_adopted_algorithm_generate_request 8 CounterOperation sample_algorithm 1 5 =
      .ok (some sample_first_do, sample_after_do) := rfl
  rcases (generate_request_noexec_agrees 8 CounterOperation sample_algorithm 1 5).2.1
      (some sample_first_do) sample_after_noexec rfl with
    ⟨hr, _, _⟩ | ⟨u, mid, translated, a2, _, _, h3, _, _, _, h7, h8, h9, _, _, _, _, _⟩
  · cases hr
  · rw [hg] at h3
    simp only [Except.ok.injEq, Prod.mk.injEq] at h3
    obtain ⟨_, h3⟩ := h3
    subst h3
    exact ⟨rfl, hg, h7, h8, h9, by decide, by decide, by decide, by decide⟩

/-! ## The availability cache -/

section AvailabilityCache

variable {Op Buf : Type}

/-- The validity of a record depends on the users, current and the maximal log
size only. -/
theorem cache_valid_record_congr (a b : InfAdoptedAlgorithm Op Buf)
    (hu : b.users = a.users) (hc : b.current = a.current)
    (hm : b.max_total_log_size = a.max_total_log_size) (l : InfAdoptedAlgorithmLocalUser) :
    cache_valid_record b l ↔ cache_valid_record a l := by
  have key : ∀ log t, inf_adopted_algorithm_can_undo_redo b log t =
      inf_adopted_algorithm_can_undo_redo a log t := by
    intro log t
    unfold inf_adopted_algorithm_can_undo_redo inf_adopted_algorithm_state_vector_vdiff
    rw [hu, hc, hm]
  unfold cache_valid_record
  simp only [key, hu]

/-- The state after the signals update_undo_redo emits for one record. -/
theorem update_undo_redo_step (a : InfAdoptedAlgorithm Op Buf)
    (local_ : InfAdoptedAlgorithmLocalUser) (v w : Bool) :
    ∃ cu cr : Bool,
      (cu = true ↔ local_.can_undo ≠ v) ∧ (cr = true ↔ local_.can_redo ≠ w) ∧
      (if local_.can_redo ≠ w then
          emit_can_redo_changed
            (if local_.can_undo ≠ v then emit_can_undo_changed a local_.user v else a)
            local_.user w
        else if local_.can_undo ≠ v then emit_can_undo_changed a local_.user v else a) =
        { a with
          local_users := a.local_users.map (fun x =>
            if x.user = local_.user then
              { x with can_undo := if cu then v else x.can_undo,
                       can_redo := if cr then w else x.can_redo }
            else x)
          emitted := a.emitted ++
            ((if cu then [InfAdoptedAlgorithmSignal.CAN_UNDO_CHANGED local_.user v] else []) ++
              (if cr then [InfAdoptedAlgorithmSignal.CAN_REDO_CHANGED local_.user w]
                else [])) } := by
  by_cases hv : local_.can_undo ≠ v <;> by_cases hw : local_.can_redo ≠ w
  · refine ⟨true, true, by simp [hv], by simp [hw], ?_⟩
    simp only [if_pos hv, if_pos hw, emit_can_undo_changed, emit_can_redo_changed,
      inf_adopted_algorithm_can_undo_changed, inf_adopted_algorithm_can_redo_changed,
      List.map_map, if_true, List.append_assoc]
    congr 1
    apply List.map_congr_left
    intro x _
    by_cases hx : x.user = local_.user <;> simp [hx]
  · refine ⟨true, false, by simp [hv], by simpa using hw, ?_⟩
    simp only [if_pos hv, if_neg hw, emit_can_undo_changed,
      inf_adopted_algorithm_can_undo_changed, if_true, Bool.false_eq_true, if_false,
      List.append_nil]
  · refine ⟨false, true, by simpa using hv, by simp [hw], ?_⟩
    simp only [if_neg hv, if_pos hw, emit_can_redo_changed,
      inf_adopted_algorithm_can_redo_changed, if_true, Bool.false_eq_true, if_false,
      List.nil_append]
  · refine ⟨false, false, by simpa using hv, by simpa using hw, ?_⟩
    simp only [if_neg hv, if_neg hw, Bool.false_eq_true, if_false, List.append_nil]
    have : (fun x : InfAdoptedAlgorithmLocalUser =>
        if x.user = local_.user then
          ({ x with can_undo := x.can_undo, can_redo := x.can_redo } :
            InfAdoptedAlgorithmLocalUser)
        else x) = id := by
      funext x
      split <;> rfl
    rw [this, List.map_id]

end AvailabilityCache

section AvailabilityCacheLoop

variable {Op Buf : Type}

theorem update_undo_redo_loop_cache (count : Nat) :
    ∀ (index : Nat) (a a2 : InfAdoptedAlgorithm Op Buf),
      a.local_users.length ≤ index + count →
      (∀ i l, i < index → a.local_users.get? i = some l → cache_valid_record a l) →
      update_undo_redo_loop count index a = .ok a2 → cache_valid a2 := by
  have finish : ∀ (index : Nat) (a : InfAdoptedAlgorithm Op Buf),
      a.local_users.length ≤ index →
      (∀ i l, i < index → a.local_users.get? i = some l → cache_valid_record a l) →
      cache_valid a := by
    intro index a hlen hq l hl
    obtain ⟨i, hi⟩ := List.get?_of_mem hl
    have hlt : i < a.local_users.length := by
      obtain ⟨h, _⟩ := List.get?_eq_some.mp hi
      exact h
    exact hq i l (by omega) hi
  induction count with
  | zero =>
    intro index a a2 hlen hq h
    simp only [update_undo_redo_loop, Except.ok.injEq] at h
    subst h
    exact finish index a (by omega) hq
  | succ count ih =>
    intro index a a2 hlen hq h
    unfold update_undo_redo_loop at h
    cases hl : a.local_users.get? index with
    | none =>
      simp only [hl, Except.ok.injEq] at h
      subst h
      have hge : a.local_users.length ≤ index := by
        by_contra hc
        have hlt : index < a.local_users.length := by omega
        rw [List.get?_eq_get hlt] at hl
        cases hl
      exact finish index a hge hq
    | some local_ =>
      simp only [hl] at h
      cases hu : inf_user_table_lookup_user_by_id a.users local_.user with
      | none => simp [hu] at h
      | some user =>
        simp only [hu] at h
        rcases except_error_or_ok (inf_adopted_algorithm_can_undo_redo a user.request_log
            (inf_adopted_request_log_next_undo user.request_log)) with ⟨e, h1⟩ | ⟨v, h1⟩
        · rw [h1] at h; simp at h
        · rw [h1] at h
          rcases except_error_or_ok (inf_adopted_algorithm_can_undo_redo a user.request_log
              (inf_adopted_request_log_next_redo user.request_log)) with ⟨e, h2⟩ | ⟨w, h2⟩
          · rw [h2] at h; simp at h
          · rw [h2] at h
            simp only at h
            obtain ⟨cu, cr, hcu, hcr, hstep⟩ := update_undo_redo_step a local_ v w
            rw [hstep] at h
            refine ih (index + 1) _ a2 (by simp only [List.length_map]; omega) ?_ h
            intro i x hi hx
            apply (cache_valid_record_congr a _ rfl rfl rfl x).mpr
            rw [List.get?_eq_getElem?, List.getElem?_map, ← List.get?_eq_getElem?] at hx
            cases hg : a.local_users.get? i with
            | none => rw [hg] at hx; cases hx
            | some l2 =>
              rw [hg] at hx
              simp only [Option.map_some', Option.some.injEq] at hx
              subst hx
              by_cases huser : l2.user = local_.user
              · simp only [huser, if_true]
                have hl2 : (i = index ∧ l2 = local_) ∨ cache_valid_record a l2 := by
                  by_cases hii : i = index
                  · left
                    subst hii
                    rw [hl] at hg
                    cases hg
                    exact ⟨rfl, rfl⟩
                  · right
                    exact hq i l2 (by omega) hg
                have hvu : (if cu = true then v else l2.can_undo) = v := by
                  by_cases hc : cu = true
                  · simp [hc]
                  · simp only [hc, if_false]
                    rcases hl2 with ⟨_, he⟩ | ⟨u2, hu2, hv2, _⟩
                    · subst he
                      by_contra hne
                      exact hc (hcu.mpr hne)
                    · rw [huser, hu] at hu2
                      cases hu2
                      rw [h1] at hv2
                      cases hv2
                      rfl
                have hwu : (if cr = true then w else l2.can_redo) = w := by
                  by_cases hc : cr = true
                  · simp [hc]
                  · simp only [hc, if_false]
                    rcases hl2 with ⟨_, he⟩ | ⟨u2, hu2, _, hw2⟩
                    · subst he
                      by_contra hne
                      exact hc (hcr.mpr hne)
                    · rw [huser, hu] at hu2
                      cases hu2
                      rw [h2] at hw2
                      cases hw2
                      rfl
                rw [hvu, hwu]
                exact ⟨user, hu, h1, h2⟩
              · simp only [huser, if_false]
                have hii : i ≠ index := by
                  intro hii
                  subst hii
                  rw [hl] at hg
                  cases hg
                  exact huser rfl
                exact hq i l2 (by omega) hg

/-- After update_undo_redo the availability cache is valid. -/
theorem update_undo_redo_cache (a a2 : InfAdoptedAlgorithm Op Buf)
    (h : inf_adopted_algorithm_update_undo_redo a = .ok a2) : cache_valid a2 :=
  update_undo_redo_loop_cache a.local_users.length 0 a a2 (by omega)
    (fun i l hi _ => absurd hi (Nat.not_lt_zero i)) h

theorem update_logs_and_undo_redo_cache (a a2 : InfAdoptedAlgorithm Op Buf)
    (h : update_logs_and_undo_redo a = .ok a2) : cache_valid a2 := by
  unfold update_logs_and_undo_redo at h
  rcases except_error_or_ok (inf_adopted_algorithm_update_request_logs a) with
    ⟨e, h1⟩ | ⟨a1, h1⟩
  · rw [h1] at h; simp at h
  · rw [h1] at h
    exact update_undo_redo_cache a1 a2 h

end AvailabilityCacheLoop

section AvailabilitySignals

variable {Op Buf : Type}

theorem computed_availability_congr (a b : InfAdoptedAlgorithm Op Buf)
    (hu : b.users = a.users) (hc : b.current = a.current)
    (hm : b.max_total_log_size = a.max_total_log_size) (l : InfAdoptedAlgorithmLocalUser) :
    computed_availability b l = computed_availability a l := by
  have key : ∀ log t, inf_adopted_algorithm_can_undo_redo b log t =
      inf_adopted_algorithm_can_undo_redo a log t := by
    intro log t
    unfold inf_adopted_algorithm_can_undo_redo inf_adopted_algorithm_state_vector_vdiff
    rw [hu, hc, hm]
  unfold computed_availability
  simp only [key, hu]

theorem availability_signals_all_congr (a b : InfAdoptedAlgorithm Op Buf)
    (hu : b.users = a.users) (hc : b.current = a.current)
    (hm : b.max_total_log_size = a.max_total_log_size)
    (ls : List InfAdoptedAlgorithmLocalUser) :
    availability_signals_all b ls = availability_signals_all a ls ∧
      ls.map (availability_updated b) = ls.map (availability_updated a) := by
  have hc2 : ∀ l, computed_availability b l = computed_availability a l :=
    computed_availability_congr a b hu hc hm
  constructor
  · induction ls with
    | nil => rfl
    | cons l rest ih =>
      show availability_signals b l ++ availability_signals_all b rest =
        availability_signals a l ++ availability_signals_all a rest
      rw [ih]
      unfold availability_signals
      rw [hc2]
  · apply List.map_congr_left
    intro l _
    unfold availability_updated
    rw [hc2]

/-- Changing the records of one user in a list of records of distinct users changes
one item. -/
theorem map_update_nodup (F : InfAdoptedAlgorithmLocalUser → InfAdoptedAlgorithmLocalUser)
    (L : List InfAdoptedAlgorithmLocalUser) :
    ∀ (index : Nat) (l : InfAdoptedAlgorithmLocalUser),
      (L.map (fun x => x.user)).Nodup → L.get? index = some l →
      L.map (fun x => if x.user = l.user then F x else x) =
        L.take index ++ F l :: L.drop (index + 1) := by
  induction L with
  | nil => intro index l _ h; cases h
  | cons y ys ih =>
    intro index l hnd h
    rw [List.map_cons, List.nodup_cons] at hnd
    cases index with
    | zero =>
      simp only [List.get?_cons_zero, Option.some.injEq] at h
      subst h
      simp only [List.map_cons, if_true, List.take_zero, List.nil_append, zero_add,
        List.drop_succ_cons, List.drop_zero, List.cons.injEq, true_and]
      have hid : ∀ x ∈ ys, (if x.user = y.user then F x else x) = x := by
        intro x hx
        have : x.user ≠ y.user := by
          intro e
          exact hnd.1 (List.mem_map.mpr ⟨x, hx, e⟩)
        simp [this]
      rw [List.map_congr_left hid, List.map_id']
    | succ k =>
      simp only [List.get?_cons_succ] at h
      have hy : y.user ≠ l.user := by
        intro e
        exact hnd.1 (List.mem_map.mpr ⟨l, List.get?_mem h, e.symm⟩)
      simp only [List.map_cons, hy, if_false, List.take_succ_cons, List.cons_append,
        List.drop_succ_cons, List.cons.injEq, true_and]
      exact ih k l hnd.2 h

theorem update_undo_redo_loop_signals (count : Nat) :
    ∀ (index : Nat) (a a2 : InfAdoptedAlgorithm Op Buf),
      (a.local_users.map (fun l => l.user)).Nodup →
      update_undo_redo_loop count index a = .ok a2 →
      a.local_users.length ≤ index + count →
      a2.emitted = a.emitted ++ availability_signals_all a (a.local_users.drop index) ∧
      a2.local_users = a.local_users.take index ++
        (a.local_users.drop index).map (availability_updated a) := by
  have finish : ∀ (index : Nat) (a : InfAdoptedAlgorithm Op Buf),
      a.local_users.length ≤ index →
      a.emitted = a.emitted ++ availability_signals_all a (a.local_users.drop index) ∧
      a.local_users = a.local_users.take index ++
        (a.local_users.drop index).map (availability_updated a) := by
    intro index a hlen
    rw [List.drop_of_length_le hlen, List.take_of_length_le hlen]
    simp [availability_signals_all]
  induction count with
  | zero =>
    intro index a a2 _ h hlen
    simp only [update_undo_redo_loop, Except.ok.injEq] at h
    subst h
    exact finish index a (by omega)
  | succ count ih =>
    intro index a a2 hnd h hlen
    unfold update_undo_redo_loop at h
    cases hl : a.local_users.get? index with
    | none =>
      simp only [hl, Except.ok.injEq] at h
      subst h
      have hge : a.local_users.length ≤ index := by
        by_contra hc
        have hlt : index < a.local_users.length := by omega
        rw [List.get?_eq_get hlt] at hl
        cases hl
      exact finish index a hge
    | some local_ =>
      simp only [hl] at h
      cases hu : inf_user_table_lookup_user_by_id a.users local_.user with
      | none => simp [hu] at h
      | some user =>
        simp only [hu] at h
        rcases except_error_or_ok (inf_adopted_algorithm_can_undo_redo a user.request_log
            (inf_adopted_request_log_next_undo user.request_log)) with ⟨e, h1⟩ | ⟨v, h1⟩
        · rw [h1] at h; simp at h
        · rw [h1] at h
          rcases except_error_or_ok (inf_adopted_algorithm_can_undo_redo a user.request_log
              (inf_adopted_request_log_next_redo user.request_log)) with ⟨e, h2⟩ | ⟨w, h2⟩
          · rw [h2] at h; simp at h
          · rw [h2] at h
            simp only at h
            obtain ⟨cu, cr, hcu, hcr, hstep⟩ := update_undo_redo_step a local_ v w
            rw [hstep] at h
            have hcomp : computed_availability a local_ = some (v, w) := by
              unfold computed_availability
              simp only [hu, h1, h2]
            have hlt : index < a.local_users.length := by
              obtain ⟨hh, _⟩ := List.get?_eq_some.mp hl
              exact hh
            have hdrop : a.local_users.drop index =
                local_ :: a.local_users.drop (index + 1) := by
              rw [List.drop_eq_getElem_cons hlt]
              obtain ⟨_, hh⟩ := List.get?_eq_some.mp hl
              rw [← hh]
              rfl
            have hvv : (if cu = true then v else local_.can_undo) = v := by
              by_cases hc : cu = true
              · simp [hc]
              · simp only [hc, if_false]
                by_contra hne
                exact hc (hcu.mpr hne)
            have hww : (if cr = true then w else local_.can_redo) = w := by
              by_cases hc : cr = true
              · simp [hc]
              · simp only [hc, if_false]
                by_contra hne
                exact hc (hcr.mpr hne)
            have hmap := map_update_nodup
              (fun x => { x with can_undo := if cu then v else x.can_undo,
                                 can_redo := if cr then w else x.can_redo })
              a.local_users index local_ hnd hl
            simp only [hvv, hww] at hmap
            rw [hmap] at h
            have htake : (a.local_users.take index).length = index := by
              rw [List.length_take]; omega
            obtain ⟨r1, r2⟩ := ih (index + 1) _ a2 (by
              simp only [List.map_append, List.map_cons, List.map_take, List.map_drop]
              rw [← List.map_take, ← List.map_drop]
              have := hnd
              rw [← List.take_append_drop index a.local_users, hdrop] at this
              simpa using this) h (by
              simp only [List.length_append, List.length_cons, List.length_drop, htake]
              omega)
            simp only at r1 r2
            have hd2 : (a.local_users.take index ++
                ({ local_ with can_undo := v, can_redo := w } : InfAdoptedAlgorithmLocalUser) ::
                  a.local_users.drop (index + 1)).drop (index + 1) =
                a.local_users.drop (index + 1) := by
              rw [List.drop_append_eq_append_drop, htake]
              rw [List.drop_of_length_le (by rw [htake]; omega)]
              simp
            have ht2 : (a.local_users.take index ++
                ({ local_ with can_undo := v, can_redo := w } : InfAdoptedAlgorithmLocalUser) ::
                  a.local_users.drop (index + 1)).take (index + 1) =
                a.local_users.take index ++
                  [({ local_ with can_undo := v, can_redo := w } :
                    InfAdoptedAlgorithmLocalUser)] := by
              rw [List.take_append_eq_append_take, htake]
              rw [List.take_of_length_le (by rw [htake]; omega)]
              simp
            rw [hd2] at r1 r2
            rw [ht2] at r2
            obtain ⟨c1, c2⟩ := availability_signals_all_congr a
              ({ a with
                local_users := a.local_users.take index ++
                  ({ local_ with can_undo := v, can_redo := w } :
                    InfAdoptedAlgorithmLocalUser) :: a.local_users.drop (index + 1)
                emitted := a.emitted ++
                  ((if cu then [InfAdoptedAlgorithmSignal.CAN_UNDO_CHANGED local_.user v]
                    else []) ++
                  (if cr then [InfAdoptedAlgorithmSignal.CAN_REDO_CHANGED local_.user w]
                    else [])) } : InfAdoptedAlgorithm Op Buf) rfl rfl rfl
              (a.local_users.drop (index + 1))
            rw [c1] at r1
            rw [c2] at r2
            constructor
            · have e1 : (if cu = true then
                  [InfAdoptedAlgorithmSignal.CAN_UNDO_CHANGED local_.user v] else []) =
                  (if local_.can_undo ≠ v then
                    [(InfAdoptedAlgorithmSignal.CAN_UNDO_CHANGED local_.user v :
                      InfAdoptedAlgorithmSignal Op)] else []) := by
                by_cases hc : cu = true
                · rw [if_pos hc, if_pos (hcu.mp hc)]
                · rw [if_neg hc, if_neg (fun hne => hc (hcu.mpr hne))]
              have e2 : (if cr = true then
                  [InfAdoptedAlgorithmSignal.CAN_REDO_CHANGED local_.user w] else []) =
                  (if local_.can_redo ≠ w then
                    [(InfAdoptedAlgorithmSignal.CAN_REDO_CHANGED local_.user w :
                      InfAdoptedAlgorithmSignal Op)] else []) := by
                by_cases hc : cr = true
                · rw [if_pos hc, if_pos (hcr.mp hc)]
                · rw [if_neg hc, if_neg (fun hne => hc (hcr.mpr hne))]
              have hsig : availability_signals a local_ =
                  (if cu = true then
                    [(InfAdoptedAlgorithmSignal.CAN_UNDO_CHANGED local_.user v :
                      InfAdoptedAlgorithmSignal Op)] else []) ++
                  (if cr = true then
                    [InfAdoptedAlgorithmSignal.CAN_REDO_CHANGED local_.user w] else []) := by
                unfold availability_signals
                rw [hcomp, e1, e2]
              rw [r1, hdrop]
              show _ = a.emitted ++ (availability_signals a local_ ++
                availability_signals_all a (a.local_users.drop (index + 1)))
              rw [hsig]
              simp only [List.append_assoc]
            · rw [r2, hdrop]
              simp only [List.map_cons, availability_updated, hcomp, List.append_assoc,
                List.singleton_append]

/-- The signals of update_undo_redo, for local-user records of distinct users: in
the order of the records, can-undo-changed and can-redo-changed with the new value,
each emitted exactly when the new value differs from the cached one; afterwards the
records hold the new values. -/
theorem update_undo_redo_signals (a a2 : InfAdoptedAlgorithm Op Buf)
    (hnd : (a.local_users.map (fun l => l.user)).Nodup)
    (h : inf_adopted_algorithm_update_undo_redo a = .ok a2) :
    a2.emitted = a.emitted ++ availability_signals_all a a.local_users ∧
      a2.local_users = a.local_users.map (availability_updated a) := by
  obtain ⟨h1, h2⟩ := update_undo_redo_loop_signals a.local_users.length 0 a a2 hnd h
    (by omega)
  simpa using And.intro h1 h2

end AvailabilitySignals

section AvailabilityInvariant

variable {Op Buf : Type}

theorem generate_execute_cache (fuel : Nat) (O : InfAdoptedOperationClass Op Buf)
    (algorithm a2 : InfAdoptedAlgorithm Op Buf) (request : InfAdoptedRequest Op)
    (apply : Bool) (r : Option (InfAdoptedRequest Op))
    (h : generate_execute fuel O algorithm request apply = .ok (r, a2)) : cache_valid a2 := by
  unfold generate_execute at h
  rcases except_error_or_ok (inf_adopted_algorithm_execute_request fuel O algorithm request
      apply) with ⟨e, h1⟩ | ⟨mid, h1⟩
  · rw [h1] at h; simp at h
  · rw [h1] at h
    simp only at h
    rcases except_error_or_ok (update_logs_and_undo_redo mid) with ⟨e, h2⟩ | ⟨fin, h2⟩
    · rw [h2] at h; simp at h
    · rw [h2] at h
      simp only [Except.ok.injEq, Prod.mk.injEq] at h
      rw [← h.2]
      exact update_logs_and_undo_redo_cache mid fin h2

theorem receive_request_cache (fuel : Nat) (O : InfAdoptedOperationClass Op Buf)
    (algorithm a2 : InfAdoptedAlgorithm Op Buf) (request : InfAdoptedRequest Op)
    (accepted : Bool)
    (h : inf_adopted_algorithm_receive_request fuel O algorithm request = .ok (accepted, a2)) :
    (accepted = false ∧ a2 = algorithm) ∨ cache_valid a2 := by
  unfold inf_adopted_algorithm_receive_request at h
  cases hu : inf_user_table_lookup_user_by_id algorithm.users
      (inf_adopted_request_get_user_id request) with
  | none =>
    simp only [hu, Except.ok.injEq, Prod.mk.injEq] at h
    exact Or.inl ⟨h.1.symm, h.2.symm⟩
  | some user =>
    simp only [hu] at h
    cases hl : user.flags_local with
    | true =>
      simp only [hl, if_true, Except.ok.injEq, Prod.mk.injEq] at h
      exact Or.inl ⟨h.1.symm, h.2.symm⟩
    | false =>
      simp only [hl, Bool.false_eq_true, if_false] at h
      right
      split at h
      · cases h
      · rename_i processed hp
        split at h
        · cases h
        · rename_i fin hfin
          simp only [Except.ok.injEq, Prod.mk.injEq] at h
          rw [← h.2]
          exact update_logs_and_undo_redo_cache _ fin hfin

/-- C12: the availability cache. After add-local-user(u) the record of u holds the
values of can_undo_redo for the next Undo and the next Redo of u's log, and valid
records of the other local users stay valid. Every generate_request,
generate_request_noexec, generate_undo, generate_redo and receive_request call that
returns either was rejected and left the state as it was, or leaves a state in
which, for every local-user record, the cached can_undo / can_redo flags equal
can_undo_redo(L(u), next_undo(L(u))) / can_undo_redo(L(u), next_redo(L(u)))
evaluated in that state; in such a state can_undo(u) and can_redo(u) return these
values. update_undo_redo, for records of distinct users, emits for each record in
turn can-undo-changed and can-redo-changed with the new value, each exactly when
the new value differs from the cached one, and stores the new values. -/
theorem availability_cache_invariant (fuel : Nat) (O : InfAdoptedOperationClass Op Buf)
    (algorithm : InfAdoptedAlgorithm Op Buf) :
    (∀ user a2, inf_adopted_algorithm_add_local_user algorithm user = .ok a2 →
      a2.local_users =
        { user := user, can_undo := inf_adopted_algorithm_can_undo a2 user,
          can_redo := inf_adopted_algorithm_can_redo a2 user } :: algorithm.local_users ∧
      cache_valid_record a2
        { user := user, can_undo := inf_adopted_algorithm_can_undo a2 user,
          can_redo := inf_adopted_algorithm_can_redo a2 user } ∧
      (cache_valid algorithm → cache_valid a2)) ∧
    (∀ user operation r a2,
      inf_adopted_algorithm_generate_request fuel O algorithm user operation = .ok (r, a2) →
      (r = none ∧ a2 = algorithm) ∨ cache_valid a2) ∧
    (∀ user operation r a2,
      inf_adopted_algorithm_generate_request_noexec fuel O algorithm user operation
        = .ok (r, a2) →
      (r = none ∧ a2 = algorithm) ∨ cache_valid a2) ∧
    (∀ user r a2, inf_adopted_algorithm_generate_undo fuel O algorithm user = .ok (r, a2) →
      (r = none ∧ a2 = algorithm) ∨ cache_valid a2) ∧
    (∀ user r a2, inf_adopted_algorithm_generate_redo fuel O algorithm user = .ok (r, a2) →
      (r = none ∧ a2 = algorithm) ∨ cache_valid a2) ∧
    (∀ request accepted a2,
      inf_adopted_algorithm_receive_request fuel O algorithm request = .ok (accepted, a2) →
      (accepted = false ∧ a2 = algorithm) ∨ cache_valid a2) ∧
    (cache_valid algorithm → ∀ user l,
      inf_adopted_algorithm_find_local_user algorithm user = some l →
      ∃ u, inf_user_table_lookup_user_by_id algorithm.users user = some u ∧
        inf_adopted_algorithm_can_undo_redo algorithm u.request_log
          (inf_adopted_request_log_next_undo u.request_log) =
            .ok (inf_adopted_algorithm_can_undo algorithm user) ∧
        inf_adopted_algorithm_can_undo_redo algorithm u.request_log
          (inf_adopted_request_log_next_redo u.request_log) =
            .ok (inf_adopted_algorithm_can_redo algorithm user)) ∧
    (∀ a2, (algorithm.local_users.map (fun l => l.user)).Nodup →
      inf_adopted_algorithm_update_undo_redo algorithm = .ok a2 →
      a2.emitted = algorithm.emitted ++
        availability_signals_all algorithm algorithm.local_users ∧
      a2.local_users = algorithm.local_users.map (availability_updated algorithm)) := by
  refine ⟨?_, ?_, ?_, ?_, ?_, ?_, ?_, ?_⟩
  · intro user a2 h
    unfold inf_adopted_algorithm_add_local_user at h
    cases hu : inf_user_table_lookup_user_by_id algorithm.users user with
    | none => simp [hu] at h
    | some u =>
      simp only [hu] at h
      rcases except_error_or_ok (inf_adopted_algorithm_can_undo_redo algorithm u.request_log
          (inf_adopted_request_log_next_undo u.request_log)) with ⟨e, h1⟩ | ⟨v, h1⟩
      · rw [h1] at h; simp at h
      · rw [h1] at h
        rcases except_error_or_ok (inf_adopted_algorithm_can_undo_redo algorithm
            u.request_log (inf_adopted_request_log_next_redo u.request_log)) with
          ⟨e, h2⟩ | ⟨w, h2⟩
        · rw [h2] at h; simp at h
        · rw [h2] at h
          simp only [Except.ok.injEq] at h
          subst h
          have hcu : inf_adopted_algorithm_can_undo
              ({ algorithm with
                local_users := { user := user, can_undo := v, can_redo := w } ::
                  algorithm.local_users } : InfAdoptedAlgorithm Op Buf) user = v := by
            simp [inf_adopted_algorithm_can_undo, inf_adopted_algorithm_find_local_user]
          have hcr : inf_adopted_algorithm_can_redo
              ({ algorithm with
                local_users := { user := user, can_undo := v, can_redo := w } ::
                  algorithm.local_users } : InfAdoptedAlgorithm Op Buf) user = w := by
            simp [inf_adopted_algorithm_can_redo, inf_adopted_algorithm_find_local_user]
          rw [hcu, hcr]
          have hnew : cache_valid_record
              ({ algorithm with
                local_users := { user := user, can_undo := v, can_redo := w } ::
                  algorithm.local_users } : InfAdoptedAlgorithm Op Buf)
              { user := user, can_undo := v, can_redo := w } :=
            (cache_valid_record_congr algorithm _ rfl rfl rfl _).mpr ⟨u, hu, h1, h2⟩
          refine ⟨rfl, hnew, ?_⟩
          intro hvalid l hl
          rcases List.mem_cons.mp hl with rfl | hl
          · exact hnew
          · exact (cache_valid_record_congr algorithm _ rfl rfl rfl l).mpr (hvalid l hl)
  · intro user operation r a2 h
    unfold inf_adopted_algorithm_generate_request at h
    cases hu : inf_user_table_lookup_user_by_id algorithm.users user with
    | none =>
      simp only [hu, Except.ok.injEq, Prod.mk.injEq] at h
      exact Or.inl ⟨h.1.symm, h.2.symm⟩
    | some u =>
      simp only [hu] at h
      cases hl : u.flags_local with
      | false =>
        simp only [hl, if_true, Except.ok.injEq, Prod.mk.injEq] at h
        exact Or.inl ⟨h.1.symm, h.2.symm⟩
      | true =>
        simp only [hl, Bool.true_eq_false, if_false] at h
        exact Or.inr (generate_execute_cache fuel O _ _ _ _ _ h)
  · intro user operation r a2 h
    unfold inf_adopted_algorithm_generate_request_noexec at h
    cases hu : inf_user_table_lookup_user_by_id algorithm.users user with
    | none =>
      simp only [hu, Except.ok.injEq, Prod.mk.injEq] at h
      exact Or.inl ⟨h.1.symm, h.2.symm⟩
    | some u =>
      simp only [hu] at h
      cases hl : u.flags_local with
      | false =>
        simp only [hl, if_true, Except.ok.injEq, Prod.mk.injEq] at h
        exact Or.inl ⟨h.1.symm, h.2.symm⟩
      | true =>
        simp only [hl, Bool.true_eq_false, if_false] at h
        exact Or.inr (generate_execute_cache fuel O _ _ _ _ _ h)
  · intro user r a2 h
    unfold inf_adopted_algorithm_generate_undo at h
    cases hu : inf_user_table_lookup_user_by_id algorithm.users user with
    | none =>
      simp only [hu, Except.ok.injEq, Prod.mk.injEq] at h
      exact Or.inl ⟨h.1.symm, h.2.symm⟩
    | some u =>
      simp only [hu] at h
      cases hl : u.flags_local with
      | false =>
        simp only [hl, if_true, Except.ok.injEq, Prod.mk.injEq] at h
        exact Or.inl ⟨h.1.symm, h.2.symm⟩
      | true =>
        simp only [hl, Bool.true_eq_false, if_false] at h
        cases hc : inf_adopted_algorithm_can_undo algorithm user with
        | false =>
          simp only [hc, if_true, Except.ok.injEq, Prod.mk.injEq] at h
          exact Or.inl ⟨h.1.symm, h.2.symm⟩
        | true =>
          simp only [hc, Bool.true_eq_false, if_false] at h
          exact Or.inr (generate_execute_cache fuel O _ _ _ _ _ h)
  · intro user r a2 h
    unfold inf_adopted_algorithm_generate_redo at h
    cases hu : inf_user_table_lookup_user_by_id algorithm.users user with
    | none =>
      simp only [hu, Except.ok.injEq, Prod.mk.injEq] at h
      exact Or.inl ⟨h.1.symm, h.2.symm⟩
    | some u =>
      simp only [hu] at h
      cases hl : u.flags_local with
      | false =>
        simp only [hl, if_true, Except.ok.injEq, Prod.mk.injEq] at h
        exact Or.inl ⟨h.1.symm, h.2.symm⟩
      | true =>
        simp only [hl, Bool.true_eq_false, if_false] at h
        cases hc : inf_adopted_algorithm_can_redo algorithm user with
        | false =>
          simp only [hc, if_true, Except.ok.injEq, Prod.mk.injEq] at h
          exact Or.inl ⟨h.1.symm, h.2.symm⟩
        | true =>
          simp only [hc, Bool.true_eq_false, if_false] at h
          exact Or.inr (generate_execute_cache fuel O _ _ _ _ _ h)
  · intro request accepted a2 h
    exact receive_request_cache fuel O algorithm a2 request accepted h
  · intro hvalid user l hl
    unfold inf_adopted_algorithm_find_local_user at hl
    have hmem := List.mem_of_find?_eq_some hl
    have huser : l.user = user := by simpa using List.find?_some hl
    obtain ⟨u, hu, h1, h2⟩ := hvalid l hmem
    refine ⟨u, by rw [← huser]; exact hu, ?_, ?_⟩
    · unfold inf_adopted_algorithm_can_undo inf_adopted_algorithm_find_local_user
      rw [hl]
      exact h1
    · unfold inf_adopted_algorithm_can_redo inf_adopted_algorithm_find_local_user
      rw [hl]
      exact h2
  · intro a2 hnd h
    exact update_undo_redo_signals algorithm a2 hnd h

end AvailabilityInvariant

/-- Witness of `availability_cache_invariant` in the sample session: the state after
the first Do of local user 1 has a valid cache, and update_undo_redo, run on the state
in which that Do was executed but the flags are still the old ones, emits
can-undo-changed(1, true) and nothing else, and stores the new flag. -/
theorem availability_cache_invariant_witness :
    cache_valid sample_after_do ∧
    (sample_executed.local_users.map (fun l => l.user)).Nodup ∧
    sample_executed_updated.emitted =
      sample_executed.emitted ++ [InfAdoptedAlgorithmSignal.CAN_UNDO_CHANGED 1 true] ∧
    sample_executed_updated.local_users =
      [{ user := 1, can_undo := true, can_redo := false }] :=
  ⟨((availability_cache_invariant 8 CounterOperation sample_algorithm).2.1 1 5
      (some sample_first_do) sample_after_do rfl).resolve_left (fun h => nomatch h.1),
   by decide,
   ((availability_cache_invariant 8 CounterOperation sample_executed).2.2.2.2.2.2.2
      sample_executed_updated (by decide) rfl).1.trans rfl,
   ((availability_cache_invariant 8 CounterOperation sample_executed).2.2.2.2.2.2.2
      sample_executed_updated (by decide) rfl).2.trans rfl⟩

section KeptReferences

variable {Op Buf : Type}

/-- Every removal scheduled by the outer loop of create_removals is for the group
that ends at upper_related of the oldest request of a user's log. -/
theorem create_removals_users_upper (algorithm : InfAdoptedAlgorithm Op Buf) :
    ∀ (users : List (InfAdoptedUser Op)) (vdiff : Nat)
      (result result' : List (InfAdoptedAlgorithmLogRemoval Op)),
    create_removals_users algorithm users vdiff result = .ok result' →
    ∀ removal ∈ result', removal ∈ result ∨
      ∃ u ∈ users, removal.log = u.id ∧
        ∃ oldest, inf_adopted_request_log_get_request u.request_log
            (inf_adopted_request_log_get_begin u.request_log) = some oldest ∧
          inf_adopted_request_log_upper_related u.request_log oldest =
            some removal.upper := by
  intro users
  induction users with
  | nil =>
    intro vdiff result result' h removal hr
    simp only [create_removals_users, Except.ok.injEq] at h
    subst h
    exact Or.inl hr
  | cons user rest ih =>
    intro vdiff result result' h removal hr
    have hstep : ∀ vd res, create_removals_users algorithm rest vd res = .ok result' →
        (∀ x ∈ res, x ∈ result ∨ ∃ u ∈ user :: rest, x.log = u.id ∧
          ∃ oldest, inf_adopted_request_log_get_request u.request_log
              (inf_adopted_request_log_get_begin u.request_log) = some oldest ∧
            inf_adopted_request_log_upper_related u.request_log oldest = some x.upper) →
        removal ∈ result ∨ ∃ u ∈ user :: rest, removal.log = u.id ∧
          ∃ oldest, inf_adopted_request_log_get_request u.request_log
              (inf_adopted_request_log_get_begin u.request_log) = some oldest ∧
            inf_adopted_request_log_upper_related u.request_log oldest =
              some removal.upper := by
      intro vd res hres hold
      rcases ih vd res result' hres removal hr with h1 | ⟨u, hu, h2⟩
      · exact hold removal h1
      · exact Or.inr ⟨u, List.mem_cons_of_mem _ hu, h2⟩
    unfold create_removals_users at h
    simp only at h
    split at h
    · exact hstep _ _ h (fun x hx => Or.inl hx)
    · split at h
      · cases h
      · rename_i request hreq
        split at h
        · cases h
        · split at h
          · split at h
            · cases h
            · rename_i upper hup
              apply hstep _ _ h
              intro x hx
              rcases List.mem_cons.mp hx with rfl | hx
              · exact Or.inr ⟨user, List.mem_cons_self _ _, rfl, request, hreq, hup⟩
              · exact Or.inl hx
          · exact hstep _ _ h (fun x hx => Or.inl hx)

/-- The search for blockers changes neither the log nor the upper end of a removal. -/
theorem find_blockers_keeps (algorithm : InfAdoptedAlgorithm Op Buf) :
    ∀ (removals removals' : List (InfAdoptedAlgorithmLogRemoval Op)),
    inf_adopted_algorithm_find_blockers algorithm removals = .ok removals' →
    ∀ removal ∈ removals', ∃ scheduled ∈ removals,
      removal.log = scheduled.log ∧ removal.upper = scheduled.upper := by
  intro removals
  induction removals with
  | nil =>
    intro removals' h removal hr
    simp only [inf_adopted_algorithm_find_blockers, Except.ok.injEq] at h
    subst h
    cases hr
  | cons first rest ih =>
    intro removals' h removal hr
    unfold inf_adopted_algorithm_find_blockers at h
    simp only at h
    split at h
    · cases h
    · split at h
      · cases h
      · rename_i rest' hrest
        simp only [Except.ok.injEq] at h
        subst h
        rcases List.mem_cons.mp hr with rfl | hr
        · exact ⟨first, List.mem_cons_self _ _, rfl, rfl⟩
        · obtain ⟨s, hs, h1, h2⟩ := ih rest' hrest removal hr
          exact ⟨s, List.mem_cons_of_mem _ hs, h1, h2⟩

/-- C20: log GC and references. With logs indexed by their owner's component,
update_request_logs returns, and every request in a log of the resulting state was
in the log of the same user before and has the same prev_associated request and the
same original request as before; so if every Undo and Redo found both in its log
before, it still does. The only place where a log is cut is perform_removals, for a
removal without blockers, right after the slot of the removal's upper request; every
removal that create_removals returns is for a user's log and has as its upper request
upper_related of the oldest request of that log, and, with indexed logs, has a
blocker, so that no log is cut. -/
theorem update_request_logs_keeps_references (algorithm : InfAdoptedAlgorithm Op Buf)
    (hlogs : logs_indexed algorithm) :
    (∃ a2, inf_adopted_algorithm_update_request_logs algorithm = .ok a2 ∧
      (∀ u2 ∈ a2.users, ∃ u ∈ algorithm.users, u2.id = u.id ∧
        ∀ e ∈ u2.request_log.entries, e ∈ u.request_log.entries ∧
          inf_adopted_request_log_prev_associated u2.request_log e.request =
            inf_adopted_request_log_prev_associated u.request_log e.request ∧
          inf_adopted_request_log_original_request u2.request_log e.request =
            inf_adopted_request_log_original_request u.request_log e.request) ∧
      ((∀ u ∈ algorithm.users, references_present u.request_log = true) →
        ∀ u2 ∈ a2.users, references_present u2.request_log = true)) ∧
    (∀ removals, inf_adopted_algorithm_create_removals algorithm = .ok removals →
      ∀ removal ∈ removals, removal.blockers ≠ [] ∧
        ∃ u ∈ algorithm.users, removal.log = u.id ∧
          ∃ oldest, inf_adopted_request_log_get_request u.request_log
              (inf_adopted_request_log_get_begin u.request_log) = some oldest ∧
            inf_adopted_request_log_upper_related u.request_log oldest =
              some removal.upper) ∧
    (∀ (a : InfAdoptedAlgorithm Op Buf) (removal : InfAdoptedAlgorithmLogRemoval Op),
      (removal.blockers = [] →
        inf_adopted_algorithm_perform_removals a [removal] =
          { a with
            users := update_user a.users removal.log (fun u =>
              { u with
                request_log := inf_adopted_request_log_remove_requests u.request_log
                  (guint_add (request_slot removal.upper) 1) }) }) ∧
      (removal.blockers ≠ [] →
        inf_adopted_algorithm_perform_removals a [removal] = a)) := by
  refine ⟨⟨algorithm, update_request_logs_indexed algorithm hlogs, ?_, fun h => h⟩, ?_, ?_⟩
  · intro u2 hu2
    exact ⟨u2, hu2, rfl, fun e he => ⟨he, rfl, rfl⟩⟩
  · intro removals h removal hr
    unfold inf_adopted_algorithm_create_removals at h
    obtain ⟨result, h1, h2⟩ := create_removals_users_spec algorithm algorithm.users 0 []
      (fun u hu => ⟨hu, (hlogs u hu).2⟩) (by simp)
    rw [h1] at h
    simp only at h
    obtain ⟨removals2, h3, h4⟩ := find_blockers_spec algorithm (fun u hu => (hlogs u hu).2)
      result h2
    have heq : removals2 = removals := by
      rw [h3] at h
      exact Except.ok.inj h
    subst heq
    refine ⟨h4 removal hr, ?_⟩
    obtain ⟨s, hs, hlog, hup⟩ := find_blockers_keeps algorithm result removals2 h3 removal hr
    rcases create_removals_users_upper algorithm algorithm.users 0 [] result h1 s hs with
      hnil | ⟨u, hu, hid, oldest, hold, hupper⟩
    · cases hnil
    · exact ⟨u, hu, hlog.trans hid, oldest, hold, by rw [hup]; exact hupper⟩
  · intro a removal
    constructor
    · intro hb
      simp [inf_adopted_algorithm_perform_removals, hb, request_slot,
        inf_adopted_request_get_vector, inf_adopted_request_get_user_id]
    · intro hb
      exact perform_removals_blocked a [removal] (by simpa using hb)

/-- Witness of `update_request_logs_keeps_references` in the sample session with the
log size bounded by 1, after user 1 did and undid an operation and user 3 has seen
both: the group of the Do and its Undo is scheduled for removal, with the Undo as
its upper request, and is blocked by that Undo; the run returns and the Undo still
finds its associated and its original request. -/
theorem update_request_logs_keeps_references_witness :
    logs_indexed sample_undone_tight ∧
    (∀ u ∈ sample_undone_tight.users, references_present u.request_log = true) ∧
    inf_adopted_algorithm_create_removals sample_undone_tight =
      .ok [{ log := 1, upper := sample_undo_request, blockers := [sample_undo_request] }] ∧
    (∃ a2, inf_adopted_algorithm_update_request_logs sample_undone_tight = .ok a2 ∧
      ∀ u2 ∈ a2.users, references_present u2.request_log = true) := by
  have hlogs : logs_indexed sample_undone_tight := by
    unfold logs_indexed log_indexed; decide
  have hrefs : ∀ u ∈ sample_undone_tight.users, references_present u.request_log = true := by
    decide
  obtain ⟨⟨a2, h1, _, h3⟩, _, _⟩ :=
    update_request_logs_keeps_references sample_undone_tight hlogs
  exact ⟨hlogs, hrefs, rfl, a2, h1, h3 hrefs⟩

end KeptReferences

/-! ## Least common successor and vdiff -/

section LeastCommonSuccessor

variable {Op Buf : Type}

theorem lcs_fold_get (users : List (InfAdoptedUser Op))
    (first second : InfAdoptedStateVector) (p : Nat) :
    ∀ init : InfAdoptedStateVector,
    inf_adopted_state_vector_get
      (users.foldl
        (fun result user =>
          inf_adopted_state_vector_set result user.id
            (max (inf_adopted_state_vector_get first user.id)
              (inf_adopted_state_vector_get second user.id)))
        init) p =
      if (∃ u ∈ users, u.id = p) then
        max (inf_adopted_state_vector_get first p) (inf_adopted_state_vector_get second p)
      else inf_adopted_state_vector_get init p := by
  induction users with
  | nil => intro init; simp
  | cons u rest ih =>
    intro init
    rw [List.foldl_cons, ih]
    by_cases hrest : ∃ u ∈ rest, u.id = p
    · have hall : ∃ x ∈ u :: rest, x.id = p := by
        obtain ⟨x, hx, hp⟩ := hrest
        exact ⟨x, List.mem_cons_of_mem _ hx, hp⟩
      rw [if_pos hrest, if_pos hall]
    · rw [if_neg hrest, get_set]
      by_cases hp : p = u.id
      · have hall : ∃ x ∈ u :: rest, x.id = p := ⟨u, List.mem_cons_self _ _, hp.symm⟩
        rw [if_pos hp, if_pos hall, hp]
      · have hall : ¬ ∃ x ∈ u :: rest, x.id = p := by
          rintro ⟨x, hx, hxp⟩
          rcases List.mem_cons.mp hx with rfl | hx
          · exact hp hxp.symm
          · exact hrest ⟨x, hx, hxp⟩
        rw [if_neg hp, if_neg hall]

theorem lcs_get (algorithm : InfAdoptedAlgorithm Op Buf)
    (first second : InfAdoptedStateVector) (p : Nat) :
    inf_adopted_state_vector_get
      (inf_adopted_algorithm_least_common_successor algorithm first second) p =
      if (∃ u ∈ algorithm.users, u.id = p) then
        max (inf_adopted_state_vector_get first p) (inf_adopted_state_vector_get second p)
      else 0 := by
  unfold inf_adopted_algorithm_least_common_successor
  rw [lcs_fold_get]
  rfl

theorem lcs_causally_before (algorithm : InfAdoptedAlgorithm Op Buf)
    (V W U : InfAdoptedStateVector)
    (hV : inf_adopted_state_vector_causally_before V U = true)
    (hW : inf_adopted_state_vector_causally_before W U = true) :
    inf_adopted_state_vector_causally_before
      (inf_adopted_algorithm_least_common_successor algorithm V W) U = true := by
  rw [causally_before_iff] at hV hW ⊢
  intro id
  rw [lcs_get]
  have h1 := hV id
  have h2 := hW id
  split
  · exact max_le h1 h2
  · exact Nat.zero_le _

/-- C25: least_common_successor(V, W) has the component max(V[p], W[p]) for every
participant p of the user array and the component 0 for every other id. If the
non-zero components of V (of W) all belong to participants of the array, V (W) is
causally before the result. The result for (V, W) is the result for (W, V), and
for (V, V), with V having non-zero components only at participants of the array,
the result compares equal to V. -/
theorem least_common_successor_spec (algorithm : InfAdoptedAlgorithm Op Buf)
    (V W : InfAdoptedStateVector) :
    (∀ u ∈ algorithm.users,
      inf_adopted_state_vector_get
        (inf_adopted_algorithm_least_common_successor algorithm V W) u.id =
        max (inf_adopted_state_vector_get V u.id) (inf_adopted_state_vector_get W u.id)) ∧
    (∀ p, (∀ u ∈ algorithm.users, u.id ≠ p) →
      inf_adopted_state_vector_get
        (inf_adopted_algorithm_least_common_successor algorithm V W) p = 0) ∧
    ((∀ p, inf_adopted_state_vector_get V p ≠ 0 → ∃ u ∈ algorithm.users, u.id = p) →
      inf_adopted_state_vector_causally_before V
        (inf_adopted_algorithm_least_common_successor algorithm V W) = true) ∧
    ((∀ p, inf_adopted_state_vector_get W p ≠ 0 → ∃ u ∈ algorithm.users, u.id = p) →
      inf_adopted_state_vector_causally_before W
        (inf_adopted_algorithm_least_common_successor algorithm V W) = true) ∧
    inf_adopted_algorithm_least_common_successor algorithm V W =
      inf_adopted_algorithm_least_common_successor algorithm W V ∧
    ((∀ p, inf_adopted_state_vector_get V p ≠ 0 → ∃ u ∈ algorithm.users, u.id = p) →
      inf_adopted_state_vector_compare
        (inf_adopted_algorithm_least_common_successor algorithm V V) V = 0) := by
  refine ⟨?_, ?_, ?_, ?_, ?_, ?_⟩
  · intro u hu
    rw [lcs_get, if_pos ⟨u, hu, rfl⟩]
  · intro p hp
    rw [lcs_get, if_neg]
    rintro ⟨u, hu, hup⟩
    exact hp u hu hup
  · intro hknown
    rw [causally_before_iff]
    intro id
    rw [lcs_get]
    by_cases hz : inf_adopted_state_vector_get V id = 0
    · rw [hz]; exact Nat.zero_le _
    · rw [if_pos (hknown id hz)]
      exact le_max_left _ _
  · intro hknown
    rw [causally_before_iff]
    intro id
    rw [lcs_get]
    by_cases hz : inf_adopted_state_vector_get W id = 0
    · rw [hz]; exact Nat.zero_le _
    · rw [if_pos (hknown id hz)]
      exact le_max_right _ _
  · unfold inf_adopted_algorithm_least_common_successor
    congr 1
    funext result user
    rw [max_comm]
  · intro hknown
    rw [compare_eq_zero_iff]
    intro id
    rw [lcs_get]
    by_cases hz : inf_adopted_state_vector_get V id = 0
    · rw [hz]
      split <;> simp
    · rw [if_pos (hknown id hz)]
      exact max_self _

/-- C26: least_common_successor is least. If V and W are causally before U, then
least_common_successor(V, W) is causally before U. So in transform_request, once
request.vector and against.vector are causally before `at`, the third assertion
holds and the function goes on with the four translations and the transformation. -/
theorem least_common_successor_least (algorithm : InfAdoptedAlgorithm Op Buf)
    (V W U : InfAdoptedStateVector)
    (hV : inf_adopted_state_vector_causally_before V U = true)
    (hW : inf_adopted_state_vector_causally_before W U = true) :
    inf_adopted_state_vector_causally_before
      (inf_adopted_algorithm_least_common_successor algorithm V W) U = true ∧
    ∀ (translate : InfAdoptedRequest Op → InfAdoptedStateVector →
        Except Failure (InfAdoptedRequest Op))
      (O : InfAdoptedOperationClass Op Buf) (request against : InfAdoptedRequest Op),
      request.vector = V → against.vector = W →
      transform_request_with translate O algorithm request against U =
        match translate against
          (inf_adopted_algorithm_least_common_successor algorithm V W) with
        | .error e => .error e
        | .ok lcs_against =>
          match translate request
            (inf_adopted_algorithm_least_common_successor algorithm V W) with
          | .error e => .error e
          | .ok lcs_request =>
            match translate lcs_against U with
            | .error e => .error e
            | .ok against_copy =>
              match translate lcs_request U with
              | .error e => .error e
              | .ok result => .ok (inf_adopted_request_transform O result against_copy) := by
  have hlcs := lcs_causally_before algorithm V W U hV hW
  refine ⟨hlcs, ?_⟩
  intro translate O request against hr ha
  unfold transform_request_with
  simp only [inf_adopted_request_get_vector, inf_adopted_request_copy, hr, ha, hV, hW, hlcs,
    Bool.not_true, Bool.false_eq_true, if_false]

end LeastCommonSuccessor

/-- Witness of `least_common_successor_spec` in the sample session (participants 1,
2 and 3): for V = (1:2, 2:1) and W = (2:3) the result has the components 2, 3 and 0,
both vectors are causally before it, and the result for (V, V) compares equal to V. -/
theorem least_common_successor_spec_witness :
    inf_adopted_state_vector_get
      (inf_adopted_algorithm_least_common_successor sample_algorithm [(1, 2), (2, 1)] [(2, 3)])
      2 = 3 ∧
    inf_adopted_state_vector_causally_before [(1, 2), (2, 1)]
      (inf_adopted_algorithm_least_common_successor sample_algorithm [(1, 2), (2, 1)] [(2, 3)])
      = true ∧
    inf_adopted_state_vector_causally_before [(2, 3)]
      (inf_adopted_algorithm_least_common_successor sample_algorithm [(1, 2), (2, 1)] [(2, 3)])
      = true ∧
    inf_adopted_state_vector_compare
      (inf_adopted_algorithm_least_common_successor sample_algorithm [(1, 2), (2, 1)]
        [(1, 2), (2, 1)]) [(1, 2), (2, 1)] = 0 :=
  have h := least_common_successor_spec sample_algorithm [(1, 2), (2, 1)] [(2, 3)]
  have h2 := least_common_successor_spec sample_algorithm [(1, 2), (2, 1)] [(1, 2), (2, 1)]
  have known : ∀ (V : InfAdoptedStateVector), V = [(1, 2), (2, 1)] ∨ V = [(2, 3)] →
      ∀ p, inf_adopted_state_vector_get V p ≠ 0 → ∃ u ∈ sample_algorithm.users, u.id = p := by
    intro V hV p hp
    have hp12 : p = 1 ∨ p = 2 := by
      rcases hV with rfl | rfl
      · by_contra hne
        push_neg at hne
        apply hp
        simp [inf_adopted_state_vector_get, Ne.symm hne.1, Ne.symm hne.2]
      · by_contra hne
        push_neg at hne
        apply hp
        simp [inf_adopted_state_vector_get, Ne.symm hne.2]
    rcases hp12 with rfl | rfl
    · exact ⟨sample_user 1 true, by simp [sample_algorithm], rfl⟩
    · exact ⟨sample_user 2 false, by simp [sample_algorithm], rfl⟩
  ⟨(h.1 (sample_user 2 false) (by simp [sample_algorithm])).trans (by decide),
    h.2.2.1 (known _ (Or.inl rfl)), h.2.2.2.1 (known _ (Or.inr rfl)),
    h2.2.2.2.2.2 (known _ (Or.inl rfl))⟩

/-- Witness of `least_common_successor_least` in the sample session: V = (1:2) and
W = (2:3) are causally before U = (1:2, 2:3, 3:1), and so is their least common
successor. -/
theorem least_common_successor_least_witness :
    inf_adopted_state_vector_causally_before
      (inf_adopted_algorithm_least_common_successor sample_algorithm [(1, 2)] [(2, 3)])
      [(1, 2), (2, 3), (3, 1)] = true :=
  (least_common_successor_least sample_algorithm [(1, 2)] [(2, 3)] [(1, 2), (2, 3), (3, 1)]
    (by decide) (by decide)).1

section Vdiff

variable {Op Buf : Type}

theorem guint_sub_self (a : Nat) : guint_sub a a = 0 := by
  unfold guint_sub GUINT_MOD
  omega

theorem guint_sub_add_sub (u v w : Nat) :
    guint_add (guint_sub v u) (guint_sub w v) = guint_sub w u := by
  unfold guint_add guint_sub GUINT_MOD
  omega

theorem vdiff_fold (users : List (InfAdoptedUser Op)) (g : InfAdoptedUser Op → Nat) :
    ∀ acc : Nat,
    users.foldl (fun result user => guint_add result (g user)) acc % GUINT_MOD =
      (acc + (users.map g).sum) % GUINT_MOD := by
  induction users with
  | nil => intro acc; simp
  | cons u rest ih =>
    intro acc
    rw [List.foldl_cons, ih]
    simp only [List.map_cons, List.sum_cons]
    unfold guint_add
    rw [Nat.add_mod, Nat.mod_mod, ← Nat.add_mod, Nat.add_assoc]

theorem vdiff_fold_lt (users : List (InfAdoptedUser Op)) (g : InfAdoptedUser Op → Nat) :
    ∀ acc : Nat, acc < GUINT_MOD →
    users.foldl (fun result user => guint_add result (g user)) acc < GUINT_MOD := by
  induction users with
  | nil => intro acc h; exact h
  | cons u rest ih =>
    intro acc _
    rw [List.foldl_cons]
    apply ih
    unfold guint_add
    exact Nat.mod_lt _ (by unfold GUINT_MOD; omega)

theorem vdiff_fold_eq (users : List (InfAdoptedUser Op)) (g : InfAdoptedUser Op → Nat) :
    users.foldl (fun result user => guint_add result (g user)) 0 =
      (users.map g).sum % GUINT_MOD := by
  have h1 := vdiff_fold users g 0
  have h2 := vdiff_fold_lt users g 0 (by unfold GUINT_MOD; omega)
  rw [Nat.mod_eq_of_lt h2, Nat.zero_add] at h1
  exact h1

theorem sum_map_congr (users : List (InfAdoptedUser Op)) (g k : InfAdoptedUser Op → Nat)
    (h : ∀ u ∈ users, g u = k u) : (users.map g).sum = (users.map k).sum := by
  rw [List.map_congr_left h]

theorem sum_map_add (users : List (InfAdoptedUser Op)) (g k : InfAdoptedUser Op → Nat) :
    (users.map (fun u => g u + k u)).sum = (users.map g).sum + (users.map k).sum := by
  induction users with
  | nil => rfl
  | cons u rest ih =>
    simp only [List.map_cons, List.sum_cons, ih]
    omega

theorem sum_map_zero (users : List (InfAdoptedUser Op)) (g : InfAdoptedUser Op → Nat)
    (h : ∀ u ∈ users, g u = 0) : (users.map g).sum = 0 := by
  induction users with
  | nil => rfl
  | cons u rest ih =>
    simp only [List.map_cons, List.sum_cons]
    rw [h u (List.mem_cons_self _ _), ih (fun x hx => h x (List.mem_cons_of_mem _ hx))]

/-- The value of vdiff in terms of the sum of the `guint` differences. -/
theorem vdiff_eq (algorithm : InfAdoptedAlgorithm Op Buf) (first second : InfAdoptedStateVector)
    (hcb : inf_adopted_state_vector_causally_before first second = true) :
    inf_adopted_algorithm_state_vector_vdiff algorithm first second =
      .ok ((algorithm.users.map (fun u =>
        guint_sub (inf_adopted_state_vector_get second u.id)
          (inf_adopted_state_vector_get first u.id))).sum % GUINT_MOD) := by
  unfold inf_adopted_algorithm_state_vector_vdiff
  rw [if_pos hcb]
  rw [vdiff_fold_eq algorithm.users (fun u =>
    guint_sub (inf_adopted_state_vector_get second u.id)
      (inf_adopted_state_vector_get first u.id))]

/-- C27: vdiff. For first causally before second, with `guint` components, vdiff
returns the sum over the participants of the user array of second[id] - first[id],
taken modulo 2^32 (the sum itself if it is below 2^32); it is 0 for (V, V); it depends
only on the components of the ids of the user array; adding a participant u to the
array adds second[u] - first[u] to it, which is nothing if the two components are
equal; and vdiff(U, W) is the `guint` sum of vdiff(U, V) and vdiff(V, W) for U before
V before W. -/
theorem vdiff_spec (algorithm : InfAdoptedAlgorithm Op Buf)
    (first second : InfAdoptedStateVector)
    (hcb : inf_adopted_state_vector_causally_before first second = true)
    (hguint : ∀ u ∈ algorithm.users, inf_adopted_state_vector_get second u.id < GUINT_MOD) :
    inf_adopted_algorithm_state_vector_vdiff algorithm first second =
      .ok ((algorithm.users.map (fun u =>
        inf_adopted_state_vector_get second u.id -
          inf_adopted_state_vector_get first u.id)).sum % GUINT_MOD) ∧
    ((algorithm.users.map (fun u =>
        inf_adopted_state_vector_get second u.id -
          inf_adopted_state_vector_get first u.id)).sum < GUINT_MOD →
      inf_adopted_algorithm_state_vector_vdiff algorithm first second =
        .ok ((algorithm.users.map (fun u =>
          inf_adopted_state_vector_get second u.id -
            inf_adopted_state_vector_get first u.id)).sum)) ∧
    inf_adopted_algorithm_state_vector_vdiff algorithm first first = .ok 0 ∧
    (∀ first2 second2,
      inf_adopted_state_vector_causally_before first2 second2 = true →
      (∀ u ∈ algorithm.users,
        inf_adopted_state_vector_get first2 u.id = inf_adopted_state_vector_get first u.id ∧
        inf_adopted_state_vector_get second2 u.id =
          inf_adopted_state_vector_get second u.id) →
      inf_adopted_algorithm_state_vector_vdiff algorithm first2 second2 =
        inf_adopted_algorithm_state_vector_vdiff algorithm first second) ∧
    (∀ (u : InfAdoptedUser Op) (d : Nat),
      inf_adopted_algorithm_state_vector_vdiff algorithm first second = .ok d →
      inf_adopted_algorithm_state_vector_vdiff (inf_adopted_algorithm_add_user algorithm u)
          first second =
        .ok (guint_add d (guint_sub (inf_adopted_state_vector_get second u.id)
          (inf_adopted_state_vector_get first u.id))) ∧
      (inf_adopted_state_vector_get first u.id = inf_adopted_state_vector_get second u.id →
        inf_adopted_algorithm_state_vector_vdiff (inf_adopted_algorithm_add_user algorithm u)
          first second = .ok d)) ∧
    (∀ third : InfAdoptedStateVector,
      inf_adopted_state_vector_causally_before second third = true →
      ∃ a b c,
        inf_adopted_algorithm_state_vector_vdiff algorithm first second = .ok a ∧
        inf_adopted_algorithm_state_vector_vdiff algorithm second third = .ok b ∧
        inf_adopted_algorithm_state_vector_vdiff algorithm first third = .ok c ∧
        c = guint_add a b) := by
  have hle := (causally_before_iff first second).mp hcb
  have hsum : (algorithm.users.map (fun u =>
      guint_sub (inf_adopted_state_vector_get second u.id)
        (inf_adopted_state_vector_get first u.id))).sum =
      (algorithm.users.map (fun u =>
        inf_adopted_state_vector_get second u.id -
          inf_adopted_state_vector_get first u.id)).sum :=
    sum_map_congr _ _ _ (fun u hu => guint_sub_small _ _ (hle u.id) (hguint u hu))
  have hmain := vdiff_eq algorithm first second hcb
  rw [hsum] at hmain
  refine ⟨hmain, ?_, ?_, ?_, ?_, ?_⟩
  · intro hlt
    rw [hmain, Nat.mod_eq_of_lt hlt]
  · rw [vdiff_eq algorithm first first (causally_before_refl first)]
    rw [sum_map_zero _ _ (fun u _ => guint_sub_self _)]
    rfl
  · intro first2 second2 hcb2 hagree
    rw [vdiff_eq algorithm first2 second2 hcb2, vdiff_eq algorithm first second hcb]
    rw [sum_map_congr _ _ _ (fun u hu => by rw [(hagree u hu).1, (hagree u hu).2])]
  · intro u d hd
    have hadd : inf_adopted_algorithm_state_vector_vdiff
        (inf_adopted_algorithm_add_user algorithm u) first second =
        .ok (guint_add d (guint_sub (inf_adopted_state_vector_get second u.id)
          (inf_adopted_state_vector_get first u.id))) := by
      unfold inf_adopted_algorithm_state_vector_vdiff at hd ⊢
      rw [if_pos hcb] at hd ⊢
      simp only [inf_adopted_algorithm_add_user, List.foldl_append, List.foldl_cons,
        List.foldl_nil]
      rw [Except.ok.inj hd]
    refine ⟨hadd, ?_⟩
    intro heq
    rw [hadd, heq, guint_sub_self]
    have hd2 : d < GUINT_MOD := by
      have := vdiff_eq algorithm first second hcb
      rw [hd] at this
      rw [Except.ok.inj this]
      exact Nat.mod_lt _ (by unfold GUINT_MOD; omega)
    unfold guint_add
    rw [Nat.add_zero, Nat.mod_eq_of_lt hd2]
  · intro third hcb3
    have hcb13 : inf_adopted_state_vector_causally_before first third = true := by
      rw [causally_before_iff]
      intro id
      exact Nat.le_trans (hle id) ((causally_before_iff second third).mp hcb3 id)
    refine ⟨_, _, _, vdiff_eq algorithm first second hcb, vdiff_eq algorithm second third hcb3,
      vdiff_eq algorithm first third hcb13, ?_⟩
    unfold guint_add
    rw [← Nat.add_mod, ← sum_map_add]
    rw [← vdiff_fold_eq, ← vdiff_fold_eq]
    have hfun : (fun (result : Nat) (user : InfAdoptedUser Op) =>
        guint_add result (guint_sub (inf_adopted_state_vector_get second user.id)
          (inf_adopted_state_vector_get first user.id) +
            guint_sub (inf_adopted_state_vector_get third user.id)
              (inf_adopted_state_vector_get second user.id))) =
        (fun (result : Nat) (user : InfAdoptedUser Op) =>
          guint_add result (guint_sub (inf_adopted_state_vector_get third user.id)
            (inf_adopted_state_vector_get first user.id))) := by
      funext result user
      have h := guint_sub_add_sub (inf_adopted_state_vector_get first user.id)
        (inf_adopted_state_vector_get second user.id)
        (inf_adopted_state_vector_get third user.id)
      unfold guint_add guint_sub GUINT_MOD at h ⊢
      omega
    rw [hfun]

/-- C28: add-user(u). The user array is the earlier array followed by u; the
component of u in current is set to u's own component of u's recorded vector (0 for
a user whose recorded vector has no own ticks); every other component of current and
everything else in the state stay as they were. -/
theorem add_user_effect (algorithm : InfAdoptedAlgorithm Op Buf) (user : InfAdoptedUser Op) :
    (inf_adopted_algorithm_add_user algorithm user).users = algorithm.users ++ [user] ∧
    inf_adopted_state_vector_get (inf_adopted_algorithm_add_user algorithm user).current
      user.id = inf_adopted_state_vector_get user.vector user.id ∧
    (inf_adopted_state_vector_get user.vector user.id = 0 →
      inf_adopted_state_vector_get (inf_adopted_algorithm_add_user algorithm user).current
        user.id = 0) ∧
    (∀ p, p ≠ user.id →
      inf_adopted_state_vector_get (inf_adopted_algorithm_add_user algorithm user).current p =
        inf_adopted_state_vector_get algorithm.current p) ∧
    (inf_adopted_algorithm_add_user algorithm user).max_total_log_size =
      algorithm.max_total_log_size ∧
    (inf_adopted_algorithm_add_user algorithm user).buffer = algorithm.buffer ∧
    (inf_adopted_algorithm_add_user algorithm user).queue = algorithm.queue ∧
    (inf_adopted_algorithm_add_user algorithm user).local_users = algorithm.local_users ∧
    (inf_adopted_algorithm_add_user algorithm user).emitted = algorithm.emitted := by
  refine ⟨rfl, ?_, ?_, ?_, rfl, rfl, rfl, rfl, rfl⟩
  · simp [inf_adopted_algorithm_add_user, get_set]
  · intro h
    simp [inf_adopted_algorithm_add_user, get_set, h]
  · intro p hp
    simp [inf_adopted_algorithm_add_user, get_set, hp]

end Vdiff

/-- Witness of `vdiff_spec` in the sample session (participants 1, 2 and 3): from
(1:1) to (1:3, 2:2, 9:5) the vdiff is 2 + 2 + 0 = 4, the component of the unknown id
9 being ignored; once a participant with id 9 is added, the vdiff of the same two
vectors is 9; and the vdiff from (1:1) to (1:4, 2:2, 9:5) through the vector between
is 4 + 1. -/
theorem vdiff_spec_witness :
    inf_adopted_algorithm_state_vector_vdiff sample_algorithm [(1, 1)]
      [(1, 3), (2, 2), (9, 5)] = .ok 4 ∧
    inf_adopted_algorithm_state_vector_vdiff
      (inf_adopted_algorithm_add_user sample_algorithm (sample_user 9 false)) [(1, 1)]
      [(1, 3), (2, 2), (9, 5)] = .ok 9 ∧
    (∃ a b c,
      inf_adopted_algorithm_state_vector_vdiff sample_algorithm [(1, 1)]
        [(1, 3), (2, 2), (9, 5)] = .ok a ∧
      inf_adopted_algorithm_state_vector_vdiff sample_algorithm [(1, 3), (2, 2), (9, 5)]
        [(1, 4), (2, 2), (9, 5)] = .ok b ∧
      inf_adopted_algorithm_state_vector_vdiff sample_algorithm [(1, 1)]
        [(1, 4), (2, 2), (9, 5)] = .ok c ∧ c = guint_add a b) :=
  have h := vdiff_spec sample_algorithm [(1, 1)] [(1, 3), (2, 2), (9, 5)] (by decide)
    (by decide)
  ⟨(h.2.1 (by decide)).trans rfl,
    ((h.2.2.2.2.1 (sample_user 9 false) 4 rfl).1).trans rfl,
    h.2.2.2.2.2 [(1, 4), (2, 2), (9, 5)] (by decide)⟩

/-- The claim that add-user gives current a 0 component fails for a user that joins
with ticks of its own: current gets the user's own component, here 3. -/
theorem add_user_effect_counterexample :
    inf_adopted_state_vector_get sample_joined.vector sample_joined.id = 3 ∧
    inf_adopted_state_vector_get
      (inf_adopted_algorithm_add_user sample_algorithm sample_joined).current 4 = 3 := by
  decide

/-- Witness of `add_user_effect` in the sample session: adding user 4 who has issued
nothing gives current the component 0 for 4 and keeps the component of user 1; the
user array grows by user 4 at its end. -/
theorem add_user_effect_witness :
    (inf_adopted_algorithm_add_user sample_algorithm (sample_user 4 false)).users =
      sample_algorithm.users ++ [sample_user 4 false] ∧
    inf_adopted_state_vector_get
      (inf_adopted_algorithm_add_user sample_algorithm (sample_user 4 false)).current 4 = 0 ∧
    inf_adopted_state_vector_get
      (inf_adopted_algorithm_add_user sample_algorithm (sample_user 4 false)).current 1 =
      inf_adopted_state_vector_get sample_algorithm.current 1 :=
  ⟨(add_user_effect sample_algorithm (sample_user 4 false)).1,
    (add_user_effect sample_algorithm (sample_user 4 false)).2.2.1 rfl,
    (add_user_effect sample_algorithm (sample_user 4 false)).2.2.2.1 1 (by decide)⟩

/-! ## Garbage collection of the logs: which requests block -/

section BlockerRule

variable {Op Buf : Type}

theorem get_request_eq (log : InfAdoptedRequestLog Op) (i : Nat) :
    inf_adopted_request_log_get_request log (log.log_begin + i) =
      (log.entries.get? i).map (fun e => e.request) := by
  unfold inf_adopted_request_log_get_request inf_adopted_request_log_get_entry
  simp

theorem get_request_below (log : InfAdoptedRequestLog Op) (i : Nat) (h : i < log.log_begin) :
    inf_adopted_request_log_get_request log i = none := by
  unfold inf_adopted_request_log_get_request inf_adopted_request_log_get_entry
  have : ¬ log.log_begin ≤ i := by omega
  simp [this]

theorem log_sorted_by_get (log : InfAdoptedRequestLog Op) (p : Nat)
    (h : log_sorted_by log p) (i j : Nat) (ri rj : InfAdoptedRequest Op) (hij : i ≤ j)
    (hi : inf_adopted_request_log_get_request log i = some ri)
    (hj : inf_adopted_request_log_get_request log j = some rj) :
    inf_adopted_state_vector_get ri.vector p ≤ inf_adopted_state_vector_get rj.vector p := by
  by_cases hb : log.log_begin ≤ i
  · obtain ⟨a, rfl⟩ : ∃ a, i = log.log_begin + a := ⟨i - log.log_begin, by omega⟩
    obtain ⟨b, rfl⟩ : ∃ b, j = log.log_begin + b := ⟨j - log.log_begin, by omega⟩
    rw [get_request_eq] at hi hj
    have hab : a ≤ b := by omega
    cases hea : log.entries.get? a with
    | none => rw [hea] at hi; cases hi
    | some ea =>
      cases heb : log.entries.get? b with
      | none => rw [heb] at hj; cases hj
      | some eb =>
        rw [hea] at hi
        rw [heb] at hj
        simp only [Option.map_some', Option.some.injEq] at hi hj
        subst hi
        subst hj
        rcases Nat.lt_or_ge a b with hlt | hge
        · have hpw := List.pairwise_iff_get.mp h
          rw [List.get?_eq_some] at hea heb
          obtain ⟨ha, hea⟩ := hea
          obtain ⟨hb2, heb⟩ := heb
          have := hpw ⟨a, ha⟩ ⟨b, hb2⟩ hlt
          rw [hea, heb] at this
          exact this
        · have : a = b := by omega
          subst this
          rw [hea] at heb
          cases heb
          exact Nat.le_refl _
  · rw [get_request_below log i (by omega)] at hi
    cases hi

/-- The binary search of find_blockers on a log whose components `p` do not
decrease: it ends with begin = end at the first slot whose request has a component
greater than `upper_comp` (the end of the log if there is none). -/
theorem find_blockers_search_sorted (log : InfAdoptedRequestLog Op) (p c : Nat)
    (hsize : 2 * (log.log_begin + log.entries.length) < GUINT_MOD)
    (hsorted : log_sorted_by log p) :
    ∀ (count b e : Nat) (vec : Option InfAdoptedStateVector),
      log.log_begin ≤ b → b ≤ e → e ≤ log.log_begin + log.entries.length → e - b ≤ count →
      (∀ i r, i < b → inf_adopted_request_log_get_request log i = some r →
        inf_adopted_state_vector_get r.vector p ≤ c) →
      (∀ i r, e ≤ i → inf_adopted_request_log_get_request log i = some r →
        c < inf_adopted_state_vector_get r.vector p) →
      ∃ b' vec', find_blockers_search log p c count b e vec = .ok (b', b', vec') ∧
        b ≤ b' ∧ b' ≤ e ∧
        (∀ i r, i < b' → inf_adopted_request_log_get_request log i = some r →
          inf_adopted_state_vector_get r.vector p ≤ c) ∧
        (∀ i r, b' ≤ i → inf_adopted_request_log_get_request log i = some r →
          c < inf_adopted_state_vector_get r.vector p) ∧
        (b < e → vec'.isSome = true) ∧ (b = e → vec' = vec) := by
  intro count
  induction count with
  | zero =>
    intro b e vec hb hbe he hcount hlow hhigh
    have heq : b = e := by omega
    subst heq
    exact ⟨b, vec, by simp [find_blockers_search], Nat.le_refl _, Nat.le_refl _, hlow, hhigh,
      by simp, by simp⟩
  | succ count ih =>
    intro b e vec hb hbe he hcount hlow hhigh
    unfold find_blockers_search
    by_cases hlt : b < e
    · simp only [hlt, if_true]
      have hM : b + e < GUINT_MOD := by omega
      have hq : guint_add b e / 2 = (b + e) / 2 := by
        unfold guint_add
        rw [Nat.mod_eq_of_lt hM]
      have hb1 : guint_add b 1 = b + 1 := guint_add_small _ _ (by omega)
      have he1 : guint_sub e 1 = e - 1 := guint_sub_small _ _ (by omega) (by omega)
      rw [hq, hb1, he1]
      have hqb : b ≤ (b + e) / 2 := by omega
      have hqe : (b + e) / 2 < e := by omega
      obtain ⟨cand, hcand⟩ := get_request_in_range log ((b + e) / 2) (by omega) (by omega)
      simp only [hcand, inf_adopted_request_get_vector]
      have hmin : min ((b + e) / 2) (e - 1) = (b + e) / 2 := min_eq_left (by omega)
      rw [hmin]
      clear hmin
      by_cases hle : inf_adopted_state_vector_get cand.vector p ≤ c
      · simp only [hle, if_true]
        have hlow2 : ∀ i r, i ≤ (b + e) / 2 →
            inf_adopted_request_log_get_request log i = some r →
            inf_adopted_state_vector_get r.vector p ≤ c := by
          intro i r hi hr
          exact Nat.le_trans (log_sorted_by_get log p hsorted i _ r cand hi hr hcand) hle
        by_cases hqeq : (b + e) / 2 = b
        · have hmax : max ((b + e) / 2) (b + 1) = b + 1 := max_eq_right (by omega)
          rw [hmax]
          clear hmax
          obtain ⟨b', vec', h1, h2, h3, h4, h5, h6, h7⟩ := ih (b + 1) e (some cand.vector)
            (by omega) (by omega) he (by omega)
            (fun i r hi hr => hlow2 i r (by omega) hr) hhigh
          refine ⟨b', vec', h1, by omega, h3, h4, h5, ?_, ?_⟩
          · intro _
            by_cases hme : b + 1 < e
            · exact h6 hme
            · have : b + 1 = e := by omega
              rw [h7 this]
              rfl
          · intro hbe'
            omega
        · have hmax : max ((b + e) / 2) (b + 1) = (b + e) / 2 := max_eq_left (by omega)
          rw [hmax]
          clear hmax
          obtain ⟨b', vec', h1, h2, h3, h4, h5, h6, h7⟩ := ih ((b + e) / 2) e
            (some cand.vector) (by omega) (by omega) he (by omega)
            (fun i r hi hr => hlow2 i r (by omega) hr) hhigh
          refine ⟨b', vec', h1, by omega, h3, h4, h5, ?_, ?_⟩
          · intro _
            exact h6 hqe
          · intro hbe'
            omega
      · simp only [hle, if_false]
        have hhigh2 : ∀ i r, (b + e) / 2 ≤ i →
            inf_adopted_request_log_get_request log i = some r →
            c < inf_adopted_state_vector_get r.vector p := by
          intro i r hi hr
          have := log_sorted_by_get log p hsorted _ i cand r hi hcand hr
          omega
        obtain ⟨b', vec', h1, h2, h3, h4, h5, h6, h7⟩ := ih b ((b + e) / 2)
          (some cand.vector) hb (by omega) (by omega) (by omega) hlow hhigh2
        refine ⟨b', vec', h1, h2, by omega, h4, h5, ?_, ?_⟩
        · intro _
          by_cases hme : b < (b + e) / 2
          · exact h6 hme
          · have : b = (b + e) / 2 := by omega
            rw [h7 this]
            rfl
        · intro hbe'
          omega
    · have heq : b = e := by omega
      subst heq
      simp only [Nat.lt_irrefl, if_false]
      exact ⟨b, vec, rfl, Nat.le_refl _, Nat.le_refl _, hlow, hhigh, by simp, by simp⟩

/-- The latest entry with a component at most `c`, for entries of which the first
`k` have such a component and the others have not. -/
theorem latest_at_most_prefix (p c : Nat) (entries : List (InfAdoptedRequestLogEntry Op)) :
    ∀ k : Nat,
    (∀ i e, i < k → entries.get? i = some e →
      inf_adopted_state_vector_get e.request.vector p ≤ c) →
    (∀ i e, k ≤ i → entries.get? i = some e →
      c < inf_adopted_state_vector_get e.request.vector p) →
    k ≤ entries.length →
    latest_at_most p c entries =
      if k = 0 then none else (entries.get? (k - 1)).map (fun e => e.request) := by
  induction entries with
  | nil =>
    intro k _ _ hk
    simp at hk
    simp [latest_at_most, hk]
  | cons e rest ih =>
    intro k hlow hhigh hk
    unfold latest_at_most
    cases k with
    | zero =>
      have hrest := ih 0 (fun i x hi _ => absurd hi (Nat.not_lt_zero _))
        (fun i x _ hx => hhigh (i + 1) x (Nat.zero_le _) (by simpa using hx)) (Nat.zero_le _)
      rw [hrest]
      have he := hhigh 0 e (Nat.le_refl _) rfl
      have hne : ¬ inf_adopted_state_vector_get e.request.vector p ≤ c := by omega
      simp [hne]
    | succ k =>
      have hrest := ih k
        (fun i x hi hx => hlow (i + 1) x (by omega) (by simpa using hx))
        (fun i x hi hx => hhigh (i + 1) x (by omega) (by simpa using hx))
        (by simpa using hk)
      rw [hrest]
      cases k with
      | zero =>
        have he := hlow 0 e (by omega) rfl
        simp [he]
      | succ k =>
        have hlen : k < rest.length := by
          simp only [List.length_cons] at hk
          omega
        simp [List.getElem?_eq_getElem hlen]

end BlockerRule

section BlockerRule2

variable {Op Buf : Type}

/-- The loop of find_blockers over the users, for logs whose components `p` do not
decrease: each log contributes the latest of its requests with a component at most
`c`, if it has one. -/
theorem find_blockers_users_latest (p c : Nat) (users : List (InfAdoptedUser Op))
    (hsize : ∀ u ∈ users,
      2 * (u.request_log.log_begin + u.request_log.entries.length) + 2 < GUINT_MOD)
    (hsorted : ∀ u ∈ users, log_sorted_by u.request_log p) :
    ∀ blockers, find_blockers_users p c users blockers =
      .ok (expected_blockers p c users blockers) := by
  induction users with
  | nil => intro blockers; rfl
  | cons u rest ih =>
    intro blockers
    have hs := hsize u (List.mem_cons_self _ _)
    have hso := hsorted u (List.mem_cons_self _ _)
    have ihr := ih (fun x hx => hsize x (List.mem_cons_of_mem _ hx))
      (fun x hx => hsorted x (List.mem_cons_of_mem _ hx))
    have hend : inf_adopted_request_log_get_end u.request_log =
        u.request_log.log_begin + u.request_log.entries.length := by
      unfold inf_adopted_request_log_get_end
      exact guint_add_small _ _ (by omega)
    unfold find_blockers_users expected_blockers
    simp only [inf_adopted_request_log_get_begin, hend]
    obtain ⟨b', vec', hsearch, hb1, hb2, hlow, hhigh, hsome, _⟩ :=
      find_blockers_search_sorted u.request_log p c (by omega) hso
        (u.request_log.log_begin + u.request_log.entries.length - u.request_log.log_begin)
        u.request_log.log_begin (u.request_log.log_begin + u.request_log.entries.length) none
        (Nat.le_refl _) (by omega) (Nat.le_refl _) (Nat.le_refl _)
        (by
          intro i r hi hr
          rw [get_request_below _ i hi] at hr
          cases hr)
        (by
          intro i r hi hr
          obtain ⟨a, rfl⟩ : ∃ a, i = u.request_log.log_begin + a :=
            ⟨i - u.request_log.log_begin, by omega⟩
          rw [get_request_eq, List.get?_eq_none.mpr (by omega)] at hr
          cases hr)
    rw [hsearch]
    simp only
    have hlatest := latest_at_most_prefix p c u.request_log.entries
      (b' - u.request_log.log_begin)
      (by
        intro i e hi he
        apply hlow (u.request_log.log_begin + i) e.request (by omega)
        rw [get_request_eq, he]
        rfl)
      (by
        intro i e hi he
        apply hhigh (u.request_log.log_begin + i) e.request (by omega)
        rw [get_request_eq, he]
        rfl)
      (by omega)
    rw [hlatest]
    by_cases hgt : b' > u.request_log.log_begin
    · have hv : vec'.isSome = true := hsome (by omega)
      have hcond : (vec'.isSome && decide (b' > u.request_log.log_begin)) = true := by
        simp [hv, hgt]
      rw [if_pos hcond]
      have hsub : guint_sub b' 1 = b' - 1 := guint_sub_small _ _ (by omega) (by omega)
      rw [hsub]
      have hk : ¬ (b' - u.request_log.log_begin = 0) := by omega
      rw [if_neg hk]
      have hslot : b' - 1 = u.request_log.log_begin + (b' - u.request_log.log_begin - 1) := by
        omega
      rw [hslot, get_request_eq]
      have hlen : b' - u.request_log.log_begin - 1 < u.request_log.entries.length := by omega
      rw [List.get?_eq_get hlen]
      simp only [Option.map_some', inf_adopted_request_get_vector]
      have hle : inf_adopted_state_vector_get
          (u.request_log.entries.get ⟨b' - u.request_log.log_begin - 1, hlen⟩).request.vector p
            ≤ c := by
        apply hlow (b' - 1) _ (by omega)
        rw [hslot, get_request_eq, List.get?_eq_get hlen]
        rfl
      rw [if_pos hle]
      exact ihr _
    · have hcond : ¬ (vec'.isSome && decide (b' > u.request_log.log_begin)) = true := by
        simp [hgt]
      rw [if_neg hcond]
      have hk : b' - u.request_log.log_begin = 0 := by omega
      rw [if_pos hk]
      exact ihr _

theorem latest_at_most_none (p c : Nat) (entries : List (InfAdoptedRequestLogEntry Op)) :
    latest_at_most p c entries = none ↔
      ∀ e ∈ entries, c < inf_adopted_state_vector_get e.request.vector p := by
  induction entries with
  | nil => simp [latest_at_most]
  | cons e rest ih =>
    unfold latest_at_most
    cases hl : latest_at_most p c rest with
    | some r =>
      simp only [false_iff, reduceCtorEq]
      intro hall
      have := ih.mpr (fun x hx => hall x (List.mem_cons_of_mem _ hx))
      rw [hl] at this
      cases this
    | none =>
      have hrest := ih.mp hl
      by_cases he : inf_adopted_state_vector_get e.request.vector p ≤ c
      · simp only [he, if_true, false_iff, reduceCtorEq]
        intro hall
        have := hall e (List.mem_cons_self _ _)
        omega
      · simp only [he, if_false, true_iff]
        intro x hx
        rcases List.mem_cons.mp hx with rfl | hx
        · omega
        · exact hrest x hx

theorem latest_at_most_some (p c : Nat) (entries : List (InfAdoptedRequestLogEntry Op))
    (r : InfAdoptedRequest Op) (h : latest_at_most p c entries = some r) :
    ∃ older e newer, entries = older ++ e :: newer ∧ e.request = r ∧
      inf_adopted_state_vector_get r.vector p ≤ c ∧
      ∀ x ∈ newer, c < inf_adopted_state_vector_get x.request.vector p := by
  induction entries with
  | nil => simp [latest_at_most] at h
  | cons e rest ih =>
    unfold latest_at_most at h
    cases hl : latest_at_most p c rest with
    | some r2 =>
      rw [hl] at h
      simp only [Option.some.injEq] at h
      subst h
      obtain ⟨older, x, newer, h1, h2, h3, h4⟩ := ih hl
      exact ⟨e :: older, x, newer, by rw [h1]; rfl, h2, h3, h4⟩
    | none =>
      rw [hl] at h
      simp only at h
      by_cases he : inf_adopted_state_vector_get e.request.vector p ≤ c
      · rw [if_pos he] at h
        simp only [Option.some.injEq] at h
        subst h
        exact ⟨[], e, rest, rfl, rfl, he, (latest_at_most_none p c rest).mp hl⟩
      · rw [if_neg he] at h
        cases h

/-- C30: the blocker rule. With logs whose p-components do not decrease along the
log (and slot numbers below 2^31 - 1), find_blockers returns and gives each removal,
with p the issuer of its upper request U and c = U.vector[p], in front of the blockers
it had, for each participant q in turn the latest request of L(q) whose p-component is
at most c, whenever L(q) holds a request with such a component: the latest such
request is recorded also when it sits at begin(L(q)), and a log contributes no blocker
exactly when the p-components of all its requests are greater than c. -/
theorem find_blockers_latest (algorithm : InfAdoptedAlgorithm Op Buf)
    (removals : List (InfAdoptedAlgorithmLogRemoval Op))
    (hsize : ∀ u ∈ algorithm.users,
      2 * (u.request_log.log_begin + u.request_log.entries.length) + 2 < GUINT_MOD)
    (hsorted : ∀ removal ∈ removals, ∀ u ∈ algorithm.users,
      log_sorted_by u.request_log removal.upper.user_id) :
    inf_adopted_algorithm_find_blockers algorithm removals =
      .ok (removals.map (fun removal =>
        { removal with
          blockers := expected_blockers removal.upper.user_id
            (inf_adopted_state_vector_get removal.upper.vector removal.upper.user_id)
            algorithm.users removal.blockers })) ∧
    (∀ (p c : Nat) (q : InfAdoptedUser Op) (rest : List (InfAdoptedUser Op))
        (blockers : List (InfAdoptedRequest Op)),
      ((∀ e ∈ q.request_log.entries, c < inf_adopted_state_vector_get e.request.vector p) →
        expected_blockers p c (q :: rest) blockers = expected_blockers p c rest blockers) ∧
      ((∃ e ∈ q.request_log.entries, inf_adopted_state_vector_get e.request.vector p ≤ c) →
        ∃ older e newer, q.request_log.entries = older ++ e :: newer ∧
          inf_adopted_state_vector_get e.request.vector p ≤ c ∧
          (∀ x ∈ newer, c < inf_adopted_state_vector_get x.request.vector p) ∧
          expected_blockers p c (q :: rest) blockers =
            expected_blockers p c rest (e.request :: blockers))) := by
  constructor
  · induction removals with
    | nil => rfl
    | cons removal rest ih =>
      unfold inf_adopted_algorithm_find_blockers
      simp only [inf_adopted_request_get_user_id, inf_adopted_request_get_vector]
      rw [find_blockers_users_latest removal.upper.user_id _ algorithm.users hsize
        (hsorted removal (List.mem_cons_self _ _))]
      simp only
      rw [ih (fun r hr => hsorted r (List.mem_cons_of_mem _ hr))]
      rfl
  · intro p c q rest blockers
    constructor
    · intro hall
      have hnone := (latest_at_most_none p c q.request_log.entries).mpr hall
      show (match latest_at_most p c q.request_log.entries with
        | some r => expected_blockers p c rest (r :: blockers)
        | none => expected_blockers p c rest blockers) = _
      rw [hnone]
    · rintro ⟨e0, he0, hle0⟩
      cases hl : latest_at_most p c q.request_log.entries with
      | none =>
        have := (latest_at_most_none p c q.request_log.entries).mp hl e0 he0
        omega
      | some r =>
        obtain ⟨older, e, newer, h1, h2, h3, h4⟩ :=
          latest_at_most_some p c q.request_log.entries r hl
        subst h2
        refine ⟨older, e, newer, h1, h3, h4, ?_⟩
        show (match latest_at_most p c q.request_log.entries with
          | some r => expected_blockers p c rest (r :: blockers)
          | none => expected_blockers p c rest blockers) = _
        rw [hl]

end BlockerRule2

/-- The claim that a log whose only request with a p-component of at most
U.vector[p] sits at begin(L(q)) contributes no blocker fails: after the first Do of
user 1 in the sample session, the log of user 1 holds that Do alone, at its begin,
and find_blockers records it as a blocker of the group that ends with it. -/
theorem find_blockers_latest_counterexample :
    sample_after_do_log.log_begin = 0 ∧
    inf_adopted_request_log_get_request sample_after_do_log 0 = some sample_first_do ∧
    sample_after_do_log.entries.length = 1 ∧
    inf_adopted_algorithm_find_blockers sample_after_do
      [{ log := 1, upper := sample_first_do, blockers := [] }] =
      .ok [{ log := 1, upper := sample_first_do, blockers := [sample_first_do] }] :=
  ⟨by decide, by decide, by decide, rfl⟩

/-- Witness of `find_blockers_latest` in the sample session with the log size
bounded by 1: for the group of user 1 that ends with the Undo, the log of user 1
contributes the Undo itself and the logs of users 2 and 3 contribute nothing. -/
theorem find_blockers_latest_witness :
    inf_adopted_algorithm_find_blockers sample_undone_tight [sample_removal] =
      .ok [{ sample_removal with blockers := [sample_undo_request] }] :=
  (find_blockers_latest sample_undone_tight [sample_removal] (by decide)
    (by unfold log_sorted_by; decide)).1.trans rfl

/-! ## Garbage collection of the logs: scheduling and the log bound -/

/-- C29, evaluated on a failing input. A session constructed with the log size
bounded by 1: local user 1 generates a Do, and the reply of user 3, issued after
user 3 has processed that Do, is received; user 2 has not been heard of. In the
state these two calls leave, the oldest request of the log of user 1 is its Do; its
distances to the recorded vectors of users 1, 2 and 3 are 2, 0 and 2. The loop of
create_removals ends with vdiff = 2 (the value of the last user) and min_vdiff = 0;
the minimum is not greater than the bound, yet the group is scheduled for removal,
since the test reads vdiff. -/
theorem create_removals_leaked_failing_input :
    sample_bounded.max_total_log_size = 1 ∧ sample_bounded.queue = [] ∧
    (∀ u ∈ sample_bounded.users, u.request_log.entries = [] ∧ u.vector = []) ∧
    perform_calls 8 CounterOperation sample_bounded sample_bounded_calls
      = .ok sample_bounded_end ∧
    sample_bounded_end.max_total_log_size = 1 ∧
    sample_bounded_end.users.map (fun u => (u.id, u.vector)) =
      [(1, [(1, 1), (2, 0), (3, 1)]), (2, []), (3, [(1, 1), (3, 1)])] ∧
    inf_adopted_request_log_get_request (sample_log_of sample_bounded_end 1)
      (inf_adopted_request_log_get_begin (sample_log_of sample_bounded_end 1)) =
      some sample_first_do ∧
    sample_bounded_end.users.map (fun u =>
      if inf_adopted_state_vector_causally_before sample_first_do.vector u.vector then
        (inf_adopted_algorithm_state_vector_vdiff sample_bounded_end sample_first_do.vector
          u.vector).toOption
      else some 0) = [some 2, some 0, some 2] ∧
    create_removals_vdiff sample_bounded_end sample_first_do sample_bounded_end.users 0
      G_MAXUINT = .ok (2, 0) ∧
    create_removals_users sample_bounded_end sample_bounded_end.users 0 [] =
      .ok [{ log := 1, upper := sample_first_do, blockers := [] }] ∧
    inf_adopted_algorithm_create_removals sample_bounded_end =
      .ok [{ log := 1, upper := sample_first_do, blockers := [sample_first_do] }] :=
  ⟨rfl, rfl, by decide, rfl, rfl, by decide, rfl, by decide, rfl, rfl, rfl⟩

/-- C21, evaluated on a failing input. In the session of user 1 (local) and user 2
with max_total_log_size = 4, user 1 generates five Do requests that affect the buffer
and user 2 acknowledges them with a request issued after all five. receive_request
returns; then the queue is empty, the recorded vector of each participant equals
current, update_request_logs leaves the state as it is, and the logs still hold five
requests, the oldest Do among them. -/
theorem log_bound_failing_input :
    sample_pair.max_total_log_size = 4 ∧
    inf_adopted_algorithm_receive_request 8 CounterOperation (sample_pair_dos 5)
      sample_acknowledgement = .ok (true, sample_pair_synced) ∧
    sample_pair_synced.queue = [] ∧
    (∀ u ∈ sample_pair_synced.users,
      inf_adopted_state_vector_compare u.vector sample_pair_synced.current = 0) ∧
    inf_adopted_algorithm_update_request_logs sample_pair_synced = .ok sample_pair_synced ∧
    (sample_pair_synced.users.map (fun u => u.request_log.entries.length)).sum = 5 ∧
    inf_adopted_request_log_get_request (sample_log_of sample_pair_synced 1) 0 =
      some sample_pair_first :=
  ⟨rfl, rfl, by decide, by decide, rfl, by decide, by decide⟩

section Unbounded

variable {Op Buf : Type}

/-- C23: no removal with max_total_log_size = 0. In every state whose logs are
indexed by their owner's component, update_request_logs, run with
max_total_log_size = 0, returns and leaves the state, and so every log, as it is. -/
theorem update_request_logs_unbounded (algorithm : InfAdoptedAlgorithm Op Buf)
    (hlogs : logs_indexed algorithm) :
    inf_adopted_algorithm_update_request_logs { algorithm with max_total_log_size := 0 } =
      .ok { algorithm with max_total_log_size := 0 } ∧
    ∀ a2, inf_adopted_algorithm_update_request_logs
        { algorithm with max_total_log_size := 0 } = .ok a2 →
      a2.users = algorithm.users ∧
        ∀ u ∈ algorithm.users, ∃ u2 ∈ a2.users, u2.id = u.id ∧
          u2.request_log = u.request_log := by
  have h := update_request_logs_indexed { algorithm with max_total_log_size := 0 }
    (logs_indexed_congr algorithm _ rfl hlogs)
  refine ⟨h, ?_⟩
  intro a2 h2
  rw [h] at h2
  cases h2
  exact ⟨rfl, fun u hu => ⟨u, hu, rfl, rfl⟩⟩

end Unbounded

/-- Witness of `update_request_logs_unbounded`: the sample session after a Do and an
Undo of user 1, seen by user 3, run with max_total_log_size = 0. The request of user
3 and the group of the Do and the Undo of user 1 are scheduled for removal all the
same (their vdiff is greater than 0), and both are kept because they have blockers. -/
theorem update_request_logs_unbounded_witness :
    logs_indexed sample_undone_tight ∧
    inf_adopted_algorithm_create_removals { sample_undone_tight with max_total_log_size := 0 } =
      .ok [{ log := 3, upper := sample_ahead, blockers := [sample_ahead, sample_undo_request] },
        { sample_removal with blockers := [sample_undo_request] }] ∧
    inf_adopted_algorithm_update_request_logs
      { sample_undone_tight with max_total_log_size := 0 } =
      .ok { sample_undone_tight with max_total_log_size := 0 } :=
  ⟨by unfold logs_indexed log_indexed; decide, rfl,
    (update_request_logs_unbounded sample_undone_tight
      (by unfold logs_indexed log_indexed; decide)).1⟩

/-! ## Availability of Undo in the scenario of the log bound -/

section UndoAvailability

variable {Op Buf : Type}

/-- C22: availability of Undo. For a local user whose cached flags are the computed
ones, can_undo is TRUE exactly when the log has a next Undo target and either
max_total_log_size is 0 or the vdiff from the vector of the target's original request
to current is below max_total_log_size. generate_undo returns no request and the
unchanged state when can_undo is FALSE; when can_undo is TRUE and generate_undo
returns, it returns a new Undo request stamped with current. -/
theorem undo_availability (fuel : Nat) (O : InfAdoptedOperationClass Op Buf)
    (algorithm : InfAdoptedAlgorithm Op Buf) (user : Nat) (u : InfAdoptedUser Op)
    (l : InfAdoptedAlgorithmLocalUser)
    (hu : inf_user_table_lookup_user_by_id algorithm.users user = some u)
    (hlocal : u.flags_local = true)
    (hl : inf_adopted_algorithm_find_local_user algorithm user = some l)
    (hvalid : cache_valid algorithm) :
    (inf_adopted_algorithm_can_undo algorithm user = true ↔
      ∃ target, inf_adopted_request_log_next_undo u.request_log = some target ∧
        (algorithm.max_total_log_size = 0 ∨
          ∃ original d,
            inf_adopted_request_log_original_request u.request_log target = some original ∧
            inf_adopted_algorithm_state_vector_vdiff algorithm original.vector
              algorithm.current = .ok d ∧
            d < algorithm.max_total_log_size)) ∧
    (inf_adopted_algorithm_can_undo algorithm user = false →
      inf_adopted_algorithm_generate_undo fuel O algorithm user = .ok (none, algorithm)) ∧
    (inf_adopted_algorithm_can_undo algorithm user = true →
      ∀ r a2, inf_adopted_algorithm_generate_undo fuel O algorithm user = .ok (r, a2) →
        r = some (inf_adopted_request_new_undo algorithm.current user)) := by
  have hcan : inf_adopted_algorithm_can_undo algorithm user = l.can_undo := by
    unfold inf_adopted_algorithm_can_undo
    rw [hl]
  have hid : u.id = user := by
    unfold inf_user_table_lookup_user_by_id at hu
    simpa using List.find?_some hu
  have hcache : inf_adopted_algorithm_can_undo_redo algorithm u.request_log
      (inf_adopted_request_log_next_undo u.request_log) = .ok l.can_undo := by
    unfold inf_adopted_algorithm_find_local_user at hl
    have hmem := List.mem_of_find?_eq_some hl
    have huser : l.user = user := by simpa using List.find?_some hl
    obtain ⟨u2, hu2, h1, _⟩ := hvalid l hmem
    rw [huser, hu] at hu2
    cases hu2
    exact h1
  refine ⟨?_, ?_, ?_⟩
  · rw [hcan]
    rcases Option.eq_none_or_eq_some (inf_adopted_request_log_next_undo u.request_log) with
      ht | ⟨target, ht⟩
    · rw [ht] at hcache
      simp only [inf_adopted_algorithm_can_undo_redo, Except.ok.injEq] at hcache
      rw [← hcache, ht]
      simp
    · rw [ht] at hcache
      rw [ht]
      by_cases hm : algorithm.max_total_log_size = 0
      · have hnot : ¬ algorithm.max_total_log_size > 0 := by omega
        simp only [inf_adopted_algorithm_can_undo_redo, hnot, if_false, Except.ok.injEq]
          at hcache
        rw [← hcache]
        simp [hm]
      · rw [can_undo_redo_bounded algorithm u.request_log target (by omega)] at hcache
        rcases Option.eq_none_or_eq_some
            (inf_adopted_request_log_original_request u.request_log target) with
          ho | ⟨original, ho⟩
        · rw [ho] at hcache
          cases hcache
        · rw [ho] at hcache
          simp only at hcache
          rcases except_error_or_ok (inf_adopted_algorithm_state_vector_vdiff algorithm
              original.vector algorithm.current) with ⟨e, hv⟩ | ⟨d, hv⟩
          · rw [hv] at hcache
            cases hcache
          · rw [hv] at hcache
            simp only [Except.ok.injEq] at hcache
            rw [← hcache]
            constructor
            · intro hd
              exact ⟨target, rfl, Or.inr ⟨original, d, ho, hv, of_decide_eq_true hd⟩⟩
            · rintro ⟨target2, ht2, h2⟩
              cases ht2
              rcases h2 with h2 | ⟨original2, d2, ho2, hv2, hd2⟩
              · exact absurd h2 hm
              · rw [ho] at ho2
                cases ho2
                rw [hv] at hv2
                cases hv2
                exact decide_eq_true hd2
  · intro hfalse
    unfold inf_adopted_algorithm_generate_undo
    simp [hu, hlocal, hfalse]
  · intro htrue r a2 h
    unfold inf_adopted_algorithm_generate_undo at h
    simp only [hu, hlocal, htrue, Bool.true_eq_false, if_false] at h
    unfold generate_execute at h
    split at h
    · cases h
    · split at h
      · cases h
      · simp only [Except.ok.injEq, Prod.mk.injEq] at h
        rw [← h.1, hid]

end UndoAvailability

/-- The claim that after five Do requests of user 1, acknowledged by user 2, and no
Undo, with max_total_log_size = 4, can_undo is false and generate_undo is rejected,
fails: the log of user 1 holds five Do requests, the recorded vector of user 2 is
(1:5), can_undo(1) is TRUE and generate_undo(1) returns an Undo request. -/
theorem undo_availability_counterexample :
    sample_pair_synced.max_total_log_size = 4 ∧
    (sample_log_of sample_pair_synced 1).entries.map (fun e => e.request.type) =
      [.DO, .DO, .DO, .DO, .DO] ∧
    (sample_pair_synced.users.map (fun u => u.vector)) = [[(1, 5), (2, 0)], [(1, 5)]] ∧
    inf_adopted_algorithm_can_undo sample_pair_synced 1 = true ∧
    inf_adopted_algorithm_generate_undo 8 CounterOperation sample_pair_synced 1 =
      .ok (some (inf_adopted_request_new_undo sample_pair_synced.current 1),
        sample_pair_undone 1) :=
  ⟨rfl, by decide, by decide, by decide, rfl⟩

/-- Witness of `undo_availability` in the session of two participants with
max_total_log_size = 4. After the five Do requests of user 1 and the acknowledgement
of user 2 the cached flags are the computed ones and can_undo(1) is TRUE, so the log
has a next Undo target whose original is less than 4 ticks behind current. After two
Undo requests of user 1 can_undo(1) is FALSE and generate_undo(1) returns no request
and leaves the state as it is. -/
theorem undo_availability_witness :
    cache_valid sample_pair_synced ∧
    inf_adopted_algorithm_can_undo sample_pair_synced 1 = true ∧
    (∃ target,
      inf_adopted_request_log_next_undo (sample_user_one sample_pair_synced).request_log =
        some target ∧
      (sample_pair_synced.max_total_log_size = 0 ∨
        ∃ original d,
          inf_adopted_request_log_original_request
            (sample_user_one sample_pair_synced).request_log target = some original ∧
          inf_adopted_algorithm_state_vector_vdiff sample_pair_synced original.vector
            sample_pair_synced.current = .ok d ∧
          d < sample_pair_synced.max_total_log_size)) ∧
    cache_valid (sample_pair_undone 2) ∧
    inf_adopted_algorithm_can_undo (sample_pair_undone 2) 1 = false ∧
    inf_adopted_algorithm_generate_undo 8 CounterOperation (sample_pair_undone 2) 1 =
      .ok (none, sample_pair_undone 2) :=
  have hv : cache_valid sample_pair_synced :=
    (receive_request_cache 8 CounterOperation (sample_pair_dos 5) sample_pair_synced
      sample_acknowledgement true rfl).resolve_left (fun h => Bool.noConfusion h.1)
  have hv2 : cache_valid (sample_pair_undone 2) :=
    generate_execute_cache 8 CounterOperation (sample_pair_undone 1) (sample_pair_undone 2)
      (inf_adopted_request_new_undo (sample_pair_undone 1).current 1) true
      (some (inf_adopted_request_new_undo (sample_pair_undone 1).current 1)) rfl
  ⟨hv, by decide,
    (undo_availability 8 CounterOperation sample_pair_synced 1
      (sample_user_one sample_pair_synced) { user := 1, can_undo := true, can_redo := false }
      rfl rfl rfl hv).1.mp (by decide),
    hv2, by decide,
    (undo_availability 8 CounterOperation (sample_pair_undone 2) 1
      (sample_user_one (sample_pair_undone 2))
      { user := 1, can_undo := false, can_redo := false } rfl rfl rfl hv2).2.1 (by decide)⟩

/-! ## Reachability: the walk of is_component_reachable -/

section Landings

variable {Op Buf : Type}

theorem landings_append_singleton (l : List (InfAdoptedRequestLogEntry Op))
    (e : InfAdoptedRequestLogEntry Op) :
    landings (l ++ [e]) = landings_step (landings l) e := by
  unfold landings
  rw [List.foldl_append]
  rfl

theorem landings_length (l : List (InfAdoptedRequestLogEntry Op)) :
    (landings l).length = l.length + 1 := by
  induction l using List.reverseRecOn with
  | nil => rfl
  | append_singleton l e ih =>
    rw [landings_append_singleton]
    simp [landings_step, ih]

theorem landings_fold_prefix (m : List (InfAdoptedRequestLogEntry Op)) :
    ∀ table : List (Option Nat), ∃ ext, m.foldl landings_step table = table ++ ext := by
  induction m with
  | nil => intro table; exact ⟨[], by simp⟩
  | cons e rest ih =>
    intro table
    obtain ⟨ext, hext⟩ := ih (landings_step table e)
    obtain ⟨x, hx⟩ : ∃ x, landings_step table e = table ++ [x] := ⟨_, rfl⟩
    refine ⟨x :: ext, ?_⟩
    rw [List.foldl_cons, hext, hx]
    simp

theorem landings_prefix (l m : List (InfAdoptedRequestLogEntry Op)) (n : Nat)
    (hn : n ≤ l.length) :
    (landings (l ++ m)).getD n none = (landings l).getD n none := by
  have h : landings (l ++ m) = m.foldl landings_step (landings l) := by
    unfold landings
    rw [List.foldl_append]
  obtain ⟨ext, hext⟩ := landings_fold_prefix m (landings l)
  rw [h, hext]
  have hlen := landings_length l
  rw [List.getD_eq_getElem?_getD, List.getD_eq_getElem?_getD,
    List.getElem?_append_left (by omega)]

theorem landings_zero (l : List (InfAdoptedRequestLogEntry Op)) :
    (landings l).getD 0 none = none := by
  have := landings_prefix [] l 0 (Nat.le_refl _)
  simpa [landings] using this

theorem landings_succ (entries : List (InfAdoptedRequestLogEntry Op)) (k : Nat)
    (e : InfAdoptedRequestLogEntry Op) (he : entries.get? k = some e) :
    (landings entries).getD (k + 1) none =
      if e.request.type = InfAdoptedRequestType.DO then some k
      else
        match e.prev_associated with
        | some a => if a ≤ k then (landings entries).getD a none else none
        | none => none := by
  have hk : k < entries.length := by
    rw [List.get?_eq_some] at he
    exact he.1
  have hsplit : entries = (entries.take k ++ [e]) ++ entries.drop (k + 1) := by
    rw [List.append_assoc]
    have hdrop : entries.drop k = e :: entries.drop (k + 1) := by
      rw [List.drop_eq_getElem_cons hk]
      congr 1
      rw [List.get?_eq_getElem?, List.getElem?_eq_getElem hk] at he
      exact Option.some.inj he
    rw [List.singleton_append, ← hdrop, List.take_append_drop]
  have hlen : (entries.take k).length = k := by
    rw [List.length_take]
    omega
  have htl := landings_length (entries.take k)
  rw [hlen] at htl
  have h1 : (landings entries).getD (k + 1) none =
      (landings (entries.take k ++ [e])).getD (k + 1) none := by
    conv_lhs => rw [hsplit]
    exact landings_prefix _ _ _ (by simp [hlen])
  rw [h1, landings_append_singleton]
  unfold landings_step
  rw [List.getD_eq_getElem?_getD, List.getElem?_append_right (by omega)]
  simp only [htl, Nat.sub_self, List.getElem?_cons_zero, Option.getD_some,
    Nat.add_sub_cancel]
  split
  · rfl
  · cases hp : e.prev_associated with
    | none => rfl
    | some a =>
      simp only
      by_cases ha : a ≤ k
      · rw [if_pos ha]
        have h2 : (landings entries).getD a none =
            (landings (entries.take k)).getD a none := by
          conv_lhs => rw [hsplit, List.append_assoc]
          exact landings_prefix _ _ _ (by omega)
        rw [h2]
      · rw [if_neg ha]
        rw [List.getD_eq_getElem?_getD, List.getElem?_eq_none (by omega)]
        rfl

theorem landing_zero (log : InfAdoptedRequestLog Op) : landing log 0 = none :=
  landings_zero log.entries

theorem landing_beyond (log : InfAdoptedRequestLog Op) (n : Nat)
    (h : log.entries.length < n) : landing log n = none := by
  unfold landing
  rw [List.getD_eq_getElem?_getD, List.getElem?_eq_none (by rw [landings_length]; omega)]
  rfl

theorem landing_do (log : InfAdoptedRequestLog Op) (k : Nat) (e : InfAdoptedRequestLogEntry Op)
    (he : log.entries.get? k = some e) (hdo : e.request.type = InfAdoptedRequestType.DO) :
    landing log (k + 1) = some k := by
  unfold landing
  rw [landings_succ log.entries k e he, if_pos hdo]

theorem landing_associated (log : InfAdoptedRequestLog Op) (k a : Nat)
    (e : InfAdoptedRequestLogEntry Op) (he : log.entries.get? k = some e)
    (hdo : e.request.type ≠ InfAdoptedRequestType.DO) (hp : e.prev_associated = some a)
    (ha : a ≤ k) : landing log (k + 1) = landing log a := by
  unfold landing
  rw [landings_succ log.entries k e he, if_neg hdo, hp]
  simp only [ha, if_true]

/-- Appending entries to a log does not change the landings of the slots it had. -/
theorem landing_appended (log log2 : InfAdoptedRequestLog Op)
    (ex : List (InfAdoptedRequestLogEntry Op)) (he : log2.entries = log.entries ++ ex)
    (n : Nat) (hn : n ≤ log.entries.length) : landing log2 n = landing log n := by
  unfold landing
  rw [he]
  exact landings_prefix _ _ _ hn

/-- A landing is the slot of a Do request below the value the walk started with. -/
theorem landing_lt (log : InfAdoptedRequestLog Op) (hlinked : log_linked log) :
    ∀ n j, landing log n = some j →
      j < n ∧ ∃ e, log.entries.get? j = some e ∧
        e.request.type = InfAdoptedRequestType.DO := by
  intro n
  induction n using Nat.strong_induction_on with
  | _ n ih =>
    intro j hj
    cases n with
    | zero => rw [landing_zero] at hj; cases hj
    | succ k =>
      by_cases hk : k < log.entries.length
      · have he : log.entries.get? k = some (log.entries.get ⟨k, hk⟩) := List.get?_eq_get hk
        by_cases hdo : (log.entries.get ⟨k, hk⟩).request.type = InfAdoptedRequestType.DO
        · rw [landing_do log k _ he hdo] at hj
          cases hj
          exact ⟨Nat.lt_succ_self _, _, he, hdo⟩
        · obtain ⟨a, ea, hp, hak, _, _⟩ := (hlinked.2.1 k _ he).2.2 hdo
          rw [landing_associated log k a _ he hdo hp (by omega)] at hj
          obtain ⟨h1, h2⟩ := ih a (by omega) j hj
          exact ⟨by omega, h2⟩
      · rw [landing_beyond log (k + 1) (by omega)] at hj
        cases hj

end Landings

section ReachableValue

variable {Op Buf : Type}

theorem get_entry_linked (log : InfAdoptedRequestLog Op) (h0 : log.log_begin = 0) (k : Nat) :
    inf_adopted_request_log_get_entry log k = log.entries.get? k := by
  unfold inf_adopted_request_log_get_entry
  simp [h0]

theorem get_request_linked (log : InfAdoptedRequestLog Op) (h0 : log.log_begin = 0) (k : Nat) :
    inf_adopted_request_log_get_request log k =
      (log.entries.get? k).map (fun e => e.request) := by
  unfold inf_adopted_request_log_get_request
  rw [get_entry_linked log h0]

theorem entry_indexed (log : InfAdoptedRequestLog Op) (h0 : log.log_begin = 0)
    (hidx : log_indexed log) (k : Nat) (e : InfAdoptedRequestLogEntry Op)
    (he : log.entries.get? k = some e) :
    request_slot e.request = k ∧ e.request.user_id = log.user_id ∧
      k < log.entries.length := by
  have := get_request_indexed log hidx k e.request
    (by rw [get_request_linked log h0, he]; rfl)
  exact ⟨this.1, this.2.1, by omega⟩

/-- The loop of is_component_reachable on a linked log indexed by its owner's
component, with enough fuel: it returns, with the value of `component_reachable`. -/
theorem is_component_reachable_loop_eq (log : InfAdoptedRequestLog Op)
    (hlinked : log_linked log) (hidx : log_indexed log) (v : InfAdoptedStateVector) :
    ∀ (n fuel : Nat) (cur : InfAdoptedStateVector),
      inf_adopted_state_vector_get cur log.user_id = n → n ≤ log.entries.length → n < fuel →
      is_component_reachable_loop log v log.user_id fuel cur =
        .ok (component_reachable log v n) := by
  have h0 := hlinked.1
  intro n
  induction n using Nat.strong_induction_on with
  | _ n ih =>
    intro fuel cur hcur hn hfuel
    cases fuel with
    | zero => omega
    | succ fuel =>
      unfold is_component_reachable_loop
      simp only [hcur]
      cases n with
      | zero =>
        simp only [if_true]
        unfold component_reachable
        rw [landing_zero]
      | succ k =>
        have hk : k < log.entries.length := by omega
        have he : log.entries.get? k = some (log.entries.get ⟨k, hk⟩) := List.get?_eq_get hk
        obtain ⟨hslot, hown, _⟩ := entry_indexed log h0 hidx k _ he
        have hne : ¬ (k + 1 = 0) := by omega
        simp only [hne, if_false, Nat.add_sub_cancel]
        rw [get_request_linked log h0, he]
        simp only [Option.map_some', inf_adopted_request_get_request_type,
          inf_adopted_request_get_vector, inf_adopted_request_get_user_id,
          inf_adopted_state_vector_copy]
        by_cases hdo : (log.entries.get ⟨k, hk⟩).request.type = InfAdoptedRequestType.DO
        · simp only [hdo, if_true]
          unfold component_reachable
          rw [landing_do log k _ he hdo]
          simp only [get_request_linked log h0, he, Option.map_some']
        · simp only [hdo, if_false]
          obtain ⟨a, ea, hp, hak, hea, _⟩ := (hlinked.2.1 k _ he).2.2 hdo
          have hpa : inf_adopted_request_log_prev_associated log
              (log.entries.get ⟨k, hk⟩).request = some ea.request := by
            unfold inf_adopted_request_log_prev_associated prev_associated_slot
            rw [hslot, get_entry_linked log h0, he]
            simp only [hp]
            rw [get_request_linked log h0, hea]
            rfl
          rw [hpa]
          simp only
          obtain ⟨haslot, haown, _⟩ := entry_indexed log h0 hidx a ea hea
          have hget : inf_adopted_state_vector_get ea.request.vector log.user_id = a := by
            rw [← haown]
            exact haslot
          rw [ih a (by omega) fuel ea.request.vector hget (by omega) (by omega)]
          unfold component_reachable
          rw [landing_associated log k a _ he hdo hp (by omega)]

theorem is_reachable_users_eq (fuel : Nat) (v : InfAdoptedStateVector) :
    ∀ users : List (InfAdoptedUser Op),
    (∀ u ∈ users, u.request_log.user_id = u.id ∧ log_linked u.request_log ∧
      log_indexed u.request_log ∧
      inf_adopted_state_vector_get v u.id ≤ u.request_log.entries.length ∧
      u.request_log.entries.length < fuel) →
    is_reachable_users fuel v users =
      .ok (users.all (fun u =>
        component_reachable u.request_log v (inf_adopted_state_vector_get v u.id))) := by
  intro users
  induction users with
  | nil => intro _; rfl
  | cons u rest ih =>
    intro h
    obtain ⟨hown, hlinked, hidx, hle, hfuel⟩ := h u (List.mem_cons_self _ _)
    unfold is_reachable_users inf_adopted_algorithm_is_component_reachable
    rw [← hown, is_component_reachable_loop_eq u.request_log hlinked hidx v _ fuel v rfl
      (by rw [hown]; exact hle) (by rw [hown]; omega)]
    rw [hown]
    cases hc : component_reachable u.request_log v (inf_adopted_state_vector_get v u.id) with
    | false => simp [hc]
    | true =>
      simp only [List.all_cons, hc, Bool.true_and]
      exact ih (fun x hx => h x (List.mem_cons_of_mem _ hx))

/-- What the invariant gives for one user: the log is the user's own, linked and
indexed, and its length is the user's component of current. -/
theorem invariant_user (algorithm : InfAdoptedAlgorithm Op Buf)
    (hinv : reachability_invariant algorithm) (u : InfAdoptedUser Op)
    (hu : u ∈ algorithm.users) :
    u.request_log.user_id = u.id ∧ log_linked u.request_log ∧ log_indexed u.request_log ∧
      stacks_linked u.request_log ∧
      inf_adopted_state_vector_get algorithm.current u.id = u.request_log.entries.length := by
  obtain ⟨_, hlogs, hcur, hlink, _⟩ := hinv
  have h1 := hlogs u hu
  have h2 := hlink u hu
  refine ⟨h1.1, h2.1, h1.2, h2.2, ?_⟩
  rw [hcur u hu, log_indexed_end _ h1.2, h2.1.1, Nat.zero_add]

/-- With the invariant and more fuel than the longest log has requests,
is_reachable returns for every vector causally before current, with the value of
`vector_reachable`. -/
theorem is_reachable_eq (fuel : Nat) (algorithm : InfAdoptedAlgorithm Op Buf)
    (hinv : reachability_invariant algorithm)
    (hfuel : ∀ u ∈ algorithm.users, u.request_log.entries.length < fuel)
    (v : InfAdoptedStateVector)
    (hcb : inf_adopted_state_vector_causally_before v algorithm.current = true) :
    inf_adopted_algorithm_is_reachable fuel algorithm v =
      .ok (vector_reachable algorithm v) := by
  unfold inf_adopted_algorithm_is_reachable vector_reachable
  rw [if_pos hcb, hcb, Bool.true_and]
  apply is_reachable_users_eq
  intro u hu
  obtain ⟨h1, h2, h3, _, h5⟩ := invariant_user algorithm hinv u hu
  refine ⟨h1, h2, h3, ?_, hfuel u hu⟩
  rw [← h5]
  exact (causally_before_iff _ _).mp hcb u.id

theorem is_reachable_fuel_add (fuel k : Nat) (algorithm : InfAdoptedAlgorithm Op Buf)
    (v : InfAdoptedStateVector) (b : Bool)
    (h : inf_adopted_algorithm_is_reachable fuel algorithm v = .ok b) :
    inf_adopted_algorithm_is_reachable (fuel + k) algorithm v = .ok b := by
  induction k with
  | zero => exact h
  | succ k ih => exact is_reachable_fuel _ _ _ _ ih

/-- With the invariant, a value is_reachable returns with any fuel is the value of
`vector_reachable`. -/
theorem is_reachable_value (fuel : Nat) (algorithm : InfAdoptedAlgorithm Op Buf)
    (hinv : reachability_invariant algorithm) (v : InfAdoptedStateVector) (b : Bool)
    (h : inf_adopted_algorithm_is_reachable fuel algorithm v = .ok b) :
    vector_reachable algorithm v = b := by
  have hcb := is_reachable_causally_before fuel algorithm v b h
  obtain ⟨N, hN⟩ : ∃ N, ∀ u ∈ algorithm.users, u.request_log.entries.length < N := by
    have key : ∀ users : List (InfAdoptedUser Op),
        ∃ N, ∀ u ∈ users, u.request_log.entries.length < N := by
      intro users
      induction users with
      | nil => exact ⟨0, by simp⟩
      | cons u rest ih =>
        obtain ⟨N, hN⟩ := ih
        refine ⟨max N (u.request_log.entries.length + 1), ?_⟩
        intro x hx
        rcases List.mem_cons.mp hx with rfl | hx
        · exact Nat.lt_of_lt_of_le (Nat.lt_succ_self _) (le_max_right _ _)
        · exact Nat.lt_of_lt_of_le (hN x hx) (le_max_left _ _)
    exact key _
  have h1 := is_reachable_fuel_add fuel N algorithm v b h
  rw [is_reachable_eq (fuel + N) algorithm hinv (fun u hu => by have := hN u hu; omega) v hcb]
    at h1
  exact Except.ok.inj h1

end ReachableValue

section TranslateReach

variable {Op Buf : Type}

theorem transform_request_with_reach
    (translate : InfAdoptedRequest Op → InfAdoptedStateVector →
      Except Failure (InfAdoptedRequest Op))
    (algorithm : InfAdoptedAlgorithm Op Buf)
    (hspec : ∀ r t res, translate r t = .ok res → r.type = InfAdoptedRequestType.DO →
      ∃ f, inf_adopted_algorithm_is_reachable f algorithm r.vector = .ok true)
    (O : InfAdoptedOperationClass Op Buf)
    (request against : InfAdoptedRequest Op) (at_ : InfAdoptedStateVector)
    (res : InfAdoptedRequest Op) (hdo : request.type = InfAdoptedRequestType.DO)
    (h : transform_request_with translate O algorithm request against at_ = .ok res) :
    ∃ f, inf_adopted_algorithm_is_reachable f algorithm request.vector = .ok true := by
  unfold transform_request_with at h
  simp only [inf_adopted_request_get_vector, inf_adopted_request_copy] at h
  split at h
  · cases h
  · split at h
    · cases h
    · split at h
      · cases h
      · split at h
        · cases h
        · split at h
          · cases h
          · rename_i lcs_request h2
            exact hspec _ _ _ h2 hdo

theorem translate_request_first_loop_reach
    (translate : InfAdoptedRequest Op → InfAdoptedStateVector →
      Except Failure (InfAdoptedRequest Op))
    (algorithm : InfAdoptedAlgorithm Op Buf)
    (hspec : ∀ r t res, translate r t = .ok res → r.type = InfAdoptedRequestType.DO →
      ∃ f, inf_adopted_algorithm_is_reachable f algorithm r.vector = .ok true)
    (fuel : Nat) (O : InfAdoptedOperationClass Op Buf)
    (request : InfAdoptedRequest Op) (to_ : InfAdoptedStateVector)
    (hdo : request.type = InfAdoptedRequestType.DO) :
    ∀ (users : List (InfAdoptedUser Op)) (v : InfAdoptedStateVector)
      (res : InfAdoptedRequest Op) (v2 : InfAdoptedStateVector),
      translate_request_first_loop translate fuel O algorithm request to_ users v
        = .ok (some res, v2) →
      ∃ f, inf_adopted_algorithm_is_reachable f algorithm request.vector = .ok true := by
  intro users
  induction users with
  | nil =>
    intro v res v2 h
    simp [translate_request_first_loop] at h
  | cons user rest ih =>
    intro v res v2 h
    unfold translate_request_first_loop at h
    simp only [inf_adopted_request_get_user_id, inf_adopted_request_get_vector,
      inf_adopted_request_get_request_type] at h
    split at h
    · exact ih _ _ _ h
    · split at h
      · exact ih _ _ _ h
      · split at h
        · cases h
        · split at h
          · split at h
            · cases h
            · split at h
              · cases h
              · split at h
                · split at h
                  · cases h
                  · rename_i result ht
                    exact hspec _ _ _ ht hdo
                · exact ih _ _ _ h
          · split at h
            · split at h
              · cases h
              · split at h
                · cases h
                · rename_i result ht
                  exact transform_request_with_reach translate algorithm hspec O request _ _ _
                    hdo ht
              · exact ih _ _ _ h
            · exact ih _ _ _ h

theorem translate_request_second_loop_reach
    (translate : InfAdoptedRequest Op → InfAdoptedStateVector →
      Except Failure (InfAdoptedRequest Op))
    (algorithm : InfAdoptedAlgorithm Op Buf)
    (hspec : ∀ r t res, translate r t = .ok res → r.type = InfAdoptedRequestType.DO →
      ∃ f, inf_adopted_algorithm_is_reachable f algorithm r.vector = .ok true)
    (fuel : Nat) (O : InfAdoptedOperationClass Op Buf)
    (request : InfAdoptedRequest Op) (to_ : InfAdoptedStateVector)
    (hdo : request.type = InfAdoptedRequestType.DO) :
    ∀ (users : List (InfAdoptedUser Op)) (v : InfAdoptedStateVector)
      (res : InfAdoptedRequest Op) (v2 : InfAdoptedStateVector),
      translate_request_second_loop translate fuel O algorithm request to_ users v
        = .ok (some res, v2) →
      ∃ f, inf_adopted_algorithm_is_reachable f algorithm request.vector = .ok true := by
  intro users
  induction users with
  | nil =>
    intro v res v2 h
    simp [translate_request_second_loop] at h
  | cons user rest ih =>
    intro v res v2 h
    unfold translate_request_second_loop at h
    simp only [inf_adopted_request_get_user_id, inf_adopted_request_get_vector] at h
    split at h
    · exact ih _ _ _ h
    · split at h
      · exact ih _ _ _ h
      · split at h
        · split at h
          · cases h
          · split at h
            · cases h
            · split at h
              · cases h
              · rename_i result ht
                exact transform_request_with_reach translate algorithm hspec O request _ _ _
                  hdo ht
          · exact ih _ _ _ h
        · exact ih _ _ _ h

theorem translate_request_body_reach
    (translate : InfAdoptedRequest Op → InfAdoptedStateVector →
      Except Failure (InfAdoptedRequest Op))
    (algorithm : InfAdoptedAlgorithm Op Buf)
    (hspec : ∀ r t res, translate r t = .ok res → r.type = InfAdoptedRequestType.DO →
      ∃ f, inf_adopted_algorithm_is_reachable f algorithm r.vector = .ok true)
    (fuel : Nat) (O : InfAdoptedOperationClass Op Buf)
    (request : InfAdoptedRequest Op) (to_ : InfAdoptedStateVector)
    (res : InfAdoptedRequest Op) (hdo : request.type = InfAdoptedRequestType.DO)
    (h : translate_request_body translate fuel O algorithm request to_ = .ok res) :
    ∃ f, inf_adopted_algorithm_is_reachable f algorithm request.vector = .ok true := by
  unfold translate_request_body at h
  simp only [inf_adopted_request_get_user_id, inf_adopted_request_get_vector,
    inf_adopted_request_get_request_type, inf_adopted_state_vector_copy, hdo, ne_eq,
    not_true_eq_false, if_false] at h
  split at h
  · cases h
  · split at h
    · cases h
    · split at h
      · cases h
      · split at h
        · cases h
        · split at h
          · cases h
          · cases h
          · rename_i hreach
            split at h
            · rename_i hcmp
              refine ⟨fuel, ?_⟩
              rw [is_reachable_congr fuel algorithm request.vector to_
                ((compare_eq_zero_iff _ _).mp hcmp)]
              exact hreach
            · unfold translate_request_loops at h
              split at h
              · cases h
              · rename_i r0 v0 hfirst
                exact translate_request_first_loop_reach translate algorithm hspec fuel O
                  request to_ hdo _ _ _ _ hfirst
              · split at h
                · cases h
                · rename_i r0 v0 hsecond
                  exact translate_request_second_loop_reach translate algorithm hspec fuel O
                    request to_ hdo _ _ _ _ hsecond
                · cases h

/-- A Do request that translate_request translates has a reachable vector: every
translation of a Do ends with the identity step, which asserts that the target,
equal to the vector of the request, is reachable. -/
theorem translate_request_reach (O : InfAdoptedOperationClass Op Buf)
    (algorithm : InfAdoptedAlgorithm Op Buf) :
    ∀ (fuel : Nat) (request : InfAdoptedRequest Op) (to_ : InfAdoptedStateVector)
      (res : InfAdoptedRequest Op),
      inf_adopted_algorithm_translate_request fuel O algorithm request to_ = .ok res →
      request.type = InfAdoptedRequestType.DO →
      ∃ f, inf_adopted_algorithm_is_reachable f algorithm request.vector = .ok true := by
  intro fuel
  induction fuel with
  | zero =>
    intro request to_ res h
    simp [inf_adopted_algorithm_translate_request] at h
  | succ fuel ih =>
    intro request to_ res h hdo
    unfold inf_adopted_algorithm_translate_request at h
    exact translate_request_body_reach _ algorithm (fun r t res2 hr hd => ih r t res2 hr hd)
      (fuel + 1) O request to_ res hdo h

end TranslateReach

section AddRequestLinks

variable {Op Buf : Type}

theorem get?_append_lt {α : Type} (l ex : List α) (t : Nat) (ht : t < l.length) :
    (l ++ ex).get? t = l.get? t := by
  rw [List.get?_eq_getElem?, List.get?_eq_getElem?, List.getElem?_append_left ht]

theorem get?_append_length {α : Type} (l : List α) (x : α) :
    (l ++ [x]).get? l.length = some x := by
  rw [List.get?_eq_getElem?, List.getElem?_append_right (Nat.le_refl _)]
  simp

theorem get?_lt {α : Type} (l : List α) (t : Nat) (x : α) (h : l.get? t = some x) :
    t < l.length := by
  rw [List.get?_eq_some] at h
  exact h.1

theorem head_original_appended (log log2 : InfAdoptedRequestLog Op)
    (ex : List (InfAdoptedRequestLogEntry Op)) (he : log2.entries = log.entries ++ ex)
    (targets : List Nat)
    (h : ∀ t, targets.head? = some t → t < log.entries.length) :
    head_original log2 targets = head_original log targets := by
  unfold head_original
  cases targets with
  | nil => rfl
  | cons t rest =>
    simp only [List.head?_cons, Option.some_bind]
    rw [he, get?_append_lt _ _ _ (h t rfl)]

theorem head_original_cons (log : InfAdoptedRequestLog Op) (t : Nat) (rest : List Nat)
    (e : InfAdoptedRequestLogEntry Op) (h : log.entries.get? t = some e) :
    head_original log (t :: rest) = some e.original := by
  unfold head_original
  simp only [List.head?_cons, Option.some_bind, h, Option.map_some']

theorem undo_chain_head (log : InfAdoptedRequestLog Op) (targets : List Nat)
    (h : undo_chain log targets) :
    ∀ t, targets.head? = some t → t < log.entries.length := by
  intro t ht
  cases targets with
  | nil => cases ht
  | cons t2 rest =>
    simp only [List.head?_cons, Option.some.injEq] at ht
    subst ht
    obtain ⟨⟨e, hget, _⟩, _⟩ := h
    exact get?_lt _ _ _ hget

theorem redo_chain_head (log : InfAdoptedRequestLog Op) (below : Option Nat)
    (targets : List Nat) (h : redo_chain log below targets) :
    ∀ t, targets.head? = some t → t < log.entries.length := by
  intro t ht
  cases targets with
  | nil => cases ht
  | cons t2 rest =>
    simp only [List.head?_cons, Option.some.injEq] at ht
    subst ht
    obtain ⟨e, hget, _⟩ := h
    exact get?_lt _ _ _ hget

theorem undo_chain_appended (log log2 : InfAdoptedRequestLog Op)
    (ex : List (InfAdoptedRequestLogEntry Op)) (he : log2.entries = log.entries ++ ex)
    (hlinked : log_linked log) (targets : List Nat) (h : undo_chain log targets) :
    undo_chain log2 targets := by
  induction targets with
  | nil => trivial
  | cons t rest ih =>
    obtain ⟨⟨e, hget, h1, h2⟩, hrest⟩ := h
    have ht := get?_lt _ _ _ hget
    have ho := (hlinked.2.1 t e hget).1
    have hhead := head_original_appended log log2 ex he rest (undo_chain_head log rest hrest)
    refine ⟨⟨e, by rw [he, get?_append_lt _ _ _ ht]; exact hget, ?_, ?_⟩, ih hrest⟩
    · rw [landing_appended log log2 ex he _ (by omega), hhead]
      exact h1
    · rw [landing_appended log log2 ex he _ (by omega), hhead]
      exact h2

theorem redo_chain_appended (log log2 : InfAdoptedRequestLog Op)
    (ex : List (InfAdoptedRequestLogEntry Op)) (he : log2.entries = log.entries ++ ex)
    (hlinked : log_linked log) (targets : List Nat) :
    ∀ below, redo_chain log below targets → redo_chain log2 below targets := by
  induction targets with
  | nil => intro _ _; trivial
  | cons t rest ih =>
    intro below h
    obtain ⟨e, hget, h1, h2, hrest⟩ := h
    have ht := get?_lt _ _ _ hget
    have ho := (hlinked.2.1 t e hget).1
    refine ⟨e, by rw [he, get?_append_lt _ _ _ ht]; exact hget, ?_, ?_, ih _ hrest⟩
    · rw [landing_appended log log2 ex he _ (by omega)]
      exact h1
    · rw [landing_appended log log2 ex he _ (by omega)]
      exact h2

/-- The links of a log after one more entry, given the links of the new entry. -/
theorem log_linked_appended (log log2 : InfAdoptedRequestLog Op)
    (e : InfAdoptedRequestLogEntry Op) (hlinked : log_linked log)
    (hb : log2.log_begin = log.log_begin) (he : log2.entries = log.entries ++ [e])
    (horig : e.original ≤ log.entries.length)
    (hdo : e.request.type = InfAdoptedRequestType.DO →
      e.prev_associated = none ∧ e.original = log.entries.length)
    (hnot : e.request.type ≠ InfAdoptedRequestType.DO →
      ∃ a ea, e.prev_associated = some a ∧ a < log.entries.length ∧
        log.entries.get? a = some ea ∧ e.original = ea.original)
    (hundo : ∀ t ∈ log2.undo_targets, t < log.entries.length + 1)
    (hredo : ∀ t ∈ log2.redo_targets, t < log.entries.length + 1) :
    log_linked log2 := by
  refine ⟨by rw [hb]; exact hlinked.1, ?_, ?_, ?_⟩
  · intro k x hx
    rw [he] at hx
    by_cases hk : k < log.entries.length
    · rw [get?_append_lt _ _ _ hk] at hx
      obtain ⟨h1, h2, h3⟩ := hlinked.2.1 k x hx
      refine ⟨h1, h2, ?_⟩
      intro hn
      obtain ⟨a, ea, ha1, ha2, ha3, ha4⟩ := h3 hn
      exact ⟨a, ea, ha1, ha2, by rw [he, get?_append_lt _ _ _ (by omega)]; exact ha3, ha4⟩
    · have hlen := get?_lt _ _ _ hx
      simp only [List.length_append, List.length_singleton] at hlen
      have hkeq : k = log.entries.length := by omega
      subst hkeq
      rw [get?_append_length] at hx
      cases hx
      refine ⟨horig, hdo, ?_⟩
      intro hn
      obtain ⟨a, ea, ha1, ha2, ha3, ha4⟩ := hnot hn
      exact ⟨a, ea, ha1, ha2, by rw [he, get?_append_lt _ _ _ ha2]; exact ha3, ha4⟩
  · intro t ht
    rw [he]
    simp only [List.length_append, List.length_singleton]
    exact hundo t ht
  · intro t ht
    rw [he]
    simp only [List.length_append, List.length_singleton]
    exact hredo t ht

end AddRequestLinks

section AddRequestStacks

variable {Op Buf : Type}

theorem stacks_after_do (log log2 : InfAdoptedRequestLog Op)
    (e0 : InfAdoptedRequestLogEntry Op) (hlinked : log_linked log)
    (hstacks : stacks_linked log) (hent : log2.entries = log.entries ++ [e0])
    (hdo : e0.request.type = InfAdoptedRequestType.DO)
    (horig : e0.original = log.entries.length)
    (hundo : log2.undo_targets = log.entries.length :: log.undo_targets)
    (hredo : log2.redo_targets = []) : stacks_linked log2 := by
  obtain ⟨p1, pchain, _⟩ := hstacks
  have hget : log2.entries.get? log.entries.length = some e0 := by
    rw [hent, get?_append_length]
  have hlen : log2.entries.length = log.entries.length + 1 := by
    rw [hent]; simp
  have hhead := head_original_appended log log2 [e0] hent log.undo_targets
    (undo_chain_head log _ pchain)
  have hsame : landing log2 log.entries.length = head_original log2 log.undo_targets := by
    rw [landing_appended log log2 [e0] hent _ (Nat.le_refl _), hhead]
    exact p1
  refine ⟨?_, ?_, ?_⟩
  · rw [hlen, hundo, landing_do log2 _ e0 hget hdo, head_original_cons log2 _ _ e0 hget, horig]
  · rw [hundo]
    refine ⟨⟨e0, hget, ?_, hsame⟩, undo_chain_appended log log2 [e0] hent hlinked _ pchain⟩
    rw [horig]
    exact hsame
  · rw [hredo]
    trivial

theorem stacks_after_undo (log log2 : InfAdoptedRequestLog Op)
    (e0 ea : InfAdoptedRequestLogEntry Op) (a : Nat) (rest : List Nat)
    (hlinked : log_linked log) (hstacks : stacks_linked log)
    (hold : log.undo_targets = a :: rest) (hgeta : log.entries.get? a = some ea)
    (hent : log2.entries = log.entries ++ [e0])
    (htype : e0.request.type ≠ InfAdoptedRequestType.DO)
    (hprev : e0.prev_associated = some a) (horig : e0.original = ea.original)
    (hundo : log2.undo_targets = rest)
    (hredo : log2.redo_targets = log.entries.length :: log.redo_targets) :
    stacks_linked log2 ∧ landing log log.entries.length = some ea.original := by
  obtain ⟨p1, pchain, predo⟩ := hstacks
  rw [hold] at p1 pchain predo
  rw [head_original_cons log a rest ea hgeta] at p1 predo
  obtain ⟨⟨e, hge, hc1, hc2⟩, hrestchain⟩ := pchain
  rw [hgeta] at hge
  cases hge
  have ha := get?_lt _ _ _ hgeta
  have hoa := (hlinked.2.1 a ea hgeta).1
  have hget : log2.entries.get? log.entries.length = some e0 := by
    rw [hent, get?_append_length]
  have hlen : log2.entries.length = log.entries.length + 1 := by
    rw [hent]; simp
  have hhead := head_original_appended log log2 [e0] hent rest
    (undo_chain_head log _ hrestchain)
  refine ⟨⟨?_, ?_, ?_⟩, p1⟩
  · rw [hlen, hundo, landing_associated log2 _ a e0 hget htype hprev (by omega),
      landing_appended log log2 [e0] hent _ (by omega), hhead]
    exact hc2
  · rw [hundo]
    exact undo_chain_appended log log2 [e0] hent hlinked _ hrestchain
  · rw [hredo, hundo]
    refine ⟨e0, hget, ?_, ?_, ?_⟩
    · rw [landing_appended log log2 [e0] hent _ (Nat.le_refl _), horig]
      exact p1
    · rw [horig, landing_appended log log2 [e0] hent _ (by omega), hhead]
      exact hc1
    · rw [horig]
      exact redo_chain_appended log log2 [e0] hent hlinked _ _ predo

theorem stacks_after_redo (log log2 : InfAdoptedRequestLog Op)
    (e0 ea : InfAdoptedRequestLogEntry Op) (a : Nat) (rest : List Nat)
    (hlinked : log_linked log) (hstacks : stacks_linked log)
    (hold : log.redo_targets = a :: rest) (hgeta : log.entries.get? a = some ea)
    (hent : log2.entries = log.entries ++ [e0])
    (htype : e0.request.type ≠ InfAdoptedRequestType.DO)
    (hprev : e0.prev_associated = some a) (horig : e0.original = ea.original)
    (hundo : log2.undo_targets = log.entries.length :: log.undo_targets)
    (hredo : log2.redo_targets = rest) :
    stacks_linked log2 ∧
      landing log log.entries.length = landing log ea.original := by
  obtain ⟨p1, pchain, predo⟩ := hstacks
  rw [hold] at predo
  obtain ⟨e, hge, hr1, hr2, hrestchain⟩ := predo
  rw [hgeta] at hge
  cases hge
  have ha := get?_lt _ _ _ hgeta
  have hoa := (hlinked.2.1 a ea hgeta).1
  have hget : log2.entries.get? log.entries.length = some e0 := by
    rw [hent, get?_append_length]
  have hlen : log2.entries.length = log.entries.length + 1 := by
    rw [hent]; simp
  have hhead := head_original_appended log log2 [e0] hent log.undo_targets
    (undo_chain_head log _ pchain)
  have hnew : head_original log2 (log.entries.length :: log.undo_targets) =
      some ea.original := by
    rw [head_original_cons log2 _ _ e0 hget, horig]
  refine ⟨⟨?_, ?_, ?_⟩, by rw [p1, hr2]⟩
  · rw [hlen, hundo, landing_associated log2 _ a e0 hget htype hprev (by omega),
      landing_appended log log2 [e0] hent _ (by omega), hnew]
    exact hr1
  · rw [hundo]
    refine ⟨⟨e0, hget, ?_, ?_⟩, undo_chain_appended log log2 [e0] hent hlinked _ pchain⟩
    · rw [horig, landing_appended log log2 [e0] hent _ (by omega), hhead]
      exact hr2
    · rw [landing_appended log log2 [e0] hent _ (Nat.le_refl _), hhead]
      exact p1
  · rw [hredo, hundo, hnew]
    exact redo_chain_appended log log2 [e0] hent hlinked _ _ hrestchain

/-- What add_request does to the links of a log that is linked and indexed: the
new request is appended with its links, the log stays linked, and the walk of
is_component_reachable from the end of the earlier log stops at the original of a new
Undo, and where the walk from the original stops for a new Redo. -/
theorem add_request_linked (log log2 : InfAdoptedRequestLog Op) (r : InfAdoptedRequest Op)
    (hlinked : log_linked log) (hstacks : stacks_linked log) (hidx : log_indexed log)
    (h : inf_adopted_request_log_add_request log r = .ok log2) :
    log_linked log2 ∧ stacks_linked log2 ∧
    ∃ e, log2.entries = log.entries ++ [e] ∧ e.request = r ∧
      request_slot r = log.entries.length ∧
      (r.type = InfAdoptedRequestType.UNDO →
        ∃ a ea eo, log.undo_targets.head? = some a ∧ log.entries.get? a = some ea ∧
          log.entries.get? ea.original = some eo ∧ ea.original < log.entries.length ∧
          landing log log.entries.length = some ea.original) ∧
      (r.type = InfAdoptedRequestType.REDO →
        ∃ a ea eo, log.redo_targets.head? = some a ∧ log.entries.get? a = some ea ∧
          log.entries.get? ea.original = some eo ∧ ea.original < log.entries.length ∧
          landing log log.entries.length = landing log ea.original) := by
  have h0 := hlinked.1
  have hend : inf_adopted_request_log_get_end log = log.entries.length := by
    rw [log_indexed_end log hidx, h0, Nat.zero_add]
  unfold inf_adopted_request_log_add_request at h
  split at h
  · cases h
  · split at h
    · cases h
    · rename_i huser hslot
      have hn : request_slot r = log.entries.length := by
        rw [← hend]
        by_contra hne
        exact hslot hne
      simp only [hn] at h
      split at h
      · rename_i hdo
        simp only [Except.ok.injEq] at h
        have hent : log2.entries = log.entries ++
            [{ request := r, prev_associated := none, original := log.entries.length }] := by
          rw [← h]
        have hundo : log2.undo_targets = log.entries.length :: log.undo_targets := by
          rw [← h]
        have hredo : log2.redo_targets = [] := by rw [← h]
        have hb : log2.log_begin = log.log_begin := by rw [← h]
        refine ⟨?_, ?_, _, hent, rfl, hn, ?_, ?_⟩
        · apply log_linked_appended log log2 _ hlinked hb hent (Nat.le_refl _)
            (fun _ => ⟨rfl, rfl⟩) (fun hne => absurd hdo hne)
          · intro t ht
            rw [hundo] at ht
            rcases List.mem_cons.mp ht with rfl | ht
            · omega
            · have := hlinked.2.2.1 t ht
              omega
          · intro t ht
            rw [hredo] at ht
            cases ht
        · exact stacks_after_do log log2 _ hlinked hstacks hent hdo rfl hundo hredo
        · intro hu
          rw [hdo] at hu
          cases hu
        · intro hu
          rw [hdo] at hu
          cases hu
      · rename_i hundo_type
        split at h
        · cases h
        · rename_i a undo_rest hold
          split at h
          · cases h
          · rename_i ea hgeta
            rw [get_entry_linked log h0] at hgeta
            simp only [Except.ok.injEq] at h
            have hent : log2.entries = log.entries ++
                [{ request := r, prev_associated := some a, original := ea.original }] := by
              rw [← h]
            have hundo : log2.undo_targets = undo_rest := by rw [← h]
            have hredo : log2.redo_targets = log.entries.length :: log.redo_targets := by
              rw [← h]
            have hb : log2.log_begin = log.log_begin := by rw [← h]
            have ha := get?_lt _ _ _ hgeta
            have hoa := (hlinked.2.1 a ea hgeta).1
            have hnot : r.type ≠ InfAdoptedRequestType.DO := by
              rw [hundo_type]
              intro hc
              cases hc
            obtain ⟨hst, hland⟩ := stacks_after_undo log log2 _ ea a undo_rest hlinked
              hstacks hold hgeta hent hnot rfl rfl hundo hredo
            have hoex : ∃ eo, log.entries.get? ea.original = some eo :=
              ⟨_, List.get?_eq_get (by omega)⟩
            obtain ⟨eo, heo⟩ := hoex
            refine ⟨?_, hst, _, hent, rfl, hn, ?_, ?_⟩
            · apply log_linked_appended log log2 _ hlinked hb hent (by show ea.original ≤ _; omega)
                (fun hd => absurd hd hnot)
                (fun _ => ⟨a, ea, rfl, ha, hgeta, rfl⟩)
              · intro t ht
                rw [hundo] at ht
                have := hlinked.2.2.1 t (by rw [hold]; exact List.mem_cons_of_mem _ ht)
                omega
              · intro t ht
                rw [hredo] at ht
                rcases List.mem_cons.mp ht with rfl | ht
                · omega
                · have := hlinked.2.2.2 t ht
                  omega
            · intro _
              exact ⟨a, ea, eo, by rw [hold]; rfl, hgeta, heo, by omega, hland⟩
            · intro hu
              rw [hundo_type] at hu
              cases hu
      · rename_i hredo_type
        split at h
        · cases h
        · rename_i a redo_rest hold
          split at h
          · cases h
          · rename_i ea hgeta
            rw [get_entry_linked log h0] at hgeta
            simp only [Except.ok.injEq] at h
            have hent : log2.entries = log.entries ++
                [{ request := r, prev_associated := some a, original := ea.original }] := by
              rw [← h]
            have hundo : log2.undo_targets = log.entries.length :: log.undo_targets := by
              rw [← h]
            have hredo : log2.redo_targets = redo_rest := by rw [← h]
            have hb : log2.log_begin = log.log_begin := by rw [← h]
            have ha := get?_lt _ _ _ hgeta
            have hoa := (hlinked.2.1 a ea hgeta).1
            have hnot : r.type ≠ InfAdoptedRequestType.DO := by
              rw [hredo_type]
              intro hc
              cases hc
            obtain ⟨hst, hland⟩ := stacks_after_redo log log2 _ ea a redo_rest hlinked
              hstacks hold hgeta hent hnot rfl rfl hundo hredo
            have hoex : ∃ eo, log.entries.get? ea.original = some eo :=
              ⟨_, List.get?_eq_get (by omega)⟩
            obtain ⟨eo, heo⟩ := hoex
            refine ⟨?_, hst, _, hent, rfl, hn, ?_, ?_⟩
            · apply log_linked_appended log log2 _ hlinked hb hent (by show ea.original ≤ _; omega)
                (fun hd => absurd hd hnot)
                (fun _ => ⟨a, ea, rfl, ha, hgeta, rfl⟩)
              · intro t ht
                rw [hundo] at ht
                rcases List.mem_cons.mp ht with rfl | ht
                · omega
                · have := hlinked.2.2.1 t ht
                  omega
              · intro t ht
                rw [hredo] at ht
                have := hlinked.2.2.2 t (by rw [hold]; exact List.mem_cons_of_mem _ ht)
                omega
            · intro hu
              rw [hredo_type] at hu
              cases hu
            · intro _
              exact ⟨a, ea, eo, by rw [hold]; rfl, hgeta, heo, by omega, hland⟩

end AddRequestStacks

section ExecuteReach

variable {Op Buf : Type}

theorem add_request_indexed (log log2 : InfAdoptedRequestLog Op) (r : InfAdoptedRequest Op)
    (hidx : log_indexed log)
    (h : inf_adopted_request_log_add_request log r = .ok log2)
    (hsmall : 2 * (log2.log_begin + log2.entries.length) + 2 < GUINT_MOD) :
    log_indexed log2 := by
  obtain ⟨_, huid, hb, hru, hslot, e, hent, her⟩ := add_request_get_end log log2 r h
  rw [log_indexed_end log hidx] at hslot
  refine ⟨?_, ?_, hsmall⟩
  · rw [hent, hb]
    simp only [List.map_append, List.map_cons, List.map_nil, List.length_append,
      List.length_singleton, hidx.1, her, hslot]
    rw [List.range'_1_concat]
  · intro x hx
    rw [hent] at hx
    simp only [List.mem_append, List.mem_singleton] at hx
    rcases hx with hx | hx
    · rw [huid]; exact hidx.2.1 x hx
    · rw [hx, her, huid]; exact hru

/-- The request execute_request records for a request, in terms of the request. -/
theorem recorded_request_spec (O : InfAdoptedOperationClass Op Buf) (buffer : Buf)
    (log : InfAdoptedRequestLog Op)
    (request log_request translated recorded : InfAdoptedRequest Op)
    (hl : execute_request_log_request log request = .ok log_request)
    (hr : execute_request_recorded O buffer request log_request translated = some recorded) :
    recorded.user_id = request.user_id ∧ recorded.type = request.type ∧
    (request.type = InfAdoptedRequestType.DO →
      recorded.vector = request.vector ∧ log_request = request) ∧
    (request.type ≠ InfAdoptedRequestType.DO →
      ∃ original, inf_adopted_request_log_original_request log request = some original ∧
        recorded.vector = inf_adopted_state_vector_set original.vector request.user_id
          (inf_adopted_state_vector_get request.vector request.user_id)) := by
  unfold execute_request_log_request at hl
  unfold execute_request_recorded at hr
  simp only [inf_adopted_request_get_request_type, inf_adopted_request_get_vector,
    inf_adopted_request_get_user_id, inf_adopted_request_get_operation,
    inf_adopted_state_vector_copy] at hl hr
  by_cases hdo : request.type = InfAdoptedRequestType.DO
  · simp only [hdo, ne_eq, not_true_eq_false, if_false, Except.ok.injEq, if_true] at hl hr
    subst hl
    have key : recorded.user_id = request.user_id ∧ recorded.type = request.type ∧
        recorded.vector = request.vector := by
      split at hr
      · cases hr
      · split at hr
        · split at hr
          · split at hr
            · simp only [Option.some.injEq] at hr
              subst hr
              exact ⟨rfl, hdo.symm, rfl⟩
            · simp only [Option.some.injEq] at hr
              subst hr
              exact ⟨rfl, rfl, rfl⟩
          · simp only [Option.some.injEq] at hr
            subst hr
            exact ⟨rfl, rfl, rfl⟩
        · cases hr
    exact ⟨key.1, key.2.1, fun _ => ⟨key.2.2, rfl⟩, fun hne => absurd hdo hne⟩
  · simp only [hdo, ne_eq, not_false_eq_true, if_true, if_false, Option.some.injEq] at hl hr
    subst hr
    split at hl
    · cases hl
    · rename_i original ho
      split at hl
      · rename_i hu
        simp only [Except.ok.injEq] at hl
        subst hl
        exact ⟨rfl, hu.symm, fun hd => absurd hd hdo, fun _ => ⟨original, ho, rfl⟩⟩
      · rename_i hu
        simp only [Except.ok.injEq] at hl
        subst hl
        exact ⟨rfl, hu.symm, fun hd => absurd hd hdo, fun _ => ⟨original, ho, rfl⟩⟩
      · cases hl

theorem component_reachable_appended (log log2 : InfAdoptedRequestLog Op)
    (ex : List (InfAdoptedRequestLogEntry Op)) (hlinked : log_linked log)
    (hb : log2.log_begin = log.log_begin) (he : log2.entries = log.entries ++ ex)
    (v : InfAdoptedStateVector) (n : Nat) (hn : n ≤ log.entries.length) :
    component_reachable log2 v n = component_reachable log v n := by
  unfold component_reachable
  rw [landing_appended log log2 ex he n hn]
  cases hl : landing log n with
  | none => rfl
  | some j =>
    obtain ⟨hj, e, hget, _⟩ := landing_lt log hlinked n j hl
    have h0 := hlinked.1
    have h1 : inf_adopted_request_log_get_request log j = some e.request := by
      rw [get_request_linked log h0, hget]
      rfl
    simp only [h1, appended_get_request log log2 ex hb he j _ h1]

theorem component_reachable_mono (log : InfAdoptedRequestLog Op)
    (v v2 : InfAdoptedStateVector) (n : Nat)
    (hle : ∀ id, inf_adopted_state_vector_get v id ≤ inf_adopted_state_vector_get v2 id)
    (h : component_reachable log v n = true) : component_reachable log v2 n = true := by
  unfold component_reachable at h ⊢
  cases hl : landing log n with
  | none => rfl
  | some j =>
    rw [hl] at h
    simp only at h ⊢
    cases hg : inf_adopted_request_log_get_request log j with
    | none => rw [hg] at h; cases h
    | some D =>
      rw [hg] at h
      simp only at h ⊢
      rw [causally_before_iff] at h ⊢
      intro id
      exact Nat.le_trans (h id) (hle id)

end ExecuteReach

section InvariantStep

variable {Op Buf : Type}

theorem vector_reachable_iff (a : InfAdoptedAlgorithm Op Buf) (v : InfAdoptedStateVector) :
    vector_reachable a v = true ↔
      inf_adopted_state_vector_causally_before v a.current = true ∧
      ∀ u ∈ a.users,
        component_reachable u.request_log v (inf_adopted_state_vector_get v u.id) = true := by
  unfold vector_reachable
  rw [Bool.and_eq_true, List.all_eq_true]

/-- A vector that is reachable stays reachable when one user's log gets one more
request and current one more tick of that user. -/
theorem vector_reachable_step (a a2 : InfAdoptedAlgorithm Op Buf)
    (hinv : reachability_invariant a) (user : InfAdoptedUser Op) (hu : user ∈ a.users)
    (log2 : InfAdoptedRequestLog Op) (e : InfAdoptedRequestLogEntry Op)
    (hent : log2.entries = user.request_log.entries ++ [e])
    (hb : log2.log_begin = user.request_log.log_begin)
    (F : InfAdoptedUser Op → InfAdoptedUser Op)
    (hF : ∀ u ∈ a.users, (F u).id = u.id ∧
      (F u).request_log = if u.id = user.id then log2 else u.request_log)
    (husers : a2.users = a.users.map F)
    (hcur : a2.current = inf_adopted_state_vector_add a.current user.id 1)
    (v : InfAdoptedStateVector) (h : vector_reachable a v = true) :
    vector_reachable a2 v = true := by
  rw [vector_reachable_iff] at h ⊢
  obtain ⟨hcb, hall⟩ := h
  have hle := (causally_before_iff _ _).mp hcb
  obtain ⟨_, hlinked, hidx, _, hlen⟩ := invariant_user a hinv user hu
  refine ⟨?_, ?_⟩
  · rw [causally_before_iff]
    intro id
    rw [hcur, get_add]
    split
    · rename_i hid
      have h1 := hle user.id
      rw [hlen] at h1
      rw [hlen, guint_add_small _ _ (by have := hidx.2.2; omega), hid]
      omega
    · exact hle id
  · intro u2 hu2
    rw [husers] at hu2
    obtain ⟨u, hmem, rfl⟩ := List.mem_map.mp hu2
    obtain ⟨hid, hlog⟩ := hF u hmem
    rw [hid, hlog]
    by_cases hsame : u.id = user.id
    · have hueq : u = user := eq_of_nodup_ids a.users hinv.1 u user hmem hu hsame
      subst hueq
      rw [if_pos rfl, component_reachable_appended u.request_log log2 [e] hlinked hb hent v _
        (by rw [← hlen]; exact hle u.id)]
      exact hall u hmem
    · rw [if_neg hsame]
      exact hall u hmem

/-- One executed and recorded request keeps the invariant, provided the vector of
the recorded request is reachable in the new state. -/
theorem reachability_invariant_step (a a2 : InfAdoptedAlgorithm Op Buf)
    (hinv : reachability_invariant a) (user : InfAdoptedUser Op) (hu : user ∈ a.users)
    (log2 : InfAdoptedRequestLog Op) (r : InfAdoptedRequest Op)
    (hadd : inf_adopted_request_log_add_request user.request_log r = .ok log2)
    (F : InfAdoptedUser Op → InfAdoptedUser Op)
    (hF : ∀ u ∈ a.users, (F u).id = u.id ∧
      (F u).request_log = if u.id = user.id then log2 else u.request_log)
    (husers : a2.users = a.users.map F)
    (hcur : a2.current = inf_adopted_state_vector_add a.current user.id 1)
    (hsmall : logs_small a2)
    (hnew : vector_reachable a2 r.vector = true) :
    reachability_invariant a2 := by
  obtain ⟨hown, hlinked, hidx, hstacks, hlen⟩ := invariant_user a hinv user hu
  obtain ⟨hend2, huid2, hb2, _, _, e, hent, her⟩ :=
    add_request_get_end user.request_log log2 r hadd
  obtain ⟨hlinked2, hstacks2, _⟩ :=
    add_request_linked user.request_log log2 r hlinked hstacks hidx hadd
  have hFuser := hF user hu
  rw [if_pos rfl] at hFuser
  have hmem2 : F user ∈ a2.users := by
    rw [husers]
    exact List.mem_map_of_mem F hu
  have hidx2 : log_indexed log2 := by
    apply add_request_indexed user.request_log log2 r hidx hadd
    have := hsmall (F user) hmem2
    rw [hFuser.2] at this
    exact this
  have hids : a2.users.map (fun u => u.id) = a.users.map (fun u => u.id) := by
    rw [husers, List.map_map]
    apply List.map_congr_left
    intro u hmem
    exact (hF u hmem).1
  refine ⟨by rw [hids]; exact hinv.1, ?_, ?_, ?_, ?_⟩
  · intro u2 hu2
    rw [husers] at hu2
    obtain ⟨u, hmem, rfl⟩ := List.mem_map.mp hu2
    obtain ⟨hid, hlog⟩ := hF u hmem
    rw [hid, hlog]
    by_cases hsame : u.id = user.id
    · rw [if_pos hsame, hsame, huid2]
      exact ⟨hown, hidx2⟩
    · rw [if_neg hsame]
      exact hinv.2.1 u hmem
  · intro u2 hu2
    rw [husers] at hu2
    obtain ⟨u, hmem, rfl⟩ := List.mem_map.mp hu2
    obtain ⟨hid, hlog⟩ := hF u hmem
    rw [hid, hlog, hcur, get_add]
    by_cases hsame : u.id = user.id
    · have hueq : u = user := eq_of_nodup_ids a.users hinv.1 u user hmem hu hsame
      subst hueq
      rw [if_pos rfl, if_pos rfl, hend2, hinv.2.2.1 u hmem]
    · rw [if_neg hsame, if_neg hsame]
      exact hinv.2.2.1 u hmem
  · intro u2 hu2
    rw [husers] at hu2
    obtain ⟨u, hmem, rfl⟩ := List.mem_map.mp hu2
    obtain ⟨hid, hlog⟩ := hF u hmem
    rw [hlog]
    by_cases hsame : u.id = user.id
    · rw [if_pos hsame]
      exact ⟨hlinked2, hstacks2⟩
    · rw [if_neg hsame]
      exact hinv.2.2.2.1 u hmem
  · intro u2 hu2 x hx
    rw [husers] at hu2
    obtain ⟨u, hmem, rfl⟩ := List.mem_map.mp hu2
    obtain ⟨hid, hlog⟩ := hF u hmem
    rw [hlog] at hx
    have hold : ∀ y, (∃ w ∈ a.users, y ∈ w.request_log.entries) →
        vector_reachable a2 y.request.vector = true := by
      rintro y ⟨w, hw, hy⟩
      exact vector_reachable_step a a2 hinv user hu log2 e hent hb2 F hF husers hcur _
        (hinv.2.2.2.2 w hw y hy)
    by_cases hsame : u.id = user.id
    · rw [if_pos hsame, hent] at hx
      simp only [List.mem_append, List.mem_singleton] at hx
      rcases hx with hx | hx
      · exact hold x ⟨user, hu, hx⟩
      · rw [hx, her]
        exact hnew
    · rw [if_neg hsame] at hx
      exact hold x ⟨u, hmem, hx⟩

end InvariantStep

section UndoRedoReach

variable {Op Buf : Type}

/-- The vector recorded for an Undo or Redo, the vector of the original request
with the issuer's component set to the new slot, is reachable in the new state. -/
theorem undo_redo_vector_reachable (a a2 : InfAdoptedAlgorithm Op Buf)
    (hinv : reachability_invariant a) (user : InfAdoptedUser Op) (hu : user ∈ a.users)
    (log2 : InfAdoptedRequestLog Op) (e : InfAdoptedRequestLogEntry Op)
    (hent : log2.entries = user.request_log.entries ++ [e])
    (hb : log2.log_begin = user.request_log.log_begin)
    (F : InfAdoptedUser Op → InfAdoptedUser Op)
    (hF : ∀ u ∈ a.users, (F u).id = u.id ∧
      (F u).request_log = if u.id = user.id then log2 else u.request_log)
    (husers : a2.users = a.users.map F)
    (hcur : a2.current = inf_adopted_state_vector_add a.current user.id 1)
    (eo : InfAdoptedRequestLogEntry Op) (o : Nat) (v : InfAdoptedStateVector)
    (hget : user.request_log.entries.get? o = some eo)
    (hvec : v = inf_adopted_state_vector_set eo.request.vector user.id
      user.request_log.entries.length)
    (hland : landing user.request_log user.request_log.entries.length = some o ∨
      landing user.request_log user.request_log.entries.length =
        landing user.request_log o) :
    vector_reachable a2 v = true := by
  obtain ⟨hown, hlinked, hidx, _, hlen⟩ := invariant_user a hinv user hu
  have h0 := hlinked.1
  obtain ⟨hslot, heown, ho⟩ := entry_indexed user.request_log h0 hidx o eo hget
  have hmemo : eo ∈ user.request_log.entries := List.get?_mem hget
  obtain ⟨hcbo, hallo⟩ := (vector_reachable_iff a _).mp (hinv.2.2.2.2 user hu eo hmemo)
  have hleo := (causally_before_iff _ _).mp hcbo
  have hcomp : inf_adopted_state_vector_get eo.request.vector user.id = o := by
    rw [← hown, ← heown]
    exact hslot
  have hle : ∀ id, inf_adopted_state_vector_get eo.request.vector id ≤
      inf_adopted_state_vector_get v id := by
    intro id
    rw [hvec, get_set]
    split
    · rename_i hid
      rw [hid, hcomp]
      omega
    · exact Nat.le_refl _
  have hvp : inf_adopted_state_vector_get v user.id = user.request_log.entries.length := by
    rw [hvec, get_set, if_pos rfl]
  have hsmall := hidx.2.2
  rw [vector_reachable_iff]
  refine ⟨?_, ?_⟩
  · rw [causally_before_iff]
    intro id
    rw [hcur, get_add, hvec, get_set]
    by_cases hid : id = user.id
    · rw [if_pos hid, if_pos hid, hlen, guint_add_small _ _ (by omega)]
      omega
    · rw [if_neg hid, if_neg hid]
      exact hleo id
  · intro u2 hu2
    rw [husers] at hu2
    obtain ⟨u, hmem, rfl⟩ := List.mem_map.mp hu2
    obtain ⟨hid, hlog⟩ := hF u hmem
    rw [hid, hlog]
    by_cases hsame : u.id = user.id
    · have hueq : u = user := eq_of_nodup_ids a.users hinv.1 u user hmem hu hsame
      subst hueq
      rw [if_pos rfl, hvp, component_reachable_appended u.request_log log2 [e] hlinked hb hent
        v _ (Nat.le_refl _)]
      rcases hland with hland | hland
      · unfold component_reachable
        rw [hland]
        simp only [get_request_linked u.request_log h0, hget, Option.map_some']
        rw [causally_before_iff]
        intro id
        rw [get_add, heown, hown]
        by_cases hid2 : id = u.id
        · rw [if_pos hid2, hid2, hcomp, hvp, guint_add_small _ _ (by omega)]
          omega
        · rw [if_neg hid2]
          exact hle id
      · have h1 := hallo u hmem
        rw [hcomp] at h1
        have h2 := component_reachable_mono u.request_log _ v o hle h1
        unfold component_reachable at h2 ⊢
        rw [hland]
        exact h2
    · rw [if_neg hsame]
      have h1 := hallo u hmem
      have hsame2 : inf_adopted_state_vector_get v u.id =
          inf_adopted_state_vector_get eo.request.vector u.id := by
        rw [hvec, get_set, if_neg hsame]
      rw [hsame2]
      exact component_reachable_mono u.request_log _ v _ hle h1

/-- The original request of an Undo or Redo that would be the next request of a
linked log: the original of the first target. -/
theorem original_request_next (log : InfAdoptedRequestLog Op) (hlinked : log_linked log)
    (hidx : log_indexed log) (request : InfAdoptedRequest Op)
    (hslot : request_slot request = log.entries.length) (a : Nat)
    (ea eo : InfAdoptedRequestLogEntry Op)
    (htarget : (request.type = InfAdoptedRequestType.UNDO ∧
        log.undo_targets.head? = some a) ∨
      (request.type = InfAdoptedRequestType.REDO ∧ log.redo_targets.head? = some a))
    (hgeta : log.entries.get? a = some ea)
    (hgeto : log.entries.get? ea.original = some eo) :
    inf_adopted_request_log_original_request log request = some eo.request := by
  have h0 := hlinked.1
  have hend : inf_adopted_request_log_get_end log = log.entries.length := by
    rw [log_indexed_end log hidx, h0, Nat.zero_add]
  have hnone : inf_adopted_request_log_get_entry log (request_slot request) = none := by
    rw [get_entry_linked log h0, hslot, List.get?_eq_none.mpr (Nat.le_refl _)]
  unfold inf_adopted_request_log_original_request prev_associated_slot
  rw [hnone, hend]
  rcases htarget with ⟨ht, hh⟩ | ⟨ht, hh⟩
  · simp only [ht, hslot, if_true, hh, get_entry_linked log h0, hgeta,
      get_request_linked log h0, hgeto, Option.map_some']
  · simp only [ht, hslot, if_true, hh, get_entry_linked log h0, hgeta,
      get_request_linked log h0, hgeto, Option.map_some']

end UndoRedoReach

section ExecuteKeeps

variable {Op Buf : Type}

theorem mem_of_logs_eq (users users2 : List (InfAdoptedUser Op))
    (h : users2.map (fun u => (u.id, u.request_log)) =
      users.map (fun u => (u.id, u.request_log)))
    (u2 : InfAdoptedUser Op) (hu2 : u2 ∈ users2) :
    ∃ u ∈ users, u.id = u2.id ∧ u.request_log = u2.request_log := by
  have hm := List.mem_map_of_mem (fun u => (u.id, u.request_log)) hu2
  rw [h] at hm
  obtain ⟨u, hu, he⟩ := List.mem_map.mp hm
  simp only [Prod.mk.injEq] at he
  exact ⟨u, hu, he.1, he.2⟩

theorem vector_reachable_congr (a b : InfAdoptedAlgorithm Op Buf)
    (husers : b.users.map (fun u => (u.id, u.request_log)) =
      a.users.map (fun u => (u.id, u.request_log)))
    (hcur : b.current = a.current) (v : InfAdoptedStateVector) :
    vector_reachable b v = vector_reachable a v := by
  unfold vector_reachable
  rw [hcur]
  congr 1
  have key : ∀ users : List (InfAdoptedUser Op),
      users.all (fun u =>
        component_reachable u.request_log v (inf_adopted_state_vector_get v u.id)) =
      (users.map (fun u => (u.id, u.request_log))).all (fun x =>
        component_reachable x.2 v (inf_adopted_state_vector_get v x.1)) := by
    intro users
    induction users with
    | nil => rfl
    | cons u rest ih => simp only [List.all_cons, List.map_cons, ih]
  rw [key, key, husers]

/-- The invariant reads only current and the ids and logs of the users. -/
theorem reachability_invariant_congr (a b : InfAdoptedAlgorithm Op Buf)
    (husers : b.users.map (fun u => (u.id, u.request_log)) =
      a.users.map (fun u => (u.id, u.request_log)))
    (hcur : b.current = a.current) (hinv : reachability_invariant a) :
    reachability_invariant b := by
  obtain ⟨h1, h2, h3, h4, h5⟩ := hinv
  have hids : b.users.map (fun u => u.id) = a.users.map (fun u => u.id) := by
    have := congrArg (List.map Prod.fst) husers
    simpa [List.map_map] using this
  refine ⟨by rw [hids]; exact h1, logs_indexed_congr a b husers h2, ?_, ?_, ?_⟩
  · intro u2 hu2
    obtain ⟨u, hu, hid, hlog⟩ := mem_of_logs_eq a.users b.users husers u2 hu2
    rw [hcur, ← hid, ← hlog]
    exact h3 u hu
  · intro u2 hu2
    obtain ⟨u, hu, _, hlog⟩ := mem_of_logs_eq a.users b.users husers u2 hu2
    rw [← hlog]
    exact h4 u hu
  · intro u2 hu2 e he
    obtain ⟨u, hu, _, hlog⟩ := mem_of_logs_eq a.users b.users husers u2 hu2
    rw [← hlog] at he
    rw [vector_reachable_congr a b husers hcur]
    exact h5 u hu e he

/-- execute_request keeps the invariant, as long as the logs stay small. -/
theorem execute_request_reachability (fuel : Nat) (O : InfAdoptedOperationClass Op Buf)
    (a a2 : InfAdoptedAlgorithm Op Buf) (request : InfAdoptedRequest Op) (apply : Bool)
    (hinv : reachability_invariant a)
    (h : inf_adopted_algorithm_execute_request fuel O a request apply = .ok a2)
    (hsmall : logs_small a2) : reachability_invariant a2 := by
  obtain ⟨user, log_request, translated, recorded, hcb, hlook, hl, ht, hrec, heq⟩ :=
    execute_request_ok fuel O a a2 request apply h
  obtain ⟨hmem, hid⟩ := lookup_mem a.users request.user_id user hlook
  obtain ⟨f1, f2, f3, f4, f5, f6⟩ := execute_request_result_frame O a request apply user
    translated recorded
  rw [← heq] at f1 f2 f3 f4 f5 f6
  cases hr : execute_request_recorded O a.buffer request log_request translated with
  | none =>
    rw [hr] at hrec
    simp only at hrec
    subst hrec
    simp only at f4
    exact reachability_invariant_congr a a2 (by rw [f6 rfl]) f4 hinv
  | some r =>
    rw [hr] at hrec
    simp only at hrec
    obtain ⟨log2, hadd, hrecorded⟩ := hrec
    subst hrecorded
    simp only at f4
    rw [← hid] at f4
    have husers := execute_request_result_users O a request apply user translated log2 hinv.1
    rw [← heq] at husers
    obtain ⟨hown, hlinked, hidx, hstacks, hlen⟩ := invariant_user a hinv user hmem
    obtain ⟨_, _, hb2, _, _, e0, hent0, _⟩ :=
      add_request_get_end user.request_log log2 r hadd
    have hF : ∀ u ∈ a.users,
        ((fun (u : InfAdoptedUser Op) =>
          if a.local_users.any (fun l => decide (l.user = u.id)) then
            { (if u.id = request.user_id then { u with request_log := log2 } else u) with
              vector := inf_adopted_state_vector_add a.current request.user_id 1 }
          else (if u.id = request.user_id then { u with request_log := log2 } else u)) u).id
          = u.id ∧
        ((fun (u : InfAdoptedUser Op) =>
          if a.local_users.any (fun l => decide (l.user = u.id)) then
            { (if u.id = request.user_id then { u with request_log := log2 } else u) with
              vector := inf_adopted_state_vector_add a.current request.user_id 1 }
          else (if u.id = request.user_id then { u with request_log := log2 } else u))
            u).request_log = if u.id = user.id then log2 else u.request_log := by
      intro u _
      rw [hid]
      by_cases h1 : a.local_users.any (fun l => decide (l.user = u.id)) = true
      · simp only [h1, if_true]
        by_cases h2 : u.id = request.user_id
        · simp only [h2, if_true, and_self]
        · simp only [h2, if_false, and_self]
      · simp only [h1, Bool.false_eq_true, if_false]
        by_cases h2 : u.id = request.user_id
        · simp only [h2, if_true, and_self]
        · simp only [h2, if_false, and_self]
    obtain ⟨hruser, hrtype, hspec_do, hspec_not⟩ :=
      recorded_request_spec O a.buffer user.request_log request log_request translated r hl hr
    apply reachability_invariant_step a a2 hinv user hmem log2 r hadd _ hF husers f4 hsmall
    by_cases hdo : request.type = InfAdoptedRequestType.DO
    · obtain ⟨hvec, hlr⟩ := hspec_do hdo
      rw [hlr] at ht
      obtain ⟨f, hf⟩ := translate_request_reach O a fuel request a.current translated ht hdo
      have hreach := is_reachable_value f a hinv request.vector true hf
      rw [hvec]
      exact vector_reachable_step a a2 hinv user hmem log2 e0 hent0 hb2 _ hF husers f4 _ hreach
    · obtain ⟨original, horig, hvec⟩ := hspec_not hdo
      obtain ⟨_, _, e, hent, her, hslot, hundo, hredo⟩ :=
        add_request_linked user.request_log log2 r hlinked hstacks hidx hadd
      have hreq_slot : request_slot request = user.request_log.entries.length := by
        rw [← hslot]
        unfold request_slot
        rw [hruser, hvec, get_set, if_pos rfl]
      have hval : inf_adopted_state_vector_get request.vector request.user_id =
          user.request_log.entries.length := hreq_slot
      rw [hval, ← hid] at hvec
      cases hty : request.type with
      | DO => exact absurd hty hdo
      | UNDO =>
        obtain ⟨t, ea, eo, hhead, hgeta, hgeto, _, hland⟩ := hundo (by rw [hrtype, hty])
        have ho := original_request_next user.request_log hlinked hidx request hreq_slot t ea
          eo (Or.inl ⟨hty, hhead⟩) hgeta hgeto
        rw [horig] at ho
        cases ho
        exact undo_redo_vector_reachable a a2 hinv user hmem log2 e hent hb2 _ hF husers f4
          eo ea.original r.vector hgeto hvec (Or.inl hland)
      | REDO =>
        obtain ⟨t, ea, eo, hhead, hgeta, hgeto, _, hland⟩ := hredo (by rw [hrtype, hty])
        have ho := original_request_next user.request_log hlinked hidx request hreq_slot t ea
          eo (Or.inr ⟨hty, hhead⟩) hgeta hgeto
        rw [horig] at ho
        cases ho
        exact undo_redo_vector_reachable a a2 hinv user hmem log2 e hent hb2 _ hF husers f4
          eo ea.original r.vector hgeto hvec (Or.inr hland)

end ExecuteKeeps

section SmallLogs

variable {Op Buf : Type}

theorem execute_request_result_user_log (a : InfAdoptedAlgorithm Op Buf)
    (request : InfAdoptedRequest Op) (log2 : InfAdoptedRequestLog Op)
    (u : InfAdoptedUser Op) :
    ((fun (u : InfAdoptedUser Op) =>
      if a.local_users.any (fun l => decide (l.user = u.id)) then
        { (if u.id = request.user_id then { u with request_log := log2 } else u) with
          vector := inf_adopted_state_vector_add a.current request.user_id 1 }
      else (if u.id = request.user_id then { u with request_log := log2 } else u)) u).id
      = u.id ∧
    ((fun (u : InfAdoptedUser Op) =>
      if a.local_users.any (fun l => decide (l.user = u.id)) then
        { (if u.id = request.user_id then { u with request_log := log2 } else u) with
          vector := inf_adopted_state_vector_add a.current request.user_id 1 }
      else (if u.id = request.user_id then { u with request_log := log2 } else u))
        u).request_log = if u.id = request.user_id then log2 else u.request_log := by
  by_cases h1 : a.local_users.any (fun l => decide (l.user = u.id)) = true
  · simp only [h1, if_true]
    by_cases h2 : u.id = request.user_id
    · simp only [h2, if_true, and_self]
    · simp only [h2, if_false, and_self]
  · simp only [h1, Bool.false_eq_true, if_false]
    by_cases h2 : u.id = request.user_id
    · simp only [h2, if_true, and_self]
    · simp only [h2, if_false, and_self]

theorem logs_small_of_sizes (a b : InfAdoptedAlgorithm Op Buf)
    (h : b.users.map (fun u => u.request_log.log_begin + u.request_log.entries.length) =
      a.users.map (fun u => u.request_log.log_begin + u.request_log.entries.length))
    (hs : logs_small a) : logs_small b := by
  intro u2 hu2
  have hm := List.mem_map_of_mem
    (fun (u : InfAdoptedUser Op) => u.request_log.log_begin + u.request_log.entries.length) hu2
  rw [h] at hm
  obtain ⟨u, hu, he⟩ := List.mem_map.mp hm
  have := hs u hu
  simp only at he
  omega

theorem sizes_of_logs (users users2 : List (InfAdoptedUser Op))
    (h : users2.map (fun u => (u.id, u.request_log)) =
      users.map (fun u => (u.id, u.request_log))) :
    users2.map (fun u => u.request_log.log_begin + u.request_log.entries.length) =
      users.map (fun u => u.request_log.log_begin + u.request_log.entries.length) := by
  have := congrArg (List.map (fun (x : Nat × InfAdoptedRequestLog Op) =>
    x.2.log_begin + x.2.entries.length)) h
  simpa [List.map_map] using this

theorem perform_removals_sizes (algorithm : InfAdoptedAlgorithm Op Buf)
    (removals : List (InfAdoptedAlgorithmLogRemoval Op)) :
    (inf_adopted_algorithm_perform_removals algorithm removals).users.map
        (fun u => u.request_log.log_begin + u.request_log.entries.length) =
      algorithm.users.map
        (fun u => u.request_log.log_begin + u.request_log.entries.length) := by
  induction removals generalizing algorithm with
  | nil => rfl
  | cons removal rest ih =>
    unfold inf_adopted_algorithm_perform_removals
    by_cases hb : removal.blockers.isEmpty = true
    · simp only [hb, if_true]
      rw [ih]
      apply update_user_map_eq
      intro u
      simp only [inf_adopted_request_log_remove_requests, List.length_drop]
      omega
    · simp only [hb]
      exact ih algorithm

/-- The closing steps of the entry points do not change the extent of any log. -/
theorem update_logs_and_undo_redo_sizes (a a2 : InfAdoptedAlgorithm Op Buf)
    (h : update_logs_and_undo_redo a = .ok a2) :
    a2.users.map (fun u => u.request_log.log_begin + u.request_log.entries.length) =
      a.users.map (fun u => u.request_log.log_begin + u.request_log.entries.length) := by
  unfold update_logs_and_undo_redo at h
  split at h
  · cases h
  · rename_i mid hmid
    unfold inf_adopted_algorithm_update_request_logs at hmid
    split at hmid
    · cases hmid
    · simp only [Except.ok.injEq] at hmid
      unfold inf_adopted_algorithm_update_undo_redo at h
      rw [(update_undo_redo_loop_frame _ _ _ _ h).1, ← hmid]
      exact perform_removals_sizes _ _

/-- With indexed logs the closing steps change neither the users' logs nor
current. -/
theorem update_logs_and_undo_redo_logs (a a2 : InfAdoptedAlgorithm Op Buf)
    (hlogs : logs_indexed a) (h : update_logs_and_undo_redo a = .ok a2) :
    a2.users = a.users ∧ a2.current = a.current := by
  unfold update_logs_and_undo_redo at h
  rw [update_request_logs_indexed a hlogs] at h
  simp only at h
  unfold inf_adopted_algorithm_update_undo_redo at h
  have := update_undo_redo_loop_frame _ _ _ _ h
  exact ⟨this.1, this.2.1⟩

/-- The logs only grow in execute_request: if they are small afterwards, they were
small before. -/
theorem execute_request_small (fuel : Nat) (O : InfAdoptedOperationClass Op Buf)
    (a a2 : InfAdoptedAlgorithm Op Buf) (request : InfAdoptedRequest Op) (apply : Bool)
    (hnodup : (a.users.map (fun u => u.id)).Nodup)
    (h : inf_adopted_algorithm_execute_request fuel O a request apply = .ok a2)
    (hsmall : logs_small a2) : logs_small a := by
  obtain ⟨user, log_request, translated, recorded, _, hlook, _, _, hrec, heq⟩ :=
    execute_request_ok fuel O a a2 request apply h
  cases hr : execute_request_recorded O a.buffer request log_request translated with
  | none =>
    rw [hr] at hrec
    simp only at hrec
    subst hrec
    have := (execute_request_result_frame O a request apply user translated none).2.2.2.2.2 rfl
    rw [← heq] at this
    intro u hu
    rw [← this] at hu
    exact hsmall u hu
  | some r =>
    rw [hr] at hrec
    simp only at hrec
    obtain ⟨log2, hadd, hrecorded⟩ := hrec
    subst hrecorded
    have husers := execute_request_result_users O a request apply user translated log2 hnodup
    rw [← heq] at husers
    obtain ⟨_, _, hb2, _, _, e0, hent0, _⟩ :=
      add_request_get_end user.request_log log2 r hadd
    obtain ⟨hmem, hid⟩ := lookup_mem a.users request.user_id user hlook
    intro u hu
    have hu2 := List.mem_map_of_mem
      (fun (u : InfAdoptedUser Op) =>
        if a.local_users.any (fun l => decide (l.user = u.id)) then
          { (if u.id = request.user_id then { u with request_log := log2 } else u) with
            vector := inf_adopted_state_vector_add a.current request.user_id 1 }
        else (if u.id = request.user_id then { u with request_log := log2 } else u)) hu
    rw [← husers] at hu2
    have hs := hsmall _ hu2
    rw [(execute_request_result_user_log a request log2 u).2] at hs
    by_cases hsame : u.id = request.user_id
    · have hueq : u = user := eq_of_nodup_ids a.users hnodup u user hu hmem (hsame.trans hid.symm)
      subst hueq
      rw [if_pos hsame, hb2, hent0] at hs
      simp only [List.length_append, List.length_singleton] at hs
      omega
    · rw [if_neg hsame] at hs
      exact hs

end SmallLogs

section ExecuteIds

variable {Op Buf : Type}

theorem execute_request_ids (fuel : Nat)
    (O : InfAdoptedOperationClass Op Buf) (a a2 : InfAdoptedAlgorithm Op Buf)
    (request : InfAdoptedRequest Op) (apply : Bool)
    (hnodup : (a.users.map (fun u => u.id)).Nodup)
    (h : inf_adopted_algorithm_execute_request fuel O a request apply = .ok a2) :
    (a2.users.map (fun u => u.id)).Nodup := by
  obtain ⟨user, log_request, translated, recorded, _, _, _, _, hrec, heq⟩ :=
    execute_request_ok fuel O a a2 request apply h
  cases hr : execute_request_recorded O a.buffer request log_request translated with
  | none =>
    rw [hr] at hrec
    simp only at hrec
    subst hrec
    have := (execute_request_result_frame O a request apply user translated none).2.2.2.2.2 rfl
    rw [← heq] at this
    rw [this]
    exact hnodup
  | some r =>
    rw [hr] at hrec
    simp only at hrec
    obtain ⟨log2, _, hrecorded⟩ := hrec
    subst hrecorded
    have husers := execute_request_result_users O a request apply user translated log2 hnodup
    rw [← heq] at husers
    rw [husers, List.map_map]
    have : (fun u => u.id) ∘ (fun (u : InfAdoptedUser Op) =>
        if a.local_users.any (fun l => decide (l.user = u.id)) then
          { (if u.id = request.user_id then { u with request_log := log2 } else u) with
            vector := inf_adopted_state_vector_add a.current request.user_id 1 }
        else (if u.id = request.user_id then { u with request_log := log2 } else u)) =
        (fun u => u.id) := by
      funext u
      exact (execute_request_result_user_log a request log2 u).1
    rw [this]
    exact hnodup

end ExecuteIds

section ReachabilityInvariant

variable {Op Buf : Type}

theorem generate_execute_reachability (fuel : Nat) (O : InfAdoptedOperationClass Op Buf)
    (a a2 : InfAdoptedAlgorithm Op Buf) (request : InfAdoptedRequest Op) (apply : Bool)
    (r : Option (InfAdoptedRequest Op)) (hinv : reachability_invariant a)
    (h : generate_execute fuel O a request apply = .ok (r, a2))
    (hsmall : logs_small a2) : reachability_invariant a2 := by
  unfold generate_execute at h
  rcases except_error_or_ok (inf_adopted_algorithm_execute_request fuel O a request apply)
    with ⟨e, h1⟩ | ⟨mid, h1⟩
  · rw [h1] at h; simp at h
  · rw [h1] at h
    simp only at h
    rcases except_error_or_ok (update_logs_and_undo_redo mid) with ⟨e, h2⟩ | ⟨fin, h2⟩
    · rw [h2] at h; simp at h
    · rw [h2] at h
      simp only [Except.ok.injEq, Prod.mk.injEq] at h
      obtain ⟨_, hfin⟩ := h
      subst hfin
      have hsmid : logs_small mid :=
        logs_small_of_sizes fin mid (update_logs_and_undo_redo_sizes mid fin h2).symm hsmall
      have hmid := execute_request_reachability fuel O a mid request apply hinv h1 hsmid
      obtain ⟨hu, hc⟩ := update_logs_and_undo_redo_logs mid fin hmid.2.1 h2
      exact reachability_invariant_congr mid fin (by rw [hu]) hc hmid

theorem receive_request_reachability (fuel : Nat) (O : InfAdoptedOperationClass Op Buf)
    (a a2 : InfAdoptedAlgorithm Op Buf) (request : InfAdoptedRequest Op) (accepted : Bool)
    (hinv : reachability_invariant a)
    (h : inf_adopted_algorithm_receive_request fuel O a request = .ok (accepted, a2))
    (hsmall : logs_small a2) : reachability_invariant a2 := by
  unfold inf_adopted_algorithm_receive_request at h
  cases hu : inf_user_table_lookup_user_by_id a.users
      (inf_adopted_request_get_user_id request) with
  | none =>
    simp only [hu, Except.ok.injEq, Prod.mk.injEq] at h
    rw [← h.2]
    exact hinv
  | some user =>
    simp only [hu] at h
    cases hl : user.flags_local with
    | true =>
      simp only [hl, if_true, Except.ok.injEq, Prod.mk.injEq] at h
      rw [← h.2]
      exact hinv
    | false =>
      simp only [hl, Bool.false_eq_true, if_false] at h
      -- the state after the issuer's vector was recorded
      have hrec : ∀ b : InfAdoptedAlgorithm Op Buf,
          b = (if inf_adopted_state_vector_causally_before user.vector
              (inf_adopted_request_get_vector request) then
            { a with
              users := inf_adopted_user_set_vector a.users user.id
                (if inf_adopted_request_affects_buffer O request then
                  inf_adopted_state_vector_add
                    (inf_adopted_state_vector_copy (inf_adopted_request_get_vector request))
                    user.id 1
                else inf_adopted_state_vector_copy (inf_adopted_request_get_vector request)) }
          else a) → reachability_invariant b := by
        intro b hb
        subst hb
        split
        · exact reachability_invariant_congr a _ (set_vector_logs _ _ _) rfl hinv
        · exact hinv
      generalize hgen : (if inf_adopted_state_vector_causally_before user.vector
              (inf_adopted_request_get_vector request) then
            { a with
              users := inf_adopted_user_set_vector a.users user.id
                (if inf_adopted_request_affects_buffer O request then
                  inf_adopted_state_vector_add
                    (inf_adopted_state_vector_copy (inf_adopted_request_get_vector request))
                    user.id 1
                else inf_adopted_state_vector_copy (inf_adopted_request_get_vector request)) }
          else a) = a1 at h
      have hinv1 : reachability_invariant a1 := hrec a1 hgen.symm
      split at h
      · cases h
      · rename_i processed hp
        split at h
        · cases h
        · rename_i fin hfin
          simp only [Except.ok.injEq, Prod.mk.injEq] at h
          obtain ⟨_, h2⟩ := h
          subst h2
          have hsp : logs_small processed :=
            logs_small_of_sizes fin processed
              (update_logs_and_undo_redo_sizes processed fin hfin).symm hsmall
          have hQ : logs_small processed → reachability_invariant processed := by
            split at hp
            · simp only [Except.ok.injEq] at hp
              subst hp
              intro _
              exact reachability_invariant_congr a1 _ rfl rfl hinv1
            · split at hp
              · cases hp
              · rename_i executed hex
                exact receive_request_drain_induction fuel O
                  (fun s => (s.users.map (fun u => u.id)).Nodup ∧
                    (logs_small s → reachability_invariant s))
                  (by
                    intro s q s2 hs hexec
                    refine ⟨(execute_request_ids fuel O s s2 q true
                      hs.1 hexec), ?_⟩
                    intro hs2
                    exact execute_request_reachability fuel O s s2 q true
                      (hs.2 (execute_request_small fuel O s s2 q true hs.1 hexec hs2))
                      hexec hs2)
                  (by
                    intro s q hs
                    exact ⟨hs.1, fun hsm =>
                      reachability_invariant_congr s _ rfl rfl (hs.2 hsm)⟩)
                  _ executed processed hp
                  ⟨execute_request_ids fuel O a1 executed request true
                      hinv1.1 hex,
                    fun hsm => execute_request_reachability fuel O a1 executed request true
                      hinv1 hex hsm⟩ |>.2
          have hproc := hQ hsp
          obtain ⟨hu2, hc2⟩ := update_logs_and_undo_redo_logs processed fin hproc.2.1 hfin
          exact reachability_invariant_congr processed fin (by rw [hu2]) hc2 hproc

end ReachabilityInvariant

section Session

variable {Op Buf : Type}

theorem ids_of_logs (users users2 : List (InfAdoptedUser Op))
    (h : users2.map (fun u => (u.id, u.request_log)) =
      users.map (fun u => (u.id, u.request_log))) :
    users2.map (fun u => u.id) = users.map (fun u => u.id) := by
  have := congrArg (List.map Prod.fst) h
  simpa [List.map_map] using this

/-- The closing steps of the entry points keep the user ids. -/
theorem update_logs_and_undo_redo_ids (a a2 : InfAdoptedAlgorithm Op Buf)
    (h : update_logs_and_undo_redo a = .ok a2) :
    a2.users.map (fun u => u.id) = a.users.map (fun u => u.id) :=
  ids_of_summary _ _ (update_logs_and_undo_redo_frame a a2 h).1

/-- The part shared by the generate functions keeps the ids distinct, and logs
that are small afterwards were small before. -/
theorem generate_execute_small (fuel : Nat) (O : InfAdoptedOperationClass Op Buf)
    (a a2 : InfAdoptedAlgorithm Op Buf) (request : InfAdoptedRequest Op) (apply : Bool)
    (r : Option (InfAdoptedRequest Op))
    (hnodup : (a.users.map (fun u => u.id)).Nodup)
    (h : generate_execute fuel O a request apply = .ok (r, a2)) :
    (a2.users.map (fun u => u.id)).Nodup ∧ (logs_small a2 → logs_small a) := by
  unfold generate_execute at h
  rcases except_error_or_ok (inf_adopted_algorithm_execute_request fuel O a request apply)
    with ⟨e, h1⟩ | ⟨mid, h1⟩
  · rw [h1] at h; simp at h
  · rw [h1] at h
    simp only at h
    rcases except_error_or_ok (update_logs_and_undo_redo mid) with ⟨e, h2⟩ | ⟨fin, h2⟩
    · rw [h2] at h; simp at h
    · rw [h2] at h
      simp only [Except.ok.injEq, Prod.mk.injEq] at h
      obtain ⟨_, hfin⟩ := h
      subst hfin
      refine ⟨?_, ?_⟩
      · rw [update_logs_and_undo_redo_ids mid fin h2]
        exact execute_request_ids fuel O a mid request apply hnodup h1
      · intro hs
        exact execute_request_small fuel O a mid request apply hnodup h1
          (logs_small_of_sizes fin mid (update_logs_and_undo_redo_sizes mid fin h2).symm hs)

/-- The generate functions for a Do either leave the state as it is or run the
shared part on a request. -/
theorem generate_forms (fuel : Nat) (O : InfAdoptedOperationClass Op Buf)
    (a : InfAdoptedAlgorithm Op Buf) (user : Nat) (operation : Op) :
    (inf_adopted_algorithm_generate_request fuel O a user operation = .ok (none, a) ∨
      ∃ request apply, inf_adopted_algorithm_generate_request fuel O a user operation =
        generate_execute fuel O a request apply) ∧
    (inf_adopted_algorithm_generate_request_noexec fuel O a user operation = .ok (none, a) ∨
      ∃ request apply, inf_adopted_algorithm_generate_request_noexec fuel O a user operation =
        generate_execute fuel O a request apply) := by
  refine ⟨?_, ?_⟩
  · unfold inf_adopted_algorithm_generate_request
    split
    · exact Or.inl rfl
    · split
      · exact Or.inl rfl
      · exact Or.inr ⟨_, _, rfl⟩
  · unfold inf_adopted_algorithm_generate_request_noexec
    split
    · exact Or.inl rfl
    · split
      · exact Or.inl rfl
      · exact Or.inr ⟨_, _, rfl⟩

/-- The generate functions for an Undo and a Redo either leave the state as it is
or run the shared part on a request. -/
theorem generate_undo_redo_forms (fuel : Nat) (O : InfAdoptedOperationClass Op Buf)
    (a : InfAdoptedAlgorithm Op Buf) (user : Nat) :
    (inf_adopted_algorithm_generate_undo fuel O a user = .ok (none, a) ∨
      ∃ request apply, inf_adopted_algorithm_generate_undo fuel O a user =
        generate_execute fuel O a request apply) ∧
    (inf_adopted_algorithm_generate_redo fuel O a user = .ok (none, a) ∨
      ∃ request apply, inf_adopted_algorithm_generate_redo fuel O a user =
        generate_execute fuel O a request apply) := by
  refine ⟨?_, ?_⟩
  · unfold inf_adopted_algorithm_generate_undo
    split
    · exact Or.inl rfl
    · split
      · exact Or.inl rfl
      · split
        · exact Or.inl rfl
        · exact Or.inr ⟨_, _, rfl⟩
  · unfold inf_adopted_algorithm_generate_redo
    split
    · exact Or.inl rfl
    · split
      · exact Or.inl rfl
      · split
        · exact Or.inl rfl
        · exact Or.inr ⟨_, _, rfl⟩

/-- What one step of a session has to keep for the reachability invariant. -/
theorem generate_form_step (fuel : Nat) (O : InfAdoptedOperationClass Op Buf)
    (a a2 : InfAdoptedAlgorithm Op Buf)
    (res : Except Failure (Option (InfAdoptedRequest Op) × InfAdoptedAlgorithm Op Buf))
    (hform : res = .ok (none, a) ∨
      ∃ request apply, res = generate_execute fuel O a request apply)
    (r : Option (InfAdoptedRequest Op)) (h : res = .ok (r, a2))
    (hnodup : (a.users.map (fun u => u.id)).Nodup) :
    (a2.users.map (fun u => u.id)).Nodup ∧ (logs_small a2 → logs_small a) ∧
      (reachability_invariant a → logs_small a2 → reachability_invariant a2) := by
  rcases hform with hf | ⟨request, apply, hf⟩
  · rw [hf] at h
    simp only [Except.ok.injEq, Prod.mk.injEq] at h
    rw [← h.2]
    exact ⟨hnodup, fun hs => hs, fun hi _ => hi⟩
  · rw [hf] at h
    obtain ⟨h1, h2⟩ := generate_execute_small fuel O a a2 request apply r hnodup h
    exact ⟨h1, h2, fun hi hs => generate_execute_reachability fuel O a a2 request apply r hi h hs⟩

theorem receive_request_small (fuel : Nat) (O : InfAdoptedOperationClass Op Buf)
    (a a2 : InfAdoptedAlgorithm Op Buf) (request : InfAdoptedRequest Op) (accepted : Bool)
    (hnodup : (a.users.map (fun u => u.id)).Nodup)
    (h : inf_adopted_algorithm_receive_request fuel O a request = .ok (accepted, a2)) :
    (a2.users.map (fun u => u.id)).Nodup ∧ (logs_small a2 → logs_small a) := by
  unfold inf_adopted_algorithm_receive_request at h
  cases hu : inf_user_table_lookup_user_by_id a.users
      (inf_adopted_request_get_user_id request) with
  | none =>
    simp only [hu, Except.ok.injEq, Prod.mk.injEq] at h
    rw [← h.2]
    exact ⟨hnodup, fun hs => hs⟩
  | some user =>
    simp only [hu] at h
    cases hl : user.flags_local with
    | true =>
      simp only [hl, if_true, Except.ok.injEq, Prod.mk.injEq] at h
      rw [← h.2]
      exact ⟨hnodup, fun hs => hs⟩
    | false =>
      simp only [hl, Bool.false_eq_true, if_false] at h
      have hrec : ∀ b : InfAdoptedAlgorithm Op Buf,
          b = (if inf_adopted_state_vector_causally_before user.vector
              (inf_adopted_request_get_vector request) then
            { a with
              users := inf_adopted_user_set_vector a.users user.id
                (if inf_adopted_request_affects_buffer O request then
                  inf_adopted_state_vector_add
                    (inf_adopted_state_vector_copy (inf_adopted_request_get_vector request))
                    user.id 1
                else inf_adopted_state_vector_copy (inf_adopted_request_get_vector request)) }
          else a) →
          (b.users.map (fun u => u.id)).Nodup ∧ (logs_small b → logs_small a) := by
        intro b hb
        subst hb
        split
        · refine ⟨?_, ?_⟩
          · rw [ids_of_logs _ _ (set_vector_logs a.users _ _)]
            exact hnodup
          · exact logs_small_of_sizes _ a
              (sizes_of_logs _ _ (set_vector_logs a.users _ _)).symm
        · exact ⟨hnodup, fun hs => hs⟩
      generalize hgen : (if inf_adopted_state_vector_causally_before user.vector
              (inf_adopted_request_get_vector request) then
            { a with
              users := inf_adopted_user_set_vector a.users user.id
                (if inf_adopted_request_affects_buffer O request then
                  inf_adopted_state_vector_add
                    (inf_adopted_state_vector_copy (inf_adopted_request_get_vector request))
                    user.id 1
                else inf_adopted_state_vector_copy (inf_adopted_request_get_vector request)) }
          else a) = a1 at h
      have h1 := hrec a1 hgen.symm
      split at h
      · cases h
      · rename_i processed hp
        split at h
        · cases h
        · rename_i fin hfin
          simp only [Except.ok.injEq, Prod.mk.injEq] at h
          obtain ⟨_, h2⟩ := h
          subst h2
          have hproc : (processed.users.map (fun u => u.id)).Nodup ∧
              (logs_small processed → logs_small a1) := by
            split at hp
            · simp only [Except.ok.injEq] at hp
              subst hp
              exact ⟨h1.1, fun hs => hs⟩
            · split at hp
              · cases hp
              · rename_i executed hex
                exact receive_request_drain_induction fuel O
                  (fun s => (s.users.map (fun u => u.id)).Nodup ∧
                    (logs_small s → logs_small a1))
                  (by
                    intro s q s2 hs hexec
                    exact ⟨execute_request_ids fuel O s s2 q true hs.1 hexec,
                      fun hs2 => hs.2 (execute_request_small fuel O s s2 q true hs.1 hexec hs2)⟩)
                  (by
                    intro s q hs
                    exact hs)
                  _ executed processed hp
                  ⟨execute_request_ids fuel O a1 executed request true h1.1 hex,
                    fun hsm => execute_request_small fuel O a1 executed request true
                      h1.1 hex hsm⟩
          refine ⟨?_, ?_⟩
          · rw [update_logs_and_undo_redo_ids processed fin hfin]
            exact hproc.1
          · intro hs
            exact h1.2 (hproc.2 (logs_small_of_sizes fin processed
              (update_logs_and_undo_redo_sizes processed fin hfin).symm hs))

/-- One call of an entry point keeps the ids distinct; logs that are small after
it were small before it; and it keeps the reachability invariant when the logs are
small after it. -/
theorem perform_call_step (fuel : Nat) (O : InfAdoptedOperationClass Op Buf)
    (a a2 : InfAdoptedAlgorithm Op Buf) (call : InfAdoptedAlgorithmCall Op)
    (hnodup : (a.users.map (fun u => u.id)).Nodup)
    (h : perform_call fuel O a call = .ok a2) :
    (a2.users.map (fun u => u.id)).Nodup ∧ (logs_small a2 → logs_small a) ∧
      (reachability_invariant a → logs_small a2 → reachability_invariant a2) := by
  cases call with
  | generate_request user operation =>
    simp only [perform_call] at h
    split at h
    · cases h
    · rename_i r fin hg
      simp only [Except.ok.injEq] at h
      subst h
      exact generate_form_step fuel O a fin _ (generate_forms fuel O a user operation).1
        r hg hnodup
  | generate_request_noexec user operation =>
    simp only [perform_call] at h
    split at h
    · cases h
    · rename_i r fin hg
      simp only [Except.ok.injEq] at h
      subst h
      exact generate_form_step fuel O a fin _ (generate_forms fuel O a user operation).2
        r hg hnodup
  | generate_undo user =>
    simp only [perform_call] at h
    split at h
    · cases h
    · rename_i r fin hg
      simp only [Except.ok.injEq] at h
      subst h
      exact generate_form_step fuel O a fin _ (generate_undo_redo_forms fuel O a user).1
        r hg hnodup
  | generate_redo user =>
    simp only [perform_call] at h
    split at h
    · cases h
    · rename_i r fin hg
      simp only [Except.ok.injEq] at h
      subst h
      exact generate_form_step fuel O a fin _ (generate_undo_redo_forms fuel O a user).2
        r hg hnodup
  | receive_request request =>
    simp only [perform_call] at h
    split at h
    · cases h
    · rename_i accepted fin hg
      simp only [Except.ok.injEq] at h
      subst h
      obtain ⟨h1, h2⟩ := receive_request_small fuel O a fin request accepted hnodup hg
      exact ⟨h1, h2, fun hi hs =>
        receive_request_reachability fuel O a fin request accepted hi hg hs⟩

/-- A sequence of calls keeps the reachability invariant when the logs are small at
its end. -/
theorem perform_calls_steps (fuel : Nat) (O : InfAdoptedOperationClass Op Buf)
    (calls : List (InfAdoptedAlgorithmCall Op)) :
    ∀ a a2 : InfAdoptedAlgorithm Op Buf, (a.users.map (fun u => u.id)).Nodup →
      perform_calls fuel O a calls = .ok a2 →
      (a2.users.map (fun u => u.id)).Nodup ∧ (logs_small a2 → logs_small a) ∧
        (reachability_invariant a → logs_small a2 → reachability_invariant a2) := by
  induction calls with
  | nil =>
    intro a a2 hnodup h
    unfold perform_calls at h
    simp only [Except.ok.injEq] at h
    subst h
    exact ⟨hnodup, fun hs => hs, fun hi _ => hi⟩
  | cons call rest ih =>
    intro a a2 hnodup h
    unfold perform_calls at h
    split at h
    · cases h
    · rename_i next hstep
      obtain ⟨s1, s2, s3⟩ := perform_call_step fuel O a next call hnodup hstep
      obtain ⟨r1, r2, r3⟩ := ih next a2 s1 h
      exact ⟨r1, fun hs => s2 (r2 hs), fun hi hs => r3 (s3 hi (r2 hs)) hs⟩

/-- A session before its first request has the reachability invariant. -/
theorem logs_empty_invariant (a : InfAdoptedAlgorithm Op Buf) (h : logs_empty a) :
    reachability_invariant a := by
  obtain ⟨hnodup, hu⟩ := h
  refine ⟨hnodup, ?_, ?_, ?_, ?_⟩
  · intro u hmem
    obtain ⟨h1, h2, h3, _, _, _⟩ := hu u hmem
    refine ⟨h1, ?_, ?_, ?_⟩
    · rw [h3, h2]; rfl
    · rw [h3]; intro e he; cases he
    · rw [h3, h2]
      simp only [List.length_nil]
      unfold GUINT_MOD
      omega
  · intro u hmem
    obtain ⟨_, h2, h3, _, _, h6⟩ := hu u hmem
    rw [h6]
    unfold inf_adopted_request_log_get_end
    rw [h2, h3]
    rfl
  · intro u hmem
    obtain ⟨_, h2, h3, h4, h5, _⟩ := hu u hmem
    refine ⟨⟨h2, ?_, ?_, ?_⟩, ?_, ?_, ?_⟩
    · intro k e he
      rw [h3] at he
      cases he
    · rw [h4]; intro t ht; cases ht
    · rw [h5]; intro t ht; cases ht
    · rw [h3, h4]
      exact landing_zero _
    · rw [h4]; exact trivial
    · rw [h5]; unfold redo_chain; exact trivial
  · intro u hmem e he
    rw [(hu u hmem).2.2.1] at he
    cases he

/-- With the invariant, current is reachable. -/
theorem invariant_current_reachable (a : InfAdoptedAlgorithm Op Buf)
    (hinv : reachability_invariant a) : vector_reachable a a.current = true := by
  rw [vector_reachable_iff]
  refine ⟨causally_before_refl _, ?_⟩
  intro u hu
  obtain ⟨h1, h2, h3, _, h5⟩ := invariant_user a hinv u hu
  rw [h5]
  unfold component_reachable
  cases hl : landing u.request_log u.request_log.entries.length with
  | none => rfl
  | some j =>
    obtain ⟨hj, e, he, _⟩ := landing_lt u.request_log h2 _ j hl
    simp only [get_request_linked u.request_log h2.1, he, Option.map_some']
    obtain ⟨hslot, hid, _⟩ := entry_indexed u.request_log h2.1 h3 j e he
    have hreach := hinv.2.2.2.2 u hu e (List.get?_mem he)
    have hcb := (causally_before_iff _ _).mp ((vector_reachable_iff a _).mp hreach).1
    rw [causally_before_iff]
    intro id
    rw [get_add]
    by_cases hi : id = e.request.user_id
    · unfold request_slot at hslot
      rw [if_pos hi, hslot, hi, hid, h1, h5,
        guint_add_small _ _ (by have := h3.2.2; omega)]
      omega
    · rw [if_neg hi]
      exact hcb id

end Session

/-- C24: in every state a sequence of generate_request, generate_request_noexec,
generate_undo, generate_redo and receive_request calls reaches from a session with
empty logs (distinct user ids, logs starting at slot 0, slot numbers below 2^31 - 1
at the end), is_reachable returns TRUE for current and for the vector of every
request stored in any log, with any fuel above the length of the longest log, and
with no fuel at all does it return FALSE for current: the assertion
is_reachable(to) of translate_request cannot fail for to = current. -/
theorem reachability_invariant_holds {Op Buf : Type} (fuel : Nat)
    (O : InfAdoptedOperationClass Op Buf) (initial final : InfAdoptedAlgorithm Op Buf)
    (calls : List (InfAdoptedAlgorithmCall Op))
    (hstart : logs_empty initial)
    (hrun : perform_calls fuel O initial calls = .ok final)
    (hsmall : logs_small final) :
    (∀ f, (∀ u ∈ final.users, u.request_log.entries.length < f) →
      inf_adopted_algorithm_is_reachable f final final.current = .ok true ∧
      ∀ u ∈ final.users, ∀ e ∈ u.request_log.entries,
        inf_adopted_algorithm_is_reachable f final e.request.vector = .ok true) ∧
    (∀ f, inf_adopted_algorithm_is_reachable f final final.current ≠ .ok false) := by
  have hinv : reachability_invariant final :=
    (perform_calls_steps fuel O calls initial final hstart.1 hrun).2.2
      (logs_empty_invariant initial hstart) hsmall
  have hcur := invariant_current_reachable final hinv
  refine ⟨?_, ?_⟩
  · intro f hf
    refine ⟨?_, ?_⟩
    · rw [is_reachable_eq f final hinv hf _ (causally_before_refl _), hcur]
    · intro u hu e he
      have hreach := hinv.2.2.2.2 u hu e he
      rw [is_reachable_eq f final hinv hf _ ((vector_reachable_iff final _).mp hreach).1,
        hreach]
  · intro f hfalse
    have := is_reachable_value f final hinv _ false hfalse
    rw [hcur] at this
    cases this

/-- C24 on the sample session: after a local Do, a received remote Do and a local
Undo, current and the vectors of the three logged requests are reachable. -/
theorem reachability_invariant_holds_witness :
    logs_empty sample_algorithm ∧
    perform_calls 8 CounterOperation sample_algorithm sample_calls = .ok sample_calls_end ∧
    logs_small sample_calls_end ∧
    (sample_calls_end.users.map (fun u => u.request_log.entries.length)) = [2, 1, 0] ∧
    inf_adopted_algorithm_is_reachable 3 sample_calls_end sample_calls_end.current
      = .ok true ∧
    (∀ u ∈ sample_calls_end.users, ∀ e ∈ u.request_log.entries,
      inf_adopted_algorithm_is_reachable 3 sample_calls_end e.request.vector = .ok true) ∧
    (∀ f, inf_adopted_algorithm_is_reachable f sample_calls_end sample_calls_end.current
      ≠ .ok false) :=
  ⟨by unfold logs_empty; decide, rfl, by unfold logs_small; decide, by decide,
    ((reachability_invariant_holds 8 CounterOperation sample_algorithm sample_calls_end
      sample_calls (by unfold logs_empty; decide) rfl (by unfold logs_small; decide)).1 3
      (by decide)).1,
    ((reachability_invariant_holds 8 CounterOperation sample_algorithm sample_calls_end
      sample_calls (by unfold logs_empty; decide) rfl (by unfold logs_small; decide)).1 3
      (by decide)).2,
    (reachability_invariant_holds 8 CounterOperation sample_algorithm sample_calls_end
      sample_calls (by unfold logs_empty; decide) rfl (by unfold logs_small; decide)).2⟩

/-- C38: position validity of transform_delete: in a buffer of length n (a guint),
for a delete of l characters at p with p + l ≤ n and an insert at i ≤ n, the
transformed insert keeps its text, its position is at most n - l and at most i, and
in the branch that subtracts (i ≥ p + l) the insert position is at least l, so the
guint difference i - l does not wrap. -/
theorem transform_delete_position_valid (operation : InfTextInsertOperation)
    (against : InfTextDeleteOperation) (n : Nat) (hn : n < GUINT_MOD)
    (hdel : against.position + against.length ≤ n) (hins : operation.position ≤ n) :
    (inf_text_insert_operation_transform_delete operation against).position
        ≤ n - against.length ∧
    (inf_text_insert_operation_transform_delete operation against).position
        ≤ operation.position ∧
    (inf_text_insert_operation_transform_delete operation against).text = operation.text ∧
    (inf_text_insert_operation_get_position operation ≥
        guint_add against.position against.length →
      against.length ≤ operation.position ∧
      guint_sub operation.position against.length =
        operation.position - against.length) := by
  have hadd : guint_add against.position against.length =
      against.position + against.length := guint_add_small _ _ (by omega)
  have hsub : against.length ≤ operation.position →
      guint_sub operation.position against.length =
        operation.position - against.length := by
    intro hle
    exact guint_sub_small _ _ hle (by omega)
  unfold inf_text_insert_operation_transform_delete
  simp only [inf_text_insert_operation_get_position, hadd, transform_position,
    inf_adopted_operation_copy]
  by_cases h1 : operation.position ≥ against.position + against.length
  · have hle : against.length ≤ operation.position := by omega
    simp only [h1, if_true, hsub hle]
    refine ⟨by omega, by omega, trivial, fun _ => ⟨hle, trivial⟩⟩
  · simp only [h1, if_false]
    by_cases h2 : operation.position < against.position
    · simp only [h2, if_true]
      refine ⟨by omega, le_refl _, trivial, fun h => h.elim⟩
    · simp only [h2, if_false]
      refine ⟨by omega, by omega, trivial, fun h => h.elim⟩

/-- C38 on samples: an insert at 5 behind a delete of 3 characters at 1 in a buffer
of 5 characters moves to 2, and an insert at 3 inside the deleted range moves
to 1. -/
theorem transform_delete_position_valid_witness :
    (inf_text_insert_operation_transform_delete ⟨5, ['X']⟩ ⟨1, 3⟩).position ≤ 5 - 3 ∧
    (inf_text_insert_operation_transform_delete ⟨5, ['X']⟩ ⟨1, 3⟩).position = 2 ∧
    guint_sub 5 3 = 5 - 3 ∧
    (inf_text_insert_operation_transform_delete ⟨3, ['X']⟩ ⟨1, 3⟩).position ≤ 5 - 3 :=
  ⟨(transform_delete_position_valid ⟨5, ['X']⟩ ⟨1, 3⟩ 5 (by decide) (by decide)
      (by decide)).1,
    by decide,
    ((transform_delete_position_valid ⟨5, ['X']⟩ ⟨1, 3⟩ 5 (by decide) (by decide)
      (by decide)).2.2.2 (by decide)).2,
    (transform_delete_position_valid ⟨3, ['X']⟩ ⟨1, 3⟩ 5 (by decide) (by decide)
      (by decide)).1⟩

/-- C39: transform_insert reaches g_assert_not_reached exactly when op and against
have equal positions, both lcs forms are given and have equal positions, and cid is
neither SELF nor OTHER; with cid SELF or OTHER and both lcs forms given it returns
an operation; and when the positions of op and against differ it returns an
operation whatever the lcs forms and cid are. -/
theorem transform_insert_not_reached_iff (operation against : InfTextInsertOperation)
    (op_lcs ag_lcs : Option InfTextInsertOperation) (cid : InfAdoptedConcurrencyId) :
    (inf_text_insert_operation_transform_insert operation against op_lcs ag_lcs cid =
        .error Failure.not_reached ↔
      operation.position = against.position ∧
      (∃ a b, op_lcs = some a ∧ ag_lcs = some b ∧ a.position = b.position) ∧
      cid ≠ InfAdoptedConcurrencyId.SELF ∧ cid ≠ InfAdoptedConcurrencyId.OTHER) ∧
    ((cid = InfAdoptedConcurrencyId.SELF ∨ cid = InfAdoptedConcurrencyId.OTHER) →
      op_lcs.isSome = true → ag_lcs.isSome = true →
      ∃ result, inf_text_insert_operation_transform_insert operation against
        op_lcs ag_lcs cid = .ok result) ∧
    (operation.position ≠ against.position →
      ∃ result, inf_text_insert_operation_transform_insert operation against
        op_lcs ag_lcs cid = .ok result) := by
  unfold inf_text_insert_operation_transform_insert
  simp only [inf_text_insert_operation_get_position]
  by_cases h1 : operation.position < against.position
  · simp only [h1, if_true]
    refine ⟨⟨(fun h => by cases h), (fun h => by omega)⟩, fun _ _ _ => ⟨_, rfl⟩,
      fun _ => ⟨_, rfl⟩⟩
  · simp only [h1, if_false]
    by_cases h2 : operation.position > against.position
    · simp only [h2, if_true]
      refine ⟨⟨(fun h => by cases h), (fun h => by omega)⟩, fun _ _ _ => ⟨_, rfl⟩,
        fun _ => ⟨_, rfl⟩⟩
    · simp only [h2, if_false]
      have heq : operation.position = against.position := by omega
      cases op_lcs with
      | none =>
        refine ⟨⟨(fun h => by cases h), fun h => ?_⟩, (fun _ h => by cases h),
          fun h => absurd heq h⟩
        obtain ⟨_, ⟨a, b, h, _⟩, _⟩ := h
        cases h
      | some a =>
        cases ag_lcs with
        | none =>
          refine ⟨⟨(fun h => by cases h), fun h => ?_⟩, (fun _ _ h => by cases h),
            fun h => absurd heq h⟩
          obtain ⟨_, ⟨a, b, _, h, _⟩, _⟩ := h
          cases h
        | some b =>
          simp only
          by_cases h3 : a.position < b.position
          · simp only [h3, decide_True, Bool.true_or, if_true]
            refine ⟨⟨(fun h => by cases h), fun h => ?_⟩, fun _ _ _ => ⟨_, rfl⟩,
              fun _ => ⟨_, rfl⟩⟩
            obtain ⟨_, ⟨a2, b2, ha, hb, hab⟩, _⟩ := h
            cases ha; cases hb
            omega
          · by_cases h4 : a.position > b.position
            · have hne : (a.position == b.position) = false := by
                simp only [beq_eq_false_iff_ne, ne_eq]; omega
              simp only [h3, h4, hne, decide_False, decide_True, Bool.false_and,
                Bool.or_false, Bool.false_eq_true, if_false, Bool.true_or, if_true]
              refine ⟨⟨(fun h => by cases h), fun h => ?_⟩, fun _ _ _ => ⟨_, rfl⟩,
                fun _ => ⟨_, rfl⟩⟩
              obtain ⟨_, ⟨a2, b2, ha, hb, hab⟩, _⟩ := h
              cases ha; cases hb
              omega
            · have hab : a.position = b.position := by omega
              have hbeq : (a.position == b.position) = true := by
                simp only [beq_iff_eq]; exact hab
              simp only [h3, h4, hbeq, decide_False, Bool.false_or, Bool.true_and]
              cases cid with
              | SELF =>
                refine ⟨⟨(fun h => by cases h), fun h => absurd rfl h.2.2.1⟩,
                  fun _ _ _ => ⟨_, rfl⟩, fun h => absurd heq h⟩
              | OTHER =>
                refine ⟨⟨(fun h => by cases h), fun h => absurd rfl h.2.2.2⟩,
                  fun _ _ _ => ⟨_, rfl⟩, fun h => absurd heq h⟩
              | NONE =>
                refine ⟨⟨fun _ => ⟨heq, ⟨a, b, rfl, rfl, hab⟩, by decide, by decide⟩,
                  fun _ => rfl⟩, fun h => ?_, fun h => absurd heq h⟩
                rcases h with h | h <;> cases h

/-- C39 on samples: equal positions everywhere and no concurrency id reach
g_assert_not_reached; with cid = SELF the same call returns the shifted insert; and
inserts at different positions need no lcs forms. -/
theorem transform_insert_not_reached_iff_witness :
    inf_text_insert_operation_transform_insert ⟨2, ['y']⟩ ⟨2, ['x']⟩
      (some ⟨1, ['y']⟩) (some ⟨1, ['x']⟩) .NONE = .error Failure.not_reached ∧
    (∃ result, inf_text_insert_operation_transform_insert ⟨2, ['y']⟩ ⟨2, ['x']⟩
      (some ⟨1, ['y']⟩) (some ⟨1, ['x']⟩) .SELF = .ok result) ∧
    (∃ result, inf_text_insert_operation_transform_insert ⟨2, ['y']⟩ ⟨3, ['x']⟩
      none none .NONE = .ok result) :=
  ⟨(transform_insert_not_reached_iff ⟨2, ['y']⟩ ⟨2, ['x']⟩
      (some ⟨1, ['y']⟩) (some ⟨1, ['x']⟩) .NONE).1.mpr
      ⟨rfl, ⟨⟨1, ['y']⟩, ⟨1, ['x']⟩, rfl, rfl, rfl⟩, by decide, by decide⟩,
    (transform_insert_not_reached_iff ⟨2, ['y']⟩ ⟨2, ['x']⟩
      (some ⟨1, ['y']⟩) (some ⟨1, ['x']⟩) .SELF).2.1 (Or.inl rfl) rfl rfl,
    (transform_insert_not_reached_iff ⟨2, ['y']⟩ ⟨3, ['x']⟩ none none .NONE).2.2
      (by decide)⟩

section BinarySearch

variable {Op : Type}

/-- Every index the binary search probes lies in the range it still searches. -/
theorem find_blockers_search_queries_range (log : InfAdoptedRequestLog Op) (p c : Nat)
    (hsize : 2 * (log.log_begin + log.entries.length) < GUINT_MOD) :
    ∀ (count b e : Nat), e ≤ log.log_begin + log.entries.length →
      ∀ q ∈ find_blockers_search_queries log p c count b e, b ≤ q ∧ q < e := by
  intro count
  induction count with
  | zero =>
    intro b e _ q hq
    unfold find_blockers_search_queries at hq
    cases hq
  | succ count ih =>
    intro b e he q hq
    unfold find_blockers_search_queries at hq
    by_cases hlt : b < e
    · have hadd : guint_add b e = b + e := guint_add_small _ _ (by omega)
      have hadd1 : guint_add b 1 = b + 1 := guint_add_small _ _ (by omega)
      have hsub1 : guint_sub e 1 = e - 1 := guint_sub_small _ _ (by omega) (by omega)
      simp only [hlt, if_true, hadd, hadd1, hsub1] at hq
      have hq1 : b ≤ (b + e) / 2 := by omega
      have hq2 : (b + e) / 2 < e := by omega
      split at hq
      · simp only [List.mem_singleton] at hq
        subst hq
        exact ⟨hq1, hq2⟩
      · split at hq
        · rcases List.mem_cons.mp hq with hq | hq
          · subst hq
            exact ⟨hq1, hq2⟩
          · have := ih (max ((b + e) / 2) (b + 1)) e he q hq
            have hm : b ≤ max ((b + e) / 2) (b + 1) := le_trans hq1 (le_max_left _ _)
            exact ⟨le_trans hm this.1, this.2⟩
        · rcases List.mem_cons.mp hq with hq | hq
          · subst hq
            exact ⟨hq1, hq2⟩
          · have hm : min ((b + e) / 2) (e - 1) ≤ e := le_trans (min_le_left _ _) (by omega)
            have := ih b (min ((b + e) / 2) (e - 1)) (le_trans hm he) q hq
            exact ⟨this.1, lt_of_lt_of_le this.2 hm⟩
    · simp only [hlt, if_false] at hq
      cases hq

end BinarySearch

/-- C40: the binary search of find_blockers on a log whose p-components do not
decrease along the log (slot numbers below 2^31): run from begin(log) and end(log)
it returns within end - begin turns with begin = end = b, where every request in a
slot below b has a p-component of at most upper_comp and every request from slot b
on has a greater one (b is the index of the first request with a greater component,
or the end of the log); every index it probes lies in [begin(log), end(log)); and
if b is above begin(log), the request in slot b - 1 exists and has a p-component of
at most upper_comp, which is what the assertion after the search tests. -/
theorem find_blockers_search_binary {Op : Type} (log : InfAdoptedRequestLog Op)
    (p upper_comp : Nat)
    (hsize : 2 * (log.log_begin + log.entries.length) < GUINT_MOD)
    (hsorted : log_sorted_by log p) :
    ∃ b vector,
      find_blockers_search log p upper_comp
        (inf_adopted_request_log_get_end log - inf_adopted_request_log_get_begin log)
        (inf_adopted_request_log_get_begin log) (inf_adopted_request_log_get_end log) none
        = .ok (b, b, vector) ∧
      inf_adopted_request_log_get_begin log ≤ b ∧ b ≤ inf_adopted_request_log_get_end log ∧
      (∀ i r, i < b → inf_adopted_request_log_get_request log i = some r →
        inf_adopted_state_vector_get r.vector p ≤ upper_comp) ∧
      (∀ i r, b ≤ i → inf_adopted_request_log_get_request log i = some r →
        upper_comp < inf_adopted_state_vector_get r.vector p) ∧
      (∀ q ∈ find_blockers_search_queries log p upper_comp
          (inf_adopted_request_log_get_end log - inf_adopted_request_log_get_begin log)
          (inf_adopted_request_log_get_begin log) (inf_adopted_request_log_get_end log),
        inf_adopted_request_log_get_begin log ≤ q ∧ q < inf_adopted_request_log_get_end log) ∧
      (inf_adopted_request_log_get_begin log < b →
        ∃ r, inf_adopted_request_log_get_request log (guint_sub b 1) = some r ∧
          inf_adopted_state_vector_get r.vector p ≤ upper_comp) := by
  have hend : inf_adopted_request_log_get_end log = log.log_begin + log.entries.length := by
    unfold inf_adopted_request_log_get_end
    exact guint_add_small _ _ (by omega)
  rw [hend]
  unfold inf_adopted_request_log_get_begin
  obtain ⟨b, vec, h1, h2, h3, h4, h5, _, _⟩ :=
    find_blockers_search_sorted log p upper_comp hsize hsorted
      (log.log_begin + log.entries.length - log.log_begin) log.log_begin
      (log.log_begin + log.entries.length) none (le_refl _) (by omega) (le_refl _) (le_refl _)
      (by
        intro i r hi hr
        unfold inf_adopted_request_log_get_request inf_adopted_request_log_get_entry at hr
        rw [if_neg (by omega)] at hr
        cases hr)
      (by
        intro i r hi hr
        unfold inf_adopted_request_log_get_request inf_adopted_request_log_get_entry at hr
        by_cases hb : log.log_begin ≤ i
        · rw [if_pos hb, List.get?_eq_none.mpr (by omega)] at hr
          cases hr
        · rw [if_neg hb] at hr
          cases hr)
  refine ⟨b, vec, h1, h2, h3, h4, h5,
    find_blockers_search_queries_range log p upper_comp hsize _ _ _ (le_refl _), ?_⟩
  intro hb
  have hsub : guint_sub b 1 = b - 1 := guint_sub_small _ _ (by omega) (by omega)
  rw [hsub]
  obtain ⟨r, hr⟩ := get_request_in_range log (b - 1) (by omega) (by omega)
  exact ⟨r, hr, h4 (b - 1) r (by omega) hr⟩

/-- C40 on the log of user 1 after its five Do requests (components 0 .. 4 in its
own direction), searched for upper_comp = 2: the search probes slots 2, 3, 2 and ends
with begin = end = 3, the slot of the first request with a greater component. -/
theorem find_blockers_search_binary_witness :
    find_blockers_search (sample_log_of (sample_pair_dos 5) 1) 1 2 5 0 5 none
      = .ok (3, 3, some [(1, 2), (2, 0)]) ∧
    find_blockers_search_queries (sample_log_of (sample_pair_dos 5) 1) 1 2 5 0 5 = [2, 3, 2] ∧
    ∃ b vector,
      find_blockers_search (sample_log_of (sample_pair_dos 5) 1) 1 2
        (inf_adopted_request_log_get_end (sample_log_of (sample_pair_dos 5) 1) -
          inf_adopted_request_log_get_begin (sample_log_of (sample_pair_dos 5) 1))
        (inf_adopted_request_log_get_begin (sample_log_of (sample_pair_dos 5) 1))
        (inf_adopted_request_log_get_end (sample_log_of (sample_pair_dos 5) 1)) none
        = .ok (b, b, vector) ∧
      (∀ q ∈ find_blockers_search_queries (sample_log_of (sample_pair_dos 5) 1) 1 2
          (inf_adopted_request_log_get_end (sample_log_of (sample_pair_dos 5) 1) -
            inf_adopted_request_log_get_begin (sample_log_of (sample_pair_dos 5) 1))
          (inf_adopted_request_log_get_begin (sample_log_of (sample_pair_dos 5) 1))
          (inf_adopted_request_log_get_end (sample_log_of (sample_pair_dos 5) 1)),
        inf_adopted_request_log_get_begin (sample_log_of (sample_pair_dos 5) 1) ≤ q ∧
          q < inf_adopted_request_log_get_end (sample_log_of (sample_pair_dos 5) 1)) :=
  ⟨rfl, by decide,
    match find_blockers_search_binary (sample_log_of (sample_pair_dos 5) 1) 1 2
      (by decide) (by unfold log_sorted_by; decide) with
    | ⟨b, vector, h1, _, _, _, _, h6, _⟩ => ⟨b, vector, h1, h6⟩⟩

section PerformRemovals

variable {Op Buf : Type}

/-- What remove_requests keeps: the slots from `up_to` on, as they were. -/
theorem remove_requests_get_request (log : InfAdoptedRequestLog Op) (up_to i : Nat) :
    inf_adopted_request_log_get_request (inf_adopted_request_log_remove_requests log up_to) i =
      if i < up_to then none else inf_adopted_request_log_get_request log i := by
  unfold inf_adopted_request_log_get_request inf_adopted_request_log_get_entry
    inf_adopted_request_log_remove_requests
  simp only
  by_cases h1 : i < up_to
  · rw [if_pos h1]
    by_cases h2 : log.log_begin + min (up_to - log.log_begin) log.entries.length ≤ i
    · rw [if_pos h2]
      have hlen : (List.drop (up_to - log.log_begin) log.entries).length ≤
          i - (log.log_begin + min (up_to - log.log_begin) log.entries.length) := by
        rw [List.length_drop]
        rcases Nat.le_total (up_to - log.log_begin) log.entries.length with hm | hm
        · rw [min_eq_left hm] at h2
          omega
        · rw [min_eq_right hm] at h2 ⊢
          omega
      rw [List.get?_eq_none.mpr hlen]
      rfl
    · rw [if_neg h2]
      rfl
  · rw [if_neg h1]
    by_cases h3 : log.log_begin ≤ i
    · have h2 : log.log_begin + min (up_to - log.log_begin) log.entries.length ≤ i := by
        have := min_le_left (up_to - log.log_begin) log.entries.length
        omega
      rw [if_pos h2, if_pos h3]
      simp only [List.get?_eq_getElem?, List.getElem?_drop]
      rcases Nat.le_total (up_to - log.log_begin) log.entries.length with hm | hm
      · rw [min_eq_left hm]
        congr 2
        omega
      · rw [min_eq_right hm]
        rw [List.getElem?_eq_none (by omega), List.getElem?_eq_none (by omega)]
    · have h2 : ¬ log.log_begin + min (up_to - log.log_begin) log.entries.length ≤ i := by
        omega
      rw [if_neg h2, if_neg h3]

/-- The effect of perform_removals on the user with a given id: the removals
without blockers that name its log are applied in turn. -/
theorem perform_removals_lookup (j : Nat) :
    ∀ (removals : List (InfAdoptedAlgorithmLogRemoval Op)) (algorithm : InfAdoptedAlgorithm Op Buf),
    inf_user_table_lookup_user_by_id
        (inf_adopted_algorithm_perform_removals algorithm removals).users j =
      (inf_user_table_lookup_user_by_id algorithm.users j).map (fun u =>
        removals.foldl (fun (u : InfAdoptedUser Op) removal =>
          if removal.blockers.isEmpty = true ∧ removal.log = j then
            { u with
              request_log := inf_adopted_request_log_remove_requests u.request_log
                (guint_add (inf_adopted_state_vector_get removal.upper.vector
                  removal.upper.user_id) 1) }
          else u) u) := by
  intro removals
  induction removals with
  | nil =>
    intro algorithm
    simp only [inf_adopted_algorithm_perform_removals, List.foldl_nil]
    cases inf_user_table_lookup_user_by_id algorithm.users j <;> rfl
  | cons removal rest ih =>
    intro algorithm
    unfold inf_adopted_algorithm_perform_removals
    by_cases hb : removal.blockers.isEmpty = true
    · rw [if_pos hb, ih]
      simp only [List.foldl_cons, inf_adopted_request_get_vector,
        inf_adopted_request_get_user_id]
      rw [lookup_update_user algorithm.users removal.log j
        (fun (u : InfAdoptedUser Op) =>
          { u with
            request_log := inf_adopted_request_log_remove_requests u.request_log
              (guint_add (inf_adopted_state_vector_get removal.upper.vector
                removal.upper.user_id) 1) }) (fun _ => rfl)]
      by_cases hj : j = removal.log
      · rw [if_pos hj]
        cases inf_user_table_lookup_user_by_id algorithm.users j with
        | none => rfl
        | some u =>
          simp only [Option.map_some', hb, hj.symm, and_self, if_true]
      · rw [if_neg hj]
        cases inf_user_table_lookup_user_by_id algorithm.users j with
        | none => rfl
        | some u =>
          have hne : ¬ (removal.blockers.isEmpty = true ∧ removal.log = j) :=
            fun h => hj h.2.symm
          simp only [Option.map_some', if_neg hne]
    · rw [if_neg hb, ih]
      cases inf_user_table_lookup_user_by_id algorithm.users j with
      | none => rfl
      | some u =>
        have hne : ¬ (removal.blockers.isEmpty = true ∧ removal.log = j) :=
          fun h => hb h.1
        simp only [Option.map_some', List.foldl_cons, if_neg hne]

/-- Removals that do not apply to a user leave it as it is. -/
theorem removals_fold_skip (j : Nat) (removals : List (InfAdoptedAlgorithmLogRemoval Op))
    (h : ∀ removal ∈ removals, ¬ (removal.blockers.isEmpty = true ∧ removal.log = j))
    (u : InfAdoptedUser Op) :
    removals.foldl (fun (u : InfAdoptedUser Op) removal =>
      if removal.blockers.isEmpty = true ∧ removal.log = j then
        { u with
          request_log := inf_adopted_request_log_remove_requests u.request_log
            (guint_add (inf_adopted_state_vector_get removal.upper.vector
              removal.upper.user_id) 1) }
      else u) u = u := by
  induction removals with
  | nil => rfl
  | cons removal rest ih =>
    rw [List.foldl_cons, if_neg (h removal (List.mem_cons_self _ _))]
    exact ih (fun r hr => h r (List.mem_cons_of_mem _ hr))

/-- Only the removals that name the log of the user count. -/
theorem removals_fold_filter (j : Nat) (removals : List (InfAdoptedAlgorithmLogRemoval Op)) :
    ∀ u : InfAdoptedUser Op,
    removals.foldl (fun (u : InfAdoptedUser Op) removal =>
      if removal.blockers.isEmpty = true ∧ removal.log = j then
        { u with
          request_log := inf_adopted_request_log_remove_requests u.request_log
            (guint_add (inf_adopted_state_vector_get removal.upper.vector
              removal.upper.user_id) 1) }
      else u) u =
    (removals.filter (fun removal => decide (removal.log = j))).foldl
      (fun (u : InfAdoptedUser Op) removal =>
      if removal.blockers.isEmpty = true ∧ removal.log = j then
        { u with
          request_log := inf_adopted_request_log_remove_requests u.request_log
            (guint_add (inf_adopted_state_vector_get removal.upper.vector
              removal.upper.user_id) 1) }
      else u) u := by
  induction removals with
  | nil => intro u; rfl
  | cons removal rest ih =>
    intro u
    by_cases hj : removal.log = j
    · rw [List.filter_cons_of_pos (by simpa using hj), List.foldl_cons, List.foldl_cons]
      exact ih _
    · rw [List.filter_cons_of_neg (by simpa using hj), List.foldl_cons,
        if_neg (fun h => hj h.2)]
      exact ih _

end PerformRemovals

/-- C31: the removal step of the log GC. For the log of the participant with id p:
if every scheduled group of that log has a blocker (in particular if the log has no
scheduled group), perform_removals leaves the participant as it is, whatever is
scheduled for its blockers; if the log has one scheduled group, with newest request
U, and that group has no blocker, the log becomes
remove_requests(L(p), U.vector[U.user] + 1) (a guint sum) and nothing else of the
participant changes; and remove_requests(L, n) removes exactly the slots below n:
they are gone and every slot from n on holds the request it held. -/
theorem perform_removals_effect {Op Buf : Type} (algorithm : InfAdoptedAlgorithm Op Buf)
    (removals : List (InfAdoptedAlgorithmLogRemoval Op)) (p : Nat) :
    ((∀ removal ∈ removals, removal.log = p → removal.blockers ≠ []) →
      inf_user_table_lookup_user_by_id
          (inf_adopted_algorithm_perform_removals algorithm removals).users p =
        inf_user_table_lookup_user_by_id algorithm.users p) ∧
    (∀ removal, removals.filter (fun r => decide (r.log = p)) = [removal] →
      removal.blockers = [] →
      inf_user_table_lookup_user_by_id
          (inf_adopted_algorithm_perform_removals algorithm removals).users p =
        (inf_user_table_lookup_user_by_id algorithm.users p).map (fun u =>
          { u with
            request_log := inf_adopted_request_log_remove_requests u.request_log
              (guint_add (inf_adopted_state_vector_get removal.upper.vector
                removal.upper.user_id) 1) })) ∧
    (∀ (log : InfAdoptedRequestLog Op) (n i : Nat),
      inf_adopted_request_log_get_request (inf_adopted_request_log_remove_requests log n) i =
        if i < n then none else inf_adopted_request_log_get_request log i) := by
  refine ⟨?_, ?_, remove_requests_get_request⟩
  · intro h
    rw [perform_removals_lookup]
    cases inf_user_table_lookup_user_by_id algorithm.users p with
    | none => rfl
    | some u =>
      simp only [Option.map_some']
      rw [removals_fold_skip p removals _ u]
      intro removal hr hc
      have := h removal hr hc.2
      cases hb : removal.blockers with
      | nil => exact this hb
      | cons x xs => rw [hb] at hc; cases hc.1
  · intro removal hfilter hb
    rw [perform_removals_lookup]
    cases inf_user_table_lookup_user_by_id algorithm.users p with
    | none => rfl
    | some u =>
      simp only [Option.map_some']
      rw [removals_fold_filter, hfilter]
      have hmem : removal ∈ removals.filter (fun r => decide (r.log = p)) := by
        rw [hfilter]; exact List.mem_singleton_self _
      have hlog : removal.log = p := by simpa using (List.mem_filter.mp hmem).2
      have hc : removal.blockers.isEmpty = true ∧ removal.log = p := by
        rw [hb]; exact ⟨rfl, hlog⟩
      simp only [List.foldl_cons, List.foldl_nil, if_pos hc]

/-- C31 in the sample session in which user 1 did and undid an operation and user 3
did one: with the group of user 1 (newest request the Undo, in slot 1) scheduled
without a blocker and the group of user 3 scheduled with a blocker, perform_removals
cuts the log of user 1 below slot 2, which empties it, and leaves users 3 and 2 as
they are. -/
theorem perform_removals_effect_witness :
    inf_user_table_lookup_user_by_id
        (inf_adopted_algorithm_perform_removals sample_undone_tight
          [sample_removal, { log := 3, upper := sample_ahead, blockers := [sample_ahead] }]).users 1
      = (inf_user_table_lookup_user_by_id sample_undone_tight.users 1).map (fun u =>
          { u with
            request_log := inf_adopted_request_log_remove_requests u.request_log
              (guint_add (inf_adopted_state_vector_get sample_removal.upper.vector
                sample_removal.upper.user_id) 1) }) ∧
    (sample_log_of (inf_adopted_algorithm_perform_removals sample_undone_tight
        [sample_removal, { log := 3, upper := sample_ahead, blockers := [sample_ahead] }]) 1)
      = { sample_log 1 with log_begin := 2 } ∧
    inf_user_table_lookup_user_by_id
        (inf_adopted_algorithm_perform_removals sample_undone_tight
          [sample_removal, { log := 3, upper := sample_ahead, blockers := [sample_ahead] }]).users 3
      = inf_user_table_lookup_user_by_id sample_undone_tight.users 3 ∧
    inf_user_table_lookup_user_by_id
        (inf_adopted_algorithm_perform_removals sample_undone_tight
          [sample_removal, { log := 3, upper := sample_ahead, blockers := [sample_ahead] }]).users 2
      = inf_user_table_lookup_user_by_id sample_undone_tight.users 2 :=
  ⟨(perform_removals_effect sample_undone_tight
      [sample_removal, { log := 3, upper := sample_ahead, blockers := [sample_ahead] }] 1).2.1
      sample_removal rfl rfl,
    by decide,
    (perform_removals_effect sample_undone_tight
      [sample_removal, { log := 3, upper := sample_ahead, blockers := [sample_ahead] }] 3).1
      (by decide),
    (perform_removals_effect sample_undone_tight
      [sample_removal, { log := 3, upper := sample_ahead, blockers := [sample_ahead] }] 2).1
      (by decide)⟩

section OwnBlocker

variable {Op Buf : Type}

/-- The loop of find_blockers over the users keeps the blockers it has and, from a
log indexed by the component searched for that holds slot `c`, takes the request of
that slot. -/
theorem find_blockers_users_own (p c : Nat) (users : List (InfAdoptedUser Op))
    (blockers : List (InfAdoptedRequest Op))
    (hlogs : ∀ u ∈ users, log_indexed u.request_log) :
    ∃ blockers', find_blockers_users p c users blockers = .ok blockers' ∧
      (∀ x ∈ blockers, x ∈ blockers') ∧
      (∀ u ∈ users, u.request_log.user_id = p →
        ∀ r, inf_adopted_request_log_get_request u.request_log c = some r →
          r ∈ blockers') := by
  induction users generalizing blockers with
  | nil =>
    refine ⟨blockers, rfl, fun _ h => h, ?_⟩
    intro u hu
    cases hu
  | cons u rest ih =>
    have hlog := hlogs u (List.mem_cons_self _ _)
    have hrest : ∀ u ∈ rest, log_indexed u.request_log :=
      fun x hx => hlogs x (List.mem_cons_of_mem _ hx)
    have hend := log_indexed_end _ hlog
    unfold find_blockers_users
    simp only [inf_adopted_request_log_get_begin, hend]
    have hsearch := find_blockers_search_spec u.request_log p c
      (u.request_log.user_id = p ∧
        ∃ r, inf_adopted_request_log_get_request u.request_log c = some r)
      (by have := hlog.2.2; omega)
      (by
        rintro ⟨hp, _⟩ i r hr
        have := get_request_indexed _ hlog i r hr
        rw [← this.1, ← hp, ← this.2.1]
        rfl)
      (u.request_log.log_begin + u.request_log.entries.length - u.request_log.log_begin)
      u.request_log.log_begin (u.request_log.log_begin + u.request_log.entries.length) none
      (Nat.le_refl _) (by omega) (Nat.le_refl _) (Nat.le_refl _)
      (by intro h; exact absurd h (Nat.lt_irrefl _))
      (by
        rintro ⟨_, r, hr⟩
        have := get_request_indexed _ hlog c r hr
        omega)
    obtain ⟨b', vec', hs, hb1, hb2, htested, hownres, hsome, _⟩ := hsearch
    rw [hs]
    simp only
    by_cases hcond : (vec'.isSome && decide (b' > u.request_log.log_begin)) = true
    · simp only [hcond, if_true]
      simp only [Bool.and_eq_true, decide_eq_true_eq] at hcond
      have hsub : guint_sub b' 1 = b' - 1 :=
        guint_sub_small _ _ (by omega) (by have := hlog.2.2; omega)
      rw [hsub]
      obtain ⟨r, hr, hrc⟩ := htested hcond.2
      simp only [hr, inf_adopted_request_get_vector, hrc, if_true]
      obtain ⟨blockers', h1, h2, h3⟩ := ih (r :: blockers) hrest
      refine ⟨blockers', h1, fun x hx => h2 x (List.mem_cons_of_mem _ hx), ?_⟩
      intro u0 hu0 hp r0 hr0
      rcases List.mem_cons.mp hu0 with rfl | hmem
      · have hb := hownres ⟨hp, r0, hr0⟩
        rw [hb, Nat.add_sub_cancel, hr0] at hr
        cases hr
        exact h2 _ (List.mem_cons_self _ _)
      · exact h3 u0 hmem hp r0 hr0
    · simp only [hcond]
      obtain ⟨blockers', h1, h2, h3⟩ := ih blockers hrest
      refine ⟨blockers', h1, h2, ?_⟩
      intro u0 hu0 hp r hr
      rcases List.mem_cons.mp hu0 with rfl | hmem
      · exfalso
        apply hcond
        have hrange := get_request_indexed _ hlog c r hr
        have hb := hownres ⟨hp, r, hr⟩
        have hv := hsome (by omega)
        simp only [Bool.and_eq_true, decide_eq_true_eq]
        exact ⟨hv, by omega⟩
      · exact h3 u0 hmem hp r hr

/-- With indexed logs find_blockers returns, keeps the log and the newest request
of every removal, and puts the newest request itself among the blockers when it is
a request of the log of its issuer. -/
theorem find_blockers_own (algorithm : InfAdoptedAlgorithm Op Buf)
    (hlogs : ∀ u ∈ algorithm.users, log_indexed u.request_log)
    (removals : List (InfAdoptedAlgorithmLogRemoval Op))
    (hrem : ∀ removal ∈ removals, ∃ u ∈ algorithm.users, removal.log = u.id ∧
      u.request_log.user_id = removal.upper.user_id ∧
      inf_adopted_request_log_get_request u.request_log (request_slot removal.upper)
        = some removal.upper) :
    ∃ removals', inf_adopted_algorithm_find_blockers algorithm removals = .ok removals' ∧
      ∀ removal ∈ removals', removal.upper ∈ removal.blockers ∧
        ∃ u ∈ algorithm.users, removal.log = u.id ∧
          u.request_log.user_id = removal.upper.user_id ∧
          inf_adopted_request_log_get_request u.request_log (request_slot removal.upper)
            = some removal.upper := by
  induction removals with
  | nil =>
    refine ⟨[], rfl, ?_⟩
    intro r hr
    cases hr
  | cons removal rest ih =>
    unfold inf_adopted_algorithm_find_blockers
    simp only [inf_adopted_request_get_user_id, inf_adopted_request_get_vector]
    obtain ⟨blockers', h1, _, h3⟩ := find_blockers_users_own removal.upper.user_id
      (inf_adopted_state_vector_get removal.upper.vector removal.upper.user_id)
      algorithm.users removal.blockers hlogs
    obtain ⟨rest', h4, h5⟩ := ih (fun r hr => hrem r (List.mem_cons_of_mem _ hr))
    rw [h1]
    simp only [h4]
    refine ⟨_, rfl, ?_⟩
    intro r hr
    rcases List.mem_cons.mp hr with rfl | hr
    · obtain ⟨u, hu, hlog, hid, hget⟩ := hrem removal (List.mem_cons_self _ _)
      exact ⟨h3 u hu hid removal.upper hget, u, hu, hlog, hid, hget⟩
    · exact h5 r hr

/-- With indexed logs the scheduling loop of create_removals returns, and the
newest request of every group it schedules is a request of the log it names, in
the slot of its own component. -/
theorem create_removals_users_own (algorithm : InfAdoptedAlgorithm Op Buf)
    (users : List (InfAdoptedUser Op)) (vdiff : Nat)
    (result : List (InfAdoptedAlgorithmLogRemoval Op))
    (husers : ∀ u ∈ users, u ∈ algorithm.users ∧ log_indexed u.request_log)
    (hres : ∀ removal ∈ result, ∃ u ∈ algorithm.users, removal.log = u.id ∧
      u.request_log.user_id = removal.upper.user_id ∧
      inf_adopted_request_log_get_request u.request_log (request_slot removal.upper)
        = some removal.upper) :
    ∃ result', create_removals_users algorithm users vdiff result = .ok result' ∧
      ∀ removal ∈ result', ∃ u ∈ algorithm.users, removal.log = u.id ∧
        u.request_log.user_id = removal.upper.user_id ∧
        inf_adopted_request_log_get_request u.request_log (request_slot removal.upper)
          = some removal.upper := by
  induction users generalizing vdiff result with
  | nil => exact ⟨result, rfl, hres⟩
  | cons u rest ih =>
    have hu := husers u (List.mem_cons_self _ _)
    have hrest : ∀ x ∈ rest, x ∈ algorithm.users ∧ log_indexed x.request_log :=
      fun x hx => husers x (List.mem_cons_of_mem _ hx)
    unfold create_removals_users
    simp only [inf_adopted_request_log_get_begin, log_indexed_end _ hu.2]
    by_cases hempty : u.request_log.log_begin =
        u.request_log.log_begin + u.request_log.entries.length
    · simp only [hempty.symm, if_true]
      exact ih _ _ hrest hres
    · simp only [hempty, if_false]
      obtain ⟨request, hreq⟩ := get_request_in_range u.request_log u.request_log.log_begin
        (Nat.le_refl _) (by omega)
      simp only [hreq]
      obtain ⟨res, hvd⟩ := create_removals_vdiff_total algorithm request algorithm.users
        vdiff G_MAXUINT
      rw [hvd]
      simp only
      split
      · obtain ⟨upper, hup, hid, hget⟩ := upper_related_spec _ hu.2 request hreq
        simp only [hup]
        apply ih _ _ hrest
        intro removal hr
        rcases List.mem_cons.mp hr with rfl | hr
        · exact ⟨u, hu.1, rfl, hid.symm, hget⟩
        · exact hres removal hr
      · exact ih _ _ hrest hres

end OwnBlocker

/-- C35: in a state in which every log is indexed by its owner's component (slot
numbers below 2^31 - 1), for every max_total_log_size: create_removals returns; every
removal it returns names the log of a participant whose slot U.vector[U.user] holds
the removal's newest request U, and U itself is among the blockers find_blockers
recorded for the removal, so no removal is without a blocker; perform_removals with
these removals leaves the state as it is, and so does update_request_logs. -/
theorem update_request_logs_removes_nothing {Op Buf : Type}
    (algorithm : InfAdoptedAlgorithm Op Buf) (hlogs : logs_indexed algorithm) :
    ∃ removals,
      inf_adopted_algorithm_create_removals algorithm = .ok removals ∧
      (∀ removal ∈ removals,
        removal.upper ∈ removal.blockers ∧ removal.blockers ≠ [] ∧
        ∃ u ∈ algorithm.users, removal.log = u.id ∧
          inf_adopted_request_log_get_request u.request_log (request_slot removal.upper)
            = some removal.upper) ∧
      inf_adopted_algorithm_perform_removals algorithm removals = algorithm ∧
      inf_adopted_algorithm_update_request_logs algorithm = .ok algorithm := by
  obtain ⟨result, h1, h2⟩ := create_removals_users_own algorithm algorithm.users 0 []
    (fun u hu => ⟨hu, (hlogs u hu).2⟩) (by intro r hr; cases hr)
  obtain ⟨removals, h3, h4⟩ := find_blockers_own algorithm (fun u hu => (hlogs u hu).2)
    result h2
  have hne : ∀ removal ∈ removals, removal.blockers ≠ [] := by
    intro removal hr hnil
    have := (h4 removal hr).1
    rw [hnil] at this
    cases this
  have hperform := perform_removals_blocked algorithm removals hne
  refine ⟨removals, ?_, ?_, hperform, ?_⟩
  · unfold inf_adopted_algorithm_create_removals
    rw [h1]
    exact h3
  · intro removal hr
    obtain ⟨hin, u, hu, hlog, _, hget⟩ := h4 removal hr
    exact ⟨hin, hne removal hr, u, hu, hlog, hget⟩
  · unfold inf_adopted_algorithm_update_request_logs inf_adopted_algorithm_create_removals
    rw [h1]
    simp only
    rw [h3]
    simp only
    rw [hperform]

/-- C35 in the session of two participants with the log size bounded by 4, after
the five Do requests of user 1 have been acknowledged by user 2: create_removals
schedules the group of the first Do and find_blockers records that Do itself as its
blocker; update_request_logs returns the state as it is, with all five requests in
the log of user 1. -/
theorem update_request_logs_removes_nothing_witness :
    logs_indexed sample_pair_synced ∧
    inf_adopted_algorithm_create_removals sample_pair_synced =
      .ok [{ log := 1, upper := sample_pair_first, blockers := [sample_pair_first] }] ∧
    inf_adopted_algorithm_update_request_logs sample_pair_synced = .ok sample_pair_synced ∧
    (sample_log_of sample_pair_synced 1).entries.length = 5 :=
  ⟨by unfold logs_indexed log_indexed; decide, rfl,
    match update_request_logs_removes_nothing sample_pair_synced
      (by unfold logs_indexed log_indexed; decide) with
    | ⟨_, _, _, _, h⟩ => h,
    by decide⟩

section CurrentGrows

variable {Op Buf : Type}

theorem causally_before_trans (u v w : InfAdoptedStateVector)
    (h1 : inf_adopted_state_vector_causally_before u v = true)
    (h2 : inf_adopted_state_vector_causally_before v w = true) :
    inf_adopted_state_vector_causally_before u w = true := by
  rw [causally_before_iff] at h1 h2 ⊢
  intro id
  exact le_trans (h1 id) (h2 id)

/-- With the invariant, execute_request does not decrease current in any
component. -/
theorem execute_request_current_grows (fuel : Nat) (O : InfAdoptedOperationClass Op Buf)
    (a a2 : InfAdoptedAlgorithm Op Buf) (request : InfAdoptedRequest Op) (apply : Bool)
    (hinv : reachability_invariant a)
    (h : inf_adopted_algorithm_execute_request fuel O a request apply = .ok a2) :
    inf_adopted_state_vector_causally_before a.current a2.current = true := by
  obtain ⟨user, log_request, translated, recorded, _, hlook, _, _, _, heq⟩ :=
    execute_request_ok fuel O a a2 request apply h
  obtain ⟨hmem, hid⟩ := lookup_mem a.users request.user_id user hlook
  obtain ⟨_, _, _, f4, _, _⟩ := execute_request_result_frame O a request apply user
    translated recorded
  rw [← heq] at f4
  rw [f4]
  cases recorded with
  | none => exact causally_before_refl _
  | some log =>
    simp only
    rw [causally_before_iff]
    intro id
    rw [get_add]
    by_cases hi : id = request.user_id
    · rw [if_pos hi, hi]
      obtain ⟨_, _, h3, _, h5⟩ := invariant_user a hinv user hmem
      rw [← hid, h5, guint_add_small _ _ (by have := h3.2.2; omega)]
      omega
    · rw [if_neg hi]

/-- The closing steps of the entry points keep current. -/
theorem update_logs_and_undo_redo_current (a a2 : InfAdoptedAlgorithm Op Buf)
    (h : update_logs_and_undo_redo a = .ok a2) : a2.current = a.current :=
  (update_logs_and_undo_redo_frame a a2 h).2.1

theorem generate_execute_current_grows (fuel : Nat) (O : InfAdoptedOperationClass Op Buf)
    (a a2 : InfAdoptedAlgorithm Op Buf) (request : InfAdoptedRequest Op) (apply : Bool)
    (r : Option (InfAdoptedRequest Op)) (hinv : reachability_invariant a)
    (h : generate_execute fuel O a request apply = .ok (r, a2)) :
    inf_adopted_state_vector_causally_before a.current a2.current = true := by
  unfold generate_execute at h
  rcases except_error_or_ok (inf_adopted_algorithm_execute_request fuel O a request apply)
    with ⟨e, h1⟩ | ⟨mid, h1⟩
  · rw [h1] at h; simp at h
  · rw [h1] at h
    simp only at h
    rcases except_error_or_ok (update_logs_and_undo_redo mid) with ⟨e, h2⟩ | ⟨fin, h2⟩
    · rw [h2] at h; simp at h
    · rw [h2] at h
      simp only [Except.ok.injEq, Prod.mk.injEq] at h
      obtain ⟨_, hfin⟩ := h
      subst hfin
      rw [update_logs_and_undo_redo_current mid fin h2]
      exact execute_request_current_grows fuel O a mid request apply hinv h1

theorem generate_form_current_grows (fuel : Nat) (O : InfAdoptedOperationClass Op Buf)
    (a a2 : InfAdoptedAlgorithm Op Buf)
    (res : Except Failure (Option (InfAdoptedRequest Op) × InfAdoptedAlgorithm Op Buf))
    (hform : res = .ok (none, a) ∨
      ∃ request apply, res = generate_execute fuel O a request apply)
    (r : Option (InfAdoptedRequest Op)) (h : res = .ok (r, a2))
    (hinv : reachability_invariant a) :
    inf_adopted_state_vector_causally_before a.current a2.current = true := by
  rcases hform with hf | ⟨request, apply, hf⟩
  · rw [hf] at h
    simp only [Except.ok.injEq, Prod.mk.injEq] at h
    rw [← h.2]
    exact causally_before_refl _
  · rw [hf] at h
    exact generate_execute_current_grows fuel O a a2 request apply r hinv h

theorem receive_request_current_grows (fuel : Nat) (O : InfAdoptedOperationClass Op Buf)
    (a a2 : InfAdoptedAlgorithm Op Buf) (request : InfAdoptedRequest Op) (accepted : Bool)
    (hinv : reachability_invariant a)
    (h : inf_adopted_algorithm_receive_request fuel O a request = .ok (accepted, a2))
    (hsmall : logs_small a2) :
    inf_adopted_state_vector_causally_before a.current a2.current = true := by
  unfold inf_adopted_algorithm_receive_request at h
  cases hu : inf_user_table_lookup_user_by_id a.users
      (inf_adopted_request_get_user_id request) with
  | none =>
    simp only [hu, Except.ok.injEq, Prod.mk.injEq] at h
    rw [← h.2]
    exact causally_before_refl _
  | some user =>
    simp only [hu] at h
    cases hl : user.flags_local with
    | true =>
      simp only [hl, if_true, Except.ok.injEq, Prod.mk.injEq] at h
      rw [← h.2]
      exact causally_before_refl _
    | false =>
      simp only [hl, Bool.false_eq_true, if_false] at h
      have hrec : ∀ b : InfAdoptedAlgorithm Op Buf,
          b = (if inf_adopted_state_vector_causally_before user.vector
              (inf_adopted_request_get_vector request) then
            { a with
              users := inf_adopted_user_set_vector a.users user.id
                (if inf_adopted_request_affects_buffer O request then
                  inf_adopted_state_vector_add
                    (inf_adopted_state_vector_copy (inf_adopted_request_get_vector request))
                    user.id 1
                else inf_adopted_state_vector_copy (inf_adopted_request_get_vector request)) }
          else a) → reachability_invariant b ∧ b.current = a.current := by
        intro b hb
        subst hb
        split
        · exact ⟨reachability_invariant_congr a _ (set_vector_logs _ _ _) rfl hinv, rfl⟩
        · exact ⟨hinv, rfl⟩
      generalize hgen : (if inf_adopted_state_vector_causally_before user.vector
              (inf_adopted_request_get_vector request) then
            { a with
              users := inf_adopted_user_set_vector a.users user.id
                (if inf_adopted_request_affects_buffer O request then
                  inf_adopted_state_vector_add
                    (inf_adopted_state_vector_copy (inf_adopted_request_get_vector request))
                    user.id 1
                else inf_adopted_state_vector_copy (inf_adopted_request_get_vector request)) }
          else a) = a1 at h
      obtain ⟨hinv1, hcur1⟩ := hrec a1 hgen.symm
      rw [← hcur1]
      split at h
      · cases h
      · rename_i processed hp
        split at h
        · cases h
        · rename_i fin hfin
          simp only [Except.ok.injEq, Prod.mk.injEq] at h
          obtain ⟨_, h2⟩ := h
          subst h2
          have hsp : logs_small processed :=
            logs_small_of_sizes fin processed
              (update_logs_and_undo_redo_sizes processed fin hfin).symm hsmall
          rw [update_logs_and_undo_redo_current processed fin hfin]
          have hQ : logs_small processed →
              reachability_invariant processed ∧
              inf_adopted_state_vector_causally_before a1.current processed.current
                = true := by
            split at hp
            · simp only [Except.ok.injEq] at hp
              subst hp
              intro _
              exact ⟨reachability_invariant_congr a1 _ rfl rfl hinv1,
                causally_before_refl _⟩
            · split at hp
              · cases hp
              · rename_i executed hex
                exact (receive_request_drain_induction fuel O
                  (fun s => (s.users.map (fun u => u.id)).Nodup ∧
                    (logs_small s → reachability_invariant s ∧
                      inf_adopted_state_vector_causally_before a1.current s.current = true))
                  (by
                    intro s q s2 hs hexec
                    refine ⟨execute_request_ids fuel O s s2 q true hs.1 hexec, ?_⟩
                    intro hs2
                    have hprev := hs.2 (execute_request_small fuel O s s2 q true hs.1 hexec hs2)
                    exact ⟨execute_request_reachability fuel O s s2 q true hprev.1 hexec hs2,
                      causally_before_trans _ _ _ hprev.2
                        (execute_request_current_grows fuel O s s2 q true hprev.1 hexec)⟩)
                  (by
                    intro s q hs
                    exact ⟨hs.1, fun hsm =>
                      ⟨reachability_invariant_congr s _ rfl rfl (hs.2 hsm).1, (hs.2 hsm).2⟩⟩)
                  _ executed processed hp
                  ⟨execute_request_ids fuel O a1 executed request true hinv1.1 hex,
                    fun hsm =>
                      ⟨execute_request_reachability fuel O a1 executed request true
                        hinv1 hex hsm,
                      execute_request_current_grows fuel O a1 executed request true
                        hinv1 hex⟩⟩).2
          exact (hQ hsp).2

/-- One call of an entry point does not decrease current in any component. -/
theorem perform_call_current_grows (fuel : Nat) (O : InfAdoptedOperationClass Op Buf)
    (a a2 : InfAdoptedAlgorithm Op Buf) (call : InfAdoptedAlgorithmCall Op)
    (hinv : reachability_invariant a)
    (h : perform_call fuel O a call = .ok a2) (hsmall : logs_small a2) :
    inf_adopted_state_vector_causally_before a.current a2.current = true := by
  cases call with
  | generate_request user operation =>
    simp only [perform_call] at h
    split at h
    · cases h
    · rename_i r fin hg
      simp only [Except.ok.injEq] at h
      subst h
      exact generate_form_current_grows fuel O a fin _
        (generate_forms fuel O a user operation).1 r hg hinv
  | generate_request_noexec user operation =>
    simp only [perform_call] at h
    split at h
    · cases h
    · rename_i r fin hg
      simp only [Except.ok.injEq] at h
      subst h
      exact generate_form_current_grows fuel O a fin _
        (generate_forms fuel O a user operation).2 r hg hinv
  | generate_undo user =>
    simp only [perform_call] at h
    split at h
    · cases h
    · rename_i r fin hg
      simp only [Except.ok.injEq] at h
      subst h
      exact generate_form_current_grows fuel O a fin _
        (generate_undo_redo_forms fuel O a user).1 r hg hinv
  | generate_redo user =>
    simp only [perform_call] at h
    split at h
    · cases h
    · rename_i r fin hg
      simp only [Except.ok.injEq] at h
      subst h
      exact generate_form_current_grows fuel O a fin _
        (generate_undo_redo_forms fuel O a user).2 r hg hinv
  | receive_request request =>
    simp only [perform_call] at h
    split at h
    · cases h
    · rename_i accepted fin hg
      simp only [Except.ok.injEq] at h
      subst h
      exact receive_request_current_grows fuel O a fin request accepted hinv hg hsmall

/-- A sequence of calls does not decrease current in any component. -/
theorem perform_calls_current_grows (fuel : Nat) (O : InfAdoptedOperationClass Op Buf)
    (calls : List (InfAdoptedAlgorithmCall Op)) :
    ∀ a a2 : InfAdoptedAlgorithm Op Buf, reachability_invariant a →
      perform_calls fuel O a calls = .ok a2 → logs_small a2 →
      inf_adopted_state_vector_causally_before a.current a2.current = true := by
  induction calls with
  | nil =>
    intro a a2 _ h _
    unfold perform_calls at h
    simp only [Except.ok.injEq] at h
    subst h
    exact causally_before_refl _
  | cons call rest ih =>
    intro a a2 hinv h hsmall
    unfold perform_calls at h
    split at h
    · cases h
    · rename_i next hstep
      obtain ⟨s1, _, s3⟩ := perform_call_step fuel O a next call hinv.1 hstep
      have hsn : logs_small next := (perform_calls_steps fuel O rest next a2 s1 h).2.1 hsmall
      exact causally_before_trans _ _ _
        (perform_call_current_grows fuel O a next call hinv hstep hsn)
        (ih next a2 (s3 hinv hsn) h hsmall)

/-- A sequence of calls is run part after part. -/
theorem perform_calls_append (fuel : Nat) (O : InfAdoptedOperationClass Op Buf)
    (calls1 calls2 : List (InfAdoptedAlgorithmCall Op)) :
    ∀ a : InfAdoptedAlgorithm Op Buf,
    perform_calls fuel O a (calls1 ++ calls2) =
      match perform_calls fuel O a calls1 with
      | .error e => .error e
      | .ok mid => perform_calls fuel O mid calls2 := by
  induction calls1 with
  | nil => intro a; rfl
  | cons call rest ih =>
    intro a
    simp only [List.cons_append, perform_calls]
    cases perform_call fuel O a call with
    | error e => rfl
    | ok next => exact ih next

/-- With the invariant the original request of every logged request is found in
the log, and its vector is causally before current. -/
theorem invariant_original_before (a : InfAdoptedAlgorithm Op Buf)
    (hinv : reachability_invariant a) (u : InfAdoptedUser Op) (hu : u ∈ a.users)
    (k : Nat) (e : InfAdoptedRequestLogEntry Op)
    (he : u.request_log.entries.get? k = some e) :
    ∃ original, inf_adopted_request_log_original_request u.request_log e.request
        = some original ∧
      inf_adopted_state_vector_causally_before original.vector a.current = true := by
  obtain ⟨_, h2, h3, _, _⟩ := invariant_user a hinv u hu
  have hreach : ∀ x ∈ u.request_log.entries,
      inf_adopted_state_vector_causally_before x.request.vector a.current = true :=
    fun x hx => ((vector_reachable_iff a _).mp (hinv.2.2.2.2 u hu x hx)).1
  unfold inf_adopted_request_log_original_request
  by_cases hdo : e.request.type = InfAdoptedRequestType.DO
  · rw [hdo]
    exact ⟨e.request, rfl, hreach e (List.get?_mem he)⟩
  · obtain ⟨hslot, _, _⟩ := entry_indexed u.request_log h2.1 h3 k e he
    obtain ⟨t, et, hprev, htk, hget, horig⟩ := (h2.2.1 k e he).2.2 hdo
    have hslot2 : prev_associated_slot u.request_log e.request = some t := by
      unfold prev_associated_slot
      rw [hslot, get_entry_linked u.request_log h2.1, he]
      exact hprev
    have horig_le := (h2.2.1 t et hget).1
    have hlt : et.original < u.request_log.entries.length := by
      have := (entry_indexed u.request_log h2.1 h3 t et hget).2.2
      omega
    have hgeto : u.request_log.entries.get? et.original =
        some (u.request_log.entries.get ⟨et.original, hlt⟩) := List.get?_eq_get hlt
    refine ⟨(u.request_log.entries.get ⟨et.original, hlt⟩).request, ?_,
      hreach _ (List.get?_mem hgeto)⟩
    cases htype : e.request.type with
    | DO => exact absurd htype hdo
    | UNDO =>
      simp only [hslot2, get_entry_linked u.request_log h2.1, hget,
        get_request_linked u.request_log h2.1, hgeto, Option.map_some']
    | REDO =>
      simp only [hslot2, get_entry_linked u.request_log h2.1, hget,
        get_request_linked u.request_log h2.1, hgeto, Option.map_some']

/-- With the invariant the availability test returns for the next Undo and the
next Redo target of every log. -/
theorem invariant_targets_ready (a : InfAdoptedAlgorithm Op Buf)
    (hinv : reachability_invariant a) (u : InfAdoptedUser Op) (hu : u ∈ a.users) :
    target_ready a u.request_log (inf_adopted_request_log_next_undo u.request_log) = true ∧
    target_ready a u.request_log (inf_adopted_request_log_next_redo u.request_log) = true := by
  obtain ⟨_, h2, _, _, _⟩ := invariant_user a hinv u hu
  have key : ∀ t, target_ready a u.request_log
      (inf_adopted_request_log_get_request u.request_log t) = true := by
    intro t
    rw [get_request_linked u.request_log h2.1]
    cases he : u.request_log.entries.get? t with
    | none => rfl
    | some e =>
      obtain ⟨original, ho, hcb⟩ := invariant_original_before a hinv u hu t e he
      simp only [Option.map_some', target_ready, ho, hcb, Bool.or_true]
  constructor
  · unfold inf_adopted_request_log_next_undo
    cases u.request_log.undo_targets with
    | nil => rfl
    | cons t rest => exact key t
  · unfold inf_adopted_request_log_next_redo
    cases u.request_log.redo_targets with
    | nil => rfl
    | cons t rest => exact key t

end CurrentGrows

/-- C37: in every state a sequence of generate_request, generate_request_noexec,
generate_undo, generate_redo and receive_request calls reaches from a session with
empty logs (distinct user ids, logs starting at slot 0, slot numbers below 2^31 - 1
at the end): the vector of every request stored in a log is causally before
current; current is not smaller in any component than it was after any earlier
part of the calls; the original request of every logged request is found and its
vector is causally before current, so vdiff(original.vector, current) passes its
assertion and returns; and can_undo_redo returns for the next Undo and the next
Redo target of every log. -/
theorem logged_vectors_before_current {Op Buf : Type} (fuel : Nat)
    (O : InfAdoptedOperationClass Op Buf) (initial final : InfAdoptedAlgorithm Op Buf)
    (calls : List (InfAdoptedAlgorithmCall Op))
    (hstart : logs_empty initial)
    (hrun : perform_calls fuel O initial calls = .ok final)
    (hsmall : logs_small final) :
    (∀ u ∈ final.users, ∀ e ∈ u.request_log.entries,
      inf_adopted_state_vector_causally_before e.request.vector final.current = true) ∧
    (∀ calls1 calls2 mid, calls = calls1 ++ calls2 →
      perform_calls fuel O initial calls1 = .ok mid →
      inf_adopted_state_vector_causally_before mid.current final.current = true) ∧
    (∀ u ∈ final.users, ∀ e ∈ u.request_log.entries,
      ∃ original d,
        inf_adopted_request_log_original_request u.request_log e.request = some original ∧
        inf_adopted_state_vector_causally_before original.vector final.current = true ∧
        inf_adopted_algorithm_state_vector_vdiff final original.vector final.current
          = .ok d) ∧
    (∀ u ∈ final.users, ∃ can_undo can_redo,
      inf_adopted_algorithm_can_undo_redo final u.request_log
        (inf_adopted_request_log_next_undo u.request_log) = .ok can_undo ∧
      inf_adopted_algorithm_can_undo_redo final u.request_log
        (inf_adopted_request_log_next_redo u.request_log) = .ok can_redo) := by
  have hinv0 := logs_empty_invariant initial hstart
  have hinv : reachability_invariant final :=
    (perform_calls_steps fuel O calls initial final hstart.1 hrun).2.2 hinv0 hsmall
  refine ⟨?_, ?_, ?_, ?_⟩
  · intro u hu e he
    exact ((vector_reachable_iff final _).mp (hinv.2.2.2.2 u hu e he)).1
  · intro calls1 calls2 mid hsplit hmid
    rw [hsplit, perform_calls_append, hmid] at hrun
    simp only at hrun
    have hn := (perform_calls_steps fuel O calls1 initial mid hstart.1 hmid)
    have hsm : logs_small mid :=
      (perform_calls_steps fuel O calls2 mid final hn.1 hrun).2.1 hsmall
    exact perform_calls_current_grows fuel O calls2 mid final (hn.2.2 hinv0 hsm) hrun hsmall
  · intro u hu e he
    obtain ⟨k, hk⟩ := List.get?_of_mem he
    obtain ⟨original, ho, hcb⟩ := invariant_original_before final hinv u hu k e hk
    have hv : ∃ d, inf_adopted_algorithm_state_vector_vdiff final original.vector
        final.current = .ok d := by
      unfold inf_adopted_algorithm_state_vector_vdiff
      rw [if_pos hcb]
      exact ⟨_, rfl⟩
    obtain ⟨d, hd⟩ := hv
    exact ⟨original, d, ho, hcb, hd⟩
  · intro u hu
    obtain ⟨h1, h2⟩ := invariant_targets_ready final hinv u hu
    obtain ⟨b1, hb1⟩ := can_undo_redo_total final u.request_log _ h1
    obtain ⟨b2, hb2⟩ := can_undo_redo_total final u.request_log _ h2
    exact ⟨b1, b2, hb1, hb2⟩

/-- C37 on the sample session of a local Do, a received remote Do and a local Undo:
the three logged vectors are causally before current, current has not decreased
since the first call, and the availability of the next Redo of user 1, whose target
is the Undo with the first Do as original, is computed. -/
theorem logged_vectors_before_current_witness :
    (∀ u ∈ sample_calls_end.users, ∀ e ∈ u.request_log.entries,
      inf_adopted_state_vector_causally_before e.request.vector sample_calls_end.current
        = true) ∧
    inf_adopted_state_vector_causally_before sample_after_do.current
      sample_calls_end.current = true ∧
    (∃ can_undo can_redo,
      inf_adopted_algorithm_can_undo_redo sample_calls_end
        (sample_log_of sample_calls_end 1)
        (inf_adopted_request_log_next_undo (sample_log_of sample_calls_end 1))
          = .ok can_undo ∧
      inf_adopted_algorithm_can_undo_redo sample_calls_end
        (sample_log_of sample_calls_end 1)
        (inf_adopted_request_log_next_redo (sample_log_of sample_calls_end 1))
          = .ok can_redo) :=
  ⟨(logged_vectors_before_current 8 CounterOperation sample_algorithm sample_calls_end
      sample_calls (by unfold logs_empty; decide) rfl (by unfold logs_small; decide)).1,
    (logged_vectors_before_current 8 CounterOperation sample_algorithm sample_calls_end
      sample_calls (by unfold logs_empty; decide) rfl (by unfold logs_small; decide)).2.1
      [.generate_request 1 5] [.receive_request sample_remote_first, .generate_undo 1]
      sample_after_do rfl rfl,
    (logged_vectors_before_current 8 CounterOperation sample_algorithm sample_calls_end
      sample_calls (by unfold logs_empty; decide) rfl
      (by unfold logs_small; decide)).2.2.2 (sample_user_one sample_calls_end) (by decide)⟩

section Reach

variable {Op Buf : Type}

/-- In a linked log indexed by its owner's component, the recursion of reach goes
to smaller arguments: any depth of at least the argument gives the same value, the
value of component_reachable. -/
theorem reach_within_eq (log : InfAdoptedRequestLog Op)
    (hlinked : log_linked log) (hidx : log_indexed log) (v : InfAdoptedStateVector) :
    ∀ (n depth : Nat), n ≤ log.entries.length → n ≤ depth →
      reach_within log v log.user_id depth n = component_reachable log v n := by
  have h0 := hlinked.1
  intro n
  induction n using Nat.strong_induction_on with
  | _ n ih =>
    intro depth hn hdepth
    cases n with
    | zero =>
      unfold component_reachable
      rw [landing_zero]
      cases depth <;> rfl
    | succ k =>
      cases depth with
      | zero => omega
      | succ depth =>
        have hk : k < log.entries.length := by omega
        have he : log.entries.get? k = some (log.entries.get ⟨k, hk⟩) := List.get?_eq_get hk
        obtain ⟨hslot, hown, _⟩ := entry_indexed log h0 hidx k _ he
        unfold reach_within
        rw [get_request_linked log h0, he]
        simp only [Option.map_some']
        by_cases hdo : (log.entries.get ⟨k, hk⟩).request.type = InfAdoptedRequestType.DO
        · simp only [hdo, if_true]
          unfold component_reachable
          rw [landing_do log k _ he hdo]
          simp only [get_request_linked log h0, he, Option.map_some', hown]
        · simp only [hdo, if_false]
          obtain ⟨a, ea, hp, hak, hea, _⟩ := (hlinked.2.1 k _ he).2.2 hdo
          have hpa : inf_adopted_request_log_prev_associated log
              (log.entries.get ⟨k, hk⟩).request = some ea.request := by
            unfold inf_adopted_request_log_prev_associated prev_associated_slot
            rw [hslot, get_entry_linked log h0, he]
            simp only [hp]
            rw [get_request_linked log h0, hea]
            rfl
          rw [hpa]
          simp only
          obtain ⟨haslot, haown, _⟩ := entry_indexed log h0 hidx a ea hea
          have hget : inf_adopted_state_vector_get ea.request.vector log.user_id = a := by
            rw [← haown]
            exact haslot
          rw [hget, ih a (by omega) depth (by omega) (by omega)]
          unfold component_reachable
          rw [landing_associated log k a _ he hdo hp (by omega)]

theorem reach_eq (log : InfAdoptedRequestLog Op)
    (hlinked : log_linked log) (hidx : log_indexed log) (v : InfAdoptedStateVector)
    (n : Nat) (hn : n ≤ log.entries.length) :
    reach log v log.user_id n = component_reachable log v n :=
  reach_within_eq log hlinked hidx v n n hn (le_refl _)

/-- In a linked log indexed by its owner's component, reach satisfies the
recursion equations of the specification on the slots of the log. -/
theorem reach_equations (log : InfAdoptedRequestLog Op)
    (hlinked : log_linked log) (hidx : log_indexed log) (v : InfAdoptedStateVector) :
    reach log v log.user_id 0 = true ∧
    (∀ n r, inf_adopted_request_log_get_request log n = some r →
      r.type = InfAdoptedRequestType.DO →
      reach log v log.user_id (n + 1) =
        inf_adopted_state_vector_causally_before
          (inf_adopted_state_vector_add r.vector log.user_id 1) v) ∧
    (∀ n r a, inf_adopted_request_log_get_request log n = some r →
      r.type ≠ InfAdoptedRequestType.DO →
      inf_adopted_request_log_prev_associated log r = some a →
      inf_adopted_state_vector_get a.vector log.user_id < n + 1 ∧
      reach log v log.user_id (n + 1) =
        reach log v log.user_id (inf_adopted_state_vector_get a.vector log.user_id)) := by
  have h0 := hlinked.1
  refine ⟨rfl, ?_, ?_⟩
  · intro n r hr hdo
    unfold reach reach_within
    simp only [hr, hdo, if_true]
  · intro n r a hr hdo ha
    rw [get_request_linked log h0] at hr
    cases he : log.entries.get? n with
    | none => rw [he] at hr; cases hr
    | some e =>
      rw [he] at hr
      simp only [Option.map_some', Option.some.injEq] at hr
      subst hr
      obtain ⟨hslot, hown, hlen⟩ := entry_indexed log h0 hidx n e he
      obtain ⟨t, et, hp, htn, het, _⟩ := (hlinked.2.1 n e he).2.2 hdo
      have hpa : inf_adopted_request_log_prev_associated log e.request = some et.request := by
        unfold inf_adopted_request_log_prev_associated prev_associated_slot
        rw [hslot, get_entry_linked log h0, he]
        simp only [hp]
        rw [get_request_linked log h0, het]
        rfl
      rw [hpa] at ha
      simp only [Option.some.injEq] at ha
      subst ha
      obtain ⟨htslot, htown, _⟩ := entry_indexed log h0 hidx t et het
      have hget : inf_adopted_state_vector_get et.request.vector log.user_id = t := by
        rw [← htown]
        exact htslot
      rw [hget]
      refine ⟨by omega, ?_⟩
      have h1 : reach log v log.user_id (n + 1) = reach_within log v log.user_id n t := by
        unfold reach
        conv_lhs => unfold reach_within
        simp only [get_request_linked log h0, he, Option.map_some', hdo, if_false, hpa, hget]
      rw [h1, reach_within_eq log hlinked hidx v t n (by omega) (by omega),
        reach_eq log hlinked hidx v t (by omega)]

theorem all_congr_mem {α : Type} (f g : α → Bool) :
    ∀ l : List α, (∀ x ∈ l, f x = g x) → l.all f = l.all g := by
  intro l
  induction l with
  | nil => intro _; rfl
  | cons x rest ih =>
    intro h
    rw [List.all_cons, List.all_cons, h x (List.mem_cons_self _ _),
      ih (fun y hy => h y (List.mem_cons_of_mem _ hy))]

/-- What the invariant gives the walks of is_reachable for a vector causally before
current. -/
theorem invariant_walks (a : InfAdoptedAlgorithm Op Buf) (hinv : reachability_invariant a)
    (v : InfAdoptedStateVector)
    (hcb : inf_adopted_state_vector_causally_before v a.current = true) (fuel : Nat)
    (hfuel : ∀ u ∈ a.users, u.request_log.entries.length < fuel) :
    ∀ u ∈ a.users, u.request_log.user_id = u.id ∧ log_linked u.request_log ∧
      log_indexed u.request_log ∧
      inf_adopted_state_vector_get v u.id ≤ u.request_log.entries.length ∧
      u.request_log.entries.length < fuel := by
  intro u hu
  obtain ⟨h1, h2, h3, _, h5⟩ := invariant_user a hinv u hu
  refine ⟨h1, h2, h3, ?_, hfuel u hu⟩
  rw [← h5]
  exact (causally_before_iff _ _).mp hcb u.id

end Reach

/-- C32: for a vector v causally before current (the assertion of is_reachable) and
participants whose logs are their own, linked, indexed by the owner's component and
hold the slots below v[p] (every state of a session), with more fuel than the
longest log has requests: is_component_reachable(v, p) returns, with the value
reach(v[p]) of the recursive definition of the specification; is_reachable(v)
returns the conjunction of these values over all participants; and on each log
reach satisfies the equations of the definition: reach(0) is true, reach(n + 1) for
a Do r in slot n says that r.vector with one more tick of p is causally before v,
and for an Undo or Redo r in slot n with prev_associated request a the argument
a.vector[p] is smaller than n + 1 and reach(n + 1) = reach(a.vector[p]). -/
theorem is_reachable_recursive {Op Buf : Type} (fuel : Nat)
    (algorithm : InfAdoptedAlgorithm Op Buf) (v : InfAdoptedStateVector)
    (hcb : inf_adopted_state_vector_causally_before v algorithm.current = true)
    (hlogs : ∀ u ∈ algorithm.users, u.request_log.user_id = u.id ∧
      log_linked u.request_log ∧ log_indexed u.request_log ∧
      inf_adopted_state_vector_get v u.id ≤ u.request_log.entries.length ∧
      u.request_log.entries.length < fuel) :
    (∀ p ∈ algorithm.users,
      inf_adopted_algorithm_is_component_reachable fuel v p =
        .ok (reach p.request_log v p.id (inf_adopted_state_vector_get v p.id))) ∧
    inf_adopted_algorithm_is_reachable fuel algorithm v =
      .ok (algorithm.users.all (fun p =>
        reach p.request_log v p.id (inf_adopted_state_vector_get v p.id))) ∧
    (∀ p ∈ algorithm.users,
      reach p.request_log v p.id 0 = true ∧
      (∀ n r, inf_adopted_request_log_get_request p.request_log n = some r →
        r.type = InfAdoptedRequestType.DO →
        reach p.request_log v p.id (n + 1) =
          inf_adopted_state_vector_causally_before
            (inf_adopted_state_vector_add r.vector p.id 1) v) ∧
      (∀ n r a, inf_adopted_request_log_get_request p.request_log n = some r →
        r.type ≠ InfAdoptedRequestType.DO →
        inf_adopted_request_log_prev_associated p.request_log r = some a →
        inf_adopted_state_vector_get a.vector p.id < n + 1 ∧
        reach p.request_log v p.id (n + 1) =
          reach p.request_log v p.id (inf_adopted_state_vector_get a.vector p.id))) := by
  have hcomp : ∀ p ∈ algorithm.users,
      reach p.request_log v p.id (inf_adopted_state_vector_get v p.id) =
        component_reachable p.request_log v (inf_adopted_state_vector_get v p.id) := by
    intro p hp
    obtain ⟨hown, hlinked, hidx, hle, _⟩ := hlogs p hp
    rw [← hown]
    exact reach_eq p.request_log hlinked hidx v _ (by rw [hown]; exact hle)
  refine ⟨?_, ?_, ?_⟩
  · intro p hp
    obtain ⟨hown, hlinked, hidx, hle, hfuel⟩ := hlogs p hp
    rw [hcomp p hp]
    unfold inf_adopted_algorithm_is_component_reachable
    rw [← hown]
    exact is_component_reachable_loop_eq p.request_log hlinked hidx v _ fuel v rfl
      (by rw [hown]; exact hle) (by rw [hown]; omega)
  · unfold inf_adopted_algorithm_is_reachable
    rw [if_pos hcb, is_reachable_users_eq fuel v algorithm.users hlogs]
    congr 1
    exact all_congr_mem _ _ algorithm.users (fun p hp => (hcomp p hp).symm)
  · intro p hp
    obtain ⟨hown, hlinked, hidx, _, _⟩ := hlogs p hp
    rw [← hown]
    exact reach_equations p.request_log hlinked hidx v

/-- C32 on the sample session of a local Do, a received remote Do and a local Undo,
for v = current = (1:2, 2:1, 3:0): the walk of user 1 goes from the Undo in slot 1 to
the Do it undoes and on to reach(0); is_reachable returns the conjunction, TRUE. -/
theorem is_reachable_recursive_witness :
    inf_adopted_state_vector_causally_before sample_calls_end.current
      sample_calls_end.current = true ∧
    sample_calls_end.users.map (fun p =>
      reach p.request_log sample_calls_end.current p.id
        (inf_adopted_state_vector_get sample_calls_end.current p.id)) = [true, true, true] ∧
    reach (sample_log_of sample_calls_end 1) sample_calls_end.current 1 2 =
      reach (sample_log_of sample_calls_end 1) sample_calls_end.current 1 0 ∧
    inf_adopted_algorithm_is_reachable 3 sample_calls_end sample_calls_end.current =
      .ok (sample_calls_end.users.all (fun p =>
        reach p.request_log sample_calls_end.current p.id
          (inf_adopted_state_vector_get sample_calls_end.current p.id))) :=
  ⟨by decide, by decide, by decide,
    (is_reachable_recursive 3 sample_calls_end sample_calls_end.current (by decide)
      (invariant_walks sample_calls_end
        ((perform_calls_steps 8 CounterOperation sample_calls sample_algorithm
          sample_calls_end (by decide) rfl).2.2
          (logs_empty_invariant sample_algorithm (by unfold logs_empty; decide))
          (by unfold logs_small; decide))
        sample_calls_end.current (by decide) 3 (by decide))).2.1⟩

/-- C33 fails on the code. Remote user 2 issues a request that does not affect the
buffer and then one that does, with the same vector; both wait in the queue for the
first request of user 3. When that one is received, the drain loop of receive_request
executes the later request of user 2 first and then calls translate_request for the
earlier one, to current = (1:0, 2:1, 3:1). The asserted preconditions hold there:
the issuer is known, current is causally before current, the request is its own
original with the vector (3:1) causally before current, and current is reachable.
The request is a Do whose vector differs from current, so neither the identity case
nor the late mirror applies; both loops skip the issuer, user 1 has no request, and
for user 3 the request's component is not below that of current: no participant
provides a late fold or a transform candidate, and translate_request reaches
g_assert_not_reached, with every fuel. -/
theorem translate_request_not_reached_failing_input :
    receive_requests 8 CounterOperation [sample_silent, sample_silent_next]
      sample_algorithm = .ok sample_silent_waiting ∧
    inf_adopted_algorithm_execute_request 8 CounterOperation sample_silent_recorded
      sample_prerequisite true = .ok sample_silent_first ∧
    receive_request_pass 8 CounterOperation sample_silent_first
      sample_silent_first.queue 0 = .ok (some sample_silent_second) ∧
    sample_silent_second.queue = [sample_silent] ∧
    sample_silent_second.current = [(1, 0), (2, 1), (3, 1)] ∧
    (inf_user_table_lookup_user_by_id sample_silent_second.users sample_silent.user_id).bind
      (fun u => inf_adopted_request_log_original_request u.request_log sample_silent)
      = some sample_silent ∧
    inf_adopted_state_vector_causally_before sample_silent_second.current
      sample_silent_second.current = true ∧
    inf_adopted_state_vector_causally_before sample_silent.vector
      sample_silent_second.current = true ∧
    inf_adopted_algorithm_is_reachable 8 sample_silent_second sample_silent_second.current
      = .ok true ∧
    sample_silent.type = InfAdoptedRequestType.DO ∧
    inf_adopted_state_vector_compare sample_silent.vector sample_silent_second.current ≠ 0 ∧
    (∀ translate : InfAdoptedRequest Int → InfAdoptedStateVector →
        Except Failure (InfAdoptedRequest Int),
      translate_request_first_loop translate 8 CounterOperation sample_silent_second
        sample_silent sample_silent_second.current sample_silent_second.users
        sample_silent_second.current = .ok (none, sample_silent_second.current) ∧
      translate_request_second_loop translate 8 CounterOperation sample_silent_second
        sample_silent sample_silent_second.current sample_silent_second.users
        sample_silent_second.current = .ok (none, sample_silent_second.current)) ∧
    (∀ fuel, inf_adopted_algorithm_translate_request (fuel + 1) CounterOperation
      sample_silent_second sample_silent sample_silent_second.current
        = .error Failure.not_reached) ∧
    inf_adopted_algorithm_receive_request 8 CounterOperation sample_silent_waiting
      sample_prerequisite = .error Failure.not_reached :=
  ⟨rfl, rfl, rfl, by decide, by decide, by decide, by decide, by decide, rfl, rfl,
    by decide, fun _ => ⟨rfl, rfl⟩, fun _ => rfl, rfl⟩

section StepOrder

variable {Op Buf : Type}

/-- The first loop of translate_request over a user array in two parts: the second
part is looked at only if the first part offers no step. -/
theorem translate_request_first_loop_append
    (translate : InfAdoptedRequest Op → InfAdoptedStateVector →
      Except Failure (InfAdoptedRequest Op))
    (fuel : Nat) (O : InfAdoptedOperationClass Op Buf) (algorithm : InfAdoptedAlgorithm Op Buf)
    (request : InfAdoptedRequest Op) (to_ : InfAdoptedStateVector)
    (before after : List (InfAdoptedUser Op)) :
    ∀ v : InfAdoptedStateVector,
    translate_request_first_loop translate fuel O algorithm request to_ (before ++ after) v =
      match translate_request_first_loop translate fuel O algorithm request to_ before v with
      | .error e => .error e
      | .ok (some result, v') => .ok (some result, v')
      | .ok (none, v') =>
        translate_request_first_loop translate fuel O algorithm request to_ after v' := by
  induction before with
  | nil => intro v; rfl
  | cons u rest ih =>
    intro v
    simp only [List.cons_append, translate_request_first_loop]
    split
    · exact ih v
    · split
      · exact ih v
      · split
        · rfl
        · split
          · split
            · rfl
            · split
              · rfl
              · split
                · split
                  · rfl
                  · rfl
                · exact ih _
          · split
            · split
              · rfl
              · split
                · rfl
                · rfl
              · exact ih _
            · exact ih v

end StepOrder

section StepOrder2

variable {Op Buf : Type}

/-- While the first loop of translate_request offers no step, its scratch vector
stays a copy of `to`. -/
theorem translate_request_first_loop_none
    (translate : InfAdoptedRequest Op → InfAdoptedStateVector →
      Except Failure (InfAdoptedRequest Op))
    (fuel : Nat) (O : InfAdoptedOperationClass Op Buf) (algorithm : InfAdoptedAlgorithm Op Buf)
    (request : InfAdoptedRequest Op) (to_ : InfAdoptedStateVector)
    (users : List (InfAdoptedUser Op)) :
    ∀ v v' : InfAdoptedStateVector,
    (∀ p, inf_adopted_state_vector_get v p = inf_adopted_state_vector_get to_ p) →
    translate_request_first_loop translate fuel O algorithm request to_ users v
      = .ok (none, v') →
    ∀ p, inf_adopted_state_vector_get v' p = inf_adopted_state_vector_get to_ p := by
  induction users with
  | nil =>
    intro v v' hv h
    simp only [translate_request_first_loop, Except.ok.injEq, Prod.mk.injEq, true_and] at h
    rw [← h]
    exact hv
  | cons u rest ih =>
    intro v v' hv h
    have hreset : ∀ (w : InfAdoptedStateVector) (p : Nat),
        inf_adopted_state_vector_get
          (inf_adopted_state_vector_set w u.id (inf_adopted_state_vector_get to_ u.id)) p =
        if p = u.id then inf_adopted_state_vector_get to_ p
        else inf_adopted_state_vector_get w p := by
      intro w p
      rw [get_set]
      by_cases hp : p = u.id
      · rw [if_pos hp, if_pos hp, hp]
      · rw [if_neg hp, if_neg hp]
    simp only [translate_request_first_loop] at h
    split at h
    · exact ih v v' hv h
    · split at h
      · exact ih v v' hv h
      · split at h
        · cases h
        · split at h
          · split at h
            · cases h
            · split at h
              · cases h
              · split at h
                · split at h
                  · cases h
                  · simp only [Except.ok.injEq, Prod.mk.injEq] at h
                    cases h.1
                · apply ih _ v' _ h
                  intro p
                  rw [hreset]
                  by_cases hp : p = u.id
                  · rw [if_pos hp]
                  · rw [if_neg hp, get_set, if_neg hp]
                    exact hv p
          · split at h
            · split at h
              · cases h
              · split at h
                · cases h
                · simp only [Except.ok.injEq, Prod.mk.injEq] at h
                  cases h.1
              · apply ih _ v' _ h
                intro p
                rw [get_set]
                by_cases hp : p = u.id
                · rw [if_pos hp, hp]
                  exact hv u.id
                · rw [if_neg hp, get_set, if_neg hp]
                  exact hv p
            · exact ih v v' hv h

end StepOrder2

/-- C34 does not hold for every order of the user array. In the trace session whose
user array is 1, 2, 3, for the first request of user 3 and to = current = (1:1, 2:2):
a late fold is applicable for user 2 (its request in slot 1 is the Undo, the folded
vector (1:1, 2:0) is reachable and the request's vector is causally before it), yet
the result is the directional transform against the Do of user 1, the first
participant of the array: the operation records fold, then transform, while the
late fold gives transform, then fold. With the user array 2, 1, 3 and the same logs
the result is the late fold. -/
theorem translate_request_step_order_counterexample :
    (sample_trace_undone [1, 2, 3]).users.map (fun u => u.id) = [1, 2, 3] ∧
    (sample_trace_undone [1, 2, 3]).current = [(1, 1), (2, 2), (3, 0)] ∧
    inf_adopted_request_log_get_request
      (sample_trace_user_of (sample_trace_undone [1, 2, 3]) 2).request_log 1
      = some sample_trace_undo ∧
    inf_adopted_request_log_prev_associated
      (sample_trace_user_of (sample_trace_undone [1, 2, 3]) 2).request_log sample_trace_undo
      = some sample_trace_undone_do ∧
    inf_adopted_algorithm_is_reachable 8 (sample_trace_undone [1, 2, 3])
      (inf_adopted_state_vector_set (sample_trace_undone [1, 2, 3]).current 2 0) = .ok true ∧
    inf_adopted_state_vector_causally_before sample_trace_request.vector
      (inf_adopted_state_vector_set (sample_trace_undone [1, 2, 3]).current 2 0) = true ∧
    inf_adopted_algorithm_translate_request 8 TraceOperation (sample_trace_undone [1, 2, 3])
        sample_trace_request (sample_trace_undone [1, 2, 3]).current =
      inf_adopted_algorithm_transform_request 7 TraceOperation (sample_trace_undone [1, 2, 3])
        sample_trace_request sample_trace_do
        (inf_adopted_state_vector_set (sample_trace_undone [1, 2, 3]).current 1 0) ∧
    (inf_adopted_algorithm_translate_request 8 TraceOperation (sample_trace_undone [1, 2, 3])
        sample_trace_request (sample_trace_undone [1, 2, 3]).current).toOption.map
      (fun r => r.operation) = some (some [3, 1]) ∧
    ((inf_adopted_algorithm_translate_request 7 TraceOperation (sample_trace_undone [1, 2, 3])
        sample_trace_request
        (inf_adopted_state_vector_set (sample_trace_undone [1, 2, 3]).current 2 0)).toOption.map
      (fun r => (inf_adopted_request_fold TraceOperation r 2 2).operation))
      = some (some [1, 3]) ∧
    (sample_trace_undone [2, 1, 3]).users.map (fun u => (u.id, u.request_log)) =
      [(2, (sample_trace_user_of (sample_trace_undone [1, 2, 3]) 2).request_log),
        (1, (sample_trace_user_of (sample_trace_undone [1, 2, 3]) 1).request_log),
        (3, (sample_trace_user_of (sample_trace_undone [1, 2, 3]) 3).request_log)] ∧
    (inf_adopted_algorithm_translate_request 8 TraceOperation (sample_trace_undone [2, 1, 3])
        sample_trace_request (sample_trace_undone [2, 1, 3]).current).toOption.map
      (fun r => r.operation) = some (some [1, 3]) :=
  ⟨by decide, by decide, by decide, by decide, rfl, by decide, rfl, by decide, by decide,
    by decide, by decide⟩

section Measure

variable {Op Buf : Type}

theorem vector_sum_congr (users : List (InfAdoptedUser Op)) (v w : InfAdoptedStateVector)
    (h : ∀ u ∈ users, inf_adopted_state_vector_get v u.id = inf_adopted_state_vector_get w u.id) :
    vector_sum users v = vector_sum users w := by
  unfold vector_sum
  induction users with
  | nil => rfl
  | cons u rest ih =>
    simp only [List.map_cons, List.sum_cons]
    rw [h u (List.mem_cons_self _ _), ih (fun x hx => h x (List.mem_cons_of_mem _ hx))]

theorem vector_sum_le (users : List (InfAdoptedUser Op)) (v w : InfAdoptedStateVector)
    (h : ∀ u ∈ users, inf_adopted_state_vector_get v u.id ≤ inf_adopted_state_vector_get w u.id) :
    vector_sum users v ≤ vector_sum users w := by
  unfold vector_sum
  induction users with
  | nil => exact le_refl _
  | cons u rest ih =>
    simp only [List.map_cons, List.sum_cons]
    exact Nat.add_le_add (h u (List.mem_cons_self _ _))
      (ih (fun x hx => h x (List.mem_cons_of_mem _ hx)))

theorem vector_sum_le_of_before (users : List (InfAdoptedUser Op))
    (v w : InfAdoptedStateVector)
    (h : inf_adopted_state_vector_causally_before v w = true) :
    vector_sum users v ≤ vector_sum users w :=
  vector_sum_le users v w (fun u _ => (causally_before_iff v w).mp h u.id)

/-- Setting the component of one participant changes the sum by the change of that
component. -/
theorem vector_sum_set (users : List (InfAdoptedUser Op))
    (hnodup : (users.map (fun u => u.id)).Nodup) (v : InfAdoptedStateVector) (id x : Nat)
    (hid : ∃ u ∈ users, u.id = id) :
    vector_sum users (inf_adopted_state_vector_set v id x) +
      inf_adopted_state_vector_get v id = vector_sum users v + x := by
  induction users with
  | nil =>
    obtain ⟨u, hu, _⟩ := hid
    cases hu
  | cons u rest ih =>
    rw [List.map_cons, List.nodup_cons] at hnodup
    have hcons : ∀ w, vector_sum (u :: rest) w =
        inf_adopted_state_vector_get w u.id + vector_sum rest w := by
      intro w
      unfold vector_sum
      simp only [List.map_cons, List.sum_cons]
    rw [hcons, hcons, get_set]
    by_cases hu : u.id = id
    · rw [if_pos hu]
      have hrest : vector_sum rest (inf_adopted_state_vector_set v id x) = vector_sum rest v := by
        apply vector_sum_congr
        intro y hy
        rw [get_set]
        have hne : y.id ≠ id := by
          intro hyid
          apply hnodup.1
          rw [hu, ← hyid]
          exact List.mem_map_of_mem (fun u => u.id) hy
        rw [if_neg hne]
      rw [hrest, hu]
      omega
    · rw [if_neg hu]
      obtain ⟨y, hy, hyid⟩ := hid
      have hy2 : y ∈ rest := by
        rcases List.mem_cons.mp hy with h | h
        · rw [h] at hyid; exact absurd hyid hu
        · exact h
      have := ih hnodup.2 ⟨y, hy2, hyid⟩
      omega

theorem length_le_longest_log (algorithm : InfAdoptedAlgorithm Op Buf) :
    ∀ u ∈ algorithm.users, u.request_log.entries.length ≤ longest_log algorithm := by
  unfold longest_log
  have key : ∀ (l : List Nat) (init : Nat), init ≤ l.foldl max init ∧
      ∀ x ∈ l, x ≤ l.foldl max init := by
    intro l
    induction l with
    | nil =>
      intro init
      exact ⟨le_refl _, fun x hx => by cases hx⟩
    | cons y rest ih =>
      intro init
      rw [List.foldl_cons]
      obtain ⟨h1, h2⟩ := ih (max init y)
      refine ⟨le_trans (le_max_left _ _) h1, ?_⟩
      intro x hx
      rcases List.mem_cons.mp hx with rfl | hx
      · exact le_trans (le_max_right _ _) h1
      · exact h2 x hx
  intro u hu
  exact (key _ 0).2 _ (List.mem_map_of_mem (fun u => u.request_log.entries.length) hu)

/-- With the invariant and more fuel than the longest log has requests,
is_reachable does not run out of fuel. -/
theorem is_reachable_fuel_enough (fuel : Nat) (algorithm : InfAdoptedAlgorithm Op Buf)
    (hinv : reachability_invariant algorithm) (hfuel : longest_log algorithm < fuel)
    (v : InfAdoptedStateVector) :
    inf_adopted_algorithm_is_reachable fuel algorithm v ≠ .error Failure.out_of_fuel := by
  by_cases hcb : inf_adopted_state_vector_causally_before v algorithm.current = true
  · rw [is_reachable_eq fuel algorithm hinv
      (fun u hu => lt_of_le_of_lt (length_le_longest_log algorithm u hu) hfuel) v hcb]
    intro h
    cases h
  · unfold inf_adopted_algorithm_is_reachable
    rw [if_neg hcb]
    intro h
    cases h

/-- In a linked log indexed by its owner's component, the request associated with
a request lies in a slot below the slot the request has or would have. -/
theorem prev_associated_below (log : InfAdoptedRequestLog Op) (hlinked : log_linked log)
    (hidx : log_indexed log) (request associated : InfAdoptedRequest Op)
    (h : inf_adopted_request_log_prev_associated log request = some associated) :
    associated.user_id = log.user_id ∧
      inf_adopted_state_vector_get associated.vector log.user_id < request_slot request := by
  have h0 := hlinked.1
  unfold inf_adopted_request_log_prev_associated at h
  cases hs : prev_associated_slot log request with
  | none => rw [hs] at h; cases h
  | some t =>
    rw [hs] at h
    simp only at h
    rw [get_request_linked log h0] at h
    cases het : log.entries.get? t with
    | none => rw [het] at h; cases h
    | some et =>
      rw [het] at h
      simp only [Option.map_some', Option.some.injEq] at h
      obtain ⟨htslot, htown, htlen⟩ := entry_indexed log h0 hidx t et het
      have hget : inf_adopted_state_vector_get associated.vector log.user_id = t := by
        rw [← h, ← htown]
        exact htslot
      refine ⟨by rw [← h]; exact htown, ?_⟩
      rw [hget]
      unfold prev_associated_slot at hs
      rw [get_entry_linked log h0] at hs
      cases he : log.entries.get? (request_slot request) with
      | some e =>
        rw [he] at hs
        simp only at hs
        by_cases hdo : e.request.type = InfAdoptedRequestType.DO
        · rw [((hlinked.2.1 _ e he).2.1 hdo).1] at hs
          cases hs
        · obtain ⟨a, ea, hp, hak, _, _⟩ := (hlinked.2.1 _ e he).2.2 hdo
          rw [hp] at hs
          simp only [Option.some.injEq] at hs
          omega
      | none =>
        rw [he] at hs
        simp only at hs
        have hend : inf_adopted_request_log_get_end log = log.entries.length := by
          rw [log_indexed_end log hidx, h0, Nat.zero_add]
        split at hs
        · rename_i hslot
          rw [hslot, hend]
          split at hs
          · cases hs
          · cases hu : log.undo_targets with
            | nil => rw [hu] at hs; cases hs
            | cons x xs =>
              rw [hu] at hs
              simp only [List.head?_cons, Option.some.injEq] at hs
              have := hlinked.2.2.1 x (by rw [hu]; exact List.mem_cons_self _ _)
              omega
          · cases hu : log.redo_targets with
            | nil => rw [hu] at hs; cases hs
            | cons x xs =>
              rw [hu] at hs
              simp only [List.head?_cons, Option.some.injEq] at hs
              have := hlinked.2.2.2 x (by rw [hu]; exact List.mem_cons_self _ _)
              omega
        · cases hs

end Measure

section Termination

variable {Op Buf : Type}

theorem error_ne_fuel {α β : Type} (x : Except Failure α)
    (hx : x ≠ .error Failure.out_of_fuel) (e : Failure) (h : x = .error e) :
    (Except.error e : Except Failure β) ≠ .error Failure.out_of_fuel := by
  intro he
  apply hx
  rw [h]
  cases he
  rfl

/-- The four translations of transform_request do not run out of fuel when the
translation function does not for every smaller measure. -/
theorem transform_request_with_terminates
    (translate : InfAdoptedRequest Op → InfAdoptedStateVector →
      Except Failure (InfAdoptedRequest Op))
    (algorithm : InfAdoptedAlgorithm Op Buf) (fuel L : Nat)
    (hterm : ∀ r t, translate_measure algorithm r t + L < fuel →
      translate r t ≠ .error Failure.out_of_fuel)
    (hspec : ∀ r t res, translate r t = .ok res →
      (∀ p, inf_adopted_state_vector_get res.vector p = inf_adopted_state_vector_get t p) ∧
        res.user_id = r.user_id)
    (O : InfAdoptedOperationClass Op Buf)
    (request against : InfAdoptedRequest Op) (at_ : InfAdoptedStateVector)
    (hreq : ∃ u ∈ algorithm.users, u.id = request.user_id)
    (hag : ∃ u ∈ algorithm.users, u.id = against.user_id)
    (hat : vector_sum algorithm.users at_ + L < fuel) :
    transform_request_with translate O algorithm request against at_ ≠
      .error Failure.out_of_fuel := by
  unfold transform_request_with
  simp only [inf_adopted_request_get_vector, inf_adopted_request_copy]
  split
  · intro h; cases h
  · split
    · intro h; cases h
    · split
      · intro h; cases h
      · rename_i h1 h2 hlcs0
        have hlcs : inf_adopted_state_vector_causally_before
            (inf_adopted_algorithm_least_common_successor algorithm request.vector
              against.vector) at_ = true := by
          cases hc : inf_adopted_state_vector_causally_before
              (inf_adopted_algorithm_least_common_successor algorithm request.vector
                against.vector) at_ with
          | true => rfl
          | false => rw [hc] at hlcs0; exact absurd rfl hlcs0
        have hsum := vector_sum_le_of_before algorithm.users _ _ hlcs
        have hlcs_le := (causally_before_iff _ _).mp hlcs
        have hm1 : translate_measure algorithm against
            (inf_adopted_algorithm_least_common_successor algorithm request.vector
              against.vector) + L < fuel := by
          unfold translate_measure request_slot
          rw [lcs_get, if_pos hag]
          have := le_max_right (inf_adopted_state_vector_get request.vector against.user_id)
            (inf_adopted_state_vector_get against.vector against.user_id)
          omega
        have hm2 : translate_measure algorithm request
            (inf_adopted_algorithm_least_common_successor algorithm request.vector
              against.vector) + L < fuel := by
          unfold translate_measure request_slot
          rw [lcs_get, if_pos hreq]
          have := le_max_left (inf_adopted_state_vector_get request.vector request.user_id)
            (inf_adopted_state_vector_get against.vector request.user_id)
          omega
        rcases except_error_or_ok (translate against
          (inf_adopted_algorithm_least_common_successor algorithm request.vector
            against.vector)) with ⟨e, h3⟩ | ⟨lcs_against, h3⟩
        · rw [h3]
          exact error_ne_fuel _ (hterm _ _ hm1) e h3
        · rw [h3]
          simp only
          rcases except_error_or_ok (translate request
            (inf_adopted_algorithm_least_common_successor algorithm request.vector
              against.vector)) with ⟨e, h4⟩ | ⟨lcs_request, h4⟩
          · rw [h4]
            exact error_ne_fuel _ (hterm _ _ hm2) e h4
          · rw [h4]
            simp only
            obtain ⟨s1, s2⟩ := hspec _ _ _ h3
            obtain ⟨s3, s4⟩ := hspec _ _ _ h4
            have hm3 : translate_measure algorithm lcs_against at_ + L < fuel := by
              unfold translate_measure request_slot
              rw [s1, s2]
              have := hlcs_le against.user_id
              omega
            have hm4 : translate_measure algorithm lcs_request at_ + L < fuel := by
              unfold translate_measure request_slot
              rw [s3, s4]
              have := hlcs_le request.user_id
              omega
            rcases except_error_or_ok (translate lcs_against at_) with ⟨e, h5⟩ | ⟨ac, h5⟩
            · rw [h5]
              exact error_ne_fuel _ (hterm _ _ hm3) e h5
            · rw [h5]
              simp only
              rcases except_error_or_ok (translate lcs_request at_) with ⟨e, h6⟩ | ⟨res, h6⟩
              · rw [h6]
                exact error_ne_fuel _ (hterm _ _ hm4) e h6
              · rw [h6]
                intro h
                cases h

end Termination

section Termination2

variable {Op Buf : Type}

/-- What the steps of the loops of translate_request need of the participant they
look at: the slot of the newest request below the component, and the owner. -/
theorem loop_request_logged (algorithm : InfAdoptedAlgorithm Op Buf)
    (hinv : reachability_invariant algorithm) (q : InfAdoptedUser Op)
    (hq : q ∈ algorithm.users) (n : Nat) (newest : InfAdoptedRequest Op)
    (h : inf_adopted_request_log_get_request q.request_log (n - 1) = some newest) :
    newest.user_id = q.id ∧ request_slot newest = n - 1 ∧
      (∀ target, inf_adopted_request_log_prev_associated q.request_log newest = some target →
        inf_adopted_state_vector_get target.vector q.id < n - 1) := by
  obtain ⟨h1, h2, h3, _, _⟩ := invariant_user algorithm hinv q hq
  obtain ⟨g1, g2, _, _⟩ := get_request_indexed q.request_log h3 (n - 1) newest h
  refine ⟨by rw [g2, h1], g1, ?_⟩
  intro target ht
  have := (prev_associated_below q.request_log h2 h3 newest target ht).2
  rw [h1, g1] at this
  exact this

/-- The first loop of translate_request does not run out of fuel when the
translation function does not for every smaller measure. -/
theorem translate_request_first_loop_terminates
    (translate : InfAdoptedRequest Op → InfAdoptedStateVector →
      Except Failure (InfAdoptedRequest Op))
    (algorithm : InfAdoptedAlgorithm Op Buf) (hinv : reachability_invariant algorithm)
    (fuel L rfuel : Nat) (hrfuel : longest_log algorithm < rfuel)
    (hterm : ∀ r t, translate_measure algorithm r t + L < fuel →
      translate r t ≠ .error Failure.out_of_fuel)
    (hspec : ∀ r t res, translate r t = .ok res →
      (∀ p, inf_adopted_state_vector_get res.vector p = inf_adopted_state_vector_get t p) ∧
        res.user_id = r.user_id)
    (O : InfAdoptedOperationClass Op Buf)
    (request : InfAdoptedRequest Op) (to_ : InfAdoptedStateVector)
    (hissuer : ∃ u ∈ algorithm.users, u.id = request.user_id)
    (hmeasure : translate_measure algorithm request to_ + L ≤ fuel)
    (users : List (InfAdoptedUser Op)) (husers : ∀ u ∈ users, u ∈ algorithm.users) :
    ∀ v : InfAdoptedStateVector,
    (∀ p, inf_adopted_state_vector_get v p = inf_adopted_state_vector_get to_ p) →
    translate_request_first_loop translate rfuel O algorithm request to_ users v ≠
      .error Failure.out_of_fuel := by
  induction users with
  | nil =>
    intro v _ h
    simp only [translate_request_first_loop] at h
    cases h
  | cons q rest ih =>
    intro v hv
    have hq := husers q (List.mem_cons_self _ _)
    have hrest : ∀ u ∈ rest, u ∈ algorithm.users :=
      fun u hu => husers u (List.mem_cons_of_mem _ hu)
    have hsumv : vector_sum algorithm.users v = vector_sum algorithm.users to_ :=
      vector_sum_congr _ _ _ (fun u _ => hv u.id)
    simp only [translate_request_first_loop, inf_adopted_request_get_user_id,
      inf_adopted_request_get_vector, inf_adopted_request_get_request_type]
    split
    · exact ih hrest v hv
    · rename_i hne
      split
      · exact ih hrest v hv
      · rename_i hn
        split
        · intro h; cases h
        · rename_i newest hnewest
          obtain ⟨hown, hslot, hbelow⟩ := loop_request_logged algorithm hinv q hq _ newest
            hnewest
          split
          · split
            · intro h; cases h
            · rename_i target htarget
              have ht := hbelow target htarget
              have hset := vector_sum_set algorithm.users hinv.1 v q.id
                (inf_adopted_state_vector_get target.vector q.id) ⟨q, hq, rfl⟩
              split
              · rename_i e he
                exact error_ne_fuel _ (is_reachable_fuel_enough rfuel algorithm hinv hrfuel _)
                  e he
              · split
                · have hm : translate_measure algorithm request
                      (inf_adopted_state_vector_set v q.id
                        (inf_adopted_state_vector_get target.vector q.id)) + L < fuel := by
                    unfold translate_measure at hmeasure ⊢
                    rw [get_set, if_neg (fun h => hne h.symm), hv request.user_id]
                    omega
                  split
                  · rename_i e he
                    exact error_ne_fuel _ (hterm _ _ hm) e he
                  · intro h; cases h
                · apply ih hrest
                  intro p
                  rw [get_set]
                  by_cases hp : p = q.id
                  · rw [if_pos hp, hp]
                  · rw [if_neg hp, get_set, if_neg hp]
                    exact hv p
          · split
            · have hset := vector_sum_set algorithm.users hinv.1 v q.id
                (inf_adopted_state_vector_get v q.id - 1) ⟨q, hq, rfl⟩
              split
              · rename_i e he
                exact error_ne_fuel _ (is_reachable_fuel_enough rfuel algorithm hinv hrfuel _)
                  e he
              · have hat : vector_sum algorithm.users
                    (inf_adopted_state_vector_set v q.id
                      (inf_adopted_state_vector_get v q.id - 1)) + L < fuel := by
                  unfold translate_measure at hmeasure
                  omega
                split
                · rename_i e he
                  exact error_ne_fuel _
                    (transform_request_with_terminates translate algorithm fuel L hterm hspec O
                      request newest _ hissuer ⟨q, hq, hown.symm⟩ hat) e he
                · intro h; cases h
              · apply ih hrest
                intro p
                rw [get_set]
                by_cases hp : p = q.id
                · rw [if_pos hp, hp]
                  exact hv q.id
                · rw [if_neg hp, get_set, if_neg hp]
                  exact hv p
            · exact ih hrest v hv

/-- The second loop of translate_request does not run out of fuel when the
translation function does not for every smaller measure. -/
theorem translate_request_second_loop_terminates
    (translate : InfAdoptedRequest Op → InfAdoptedStateVector →
      Except Failure (InfAdoptedRequest Op))
    (algorithm : InfAdoptedAlgorithm Op Buf) (hinv : reachability_invariant algorithm)
    (fuel L rfuel : Nat) (hrfuel : longest_log algorithm < rfuel)
    (hterm : ∀ r t, translate_measure algorithm r t + L < fuel →
      translate r t ≠ .error Failure.out_of_fuel)
    (hspec : ∀ r t res, translate r t = .ok res →
      (∀ p, inf_adopted_state_vector_get res.vector p = inf_adopted_state_vector_get t p) ∧
        res.user_id = r.user_id)
    (O : InfAdoptedOperationClass Op Buf)
    (request : InfAdoptedRequest Op) (to_ : InfAdoptedStateVector)
    (hissuer : ∃ u ∈ algorithm.users, u.id = request.user_id)
    (hmeasure : translate_measure algorithm request to_ + L ≤ fuel)
    (users : List (InfAdoptedUser Op)) (husers : ∀ u ∈ users, u ∈ algorithm.users) :
    ∀ v : InfAdoptedStateVector,
    (∀ p, inf_adopted_state_vector_get v p = inf_adopted_state_vector_get to_ p) →
    translate_request_second_loop translate rfuel O algorithm request to_ users v ≠
      .error Failure.out_of_fuel := by
  induction users with
  | nil =>
    intro v _ h
    simp only [translate_request_second_loop] at h
    cases h
  | cons q rest ih =>
    intro v hv
    have hq := husers q (List.mem_cons_self _ _)
    have hrest : ∀ u ∈ rest, u ∈ algorithm.users :=
      fun u hu => husers u (List.mem_cons_of_mem _ hu)
    have hsumv : vector_sum algorithm.users v = vector_sum algorithm.users to_ :=
      vector_sum_congr _ _ _ (fun u _ => hv u.id)
    simp only [translate_request_second_loop, inf_adopted_request_get_user_id,
      inf_adopted_request_get_vector]
    split
    · exact ih hrest v hv
    · rename_i hne
      split
      · exact ih hrest v hv
      · rename_i hn
        split
        · have hset := vector_sum_set algorithm.users hinv.1 v q.id
            (inf_adopted_state_vector_get v q.id - 1) ⟨q, hq, rfl⟩
          split
          · rename_i e he
            exact error_ne_fuel _ (is_reachable_fuel_enough rfuel algorithm hinv hrfuel _)
              e he
          · split
            · intro h; cases h
            · rename_i newest hnewest
              obtain ⟨hown, _, _⟩ := loop_request_logged algorithm hinv q hq _ newest hnewest
              have hat : vector_sum algorithm.users
                  (inf_adopted_state_vector_set v q.id
                    (inf_adopted_state_vector_get v q.id - 1)) + L < fuel := by
                unfold translate_measure at hmeasure
                omega
              split
              · rename_i e he
                exact error_ne_fuel _
                  (transform_request_with_terminates translate algorithm fuel L hterm hspec O
                    request newest _ hissuer ⟨q, hq, hown.symm⟩ hat) e he
              · intro h; cases h
          · apply ih hrest
            intro p
            rw [get_set]
            by_cases hp : p = q.id
            · rw [if_pos hp, hp]
              exact hv q.id
            · rw [if_neg hp, get_set, if_neg hp]
              exact hv p
        · exact ih hrest v hv

end Termination2

section Termination3

variable {Op Buf : Type}

/-- The vector and the issuer of a translated request. -/
theorem translate_request_result_vector (O : InfAdoptedOperationClass Op Buf)
    (algorithm : InfAdoptedAlgorithm Op Buf)
    (howner : ∀ u ∈ algorithm.users, ∀ i r,
      inf_adopted_request_log_get_request u.request_log i = some r → r.user_id = u.id)
    (hcur : ∀ p, inf_adopted_state_vector_get algorithm.current p < GUINT_MOD) :
    ∀ fuel request to_ result,
      inf_adopted_algorithm_translate_request fuel O algorithm request to_ = .ok result →
      (∀ p, inf_adopted_state_vector_get result.vector p = inf_adopted_state_vector_get to_ p) ∧
        result.user_id = request.user_id := by
  intro fuel
  induction fuel with
  | zero =>
    intro request to_ result h
    simp [inf_adopted_algorithm_translate_request] at h
  | succ fuel ih =>
    intro request to_ result h
    unfold inf_adopted_algorithm_translate_request at h
    exact translate_request_body_vector _ (fun r t res hr => ih r t res hr) (fuel + 1) O
      algorithm howner hcur request to_ result h

/-- The body of translate_request does not run out of fuel when the translation
function does not for every smaller measure. -/
theorem translate_request_body_terminates
    (translate : InfAdoptedRequest Op → InfAdoptedStateVector →
      Except Failure (InfAdoptedRequest Op))
    (algorithm : InfAdoptedAlgorithm Op Buf) (hinv : reachability_invariant algorithm)
    (fuel L rfuel : Nat) (hrfuel : longest_log algorithm < rfuel)
    (hterm : ∀ r t, translate_measure algorithm r t + L < fuel →
      translate r t ≠ .error Failure.out_of_fuel)
    (hspec : ∀ r t res, translate r t = .ok res →
      (∀ p, inf_adopted_state_vector_get res.vector p = inf_adopted_state_vector_get t p) ∧
        res.user_id = r.user_id)
    (O : InfAdoptedOperationClass Op Buf)
    (request : InfAdoptedRequest Op) (to_ : InfAdoptedStateVector)
    (hmeasure : translate_measure algorithm request to_ + L ≤ fuel) :
    translate_request_body translate rfuel O algorithm request to_ ≠
      .error Failure.out_of_fuel := by
  have hloops : ∀ v : InfAdoptedStateVector,
      (∃ u ∈ algorithm.users, u.id = request.user_id) →
      (∀ p, inf_adopted_state_vector_get v p = inf_adopted_state_vector_get to_ p) →
      translate_request_loops translate rfuel O algorithm request to_ v ≠
        .error Failure.out_of_fuel := by
    intro v hissuer hv
    unfold translate_request_loops
    split
    · rename_i e he
      exact error_ne_fuel _
        (translate_request_first_loop_terminates translate algorithm hinv fuel L rfuel hrfuel
          hterm hspec O request to_ hissuer hmeasure algorithm.users (fun u hu => hu) v hv)
        e he
    · intro h; cases h
    · rename_i v' hfirst
      have hv' := translate_request_first_loop_none translate rfuel O algorithm request to_
        algorithm.users v v' hv hfirst
      split
      · rename_i e he
        exact error_ne_fuel _
          (translate_request_second_loop_terminates translate algorithm hinv fuel L rfuel
            hrfuel hterm hspec O request to_ hissuer hmeasure algorithm.users
            (fun u hu => hu) v' hv') e he
      · intro h; cases h
      · intro h; cases h
  unfold translate_request_body
  simp only [inf_adopted_request_get_user_id, inf_adopted_request_get_vector,
    inf_adopted_request_get_request_type, inf_adopted_state_vector_copy,
    inf_adopted_request_copy]
  split
  · intro h; cases h
  · rename_i user hlook
    obtain ⟨hmem, hid⟩ := lookup_mem algorithm.users request.user_id user hlook
    have hissuer : ∃ u ∈ algorithm.users, u.id = request.user_id := ⟨user, hmem, hid⟩
    split
    · intro h; cases h
    · split
      · intro h; cases h
      · split
        · intro h; cases h
        · split
          · rename_i e he
            exact error_ne_fuel _ (is_reachable_fuel_enough rfuel algorithm hinv hrfuel _) e he
          · intro h; cases h
          · split
            · split
              · intro h; cases h
              · rename_i associated hassoc
                obtain ⟨h1, h2, h3, _, _⟩ := invariant_user algorithm hinv user hmem
                obtain ⟨hown, hbelow⟩ := prev_associated_below user.request_log h2 h3 request
                  associated hassoc
                rw [h1, hid] at hown hbelow
                have hset := vector_sum_set algorithm.users hinv.1 to_ request.user_id
                  (inf_adopted_state_vector_get associated.vector request.user_id) hissuer
                split
                · rename_i e he
                  exact error_ne_fuel _
                    (is_reachable_fuel_enough rfuel algorithm hinv hrfuel _) e he
                · have hm : translate_measure algorithm associated
                      (inf_adopted_state_vector_set to_ request.user_id
                        (inf_adopted_state_vector_get associated.vector request.user_id)) + L
                      < fuel := by
                    unfold translate_measure request_slot at hmeasure ⊢
                    rw [hown, get_set, if_pos rfl]
                    unfold request_slot at hbelow
                    omega
                  split
                  · rename_i e he
                    exact error_ne_fuel _ (hterm _ _ hm) e he
                  · intro h; cases h
                · apply hloops _ hissuer
                  intro p
                  rw [get_set]
                  by_cases hp : p = request.user_id
                  · rw [if_pos hp, hp]
                  · rw [if_neg hp, get_set, if_neg hp]
            · split
              · intro h; cases h
              · exact hloops _ hissuer (fun _ => rfl)

/-- With the invariant, translate_request does not run out of fuel when its fuel
exceeds the measure of the call by more than the length of the longest log. -/
theorem translate_request_fuel_enough (O : InfAdoptedOperationClass Op Buf)
    (algorithm : InfAdoptedAlgorithm Op Buf) (hinv : reachability_invariant algorithm)
    (hcur : ∀ p, inf_adopted_state_vector_get algorithm.current p < GUINT_MOD) :
    ∀ fuel request to_,
      translate_measure algorithm request to_ + longest_log algorithm < fuel →
      inf_adopted_algorithm_translate_request fuel O algorithm request to_ ≠
        .error Failure.out_of_fuel := by
  intro fuel
  induction fuel with
  | zero =>
    intro request to_ h
    omega
  | succ fuel ih =>
    intro request to_ h
    unfold inf_adopted_algorithm_translate_request
    exact translate_request_body_terminates _ algorithm hinv fuel (longest_log algorithm)
      (fuel + 1) (by omega) ih
      (translate_request_result_vector O algorithm (owner_of_logs_indexed algorithm hinv.2.1)
        hcur fuel)
      O request to_ (by omega)

end Termination3

/-- C36: termination of translate_request and transform_request. In a state with
the reachability invariant (every state of a session) whose current is a vector of
guints, every call of translate_request, for every request and vector, ends: the
measure (the sum of the components of `to` over the participants, plus the
distance of the request's slot above to[issuer]) is smaller at every recursive call
that gets past the assertions (late mirror, late fold and the four translations of
transform_request), so with fuel above the measure plus the length of the longest
log (used by the walks of is_reachable) the model never runs out of fuel: the call
returns a request or stops at an assertion. The same holds for transform_request of
a request and a request of known issuers with fuel above the sum of the components
of `at` plus the length of the longest log. -/
theorem translate_request_terminates {Op Buf : Type} (O : InfAdoptedOperationClass Op Buf)
    (algorithm : InfAdoptedAlgorithm Op Buf) (hinv : reachability_invariant algorithm)
    (hcur : ∀ p, inf_adopted_state_vector_get algorithm.current p < GUINT_MOD) :
    (∀ fuel request to_,
      translate_measure algorithm request to_ + longest_log algorithm < fuel →
      inf_adopted_algorithm_translate_request fuel O algorithm request to_ ≠
        .error Failure.out_of_fuel) ∧
    (∀ fuel request against at_,
      (∃ u ∈ algorithm.users, u.id = request.user_id) →
      (∃ u ∈ algorithm.users, u.id = against.user_id) →
      vector_sum algorithm.users at_ + longest_log algorithm < fuel →
      inf_adopted_algorithm_transform_request fuel O algorithm request against at_ ≠
        .error Failure.out_of_fuel) := by
  refine ⟨translate_request_fuel_enough O algorithm hinv hcur, ?_⟩
  intro fuel request against at_ hreq hag hat
  unfold inf_adopted_algorithm_transform_request
  exact transform_request_with_terminates _ algorithm fuel (longest_log algorithm)
    (translate_request_fuel_enough O algorithm hinv hcur fuel)
    (translate_request_result_vector O algorithm (owner_of_logs_indexed algorithm hinv.2.1)
      hcur fuel)
    O request against at_ hreq hag hat

/-- C36 on the trace session with the user array 1, 2, 3, for the first request of
user 3 and to = current = (1:1, 2:2, 3:0): the measure is 3 and the longest log has
2 requests, so fuel 6 is enough; the call, which goes through a directional
transform and late folds, returns. -/
theorem translate_request_terminates_witness :
    translate_measure (sample_trace_undone [1, 2, 3]) sample_trace_request
      (sample_trace_undone [1, 2, 3]).current = 3 ∧
    longest_log (sample_trace_undone [1, 2, 3]) = 2 ∧
    inf_adopted_algorithm_translate_request 6 TraceOperation (sample_trace_undone [1, 2, 3])
      sample_trace_request (sample_trace_undone [1, 2, 3]).current ≠
        .error Failure.out_of_fuel ∧
    (inf_adopted_algorithm_translate_request 6 TraceOperation (sample_trace_undone [1, 2, 3])
      sample_trace_request (sample_trace_undone [1, 2, 3]).current).toOption.map
        (fun r => r.operation) = some (some [3, 1]) :=
  ⟨by decide, by decide,
    (translate_request_terminates TraceOperation (sample_trace_undone [1, 2, 3])
      ((perform_calls_steps 8 TraceOperation sample_trace_calls (sample_trace_session [1, 2, 3])
        (sample_trace_undone [1, 2, 3]) (by decide) rfl).2.2
        (logs_empty_invariant (sample_trace_session [1, 2, 3]) (by unfold logs_empty; decide))
        (by unfold logs_small; decide))
      (guint_vector_of_entries _ (by decide))).1 6 sample_trace_request
      (sample_trace_undone [1, 2, 3]).current (by decide),
    by decide⟩

/-- C1 fails on the code. Remote user 3 issues a request that does not affect the
buffer and then one that does, with the same vector (2:1); both are received, in
that order, before the first request of user 2 and wait in the queue. When the
request of user 2 is received, receive_request executes it, the first pass over
the queue executes the later request of user 3, and the next pass calls
translate_request for the earlier one with to = current = (1:0, 2:1, 3:1). The
three asserted preconditions hold: the request is its own original and its vector
is causally before `to`, `to` is causally before current, and `to` is reachable.
Yet translate_request returns no request, whatever the fuel: it ends in
g_assert_not_reached, and the receive_request call that got there aborts. -/
theorem translate_request_abort_failing_input :
    perform_calls 8 CounterOperation sample_algorithm sample_idle_calls
      = .ok sample_idle_waiting ∧
    sample_idle_waiting.queue = [sample_idle_next, sample_idle] ∧
    inf_adopted_algorithm_execute_request 8 CounterOperation sample_idle_recorded
      sample_remote_first true = .ok sample_idle_first ∧
    receive_request_pass 8 CounterOperation sample_idle_first sample_idle_first.queue 0
      = .ok (some sample_idle_second) ∧
    sample_idle_second.queue = [sample_idle] ∧
    sample_idle_second.current = [(1, 0), (2, 1), (3, 1)] ∧
    (inf_user_table_lookup_user_by_id sample_idle_second.users sample_idle.user_id).bind
      (fun u => inf_adopted_request_log_original_request u.request_log sample_idle)
      = some sample_idle ∧
    inf_adopted_state_vector_causally_before sample_idle.vector sample_idle_second.current
      = true ∧
    inf_adopted_state_vector_causally_before sample_idle_second.current
      sample_idle_second.current = true ∧
    inf_adopted_algorithm_is_reachable 8 sample_idle_second sample_idle_second.current
      = .ok true ∧
    inf_adopted_algorithm_translate_request 8 CounterOperation sample_idle_second sample_idle
      sample_idle_second.current = .error Failure.not_reached ∧
    (∀ fuel result,
      inf_adopted_algorithm_translate_request fuel CounterOperation sample_idle_second
        sample_idle sample_idle_second.current ≠ .ok result) ∧
    perform_calls 8 CounterOperation sample_algorithm
      (sample_idle_calls ++ [.receive_request sample_remote_first])
      = .error Failure.not_reached := by
  refine ⟨rfl, by decide, rfl, rfl, by decide, by decide, by decide, by decide, by decide,
    rfl, rfl, ?_, rfl⟩
  intro fuel result h
  cases fuel with
  | zero => simp [inf_adopted_algorithm_translate_request] at h
  | succ n =>
    have : inf_adopted_algorithm_translate_request (n + 1) CounterOperation sample_idle_second
        sample_idle sample_idle_second.current = .error Failure.not_reached := rfl
    rw [this] at h
    cases h

section QueueSession

variable {Op Buf : Type}

/-- The shared part of the generate functions leaves the queue as it is and changes
`current` in the component of the request's issuer only. -/
theorem generate_execute_current_frame (fuel : Nat) (O : InfAdoptedOperationClass Op Buf)
    (a a2 : InfAdoptedAlgorithm Op Buf) (request : InfAdoptedRequest Op) (apply : Bool)
    (r : Option (InfAdoptedRequest Op))
    (h : generate_execute fuel O a request apply = .ok (r, a2)) :
    a2.queue = a.queue ∧
      ∀ p, p ≠ request.user_id →
        inf_adopted_state_vector_get a2.current p = inf_adopted_state_vector_get a.current p := by
  refine ⟨generate_execute_queue fuel O a a2 request apply r h, ?_⟩
  unfold generate_execute at h
  cases he : inf_adopted_algorithm_execute_request fuel O a request apply with
  | error e => simp [he] at h
  | ok mid =>
    simp only [he] at h
    cases hu : update_logs_and_undo_redo mid with
    | error e => simp [hu] at h
    | ok fin =>
      simp only [hu, Except.ok.injEq, Prod.mk.injEq] at h
      rw [← h.2]
      obtain ⟨_, t2, _⟩ := update_logs_and_undo_redo_frame mid fin hu
      rw [t2]
      obtain ⟨user, log_request, translated, recorded, _, _, _, _, _, hres⟩ :=
        execute_request_ok fuel O a mid request apply he
      obtain ⟨_, _, _, f4, _⟩ :=
        execute_request_result_frame O a request apply user translated recorded
      rw [hres, f4]
      intro p hp
      cases recorded with
      | none => rfl
      | some log =>
        simp only [get_add, if_neg hp]

/-- The shared part of the generate functions keeps the queue invariant when no
queued request counts more requests of the issuer than `current` does. -/
theorem generate_execute_queue_waiting (fuel : Nat) (O : InfAdoptedOperationClass Op Buf)
    (a a2 : InfAdoptedAlgorithm Op Buf) (request : InfAdoptedRequest Op) (apply : Bool)
    (r : Option (InfAdoptedRequest Op)) (hinv : queue_waiting a)
    (hc : queue_counts_issued a request.user_id = true)
    (h : generate_execute fuel O a request apply = .ok (r, a2)) : queue_waiting a2 := by
  obtain ⟨hq, hframe⟩ := generate_execute_current_frame fuel O a a2 request apply r h
  intro q hmem
  rw [hq] at hmem
  have hw := hinv q hmem
  cases hcb : inf_adopted_state_vector_causally_before q.vector a2.current with
  | false => rfl
  | true =>
    rw [causally_before_iff] at hcb
    have hb : inf_adopted_state_vector_causally_before q.vector a.current = true := by
      rw [causally_before_iff]
      intro id
      by_cases hid : id = request.user_id
      · unfold queue_counts_issued at hc
        rw [List.all_eq_true] at hc
        rw [hid]
        exact of_decide_eq_true (hc q hmem)
      · rw [← hframe id hid]
        exact hcb id
    rw [hb] at hw
    cases hw

/-- One call of an entry point keeps the queue invariant, for a generate function
called for a local user when no queued request counts more requests of that user
than `current` does. -/
theorem perform_call_queue_waiting (fuel : Nat) (O : InfAdoptedOperationClass Op Buf)
    (a a2 : InfAdoptedAlgorithm Op Buf) (call : InfAdoptedAlgorithmCall Op)
    (hinv : queue_waiting a)
    (hc : ∀ user, generating_user a call = some user → queue_counts_issued a user = true)
    (h : perform_call fuel O a call = .ok a2) : queue_waiting a2 := by
  cases call with
  | generate_request user operation =>
    simp only [perform_call] at h
    split at h
    · cases h
    · rename_i r fin hg
      simp only [Except.ok.injEq] at h
      subst h
      unfold inf_adopted_algorithm_generate_request at hg
      cases hu : inf_user_table_lookup_user_by_id a.users user with
      | none => simp [hu] at hg; rw [← hg.2]; exact hinv
      | some u =>
        simp only [hu] at hg
        cases hl : u.flags_local with
        | false => simp [hl] at hg; rw [← hg.2]; exact hinv
        | true =>
          simp only [hl, Bool.true_eq_false, if_false] at hg
          refine generate_execute_queue_waiting fuel O a _ _ _ _ hinv ?_ hg
          have hid : u.id = user := (lookup_mem a.users user u hu).2
          simp only [inf_adopted_request_new_do, hid]
          exact hc user (by simp only [generating_user, call_user, hu, hl, if_true])
  | generate_request_noexec user operation =>
    simp only [perform_call] at h
    split at h
    · cases h
    · rename_i r fin hg
      simp only [Except.ok.injEq] at h
      subst h
      unfold inf_adopted_algorithm_generate_request_noexec at hg
      cases hu : inf_user_table_lookup_user_by_id a.users user with
      | none => simp [hu] at hg; rw [← hg.2]; exact hinv
      | some u =>
        simp only [hu] at hg
        cases hl : u.flags_local with
        | false => simp [hl] at hg; rw [← hg.2]; exact hinv
        | true =>
          simp only [hl, Bool.true_eq_false, if_false] at hg
          refine generate_execute_queue_waiting fuel O a _ _ _ _ hinv ?_ hg
          have hid : u.id = user := (lookup_mem a.users user u hu).2
          simp only [inf_adopted_request_new_do, hid]
          exact hc user (by simp only [generating_user, call_user, hu, hl, if_true])
  | generate_undo user =>
    simp only [perform_call] at h
    split at h
    · cases h
    · rename_i r fin hg
      simp only [Except.ok.injEq] at h
      subst h
      unfold inf_adopted_algorithm_generate_undo at hg
      cases hu : inf_user_table_lookup_user_by_id a.users user with
      | none => simp [hu] at hg; rw [← hg.2]; exact hinv
      | some u =>
        simp only [hu] at hg
        cases hl : u.flags_local with
        | false => simp [hl] at hg; rw [← hg.2]; exact hinv
        | true =>
          simp only [hl, Bool.true_eq_false, if_false] at hg
          cases hcan : inf_adopted_algorithm_can_undo a user with
          | false => simp [hcan] at hg; rw [← hg.2]; exact hinv
          | true =>
            simp only [hcan, Bool.true_eq_false, if_false] at hg
            refine generate_execute_queue_waiting fuel O a _ _ _ _ hinv ?_ hg
            have hid : u.id = user := (lookup_mem a.users user u hu).2
            simp only [inf_adopted_request_new_undo, hid]
            exact hc user (by simp only [generating_user, call_user, hu, hl, if_true])
  | generate_redo user =>
    simp only [perform_call] at h
    split at h
    · cases h
    · rename_i r fin hg
      simp only [Except.ok.injEq] at h
      subst h
      unfold inf_adopted_algorithm_generate_redo at hg
      cases hu : inf_user_table_lookup_user_by_id a.users user with
      | none => simp [hu] at hg; rw [← hg.2]; exact hinv
      | some u =>
        simp only [hu] at hg
        cases hl : u.flags_local with
        | false => simp [hl] at hg; rw [← hg.2]; exact hinv
        | true =>
          simp only [hl, Bool.true_eq_false, if_false] at hg
          cases hcan : inf_adopted_algorithm_can_redo a user with
          | false => simp [hcan] at hg; rw [← hg.2]; exact hinv
          | true =>
            simp only [hcan, Bool.true_eq_false, if_false] at hg
            refine generate_execute_queue_waiting fuel O a _ _ _ _ hinv ?_ hg
            have hid : u.id = user := (lookup_mem a.users user u hu).2
            simp only [inf_adopted_request_new_redo, hid]
            exact hc user (by simp only [generating_user, call_user, hu, hl, if_true])
  | receive_request request =>
    simp only [perform_call] at h
    split at h
    · cases h
    · rename_i accepted fin hg
      simp only [Except.ok.injEq] at h
      subst h
      exact receive_request_queue_waiting fuel O a _ request accepted hinv hg

/-- A sequence of calls keeps the queue invariant when every call of a generate
function for a local user meets a queue that counts no more requests of that user
than `current`. -/
theorem perform_calls_queue_waiting (fuel : Nat) (O : InfAdoptedOperationClass Op Buf)
    (calls : List (InfAdoptedAlgorithmCall Op)) :
    ∀ a a2 : InfAdoptedAlgorithm Op Buf, queue_waiting a →
      calls_counted fuel O a calls = true →
      perform_calls fuel O a calls = .ok a2 → queue_waiting a2 := by
  induction calls with
  | nil =>
    intro a a2 hinv _ h
    unfold perform_calls at h
    simp only [Except.ok.injEq] at h
    subst h
    exact hinv
  | cons call rest ih =>
    intro a a2 hinv hc h
    unfold perform_calls at h
    unfold calls_counted at hc
    rw [Bool.and_eq_true] at hc
    split at h
    · cases h
    · rename_i next hstep
      have hrest : calls_counted fuel O next rest = true := by
        have h2 := hc.2
        rw [hstep] at h2
        exact h2
      refine ih next a2 (perform_call_queue_waiting fuel O a next call hinv ?_ hstep) hrest h
      intro user hu
      have h1 := hc.1
      rw [hu] at h1
      exact h1

end QueueSession

section StepChoice

variable {Op Buf : Type}

/-- With the invariant, an Undo or Redo kept in a log finds the request it toggles
in the log. -/
theorem logged_prev_associated (algorithm : InfAdoptedAlgorithm Op Buf)
    (hinv : reachability_invariant algorithm) (q : InfAdoptedUser Op)
    (hq : q ∈ algorithm.users) (k : Nat) (newest : InfAdoptedRequest Op)
    (h : inf_adopted_request_log_get_request q.request_log k = some newest)
    (htype : newest.type ≠ InfAdoptedRequestType.DO) :
    ∃ target, inf_adopted_request_log_prev_associated q.request_log newest = some target := by
  obtain ⟨_, h2, h3, _, _⟩ := invariant_user algorithm hinv q hq
  have h0 := h2.1
  rw [get_request_linked _ h0] at h
  cases he : q.request_log.entries.get? k with
  | none => rw [he] at h; cases h
  | some e =>
    rw [he] at h
    simp only [Option.map_some', Option.some.injEq] at h
    obtain ⟨hslot, _, _⟩ := entry_indexed _ h0 h3 k e he
    obtain ⟨a, ea, hp, _, hea, _⟩ := (h2.2.1 k e he).2.2 (by rw [h]; exact htype)
    refine ⟨ea.request, ?_⟩
    unfold inf_adopted_request_log_prev_associated prev_associated_slot
    rw [← h, hslot, get_entry_linked _ h0, he]
    simp only [hp]
    rw [get_request_linked _ h0, hea]
    rfl

/-- With the invariant and enough fuel, the reachability test of the loops of
translate_request, made for the scratch vector with one component set back, returns
the value of `vector_reachable` for `to` with that component set back. -/
theorem is_reachable_set_back (fuel : Nat) (algorithm : InfAdoptedAlgorithm Op Buf)
    (hinv : reachability_invariant algorithm) (hfuel : longest_log algorithm < fuel)
    (to_ v : InfAdoptedStateVector)
    (hcur : inf_adopted_state_vector_causally_before to_ algorithm.current = true)
    (hv : ∀ p, inf_adopted_state_vector_get v p = inf_adopted_state_vector_get to_ p)
    (id x : Nat) (hx : x ≤ inf_adopted_state_vector_get algorithm.current id) :
    inf_adopted_algorithm_is_reachable fuel algorithm (inf_adopted_state_vector_set v id x) =
      .ok (vector_reachable algorithm (inf_adopted_state_vector_set to_ id x)) := by
  rw [is_reachable_congr fuel algorithm (inf_adopted_state_vector_set v id x)
    (inf_adopted_state_vector_set to_ id x)
    (by intro p; rw [get_set, get_set, hv p])]
  apply is_reachable_eq fuel algorithm hinv
    (fun u hu => lt_of_le_of_lt (length_le_longest_log algorithm u hu) hfuel)
  rw [causally_before_iff]
  intro p
  rw [get_set]
  by_cases hp : p = id
  · rw [if_pos hp, hp]; exact hx
  · rw [if_neg hp]; exact (causally_before_iff _ _).mp hcur p

end StepChoice

section StepChoice2

variable {Op Buf : Type}

/-- With the invariant, the slot below a nonzero component of a vector causally
before current holds a request. -/
theorem newest_request_exists (algorithm : InfAdoptedAlgorithm Op Buf)
    (hinv : reachability_invariant algorithm) (to_ : InfAdoptedStateVector)
    (hcur : inf_adopted_state_vector_causally_before to_ algorithm.current = true)
    (q : InfAdoptedUser Op) (hq : q ∈ algorithm.users)
    (hn : inf_adopted_state_vector_get to_ q.id ≠ 0) :
    ∃ newest, inf_adopted_request_log_get_request q.request_log
      (inf_adopted_state_vector_get to_ q.id - 1) = some newest := by
  obtain ⟨_, h2, _, _, h5⟩ := invariant_user algorithm hinv q hq
  have hle := (causally_before_iff _ _).mp hcur q.id
  apply get_request_in_range
  · rw [h2.1]; exact Nat.zero_le _
  · rw [h2.1]; omega

/-- One turn of the first loop of translate_request for a participant that offers no
step: the loop goes on with the rest of the array, its scratch vector still equal to
`to` in every component. -/
theorem first_loop_turn_none
    (translate : InfAdoptedRequest Op → InfAdoptedStateVector →
      Except Failure (InfAdoptedRequest Op))
    (fuel : Nat) (O : InfAdoptedOperationClass Op Buf) (algorithm : InfAdoptedAlgorithm Op Buf)
    (hinv : reachability_invariant algorithm) (hfuel : longest_log algorithm < fuel)
    (request : InfAdoptedRequest Op) (to_ : InfAdoptedStateVector)
    (hcur : inf_adopted_state_vector_causally_before to_ algorithm.current = true)
    (q : InfAdoptedUser Op) (hq : q ∈ algorithm.users) (rest : List (InfAdoptedUser Op))
    (v : InfAdoptedStateVector)
    (hv : ∀ p, inf_adopted_state_vector_get v p = inf_adopted_state_vector_get to_ p)
    (hoffer : first_pass_offer algorithm request to_ q = none) :
    ∃ v2, (∀ p, inf_adopted_state_vector_get v2 p = inf_adopted_state_vector_get to_ p) ∧
      translate_request_first_loop translate fuel O algorithm request to_ (q :: rest) v =
        translate_request_first_loop translate fuel O algorithm request to_ rest v2 := by
  have hreset : ∀ (w : InfAdoptedStateVector),
      (∀ p, p ≠ q.id → inf_adopted_state_vector_get w p = inf_adopted_state_vector_get to_ p) →
      ∀ p, inf_adopted_state_vector_get
        (inf_adopted_state_vector_set w q.id (inf_adopted_state_vector_get to_ q.id)) p =
        inf_adopted_state_vector_get to_ p := by
    intro w hw p
    rw [get_set]
    by_cases hp : p = q.id
    · rw [if_pos hp, hp]
    · rw [if_neg hp]; exact hw p hp
  have hset : ∀ (x p : Nat), p ≠ q.id →
      inf_adopted_state_vector_get (inf_adopted_state_vector_set v q.id x) p =
        inf_adopted_state_vector_get to_ p := by
    intro x p hp
    rw [get_set, if_neg hp]
    exact hv p
  have hlecur := (causally_before_iff _ _).mp hcur q.id
  unfold first_pass_offer at hoffer
  simp only [translate_request_first_loop, inf_adopted_request_get_user_id,
    inf_adopted_request_get_vector, inf_adopted_request_get_request_type, hv q.id]
  by_cases h1 : q.id = request.user_id
  · rw [if_pos h1]
    exact ⟨v, hv, rfl⟩
  · rw [if_neg h1] at hoffer ⊢
    by_cases h2 : inf_adopted_state_vector_get to_ q.id = 0
    · rw [if_pos h2]
      exact ⟨v, hv, rfl⟩
    · rw [if_neg h2] at hoffer ⊢
      obtain ⟨newest, hnewest⟩ := newest_request_exists algorithm hinv to_ hcur q hq h2
      rw [hnewest] at hoffer ⊢
      simp only at hoffer ⊢
      by_cases hdo : newest.type = InfAdoptedRequestType.DO
      · rw [if_pos hdo] at hoffer
        rw [if_neg (not_not.mpr hdo)]
        by_cases hlt : inf_adopted_state_vector_get request.vector q.id <
            inf_adopted_state_vector_get to_ q.id
        · rw [if_pos hlt]
          have hr : vector_reachable algorithm
              (inf_adopted_state_vector_set to_ q.id
                (inf_adopted_state_vector_get to_ q.id - 1)) = false := by
            cases hvr : vector_reachable algorithm
                (inf_adopted_state_vector_set to_ q.id
                  (inf_adopted_state_vector_get to_ q.id - 1)) with
            | false => rfl
            | true =>
              rw [if_pos ⟨hlt, hvr⟩] at hoffer
              cases hoffer
          rw [is_reachable_set_back fuel algorithm hinv hfuel to_ v hcur hv q.id _ (by omega),
            hr]
          exact ⟨_, hreset _ (hset _), rfl⟩
        · rw [if_neg hlt]
          exact ⟨v, hv, rfl⟩
      · rw [if_neg hdo] at hoffer
        rw [if_pos hdo]
        obtain ⟨target, htarget⟩ := logged_prev_associated algorithm hinv q hq _ newest hnewest hdo
        rw [htarget] at hoffer ⊢
        simp only at hoffer ⊢
        have hbelow := (loop_request_logged algorithm hinv q hq _ newest hnewest).2.2 target htarget
        rw [is_reachable_set_back fuel algorithm hinv hfuel to_ v hcur hv q.id _ (by omega)]
        simp only
        rw [causally_before_congr request.vector request.vector
          (inf_adopted_state_vector_set v q.id (inf_adopted_state_vector_get target.vector q.id))
          (inf_adopted_state_vector_set to_ q.id (inf_adopted_state_vector_get target.vector q.id))
          (fun _ => rfl) (by intro p; rw [get_set, get_set, hv p])]
        have hc : (vector_reachable algorithm
              (inf_adopted_state_vector_set to_ q.id
                (inf_adopted_state_vector_get target.vector q.id)) &&
            inf_adopted_state_vector_causally_before request.vector
              (inf_adopted_state_vector_set to_ q.id
                (inf_adopted_state_vector_get target.vector q.id))) = false := by
          cases hb : (vector_reachable algorithm
              (inf_adopted_state_vector_set to_ q.id
                (inf_adopted_state_vector_get target.vector q.id)) &&
            inf_adopted_state_vector_causally_before request.vector
              (inf_adopted_state_vector_set to_ q.id
                (inf_adopted_state_vector_get target.vector q.id))) with
          | false => rfl
          | true =>
            rw [Bool.and_eq_true] at hb
            rw [if_pos hb] at hoffer
            cases hoffer
        rw [hc]
        simp only [Bool.false_eq_true, if_false]
        exact ⟨_, hreset _ (hset _), rfl⟩

end StepChoice2

section StepChoice3

variable {Op Buf : Type}

/-- One turn of the first loop of translate_request for a participant that offers a
step: the step is a late fold or a directional transform against this participant,
and the loop ends with its result. -/
theorem first_loop_turn_offer
    (translate : InfAdoptedRequest Op → InfAdoptedStateVector →
      Except Failure (InfAdoptedRequest Op))
    (fuel : Nat) (O : InfAdoptedOperationClass Op Buf) (algorithm : InfAdoptedAlgorithm Op Buf)
    (hinv : reachability_invariant algorithm) (hfuel : longest_log algorithm < fuel)
    (request : InfAdoptedRequest Op) (to_ : InfAdoptedStateVector)
    (hcur : inf_adopted_state_vector_causally_before to_ algorithm.current = true)
    (q : InfAdoptedUser Op) (hq : q ∈ algorithm.users) (rest : List (InfAdoptedUser Op))
    (v : InfAdoptedStateVector)
    (hv : ∀ p, inf_adopted_state_vector_get v p = inf_adopted_state_vector_get to_ p)
    (step : TranslateStep Op)
    (hoffer : first_pass_offer algorithm request to_ q = some step) :
    (∃ target, step = .late_fold q.id target ∧
      translate_request_first_loop translate fuel O algorithm request to_ (q :: rest) v =
        match translate request
            (inf_adopted_state_vector_set v q.id
              (inf_adopted_state_vector_get target.vector q.id)) with
        | .error e => .error e
        | .ok result =>
          .ok (some (inf_adopted_request_fold O result q.id
            (guint_sub (inf_adopted_state_vector_get to_ q.id)
              (inf_adopted_state_vector_get target.vector q.id))),
            inf_adopted_state_vector_set v q.id
              (inf_adopted_state_vector_get target.vector q.id))) ∨
    (∃ against, step = .directional_transform q.id against ∧
      translate_request_first_loop translate fuel O algorithm request to_ (q :: rest) v =
        match transform_request_with translate O algorithm request against
            (inf_adopted_state_vector_set v q.id
              (inf_adopted_state_vector_get to_ q.id - 1)) with
        | .error e => .error e
        | .ok result =>
          .ok (some result, inf_adopted_state_vector_set v q.id
            (inf_adopted_state_vector_get to_ q.id - 1))) := by
  have hlecur := (causally_before_iff _ _).mp hcur q.id
  unfold first_pass_offer at hoffer
  simp only [translate_request_first_loop, inf_adopted_request_get_user_id,
    inf_adopted_request_get_vector, inf_adopted_request_get_request_type, hv q.id]
  by_cases h1 : q.id = request.user_id
  · rw [if_pos h1] at hoffer
    cases hoffer
  · rw [if_neg h1] at hoffer ⊢
    by_cases h2 : inf_adopted_state_vector_get to_ q.id = 0
    · rw [if_pos h2] at hoffer
      cases hoffer
    · rw [if_neg h2] at hoffer ⊢
      obtain ⟨newest, hnewest⟩ := newest_request_exists algorithm hinv to_ hcur q hq h2
      rw [hnewest] at hoffer ⊢
      simp only at hoffer ⊢
      by_cases hdo : newest.type = InfAdoptedRequestType.DO
      · rw [if_pos hdo] at hoffer
        rw [if_neg (not_not.mpr hdo)]
        by_cases hc : inf_adopted_state_vector_get request.vector q.id <
              inf_adopted_state_vector_get to_ q.id ∧
            vector_reachable algorithm
              (inf_adopted_state_vector_set to_ q.id
                (inf_adopted_state_vector_get to_ q.id - 1)) = true
        · rw [if_pos hc] at hoffer
          simp only [Option.some.injEq] at hoffer
          refine Or.inr ⟨newest, hoffer.symm, ?_⟩
          rw [if_pos hc.1,
            is_reachable_set_back fuel algorithm hinv hfuel to_ v hcur hv q.id _ (by omega),
            hc.2]
          try rfl
        · rw [if_neg hc] at hoffer
          cases hoffer
      · rw [if_neg hdo] at hoffer
        rw [if_pos hdo]
        obtain ⟨target, htarget⟩ := logged_prev_associated algorithm hinv q hq _ newest hnewest hdo
        rw [htarget] at hoffer ⊢
        simp only at hoffer ⊢
        have hbelow := (loop_request_logged algorithm hinv q hq _ newest hnewest).2.2 target htarget
        by_cases hc : vector_reachable algorithm
              (inf_adopted_state_vector_set to_ q.id
                (inf_adopted_state_vector_get target.vector q.id)) = true ∧
            inf_adopted_state_vector_causally_before request.vector
              (inf_adopted_state_vector_set to_ q.id
                (inf_adopted_state_vector_get target.vector q.id)) = true
        · rw [if_pos hc] at hoffer
          simp only [Option.some.injEq] at hoffer
          refine Or.inl ⟨target, hoffer.symm, ?_⟩
          rw [is_reachable_set_back fuel algorithm hinv hfuel to_ v hcur hv q.id _ (by omega)]
          simp only
          rw [causally_before_congr request.vector request.vector
            (inf_adopted_state_vector_set v q.id
              (inf_adopted_state_vector_get target.vector q.id))
            (inf_adopted_state_vector_set to_ q.id
              (inf_adopted_state_vector_get target.vector q.id))
            (fun _ => rfl) (by intro p; rw [get_set, get_set, hv p])]
          rw [hc.1, hc.2]
          simp only [Bool.and_self, if_true, get_set, eq_self_iff_true]
          try rfl
        · rw [if_neg hc] at hoffer
          cases hoffer

/-- One turn of the second loop of translate_request for a participant that offers
no last-resort transform. -/
theorem second_loop_turn_none
    (translate : InfAdoptedRequest Op → InfAdoptedStateVector →
      Except Failure (InfAdoptedRequest Op))
    (fuel : Nat) (O : InfAdoptedOperationClass Op Buf) (algorithm : InfAdoptedAlgorithm Op Buf)
    (hinv : reachability_invariant algorithm) (hfuel : longest_log algorithm < fuel)
    (request : InfAdoptedRequest Op) (to_ : InfAdoptedStateVector)
    (hcur : inf_adopted_state_vector_causally_before to_ algorithm.current = true)
    (q : InfAdoptedUser Op) (hq : q ∈ algorithm.users) (rest : List (InfAdoptedUser Op))
    (v : InfAdoptedStateVector)
    (hv : ∀ p, inf_adopted_state_vector_get v p = inf_adopted_state_vector_get to_ p)
    (hoffer : last_resort_offer algorithm request to_ q = none) :
    ∃ v2, (∀ p, inf_adopted_state_vector_get v2 p = inf_adopted_state_vector_get to_ p) ∧
      translate_request_second_loop translate fuel O algorithm request to_ (q :: rest) v =
        translate_request_second_loop translate fuel O algorithm request to_ rest v2 := by
  have hlecur := (causally_before_iff _ _).mp hcur q.id
  unfold last_resort_offer at hoffer
  simp only [translate_request_second_loop, inf_adopted_request_get_user_id,
    inf_adopted_request_get_vector, hv q.id]
  by_cases h1 : q.id = request.user_id
  · rw [if_pos h1]
    exact ⟨v, hv, rfl⟩
  · rw [if_neg h1] at hoffer ⊢
    by_cases h2 : inf_adopted_state_vector_get to_ q.id = 0
    · rw [if_pos h2]
      exact ⟨v, hv, rfl⟩
    · rw [if_neg h2] at hoffer ⊢
      obtain ⟨newest, hnewest⟩ := newest_request_exists algorithm hinv to_ hcur q hq h2
      rw [hnewest] at hoffer
      by_cases hlt : inf_adopted_state_vector_get request.vector q.id <
          inf_adopted_state_vector_get to_ q.id
      · rw [if_pos hlt]
        have hr : vector_reachable algorithm
            (inf_adopted_state_vector_set to_ q.id
              (inf_adopted_state_vector_get to_ q.id - 1)) = false := by
          cases hvr : vector_reachable algorithm
              (inf_adopted_state_vector_set to_ q.id
                (inf_adopted_state_vector_get to_ q.id - 1)) with
          | false => rfl
          | true =>
            rw [if_pos ⟨hlt, hvr⟩] at hoffer
            cases hoffer
        rw [is_reachable_set_back fuel algorithm hinv hfuel to_ v hcur hv q.id _ (by omega), hr]
        refine ⟨_, ?_, rfl⟩
        intro p
        rw [get_set]
        by_cases hp : p = q.id
        · rw [if_pos hp, hp]
        · rw [if_neg hp, get_set, if_neg hp]; exact hv p
      · rw [if_neg hlt]
        exact ⟨v, hv, rfl⟩

/-- One turn of the second loop of translate_request for a participant that offers
the last-resort transform: the loop ends with the transform against the request in
the participant's slot below `to`. -/
theorem second_loop_turn_offer
    (translate : InfAdoptedRequest Op → InfAdoptedStateVector →
      Except Failure (InfAdoptedRequest Op))
    (fuel : Nat) (O : InfAdoptedOperationClass Op Buf) (algorithm : InfAdoptedAlgorithm Op Buf)
    (hinv : reachability_invariant algorithm) (hfuel : longest_log algorithm < fuel)
    (request : InfAdoptedRequest Op) (to_ : InfAdoptedStateVector)
    (hcur : inf_adopted_state_vector_causally_before to_ algorithm.current = true)
    (q : InfAdoptedUser Op) (rest : List (InfAdoptedUser Op))
    (v : InfAdoptedStateVector)
    (hv : ∀ p, inf_adopted_state_vector_get v p = inf_adopted_state_vector_get to_ p)
    (step : TranslateStep Op)
    (hoffer : last_resort_offer algorithm request to_ q = some step) :
    ∃ against, step = .last_resort_transform q.id against ∧
      translate_request_second_loop translate fuel O algorithm request to_ (q :: rest) v =
        match transform_request_with translate O algorithm request against
            (inf_adopted_state_vector_set v q.id
              (inf_adopted_state_vector_get to_ q.id - 1)) with
        | .error e => .error e
        | .ok result =>
          .ok (some result, inf_adopted_state_vector_set v q.id
            (inf_adopted_state_vector_get to_ q.id - 1)) := by
  have hlecur := (causally_before_iff _ _).mp hcur q.id
  unfold last_resort_offer at hoffer
  simp only [translate_request_second_loop, inf_adopted_request_get_user_id,
    inf_adopted_request_get_vector, hv q.id]
  by_cases h1 : q.id = request.user_id
  · rw [if_pos h1] at hoffer
    cases hoffer
  · rw [if_neg h1] at hoffer ⊢
    by_cases h2 : inf_adopted_state_vector_get to_ q.id = 0
    · rw [if_pos h2] at hoffer
      cases hoffer
    · rw [if_neg h2] at hoffer ⊢
      by_cases hc : inf_adopted_state_vector_get request.vector q.id <
            inf_adopted_state_vector_get to_ q.id ∧
          vector_reachable algorithm
            (inf_adopted_state_vector_set to_ q.id
              (inf_adopted_state_vector_get to_ q.id - 1)) = true
      · rw [if_pos hc] at hoffer
        cases hnewest : inf_adopted_request_log_get_request q.request_log
            (inf_adopted_state_vector_get to_ q.id - 1) with
        | none =>
          rw [hnewest] at hoffer
          cases hoffer
        | some newest =>
          rw [hnewest] at hoffer
          simp only [Option.some.injEq] at hoffer
          refine ⟨newest, hoffer.symm, ?_⟩
          rw [if_pos hc.1,
            is_reachable_set_back fuel algorithm hinv hfuel to_ v hcur hv q.id _ (by omega),
            hc.2]
          try rfl
      · rw [if_neg hc] at hoffer
        cases hoffer

end StepChoice3

section StepChoice4

variable {Op Buf : Type}

/-- The first loop of translate_request over a part of the user array: it ends
without a result when no participant of the part offers a step, and with the step of
the first participant that offers one otherwise. -/
theorem first_loop_offers
    (translate : InfAdoptedRequest Op → InfAdoptedStateVector →
      Except Failure (InfAdoptedRequest Op))
    (fuel : Nat) (O : InfAdoptedOperationClass Op Buf) (algorithm : InfAdoptedAlgorithm Op Buf)
    (hinv : reachability_invariant algorithm) (hfuel : longest_log algorithm < fuel)
    (request : InfAdoptedRequest Op) (to_ : InfAdoptedStateVector)
    (hcur : inf_adopted_state_vector_causally_before to_ algorithm.current = true)
    (users : List (InfAdoptedUser Op)) :
    (∀ u ∈ users, u ∈ algorithm.users) → ∀ v : InfAdoptedStateVector,
    (∀ p, inf_adopted_state_vector_get v p = inf_adopted_state_vector_get to_ p) →
    (users.findSome? (first_pass_offer algorithm request to_) = none →
      ∃ v2, (∀ p, inf_adopted_state_vector_get v2 p = inf_adopted_state_vector_get to_ p) ∧
        translate_request_first_loop translate fuel O algorithm request to_ users v
          = .ok (none, v2)) ∧
    (∀ step, users.findSome? (first_pass_offer algorithm request to_) = some step →
      ∃ v2, (∀ p, inf_adopted_state_vector_get v2 p = inf_adopted_state_vector_get to_ p) ∧
        ((∃ q target, step = .late_fold q target ∧
          translate_request_first_loop translate fuel O algorithm request to_ users v =
            match translate request
                (inf_adopted_state_vector_set v2 q
                  (inf_adopted_state_vector_get target.vector q)) with
            | .error e => .error e
            | .ok result =>
              .ok (some (inf_adopted_request_fold O result q
                (guint_sub (inf_adopted_state_vector_get to_ q)
                  (inf_adopted_state_vector_get target.vector q))),
                inf_adopted_state_vector_set v2 q
                  (inf_adopted_state_vector_get target.vector q))) ∨
        (∃ q against, step = .directional_transform q against ∧
          translate_request_first_loop translate fuel O algorithm request to_ users v =
            match transform_request_with translate O algorithm request against
                (inf_adopted_state_vector_set v2 q
                  (inf_adopted_state_vector_get to_ q - 1)) with
            | .error e => .error e
            | .ok result =>
              .ok (some result, inf_adopted_state_vector_set v2 q
                (inf_adopted_state_vector_get to_ q - 1))))) := by
  induction users with
  | nil =>
    intro _ v hv
    refine ⟨fun _ => ⟨v, hv, rfl⟩, ?_⟩
    intro step h
    simp only [List.findSome?_nil] at h
    cases h
  | cons u rest ih =>
    intro husers v hv
    have hu : u ∈ algorithm.users := husers u (List.mem_cons_self _ _)
    have hrest : ∀ x ∈ rest, x ∈ algorithm.users :=
      fun x hx => husers x (List.mem_cons_of_mem _ hx)
    rw [List.findSome?_cons]
    cases hoff : first_pass_offer algorithm request to_ u with
    | none =>
      simp only
      obtain ⟨v2, hv2, heq⟩ := first_loop_turn_none translate fuel O algorithm hinv hfuel
        request to_ hcur u hu rest v hv hoff
      rw [heq]
      exact ih hrest v2 hv2
    | some s =>
      simp only
      refine ⟨(fun h => by cases h), ?_⟩
      intro step h
      simp only [Option.some.injEq] at h
      subst h
      refine ⟨v, hv, ?_⟩
      rcases first_loop_turn_offer translate fuel O algorithm hinv hfuel request to_ hcur
        u hu rest v hv s hoff with ⟨target, h1, h2⟩ | ⟨against, h1, h2⟩
      · exact Or.inl ⟨u.id, target, h1, h2⟩
      · exact Or.inr ⟨u.id, against, h1, h2⟩

/-- The second loop of translate_request over a part of the user array: it ends
without a result when no participant of the part offers the last-resort transform,
and with the transform against the first participant that offers it otherwise. -/
theorem second_loop_offers
    (translate : InfAdoptedRequest Op → InfAdoptedStateVector →
      Except Failure (InfAdoptedRequest Op))
    (fuel : Nat) (O : InfAdoptedOperationClass Op Buf) (algorithm : InfAdoptedAlgorithm Op Buf)
    (hinv : reachability_invariant algorithm) (hfuel : longest_log algorithm < fuel)
    (request : InfAdoptedRequest Op) (to_ : InfAdoptedStateVector)
    (hcur : inf_adopted_state_vector_causally_before to_ algorithm.current = true)
    (users : List (InfAdoptedUser Op)) :
    (∀ u ∈ users, u ∈ algorithm.users) → ∀ v : InfAdoptedStateVector,
    (∀ p, inf_adopted_state_vector_get v p = inf_adopted_state_vector_get to_ p) →
    (users.findSome? (last_resort_offer algorithm request to_) = none →
      ∃ v2, (∀ p, inf_adopted_state_vector_get v2 p = inf_adopted_state_vector_get to_ p) ∧
        translate_request_second_loop translate fuel O algorithm request to_ users v
          = .ok (none, v2)) ∧
    (∀ step, users.findSome? (last_resort_offer algorithm request to_) = some step →
      ∃ v2, (∀ p, inf_adopted_state_vector_get v2 p = inf_adopted_state_vector_get to_ p) ∧
        ∃ q against, step = .last_resort_transform q against ∧
          translate_request_second_loop translate fuel O algorithm request to_ users v =
            match transform_request_with translate O algorithm request against
                (inf_adopted_state_vector_set v2 q
                  (inf_adopted_state_vector_get to_ q - 1)) with
            | .error e => .error e
            | .ok result =>
              .ok (some result, inf_adopted_state_vector_set v2 q
                (inf_adopted_state_vector_get to_ q - 1))) := by
  induction users with
  | nil =>
    intro _ v hv
    refine ⟨fun _ => ⟨v, hv, rfl⟩, ?_⟩
    intro step h
    simp only [List.findSome?_nil] at h
    cases h
  | cons u rest ih =>
    intro husers v hv
    have hu : u ∈ algorithm.users := husers u (List.mem_cons_self _ _)
    have hrest : ∀ x ∈ rest, x ∈ algorithm.users :=
      fun x hx => husers x (List.mem_cons_of_mem _ hx)
    rw [List.findSome?_cons]
    cases hoff : last_resort_offer algorithm request to_ u with
    | none =>
      simp only
      obtain ⟨v2, hv2, heq⟩ := second_loop_turn_none translate fuel O algorithm hinv hfuel
        request to_ hcur u hu rest v hv hoff
      rw [heq]
      exact ih hrest v2 hv2
    | some s =>
      simp only
      refine ⟨(fun h => by cases h), ?_⟩
      intro step h
      simp only [Option.some.injEq] at h
      subst h
      obtain ⟨against, h1, h2⟩ := second_loop_turn_offer translate fuel O algorithm hinv hfuel
        request to_ hcur u rest v hv s hoff
      exact ⟨v, hv, u.id, against, h1, h2⟩

/-- An Undo or Redo that has an original request in a log has an associated request
there, kept in a slot of the log. -/
theorem original_gives_associated (log : InfAdoptedRequestLog Op)
    (request original : InfAdoptedRequest Op)
    (htype : request.type ≠ InfAdoptedRequestType.DO)
    (h : inf_adopted_request_log_original_request log request = some original) :
    ∃ n associated, inf_adopted_request_log_get_request log n = some associated ∧
      inf_adopted_request_log_prev_associated log request = some associated := by
  unfold inf_adopted_request_log_prev_associated
  have key : ∃ n e, prev_associated_slot log request = some n ∧
      inf_adopted_request_log_get_entry log n = some e := by
    unfold inf_adopted_request_log_original_request at h
    cases hs : prev_associated_slot log request with
    | none =>
      cases ht : request.type with
      | DO => exact absurd ht htype
      | UNDO => simp [ht, hs] at h
      | REDO => simp [ht, hs] at h
    | some n =>
      cases he : inf_adopted_request_log_get_entry log n with
      | none =>
        cases ht : request.type with
        | DO => exact absurd ht htype
        | UNDO => simp [ht, hs, he] at h
        | REDO => simp [ht, hs, he] at h
      | some e => exact ⟨n, e, rfl, he⟩
  obtain ⟨n, e, hs, he⟩ := key
  rw [hs]
  refine ⟨n, e.request, ?_, ?_⟩ <;>
    simp only [inf_adopted_request_log_get_request, he, Option.map_some']

end StepChoice4

/-- C34 (amended): translate_request takes the first applicable step in this order.
For a request R of a known issuer and a vector `to` that pass the assertions, in a
state that meets the reachability invariant, with more fuel than the longest log has
requests: a Do whose vector equals `to` is returned as it is (identity); for an Undo
or Redo the late mirror is taken when the mirrored vector is reachable; otherwise
the first pass goes through the participants in the order of the user array, skips
the issuer, every participant q with to[q] = 0 and every participant that offers no
step, and takes the step of the first participant that offers one: the late fold
when the request in slot to[q] - 1 of L(q) is an Undo or Redo, the folded vector is
reachable and R.vector is causally before it, the directional transform when that
request is a Do, R.vector[q] < to[q] and `to` with q's component decreased by one is
reachable; only when no participant offers a step in the first pass, the second pass
takes the last-resort transform against the request in slot to[q] - 1 of the first
participant q, in the order of the array, that is not the issuer and has to[q] > 0,
R.vector[q] < to[q] and `to` with q's component decreased by one reachable; when no
step applies at all the call ends in g_assert_not_reached. The vector v the step is
computed with is the scratch copy of `to`, equal to `to` in every component. -/
theorem translate_request_step_order {Op Buf : Type} (fuel : Nat)
    (O : InfAdoptedOperationClass Op Buf) (algorithm : InfAdoptedAlgorithm Op Buf)
    (request : InfAdoptedRequest Op) (to_ : InfAdoptedStateVector)
    (user : InfAdoptedUser Op) (original : InfAdoptedRequest Op)
    (hinv : reachability_invariant algorithm)
    (hfuel : longest_log algorithm < fuel + 1)
    (hlook : inf_user_table_lookup_user_by_id algorithm.users request.user_id = some user)
    (horig : inf_adopted_request_log_original_request user.request_log request
      = some original)
    (hcur : inf_adopted_state_vector_causally_before to_ algorithm.current = true)
    (hov : inf_adopted_state_vector_causally_before original.vector to_ = true)
    (hreach : inf_adopted_algorithm_is_reachable (fuel + 1) algorithm to_ = .ok true)
    (step : TranslateStep Op) :
    first_applicable_step algorithm request to_ user = step →
    match step with
    | .identity =>
      inf_adopted_algorithm_translate_request (fuel + 1) O algorithm request to_ = .ok request
    | .late_mirror associated =>
      inf_adopted_algorithm_translate_request (fuel + 1) O algorithm request to_ =
        (inf_adopted_algorithm_translate_request fuel O algorithm associated
            (inf_adopted_state_vector_set to_ request.user_id
              (inf_adopted_state_vector_get associated.vector request.user_id))).map
          (fun result => inf_adopted_request_mirror O result
            (guint_sub (inf_adopted_state_vector_get to_ request.user_id)
              (inf_adopted_state_vector_get associated.vector request.user_id)))
    | .late_fold q target =>
      ∃ v, (∀ p, inf_adopted_state_vector_get v p = inf_adopted_state_vector_get to_ p) ∧
        inf_adopted_algorithm_translate_request (fuel + 1) O algorithm request to_ =
          (inf_adopted_algorithm_translate_request fuel O algorithm request
              (inf_adopted_state_vector_set v q
                (inf_adopted_state_vector_get target.vector q))).map
            (fun result => inf_adopted_request_fold O result q
              (guint_sub (inf_adopted_state_vector_get to_ q)
                (inf_adopted_state_vector_get target.vector q)))
    | .directional_transform q against =>
      ∃ v, (∀ p, inf_adopted_state_vector_get v p = inf_adopted_state_vector_get to_ p) ∧
        inf_adopted_algorithm_translate_request (fuel + 1) O algorithm request to_ =
          inf_adopted_algorithm_transform_request fuel O algorithm request against
            (inf_adopted_state_vector_set v q (inf_adopted_state_vector_get to_ q - 1))
    | .last_resort_transform q against =>
      ∃ v, (∀ p, inf_adopted_state_vector_get v p = inf_adopted_state_vector_get to_ p) ∧
        inf_adopted_algorithm_translate_request (fuel + 1) O algorithm request to_ =
          inf_adopted_algorithm_transform_request fuel O algorithm request against
            (inf_adopted_state_vector_set v q (inf_adopted_state_vector_get to_ q - 1))
    | .not_reached =>
      inf_adopted_algorithm_translate_request (fuel + 1) O algorithm request to_ =
        .error Failure.not_reached := by
  intro hstep
  subst hstep
  have hbody : inf_adopted_algorithm_translate_request (fuel + 1) O algorithm request to_ =
      translate_request_body
        (fun r t => inf_adopted_algorithm_translate_request fuel O algorithm r t)
        (fuel + 1) O algorithm request to_ := rfl
  obtain ⟨huser, huid⟩ := lookup_mem algorithm.users request.user_id user hlook
  obtain ⟨i1, i2, i3, _, i5⟩ := invariant_user algorithm hinv user huser
  -- the request an Undo or Redo toggles lies in the issuer's log
  have hassoc : request.type ≠ InfAdoptedRequestType.DO →
      ∃ associated,
        inf_adopted_request_log_prev_associated user.request_log request = some associated ∧
        inf_adopted_state_vector_get associated.vector request.user_id ≤
          inf_adopted_state_vector_get algorithm.current request.user_id := by
    intro htype
    obtain ⟨n, associated, hget, hprev⟩ :=
      original_gives_associated user.request_log request original htype horig
    refine ⟨associated, hprev, ?_⟩
    obtain ⟨g1, g2, _, g4⟩ := get_request_indexed user.request_log i3 n associated hget
    unfold request_slot at g1
    rw [g2, i1, huid] at g1
    rw [g1, ← huid, i5]
    rw [i2.1] at g4
    omega
  have hmirror_test : ∀ associated : InfAdoptedRequest Op,
      inf_adopted_state_vector_get associated.vector request.user_id ≤
        inf_adopted_state_vector_get algorithm.current request.user_id →
      inf_adopted_algorithm_is_reachable (fuel + 1) algorithm
        (inf_adopted_state_vector_set to_ request.user_id
          (inf_adopted_state_vector_get associated.vector request.user_id)) =
      .ok (vector_reachable algorithm
        (inf_adopted_state_vector_set to_ request.user_id
          (inf_adopted_state_vector_get associated.vector request.user_id))) :=
    fun associated hle =>
      is_reachable_set_back (fuel + 1) algorithm hinv hfuel to_ to_ hcur (fun _ => rfl)
        request.user_id _ hle
  -- the entry into the loops
  have hentry : ¬(request.type = InfAdoptedRequestType.DO ∧
        inf_adopted_state_vector_compare request.vector to_ = 0) →
      late_mirror_offer algorithm request to_ user = none →
      ∃ v0, (∀ p, inf_adopted_state_vector_get v0 p = inf_adopted_state_vector_get to_ p) ∧
        inf_adopted_algorithm_translate_request (fuel + 1) O algorithm request to_ =
          translate_request_loops
            (fun r t => inf_adopted_algorithm_translate_request fuel O algorithm r t)
            (fuel + 1) O algorithm request to_ v0 := by
    intro hid hm
    by_cases hdo : request.type = InfAdoptedRequestType.DO
    · have hcmp : inf_adopted_state_vector_compare request.vector to_ ≠ 0 :=
        fun h => hid ⟨hdo, h⟩
      refine ⟨to_, fun _ => rfl, ?_⟩
      rw [hbody]
      unfold translate_request_body
      simp only [inf_adopted_request_get_user_id, hlook, horig,
        inf_adopted_request_get_vector, hcur, hov, hreach,
        inf_adopted_request_get_request_type, hdo, hcmp,
        inf_adopted_state_vector_copy, Bool.not_true, Bool.false_eq_true, if_false,
        ne_eq, not_true_eq_false]
    · obtain ⟨associated, hprev, hle⟩ := hassoc hdo
      unfold late_mirror_offer at hm
      rw [if_neg hdo, hprev] at hm
      simp only at hm
      have hvr : vector_reachable algorithm
          (inf_adopted_state_vector_set to_ request.user_id
            (inf_adopted_state_vector_get associated.vector request.user_id)) = false := by
        cases hb : vector_reachable algorithm
            (inf_adopted_state_vector_set to_ request.user_id
              (inf_adopted_state_vector_get associated.vector request.user_id)) with
        | false => rfl
        | true =>
          rw [hb] at hm
          simp at hm
      have htest := hmirror_test associated hle
      rw [hvr] at htest
      refine ⟨inf_adopted_state_vector_set
        (inf_adopted_state_vector_set to_ request.user_id
          (inf_adopted_state_vector_get associated.vector request.user_id))
        request.user_id (inf_adopted_state_vector_get to_ request.user_id), ?_, ?_⟩
      · intro p
        rw [get_set]
        by_cases hp : p = request.user_id
        · rw [if_pos hp, hp]
        · rw [if_neg hp, get_set, if_neg hp]
      · rw [hbody]
        unfold translate_request_body
        simp only [inf_adopted_request_get_user_id, hlook, horig,
          inf_adopted_request_get_vector, hcur, hov, hreach,
          inf_adopted_request_get_request_type, hdo, hprev, htest,
          inf_adopted_state_vector_copy, Bool.not_true, Bool.false_eq_true, if_false,
          ne_eq, not_false_eq_true, if_true]
  unfold first_applicable_step
  by_cases hid : request.type = InfAdoptedRequestType.DO ∧
      inf_adopted_state_vector_compare request.vector to_ = 0
  · rw [if_pos hid]
    simp only
    rw [hbody]
    unfold translate_request_body
    simp only [inf_adopted_request_get_user_id, hlook, horig, inf_adopted_request_get_vector,
      hcur, hov, hreach, inf_adopted_request_get_request_type, hid.1, hid.2,
      inf_adopted_state_vector_copy, Bool.not_true, Bool.false_eq_true, if_false,
      ne_eq, not_true_eq_false, if_true]
  · rw [if_neg hid]
    cases hm : late_mirror_offer algorithm request to_ user with
    | some step =>
      simp only
      unfold late_mirror_offer at hm
      by_cases hdo : request.type = InfAdoptedRequestType.DO
      · rw [if_pos hdo] at hm
        cases hm
      · obtain ⟨associated, hprev, hle⟩ := hassoc hdo
        rw [if_neg hdo, hprev] at hm
        simp only at hm
        cases hb : vector_reachable algorithm
            (inf_adopted_state_vector_set to_ request.user_id
              (inf_adopted_state_vector_get associated.vector request.user_id)) with
        | false =>
          rw [hb] at hm
          simp at hm
        | true =>
          rw [hb] at hm
          simp only [if_true, Option.some.injEq] at hm
          subst hm
          simp only
          have htest := hmirror_test associated hle
          rw [hb] at htest
          rw [hbody]
          unfold translate_request_body
          simp only [inf_adopted_request_get_user_id, hlook, horig,
            inf_adopted_request_get_vector, hcur, hov, hreach,
            inf_adopted_request_get_request_type, hdo, hprev, htest,
            inf_adopted_state_vector_copy, inf_adopted_request_copy, Bool.not_true,
            Bool.false_eq_true, if_false, ne_eq, not_false_eq_true, if_true, get_set]
          cases inf_adopted_algorithm_translate_request fuel O algorithm associated
              (inf_adopted_state_vector_set to_ request.user_id
                (inf_adopted_state_vector_get associated.vector request.user_id)) with
          | error e => rfl
          | ok result => rfl
    | none =>
      simp only
      obtain ⟨v0, hv0, hT⟩ := hentry hid hm
      obtain ⟨f1, f2⟩ := first_loop_offers
        (fun r t => inf_adopted_algorithm_translate_request fuel O algorithm r t)
        (fuel + 1) O algorithm hinv hfuel request to_ hcur algorithm.users
        (fun _ h => h) v0 hv0
      cases hF : algorithm.users.findSome? (first_pass_offer algorithm request to_) with
      | some step =>
        simp only
        obtain ⟨v2, hv2, hcase⟩ := f2 step hF
        rcases hcase with ⟨q, target, hs, heq⟩ | ⟨q, against, hs, heq⟩
        · subst hs
          simp only
          refine ⟨v2, hv2, ?_⟩
          rw [hT]
          unfold translate_request_loops
          rw [heq]
          cases inf_adopted_algorithm_translate_request fuel O algorithm request
              (inf_adopted_state_vector_set v2 q
                (inf_adopted_state_vector_get target.vector q)) with
          | error e => rfl
          | ok result => rfl
        · subst hs
          simp only
          refine ⟨v2, hv2, ?_⟩
          rw [hT]
          unfold translate_request_loops
          rw [heq]
          unfold inf_adopted_algorithm_transform_request
          cases transform_request_with
              (fun r t => inf_adopted_algorithm_translate_request fuel O algorithm r t)
              O algorithm request against
              (inf_adopted_state_vector_set v2 q
                (inf_adopted_state_vector_get to_ q - 1)) with
          | error e => rfl
          | ok result => rfl
      | none =>
        simp only
        obtain ⟨v1, hv1, heq1⟩ := f1 hF
        obtain ⟨s1, s2⟩ := second_loop_offers
          (fun r t => inf_adopted_algorithm_translate_request fuel O algorithm r t)
          (fuel + 1) O algorithm hinv hfuel request to_ hcur algorithm.users
          (fun _ h => h) v1 hv1
        cases hL : algorithm.users.findSome? (last_resort_offer algorithm request to_) with
        | some step =>
          simp only
          obtain ⟨v2, hv2, q, against, hs, heq⟩ := s2 step hL
          subst hs
          simp only
          refine ⟨v2, hv2, ?_⟩
          rw [hT]
          unfold translate_request_loops
          rw [heq1]
          simp only
          rw [heq]
          unfold inf_adopted_algorithm_transform_request
          cases transform_request_with
              (fun r t => inf_adopted_algorithm_translate_request fuel O algorithm r t)
              O algorithm request against
              (inf_adopted_state_vector_set v2 q
                (inf_adopted_state_vector_get to_ q - 1)) with
          | error e => rfl
          | ok result => rfl
        | none =>
          simp only
          obtain ⟨v2, _, heq⟩ := s1 hL
          rw [hT]
          unfold translate_request_loops
          rw [heq1]
          simp only
          rw [heq]

/-- The trace session with the user array 3, 2, 1 meets the reachability invariant
after its calls. -/
theorem sample_trace_backward_invariant :
    reachability_invariant (sample_trace_undone [3, 2, 1]) :=
  (perform_calls_steps 8 TraceOperation sample_trace_calls (sample_trace_session [3, 2, 1])
        (sample_trace_undone [3, 2, 1]) (by decide) rfl).2.2
        (logs_empty_invariant (sample_trace_session [3, 2, 1]) (by unfold logs_empty; decide))
        (by unfold logs_small; decide)

/-- The trace session with the user array 1, 2, 3 meets the reachability invariant
after its calls. -/
theorem sample_trace_forward_invariant :
    reachability_invariant (sample_trace_undone [1, 2, 3]) :=
  (perform_calls_steps 8 TraceOperation sample_trace_calls (sample_trace_session [1, 2, 3])
        (sample_trace_undone [1, 2, 3]) (by decide) rfl).2.2
        (logs_empty_invariant (sample_trace_session [1, 2, 3]) (by unfold logs_empty; decide))
        (by unfold logs_small; decide)

/-- The trace session in which only user 2 has issued requests meets the
reachability invariant. -/
theorem sample_trace_alone_invariant : reachability_invariant sample_trace_alone :=
  (perform_calls_steps 8 TraceOperation sample_trace_alone_calls
        (sample_trace_session [1, 2, 3]) sample_trace_alone (by decide) rfl).2.2
        (logs_empty_invariant (sample_trace_session [1, 2, 3]) (by unfold logs_empty; decide))
        (by unfold logs_small; decide)

/-- The sample session after the two Dos of user 1 meets the reachability
invariant. -/
theorem sample_two_dos_invariant : reachability_invariant sample_two_dos :=
  (perform_calls_steps 8 CounterOperation sample_two_dos_calls sample_algorithm
        sample_two_dos (by decide) rfl).2.2
        (logs_empty_invariant sample_algorithm (by unfold logs_empty; decide))
        (by unfold logs_small; decide)

/-- C34 (amended) on sample sessions, one for each step. In the trace session with
the user array 3, 2, 1 the first request of user 3, translated to [], is returned as
it is; the Undo of user 2, translated to (1:1, 2:1), is the late mirror of its Do;
the first request of user 3, translated to current = (1:1, 2:2), is the late fold
against user 2, the issuer being skipped; with the user array 1, 2, 3 it is the
directional transform against the Do of user 1, the first participant of the array.
In the session in which only user 2 has issued its Do and Undo, a request of user 3
issued between them is not causally before the folded vector, so the late fold is
skipped, no participant offers a step in the first pass, and the second pass takes
the last-resort transform against the Undo. After two Dos of user 1 the first of
them offers no step for to = current, and the call ends in g_assert_not_reached. -/
theorem translate_request_step_order_witness :
    inf_adopted_algorithm_translate_request 8 TraceOperation (sample_trace_undone [3, 2, 1])
      sample_trace_request [] = .ok sample_trace_request ∧
    inf_adopted_algorithm_translate_request 8 TraceOperation (sample_trace_undone [3, 2, 1])
        sample_trace_undo [(1, 1), (2, 1)] =
      (inf_adopted_algorithm_translate_request 7 TraceOperation
          (sample_trace_undone [3, 2, 1]) sample_trace_undone_do
          (inf_adopted_state_vector_set [(1, 1), (2, 1)] 2 0)).map
        (fun result => inf_adopted_request_mirror TraceOperation result 1) ∧
    (∃ v, (∀ p, inf_adopted_state_vector_get v p =
          inf_adopted_state_vector_get [(1, 1), (2, 2), (3, 0)] p) ∧
      inf_adopted_algorithm_translate_request 8 TraceOperation (sample_trace_undone [3, 2, 1])
          sample_trace_request [(1, 1), (2, 2), (3, 0)] =
        (inf_adopted_algorithm_translate_request 7 TraceOperation
            (sample_trace_undone [3, 2, 1]) sample_trace_request
            (inf_adopted_state_vector_set v 2 0)).map
          (fun result => inf_adopted_request_fold TraceOperation result 2 2)) ∧
    (∃ v, (∀ p, inf_adopted_state_vector_get v p =
          inf_adopted_state_vector_get [(1, 1), (2, 2), (3, 0)] p) ∧
      inf_adopted_algorithm_translate_request 8 TraceOperation (sample_trace_undone [1, 2, 3])
          sample_trace_request [(1, 1), (2, 2), (3, 0)] =
        inf_adopted_algorithm_transform_request 7 TraceOperation (sample_trace_undone [1, 2, 3])
          sample_trace_request sample_trace_do (inf_adopted_state_vector_set v 1 0)) ∧
    first_pass_offer sample_trace_alone sample_trace_between [(1, 0), (2, 2), (3, 0)]
      (sample_trace_user_of sample_trace_alone 2) = none ∧
    (∃ v, (∀ p, inf_adopted_state_vector_get v p =
          inf_adopted_state_vector_get [(1, 0), (2, 2), (3, 0)] p) ∧
      inf_adopted_algorithm_translate_request 8 TraceOperation sample_trace_alone
          sample_trace_between [(1, 0), (2, 2), (3, 0)] =
        inf_adopted_algorithm_transform_request 7 TraceOperation sample_trace_alone
          sample_trace_between sample_trace_undo (inf_adopted_state_vector_set v 2 1)) ∧
    inf_adopted_algorithm_translate_request 8 CounterOperation sample_two_dos sample_first_do
      sample_two_dos.current = .error Failure.not_reached := 
  ⟨translate_request_step_order 7 TraceOperation (sample_trace_undone [3, 2, 1])
      sample_trace_request [] (sample_trace_user_of (sample_trace_undone [3, 2, 1]) 3)
      sample_trace_request sample_trace_backward_invariant (by decide) rfl rfl (by decide)
      (by decide) rfl (TranslateStep.identity) (by decide),
    translate_request_step_order 7 TraceOperation (sample_trace_undone [3, 2, 1])
      sample_trace_undo [(1, 1), (2, 1)] (sample_trace_user_of (sample_trace_undone [3, 2, 1]) 2)
      sample_trace_undone_do sample_trace_backward_invariant (by decide) rfl rfl (by decide)
      (by decide) rfl (TranslateStep.late_mirror sample_trace_undone_do) (by decide),
    translate_request_step_order 7 TraceOperation (sample_trace_undone [3, 2, 1])
      sample_trace_request [(1, 1), (2, 2), (3, 0)] (sample_trace_user_of (sample_trace_undone [3, 2, 1]) 3)
      sample_trace_request sample_trace_backward_invariant (by decide) rfl rfl (by decide)
      (by decide) rfl (TranslateStep.late_fold 2 sample_trace_undone_do) (by decide),
    translate_request_step_order 7 TraceOperation (sample_trace_undone [1, 2, 3])
      sample_trace_request [(1, 1), (2, 2), (3, 0)] (sample_trace_user_of (sample_trace_undone [1, 2, 3]) 3)
      sample_trace_request sample_trace_forward_invariant (by decide) rfl rfl (by decide)
      (by decide) rfl (TranslateStep.directional_transform 1 sample_trace_do) (by decide),
    by decide,
    translate_request_step_order 7 TraceOperation sample_trace_alone
      sample_trace_between [(1, 0), (2, 2), (3, 0)] (sample_trace_user_of sample_trace_alone 3)
      sample_trace_between sample_trace_alone_invariant (by decide) rfl rfl (by decide)
      (by decide) rfl (TranslateStep.last_resort_transform 2 sample_trace_undo) (by decide),
    translate_request_step_order 7 CounterOperation sample_two_dos
      sample_first_do sample_two_dos.current (sample_user_one sample_two_dos)
      sample_first_do sample_two_dos_invariant (by decide) rfl rfl (by decide)
      (by decide) rfl (TranslateStep.not_reached) (by decide)⟩

section CausalSessions

variable {Op Buf : Type}

theorem request_counts_issued_iff (a : InfAdoptedAlgorithm Op Buf)
    (request : InfAdoptedRequest Op) :
    request_counts_issued a request = true ↔
      ∀ p ∈ a.users.map (fun u => (u.id, u.flags_local)), p.2 = true →
        inf_adopted_state_vector_get request.vector p.1 ≤
          inf_adopted_state_vector_get a.current p.1 := by
  unfold request_counts_issued
  rw [List.all_eq_true]
  constructor
  · intro h p hp hl
    obtain ⟨u, hu, rfl⟩ := List.mem_map.mp hp
    have := h u hu
    simp only at hl
    rw [hl] at this
    simpa using this
  · intro h u hu
    cases hl : u.flags_local with
    | false => rfl
    | true =>
      have := h (u.id, u.flags_local) (List.mem_map_of_mem _ hu) hl
      simpa using this

/-- A request that counts no more requests of a local user than `current` does
keeps doing so when `current` grows and the users keep their ids and flags. -/
theorem request_counts_issued_mono (a a2 : InfAdoptedAlgorithm Op Buf)
    (request : InfAdoptedRequest Op)
    (husers : a2.users.map (fun u => (u.id, u.flags_local)) =
      a.users.map (fun u => (u.id, u.flags_local)))
    (hgrow : inf_adopted_state_vector_causally_before a.current a2.current = true)
    (h : request_counts_issued a request = true) :
    request_counts_issued a2 request = true := by
  rw [request_counts_issued_iff] at h ⊢
  rw [husers]
  intro p hp hl
  exact le_trans (h p hp hl) ((causally_before_iff _ _).mp hgrow p.1)

theorem execute_request_flags (fuel : Nat)
    (O : InfAdoptedOperationClass Op Buf) (a a2 : InfAdoptedAlgorithm Op Buf)
    (request : InfAdoptedRequest Op) (apply : Bool)
    (hnodup : (a.users.map (fun u => u.id)).Nodup)
    (h : inf_adopted_algorithm_execute_request fuel O a request apply = .ok a2) :
    a2.users.map (fun u => (u.id, u.flags_local)) =
      a.users.map (fun u => (u.id, u.flags_local)) := by
  obtain ⟨user, log_request, translated, recorded, _, _, _, _, hrec, heq⟩ :=
    execute_request_ok fuel O a a2 request apply h
  cases hr : execute_request_recorded O a.buffer request log_request translated with
  | none =>
    rw [hr] at hrec
    simp only at hrec
    subst hrec
    have := (execute_request_result_frame O a request apply user translated none).2.2.2.2.2 rfl
    rw [← heq] at this
    rw [this]
  | some r =>
    rw [hr] at hrec
    simp only at hrec
    obtain ⟨log2, _, hrecorded⟩ := hrec
    subst hrecorded
    have husers := execute_request_result_users O a request apply user translated log2 hnodup
    rw [← heq] at husers
    rw [husers, List.map_map]
    apply List.map_congr_left
    intro u _
    simp only [Function.comp]
    split <;> split <;> rfl

theorem update_logs_and_undo_redo_flags (a a2 : InfAdoptedAlgorithm Op Buf)
    (h : update_logs_and_undo_redo a = .ok a2) :
    a2.users.map (fun u => (u.id, u.flags_local)) =
      a.users.map (fun u => (u.id, u.flags_local)) := by
  have := congrArg
    (List.map (fun s : Nat × Bool × InfAdoptedStateVector × Nat => (s.1, s.2.1)))
    (update_logs_and_undo_redo_frame a a2 h).1
  simpa [List.map_map, Function.comp, user_summary] using this

theorem generate_execute_flags (fuel : Nat) (O : InfAdoptedOperationClass Op Buf)
    (a a2 : InfAdoptedAlgorithm Op Buf) (request : InfAdoptedRequest Op) (apply : Bool)
    (r : Option (InfAdoptedRequest Op))
    (hnodup : (a.users.map (fun u => u.id)).Nodup)
    (h : generate_execute fuel O a request apply = .ok (r, a2)) :
    a2.users.map (fun u => (u.id, u.flags_local)) =
      a.users.map (fun u => (u.id, u.flags_local)) := by
  unfold generate_execute at h
  rcases except_error_or_ok (inf_adopted_algorithm_execute_request fuel O a request apply)
    with ⟨e, h1⟩ | ⟨mid, h1⟩
  · rw [h1] at h; simp at h
  · rw [h1] at h
    simp only at h
    rcases except_error_or_ok (update_logs_and_undo_redo mid) with ⟨e, h2⟩ | ⟨fin, h2⟩
    · rw [h2] at h; simp at h
    · rw [h2] at h
      simp only [Except.ok.injEq, Prod.mk.injEq] at h
      obtain ⟨_, hfin⟩ := h
      subst hfin
      rw [update_logs_and_undo_redo_flags mid fin h2]
      exact execute_request_flags fuel O a mid request apply hnodup h1

/-- A generate function, when it returns, has left the state as it was or has run
the shared part on a request. -/
theorem generate_form_frame (fuel : Nat) (O : InfAdoptedOperationClass Op Buf)
    (a a2 : InfAdoptedAlgorithm Op Buf)
    (res : Except Failure (Option (InfAdoptedRequest Op) × InfAdoptedAlgorithm Op Buf))
    (hform : res = .ok (none, a) ∨
      ∃ request apply, res = generate_execute fuel O a request apply)
    (r : Option (InfAdoptedRequest Op)) (h : res = .ok (r, a2))
    (hnodup : (a.users.map (fun u => u.id)).Nodup) :
    a2.queue = a.queue ∧
      a2.users.map (fun u => (u.id, u.flags_local)) =
        a.users.map (fun u => (u.id, u.flags_local)) := by
  rcases hform with hf | ⟨request, apply, hf⟩
  · rw [hf] at h
    simp only [Except.ok.injEq, Prod.mk.injEq] at h
    rw [← h.2]
    exact ⟨rfl, rfl⟩
  · rw [hf] at h
    exact ⟨generate_execute_queue fuel O a a2 request apply r h,
      generate_execute_flags fuel O a a2 request apply r hnodup h⟩

/-- What receive_request does to the queue and to the users: every request queued
afterwards was queued before or is the received one, and the users keep their ids
and flags. -/
theorem receive_request_frame (fuel : Nat) (O : InfAdoptedOperationClass Op Buf)
    (a a2 : InfAdoptedAlgorithm Op Buf) (request : InfAdoptedRequest Op) (accepted : Bool)
    (hnodup : (a.users.map (fun u => u.id)).Nodup)
    (h : inf_adopted_algorithm_receive_request fuel O a request = .ok (accepted, a2)) :
    (∀ q ∈ a2.queue, q ∈ a.queue ∨ q = request) ∧
      a2.users.map (fun u => (u.id, u.flags_local)) =
        a.users.map (fun u => (u.id, u.flags_local)) := by
  unfold inf_adopted_algorithm_receive_request at h
  cases hu : inf_user_table_lookup_user_by_id a.users
      (inf_adopted_request_get_user_id request) with
  | none =>
    simp only [hu, Except.ok.injEq, Prod.mk.injEq] at h
    rw [← h.2]
    exact ⟨fun q hq => Or.inl hq, rfl⟩
  | some user =>
    simp only [hu] at h
    cases hl : user.flags_local with
    | true =>
      simp only [hl, if_true, Except.ok.injEq, Prod.mk.injEq] at h
      rw [← h.2]
      exact ⟨fun q hq => Or.inl hq, rfl⟩
    | false =>
      simp only [hl, Bool.false_eq_true, if_false] at h
      have hrec : ∀ b : InfAdoptedAlgorithm Op Buf,
          b = (if inf_adopted_state_vector_causally_before user.vector
              (inf_adopted_request_get_vector request) then
            { a with
              users := inf_adopted_user_set_vector a.users user.id
                (if inf_adopted_request_affects_buffer O request then
                  inf_adopted_state_vector_add
                    (inf_adopted_state_vector_copy (inf_adopted_request_get_vector request))
                    user.id 1
                else inf_adopted_state_vector_copy (inf_adopted_request_get_vector request)) }
          else a) →
          (b.users.map (fun u => u.id)).Nodup ∧ b.queue = a.queue ∧
            b.users.map (fun u => (u.id, u.flags_local)) =
              a.users.map (fun u => (u.id, u.flags_local)) := by
        intro b hb
        subst hb
        split
        · refine ⟨?_, rfl, ?_⟩
          · rw [ids_of_logs _ _ (set_vector_logs a.users _ _)]
            exact hnodup
          · exact update_user_map_eq (fun u => (u.id, u.flags_local)) a.users user.id _
              (fun _ => rfl)
        · exact ⟨hnodup, rfl, rfl⟩
      generalize hgen : (if inf_adopted_state_vector_causally_before user.vector
              (inf_adopted_request_get_vector request) then
            { a with
              users := inf_adopted_user_set_vector a.users user.id
                (if inf_adopted_request_affects_buffer O request then
                  inf_adopted_state_vector_add
                    (inf_adopted_state_vector_copy (inf_adopted_request_get_vector request))
                    user.id 1
                else inf_adopted_state_vector_copy (inf_adopted_request_get_vector request)) }
          else a) = a1 at h
      obtain ⟨h1, h1q, h1f⟩ := hrec a1 hgen.symm
      split at h
      · cases h
      · rename_i processed hp
        split at h
        · cases h
        · rename_i fin hfin
          simp only [Except.ok.injEq, Prod.mk.injEq] at h
          obtain ⟨_, h2⟩ := h
          subst h2
          have hproc : (∀ q ∈ processed.queue, q ∈ a1.queue ∨ q = request) ∧
              processed.users.map (fun u => (u.id, u.flags_local)) =
                a1.users.map (fun u => (u.id, u.flags_local)) := by
            split at hp
            · simp only [Except.ok.injEq] at hp
              subst hp
              refine ⟨?_, rfl⟩
              intro q hq
              rcases List.mem_cons.mp hq with hq1 | hq1
              · exact Or.inr hq1
              · exact Or.inl hq1
            · split at hp
              · cases hp
              · rename_i executed hex
                refine ⟨?_, ?_⟩
                · obtain ⟨taken, hrun⟩ := receive_request_drain_run fuel O _ executed processed hp
                  have hperm := (drain_run_spec fuel O executed processed taken hrun).2.1
                  intro q hq
                  have hmem : q ∈ executed.queue :=
                    hperm.symm.subset (List.mem_append_right _ hq)
                  rw [(execute_request_frame fuel O a1 executed request true hex).1] at hmem
                  exact Or.inl hmem
                · exact (receive_request_drain_induction fuel O
                    (fun s => (s.users.map (fun u => u.id)).Nodup ∧
                      s.users.map (fun u => (u.id, u.flags_local)) =
                        a1.users.map (fun u => (u.id, u.flags_local)))
                    (by
                      intro s q s2 hs hexec
                      exact ⟨execute_request_ids fuel O s s2 q true hs.1 hexec,
                        (execute_request_flags fuel O s s2 q true hs.1 hexec).trans hs.2⟩)
                    (by
                      intro s q hs
                      exact hs)
                    _ executed processed hp
                    ⟨execute_request_ids fuel O a1 executed request true h1 hex,
                      execute_request_flags fuel O a1 executed request true h1 hex⟩).2
          obtain ⟨t1, _, t3, _⟩ := update_logs_and_undo_redo_frame processed fin hfin
          refine ⟨?_, ?_⟩
          · intro q hq
            rw [t3] at hq
            rcases hproc.1 q hq with hq1 | hq1
            · rw [h1q] at hq1
              exact Or.inl hq1
            · exact Or.inr hq1
          · rw [update_logs_and_undo_redo_flags processed fin hfin, hproc.2, h1f]

/-- What one call of an entry point does to the queue and to the users: every
request queued afterwards was queued before or is the request received by the call,
and the users keep their ids and flags. -/
theorem perform_call_frame (fuel : Nat) (O : InfAdoptedOperationClass Op Buf)
    (a a2 : InfAdoptedAlgorithm Op Buf) (call : InfAdoptedAlgorithmCall Op)
    (hnodup : (a.users.map (fun u => u.id)).Nodup)
    (h : perform_call fuel O a call = .ok a2) :
    (∀ q ∈ a2.queue, q ∈ a.queue ∨ call = .receive_request q) ∧
      a2.users.map (fun u => (u.id, u.flags_local)) =
        a.users.map (fun u => (u.id, u.flags_local)) := by
  cases call with
  | generate_request user operation =>
    simp only [perform_call] at h
    split at h
    · cases h
    · rename_i r fin hg
      simp only [Except.ok.injEq] at h
      subst h
      obtain ⟨g1, g2⟩ := generate_form_frame fuel O a _ _
        (generate_forms fuel O a user operation).1 r hg hnodup
      exact ⟨fun q hq => Or.inl (by rw [← g1]; exact hq), g2⟩
  | generate_request_noexec user operation =>
    simp only [perform_call] at h
    split at h
    · cases h
    · rename_i r fin hg
      simp only [Except.ok.injEq] at h
      subst h
      obtain ⟨g1, g2⟩ := generate_form_frame fuel O a _ _
        (generate_forms fuel O a user operation).2 r hg hnodup
      exact ⟨fun q hq => Or.inl (by rw [← g1]; exact hq), g2⟩
  | generate_undo user =>
    simp only [perform_call] at h
    split at h
    · cases h
    · rename_i r fin hg
      simp only [Except.ok.injEq] at h
      subst h
      obtain ⟨g1, g2⟩ := generate_form_frame fuel O a _ _
        (generate_undo_redo_forms fuel O a user).1 r hg hnodup
      exact ⟨fun q hq => Or.inl (by rw [← g1]; exact hq), g2⟩
  | generate_redo user =>
    simp only [perform_call] at h
    split at h
    · cases h
    · rename_i r fin hg
      simp only [Except.ok.injEq] at h
      subst h
      obtain ⟨g1, g2⟩ := generate_form_frame fuel O a _ _
        (generate_undo_redo_forms fuel O a user).2 r hg hnodup
      exact ⟨fun q hq => Or.inl (by rw [← g1]; exact hq), g2⟩
  | receive_request request =>
    simp only [perform_call] at h
    split at h
    · cases h
    · rename_i accepted fin hg
      simp only [Except.ok.injEq] at h
      subst h
      obtain ⟨g1, g2⟩ := receive_request_frame fuel O a _ request accepted hnodup hg
      refine ⟨?_, g2⟩
      intro q hq
      rcases g1 q hq with h1 | h1
      · exact Or.inl h1
      · exact Or.inr (by rw [h1])

/-- In a session that starts with empty logs and an empty queue and in which every
received request counts no more requests of a local user than `current` does at the
time it is received, with logs that stay small, every call of a generate function
for a local user meets a queue that counts no more requests of that user than
`current` does: the condition of the queue invariant holds. -/
theorem causal_calls_counted (fuel : Nat) (O : InfAdoptedOperationClass Op Buf)
    (calls : List (InfAdoptedAlgorithmCall Op)) :
    ∀ a final : InfAdoptedAlgorithm Op Buf, reachability_invariant a →
      (∀ q ∈ a.queue, request_counts_issued a q = true) →
      calls_causal fuel O a calls = true →
      perform_calls fuel O a calls = .ok final → logs_small final →
      calls_counted fuel O a calls = true := by
  induction calls with
  | nil =>
    intro a final _ _ _ _ _
    rfl
  | cons call rest ih =>
    intro a final hinv hqueue hcausal hrun hsmall
    unfold perform_calls at hrun
    unfold calls_causal at hcausal
    rw [Bool.and_eq_true] at hcausal
    unfold calls_counted
    rw [Bool.and_eq_true]
    split at hrun
    · cases hrun
    · rename_i next hstep
      obtain ⟨s1, _, s3⟩ := perform_call_step fuel O a next call hinv.1 hstep
      have hsn : logs_small next := (perform_calls_steps fuel O rest next final s1 hrun).2.1 hsmall
      refine ⟨?_, ?_⟩
      · cases hg : generating_user a call with
        | none => rfl
        | some user =>
          simp only
          unfold generating_user at hg
          cases hcu : call_user call with
          | none => rw [hcu] at hg; cases hg
          | some user2 =>
            rw [hcu] at hg
            simp only at hg
            cases hu : inf_user_table_lookup_user_by_id a.users user2 with
            | none => rw [hu] at hg; cases hg
            | some u =>
              rw [hu] at hg
              simp only at hg
              cases hl : u.flags_local with
              | false => rw [hl] at hg; simp at hg
              | true =>
                rw [hl] at hg
                simp only [if_true, Option.some.injEq] at hg
                subst hg
                obtain ⟨humem, huid⟩ := lookup_mem a.users user2 u hu
                unfold queue_counts_issued
                rw [List.all_eq_true]
                intro q hq
                have := (request_counts_issued_iff a q).mp (hqueue q hq)
                  (u.id, u.flags_local) (List.mem_map_of_mem _ humem) hl
                simp only at this
                rw [huid] at this
                exact decide_eq_true this
      · have hnext := hcausal.2
        rw [hstep] at hnext
        simp only at hnext
        obtain ⟨f1, f2⟩ := perform_call_frame fuel O a next call hinv.1 hstep
        have hgrow := perform_call_current_grows fuel O a next call hinv hstep hsn
        refine ih next final (s3 hinv hsn) ?_ hnext hrun hsmall
        intro q hq
        apply request_counts_issued_mono a next q f2 hgrow
        rcases f1 q hq with h1 | h1
        · exact hqueue q h1
        · have hc := hcausal.1
          rw [h1] at hc
          exact hc

end CausalSessions

/-- The queue invariant in causally consistent sessions: in every state reached
from empty logs and an empty queue through any sequence of calls of the five entry
points in which every received request counts no more requests of a local user than
`current` does at the time it is received, with logs that stay small, no queued
request has a vector causally before current. -/
theorem queue_waiting_causal {Op Buf : Type} (fuel : Nat)
    (O : InfAdoptedOperationClass Op Buf) (initial final : InfAdoptedAlgorithm Op Buf)
    (calls : List (InfAdoptedAlgorithmCall Op))
    (hstart : logs_empty initial) (hempty : initial.queue = [])
    (hcausal : calls_causal fuel O initial calls = true)
    (hrun : perform_calls fuel O initial calls = .ok final)
    (hsmall : logs_small final) : queue_waiting final := by
  have hnone : ∀ q ∈ initial.queue, request_counts_issued initial q = true := by
    intro q hq
    rw [hempty] at hq
    cases hq
  have hwait : queue_waiting initial := by
    intro q hq
    rw [hempty] at hq
    cases hq
  exact perform_calls_queue_waiting fuel O calls initial final hwait
    (causal_calls_counted fuel O calls initial final (logs_empty_invariant initial hstart)
      hnone hcausal hrun hsmall) hrun

/-- The sample session of the queue invariant is causally consistent: the received
request counts no request of local user 1. -/
theorem queue_waiting_causal_sample :
    calls_causal 8 CounterOperation sample_algorithm sample_counted_calls = true ∧
      queue_waiting sample_counted_end :=
  ⟨rfl, queue_waiting_causal 8 CounterOperation sample_algorithm sample_counted_end
    sample_counted_calls (by unfold logs_empty; decide) rfl rfl rfl
    (by unfold logs_small; decide)⟩

end Infinity
